import Mathlib

/-!
The record transformer `go_filter` of filter_wasm_go.

A shallow embedding of `examples/filter_wasm_go/filter.go`.  The exported
function `go_filter` is a straight-line composition of calls into the JSON
library `github.com/valyala/fastjson` (`Parser.Parse`, `Value.Object`,
`Object.Set`, `Arena.NewString`, `Object.String`) and of the Go runtime
(`strconv.AppendQuote`, `unicode/utf8`, `unicode/utf16`, `time`).  Those
functions are embedded here one by one, under their own names, so that the
behaviour of `go_filter` can be computed on concrete byte strings.

Go strings and byte slices are lists of bytes (`Bytes`); an `error` result
carries no message (the message is only printed by `go_filter`).
Loops that consume their input are written as recursion on a fuel argument;
`Res.oof` marks exhaustion of the fuel and is shown to be unreachable for the
fuel the entry points supply.
-/

namespace FilterWasmGo

/-- A byte string: the contents of a Go `string` or `[]byte`. -/
abbrev Bytes := List Nat

/-- The bytes of an ASCII string literal. -/
def str (s : String) : Bytes := s.toList.map Char.toNat

/-! ## Results -/

/-- Result of a parsing step: a value with the unparsed tail, an error, or
exhaustion of the fuel of the embedding. -/
inductive Res (α : Type) where
  | ok (v : α) (tail : Bytes)
  | err
  | oof
  deriving Repr, DecidableEq

/-! ## fastjson: values -/

/-- The JSON value tree of fastjson (`Value`, with the `Object` it holds
inlined: `kvs` and `keysUnescaped`).  `rawString` is `typeRawString`: the text
between the quotes, escapes not yet decoded. -/
inductive Value where
  | rawString (s : Bytes)
  | string (s : Bytes)
  | number (s : Bytes)
  | object (kvs : List (Bytes × Value)) (keysUnescaped : Bool)
  | array (a : List Value)
  | vtrue
  | vfalse
  | vnull
  deriving Repr

/-- The `Object` of fastjson: the key/value entries in insertion order and the
flag telling whether the keys have been unescaped. -/
structure Object where
  kvs : List (Bytes × Value)
  keysUnescaped : Bool
  deriving Repr

/-- `MaxDepth` of fastjson: the maximum depth for nested JSON. -/
def MaxDepth : Nat := 300

/-! ## fastjson: lexing -/

/-- The four whitespace bytes `skipWS` skips: space, LF, TAB, CR. -/
def isWS (c : Nat) : Bool := c == 0x20 || c == 0x0A || c == 0x09 || c == 0x0D

/-- `skipWS`: drop leading whitespace. -/
def skipWS : Bytes → Bytes
  | [] => []
  | c :: t => if isWS c then skipWS t else c :: t

/-- `strings.IndexByte`: index of the first occurrence of `c`, `none` for -1. -/
def indexByte : Bytes → Nat → Option Nat
  | [], _ => none
  | b :: t, c => if b = c then some 0 else (indexByte t c).map (· + 1)

/-- The inner loop `for i > 0 && s[i-1] == '\\' { i-- }` of `parseRawString`:
the value of `i` when the loop stops. -/
def backslashStart (s : Bytes) : Nat → Nat
  | 0 => 0
  | i + 1 => if s.getD i 0 = 0x5C then backslashStart s i else i + 1

/-- The slow path of `parseRawString` (the `for` loop): `ss` is the whole
input, `s` the part still to be searched and `n` the index in `s` of a quote
preceded by a backslash. -/
def parseRawStringLoop : Nat → Bytes → Bytes → Nat → Res Bytes
  | 0, _, _, _ => .oof
  | fuel + 1, ss, s, n =>
    let i := backslashStart s (n - 1)
    if (n - i) % 2 = 0 then
      .ok (ss.take (ss.length - s.length + n)) (s.drop (n + 1))
    else
      let s1 := s.drop (n + 1)
      match indexByte s1 0x22 with
      | none => .err
      | some n1 =>
        if n1 = 0 ∨ s1.getD (n1 - 1) 0 ≠ 0x5C then
          .ok (ss.take (ss.length - s1.length + n1)) (s1.drop (n1 + 1))
        else
          parseRawStringLoop fuel ss s1 n1

/-- `parseRawString`: the text up to the closing quote (escapes kept as they
are) and the tail after that quote. -/
def parseRawString (s : Bytes) : Res Bytes :=
  match indexByte s 0x22 with
  | none => .err
  | some n =>
    if n = 0 ∨ s.getD (n - 1) 0 ≠ 0x5C then
      .ok (s.take n) (s.drop (n + 1))
    else
      parseRawStringLoop s.length s s n

/-- The fast path of `parseRawKey`: scan for a quote; `none` when a backslash
is met first (the slow path), `some .err` when the input ends. -/
def parseRawKeyFast : Bytes → Option (Res Bytes)
  | [] => some .err
  | c :: t =>
    if c = 0x22 then some (.ok [] t)
    else if c = 0x5C then none
    else
      match parseRawKeyFast t with
      | some (.ok k tail) => some (.ok (c :: k) tail)
      | r => r

/-- `parseRawKey`: as `parseRawString`, with a fast path for keys without a
backslash. -/
def parseRawKey (s : Bytes) : Res Bytes :=
  match parseRawKeyFast s with
  | some r => r
  | none => parseRawString s

/-- The bytes `parseRawNumber` treats as part of a number: digits and
`.`, `-`, `e`, `E`, `+`. -/
def isNumChar (ch : Nat) : Bool :=
  (0x30 ≤ ch && ch ≤ 0x39) || ch == 0x2E || ch == 0x2D || ch == 0x65 || ch == 0x45 || ch == 0x2B

/-- ASCII lower-casing of one byte. -/
def lowerByte (c : Nat) : Nat := if 0x41 ≤ c ∧ c ≤ 0x5A then c + 0x20 else c

/-- `strings.EqualFold(xs, w)` for a lower-case ASCII word `w` without `k` or
`s` (the only words compared are `inf` and `nan`). -/
def equalFold (xs w : Bytes) : Bool := xs.map lowerByte == w

/-- The loop of `parseRawNumber`: `pre` holds `s[:i]` and `rest` is `s[i:]`. -/
def parseRawNumberLoop (s : Bytes) : Bytes → Bytes → Res Bytes
  | _, [] => .ok s []
  | pre, ch :: rest =>
    if isNumChar ch then parseRawNumberLoop s (pre ++ [ch]) rest
    else if pre.length = 0 ∨ (pre.length = 1 ∧ (pre.getD 0 0 = 0x2D ∨ pre.getD 0 0 = 0x2B)) then
      if 3 ≤ (ch :: rest).length then
        let xs := (ch :: rest).take 3
        if equalFold xs [0x69, 0x6E, 0x66] || equalFold xs [0x6E, 0x61, 0x6E] then
          .ok (s.take (pre.length + 3)) (s.drop (pre.length + 3))
        else .err
      else .err
    else .ok pre (ch :: rest)

/-- `parseRawNumber`: the longest run of number bytes (or a signed `inf` /
`nan`); the digits are not validated. -/
def parseRawNumber (s : Bytes) : Res Bytes := parseRawNumberLoop s [] s

/-! ## fastjson: the parser -/

mutual
/-- `parseValue(s, c, depth)`. -/
def parseValue : (fuel : Nat) → Bytes → Nat → Res Value
  | 0, _, _ => .oof
  | fuel + 1, s, depth =>
    match s with
    | [] => .err
    | c :: t =>
      if depth + 1 > MaxDepth then .err
      else if c = 0x7B then parseObject fuel t (depth + 1)
      else if c = 0x5B then parseArray fuel t (depth + 1)
      else if c = 0x22 then
        match parseRawString t with
        | .ok ss tail => .ok (.rawString ss) tail
        | .err => .err
        | .oof => .oof
      else if c = 0x74 then
        if s.length < 4 ∨ s.take 4 ≠ [0x74, 0x72, 0x75, 0x65] then .err
        else .ok .vtrue (s.drop 4)
      else if c = 0x66 then
        if s.length < 5 ∨ s.take 5 ≠ [0x66, 0x61, 0x6C, 0x73, 0x65] then .err
        else .ok .vfalse (s.drop 5)
      else if c = 0x6E then
        if s.length < 4 ∨ s.take 4 ≠ [0x6E, 0x75, 0x6C, 0x6C] then
          if 3 ≤ s.length ∧ equalFold (s.take 3) [0x6E, 0x61, 0x6E] then
            .ok (.number (s.take 3)) (s.drop 3)
          else .err
        else .ok .vnull (s.drop 4)
      else
        match parseRawNumber s with
        | .ok ns tail => .ok (.number ns) tail
        | .err => .err
        | .oof => .oof
termination_by structural fuel => fuel
/-- `parseArray(s, c, depth)`, entered after the opening bracket. -/
def parseArray : (fuel : Nat) → Bytes → Nat → Res Value
  | 0, _, _ => .oof
  | fuel + 1, s, depth =>
    match skipWS s with
    | [] => .err
    | c :: t =>
      if c = 0x5D then .ok (.array []) t
      else
        match parseArrayLoop fuel (c :: t) depth with
        | .ok a tail => .ok (.array a) tail
        | .err => .err
        | .oof => .oof
termination_by structural fuel => fuel
/-- The `for` loop of `parseArray`: one iteration parses one element. -/
def parseArrayLoop : (fuel : Nat) → Bytes → Nat → Res (List Value)
  | 0, _, _ => .oof
  | fuel + 1, s, depth =>
    match parseValue fuel (skipWS s) depth with
    | .err => .err
    | .oof => .oof
    | .ok v s1 =>
      match skipWS s1 with
      | [] => .err
      | c :: t =>
        if c = 0x2C then
          match parseArrayLoop fuel t depth with
          | .ok a tail => .ok (v :: a) tail
          | r => r
        else if c = 0x5D then .ok [v] t
        else .err
termination_by structural fuel => fuel
/-- `parseObject(s, c, depth)`, entered after the opening brace. -/
def parseObject : (fuel : Nat) → Bytes → Nat → Res Value
  | 0, _, _ => .oof
  | fuel + 1, s, depth =>
    match skipWS s with
    | [] => .err
    | c :: t =>
      if c = 0x7D then .ok (.object [] false) t
      else
        match parseObjectLoop fuel (c :: t) depth with
        | .ok kvs tail => .ok (.object kvs false) tail
        | .err => .err
        | .oof => .oof
termination_by structural fuel => fuel
/-- The `for` loop of `parseObject`: one iteration parses one `key: value`
entry and appends it to `kvs`. -/
def parseObjectLoop : (fuel : Nat) → Bytes → Nat → Res (List (Bytes × Value))
  | 0, _, _ => .oof
  | fuel + 1, s, depth =>
    match skipWS s with
    | [] => .err
    | q :: s1 =>
      if q ≠ 0x22 then .err
      else
        match parseRawKey s1 with
        | .err => .err
        | .oof => .oof
        | .ok k s2 =>
          match skipWS s2 with
          | [] => .err
          | col :: s3 =>
            if col ≠ 0x3A then .err
            else
              match parseValue fuel (skipWS s3) depth with
              | .err => .err
              | .oof => .oof
              | .ok v s4 =>
                match skipWS s4 with
                | [] => .err
                | c :: t =>
                  if c = 0x2C then
                    match parseObjectLoop fuel t depth with
                    | .ok kvs tail => .ok ((k, v) :: kvs) tail
                    | r => r
                  else if c = 0x7D then .ok [(k, v)] t
                  else .err
termination_by structural fuel => fuel
end

/-- `Parser.Parse`: parse the whole of `s` as one JSON value; trailing bytes
other than whitespace are an error. -/
def Parser.Parse (s : Bytes) : Res Value :=
  let s := skipWS s
  match parseValue (3 * s.length + 1) s 0 with
  | .ok v tail =>
    match skipWS tail with
    | [] => .ok v []
    | _ :: _ => .err
  | _ => .err

/-- `Value.Object`: the object held by the value, an error for any other
type. -/
def Value.Object : Value → Option Object
  | .object kvs ku => some ⟨kvs, ku⟩
  | _ => none

/-! ## Go runtime: UTF-8, UTF-16, quoting -/

/-- `utf8.AppendRune` / `string(rune(r))`: the UTF-8 encoding of `r`; a
surrogate or a value above `0x10FFFF` is encoded as U+FFFD. -/
def encodeRune (r : Nat) : Bytes :=
  if r ≤ 0x7F then [r]
  else if r ≤ 0x7FF then [0xC0 + r / 64, 0x80 + r % 64]
  else if r > 0x10FFFF ∨ (0xD800 ≤ r ∧ r ≤ 0xDFFF) then [0xEF, 0xBF, 0xBD]
  else if r ≤ 0xFFFF then [0xE0 + r / 4096, 0x80 + r / 64 % 64, 0x80 + r % 64]
  else [0xF0 + r / 262144, 0x80 + r / 4096 % 64, 0x80 + r / 64 % 64, 0x80 + r % 64]

/-- A UTF-8 continuation byte (`locb ≤ b ≤ hicb`). -/
def isCont (b : Nat) : Bool := 0x80 ≤ b && b ≤ 0xBF

/-- `utf8.DecodeRuneInString` on a non-empty string: the rune and its width;
`(0xFFFD, 1)` for an invalid or truncated encoding. -/
def decodeRune : Bytes → Nat × Nat
  | [] => (0xFFFD, 0)
  | s0 :: rest =>
    if s0 < 0x80 then (s0, 1)
    else if s0 < 0xC2 then (0xFFFD, 1)
    else if s0 < 0xE0 then
      match rest with
      | s1 :: _ => if isCont s1 then ((s0 % 32) * 64 + s1 % 64, 2) else (0xFFFD, 1)
      | _ => (0xFFFD, 1)
    else if s0 < 0xF0 then
      match rest with
      | s1 :: s2 :: _ =>
        let lo := if s0 = 0xE0 then 0xA0 else 0x80
        let hi := if s0 = 0xED then 0x9F else 0xBF
        if s1 < lo ∨ hi < s1 then (0xFFFD, 1)
        else if !isCont s2 then (0xFFFD, 1)
        else ((s0 % 16) * 4096 + (s1 % 64) * 64 + s2 % 64, 3)
      | _ => (0xFFFD, 1)
    else if s0 < 0xF5 then
      match rest with
      | s1 :: s2 :: s3 :: _ =>
        let lo := if s0 = 0xF0 then 0x90 else 0x80
        let hi := if s0 = 0xF4 then 0x8F else 0xBF
        if s1 < lo ∨ hi < s1 then (0xFFFD, 1)
        else if !isCont s2 then (0xFFFD, 1)
        else if !isCont s3 then (0xFFFD, 1)
        else ((s0 % 8) * 262144 + (s1 % 64) * 4096 + (s2 % 64) * 64 + s3 % 64, 4)
      | _ => (0xFFFD, 1)
    else (0xFFFD, 1)

/-- `lowerhex[d]`: the lower-case hexadecimal digit of `d < 16`. -/
def lowerhex (d : Nat) : Nat := if d < 10 then 0x30 + d else 0x61 + (d - 10)

/-- What the Go runtime and the host supply and the source does not fix: the
Unicode tables behind `strconv.IsPrint` for runes above `0xFF`, and the text
`time.Unix(sec, nsec).String()` renders in the host's local time zone. -/
structure Runtime where
  isPrintTable : Nat → Bool
  timeString : Int → Int → Bytes

/-- `strconv.IsPrint`: the Latin-1 fast check, the tables above it. -/
def IsPrint (rt : Runtime) (r : Nat) : Bool :=
  if r ≤ 0xFF then
    if 0x20 ≤ r ∧ r ≤ 0x7E then true
    else if 0xA1 ≤ r ∧ r ≤ 0xFF then r != 0xAD
    else false
  else rt.isPrintTable r

/-- `appendEscapedRune(buf, r, '"', false, false)` of strconv: the bytes
appended for the rune `r`. -/
def appendEscapedRune (rt : Runtime) (r : Nat) : Bytes :=
  if r = 0x22 ∨ r = 0x5C then [0x5C, r]
  else if IsPrint rt r then encodeRune r
  else if r = 0x07 then [0x5C, 0x61]
  else if r = 0x08 then [0x5C, 0x62]
  else if r = 0x0C then [0x5C, 0x66]
  else if r = 0x0A then [0x5C, 0x6E]
  else if r = 0x0D then [0x5C, 0x72]
  else if r = 0x09 then [0x5C, 0x74]
  else if r = 0x0B then [0x5C, 0x76]
  else if r < 0x20 ∨ r = 0x7F then [0x5C, 0x78, lowerhex (r / 16), lowerhex (r % 16)]
  else if r < 0x10000 then
    [0x5C, 0x75, lowerhex (r / 4096 % 16), lowerhex (r / 256 % 16), lowerhex (r / 16 % 16),
      lowerhex (r % 16)]
  else
    [0x5C, 0x55, lowerhex (r / 268435456 % 16), lowerhex (r / 16777216 % 16),
      lowerhex (r / 1048576 % 16), lowerhex (r / 65536 % 16), lowerhex (r / 4096 % 16),
      lowerhex (r / 256 % 16), lowerhex (r / 16 % 16), lowerhex (r % 16)]

/-- The loop of `appendQuotedWith`: the quoted text of `s`, without the
surrounding quotes. -/
def quoteBody (rt : Runtime) : Nat → Bytes → Bytes
  | 0, _ => []
  | _, [] => []
  | fuel + 1, s0 :: rest =>
    let rw := if s0 ≥ 0x80 then decodeRune (s0 :: rest) else (s0, 1)
    if rw.2 = 1 ∧ rw.1 = 0xFFFD then
      [0x5C, 0x78, lowerhex (s0 / 16), lowerhex (s0 % 16)] ++ quoteBody rt fuel rest
    else
      appendEscapedRune rt rw.1 ++ quoteBody rt fuel ((s0 :: rest).drop rw.2)

/-- `strconv.AppendQuote(nil, s)`: `s` as a double-quoted Go string literal. -/
def AppendQuote (rt : Runtime) (s : Bytes) : Bytes :=
  [0x22] ++ quoteBody rt s.length s ++ [0x22]

/-! ## fastjson: escaping and unescaping -/

/-- `hasSpecialChars`: a quote, a backslash or a byte below `0x20`. -/
def hasSpecialChars (s : Bytes) : Bool :=
  s.any fun c => c == 0x22 || c == 0x5C || decide (c < 0x20)

/-- `escapeString(nil, s)`: `s` between quotes when it has no special bytes,
`strconv.AppendQuote` otherwise. -/
def escapeString (rt : Runtime) (s : Bytes) : Bytes :=
  if !hasSpecialChars s then [0x22] ++ s ++ [0x22]
  else AppendQuote rt s

/-- The value of one hexadecimal digit, as `strconv.ParseUint(_, 16, 16)`
reads it. -/
def hexVal (c : Nat) : Option Nat :=
  if 0x30 ≤ c ∧ c ≤ 0x39 then some (c - 0x30)
  else if 0x61 ≤ c ∧ c ≤ 0x66 then some (c - 0x61 + 10)
  else if 0x41 ≤ c ∧ c ≤ 0x46 then some (c - 0x41 + 10)
  else none

/-- `strconv.ParseUint(xs, 16, 16)` on a four-byte string. -/
def parseHex4 : Bytes → Option Nat
  | [a, b, c, d] =>
    match hexVal a, hexVal b, hexVal c, hexVal d with
    | some a, some b, some c, some d => some (a * 4096 + b * 256 + c * 16 + d)
    | _, _, _, _ => none
  | _ => none

/-- `utf16.IsSurrogate`. -/
def isSurrogate (r : Nat) : Bool := 0xD800 ≤ r && r < 0xE000

/-- `utf16.DecodeRune`: the code point of a surrogate pair, U+FFFD when the
pair is not valid. -/
def utf16DecodeRune (r1 r2 : Nat) : Nat :=
  if 0xD800 ≤ r1 ∧ r1 < 0xDC00 ∧ 0xDC00 ≤ r2 ∧ r2 < 0xE000 then
    (r1 - 0xD800) * 1024 + (r2 - 0xDC00) + 0x10000
  else 0xFFFD

/-- The bytes of `s` before the first backslash and the bytes after it
(`s[:n]`, `s[n+1:]` for `n = strings.IndexByte(s, '\\')`); `none` when `s` has
no backslash. -/
def splitBackslash : Bytes → Option (Bytes × Bytes)
  | [] => none
  | c :: t =>
    if c = 0x5C then some ([], t)
    else (splitBackslash t).map fun p => (c :: p.1, p.2)

/-- The `switch` of `unescapeStringBestEffort` on the byte `ch` after a
backslash, `s` being the text after `ch`: the bytes appended to the output and
the text still to be read. -/
def unescapeStep (ch : Nat) (s : Bytes) : Bytes × Bytes :=
  if ch = 0x22 then ([0x22], s)
  else if ch = 0x5C then ([0x5C], s)
  else if ch = 0x2F then ([0x2F], s)
  else if ch = 0x62 then ([0x08], s)
  else if ch = 0x66 then ([0x0C], s)
  else if ch = 0x6E then ([0x0A], s)
  else if ch = 0x72 then ([0x0D], s)
  else if ch = 0x74 then ([0x09], s)
  else if ch = 0x75 then
    if s.length < 4 then ([0x5C, 0x75], s)
    else
      let xs := s.take 4
      match parseHex4 xs with
      | none => ([0x5C, 0x75], s)
      | some x =>
        let s := s.drop 4
        if !isSurrogate x then (encodeRune x, s)
        else if s.length < 6 ∨ s.getD 0 0 ≠ 0x5C ∨ s.getD 1 0 ≠ 0x75 then
          ([0x5C, 0x75] ++ xs, s)
        else
          match parseHex4 ((s.drop 2).take 4) with
          | none => ([0x5C, 0x75] ++ xs, s)
          | some x1 => (encodeRune (utf16DecodeRune x x1), s.drop 6)
  else ([0x5C, ch], s)

/-- The slow path of `unescapeStringBestEffort` (the `for` loop): `s` is the
text right after a backslash; the result is what is appended to the output. -/
def unescapeLoop : Nat → Bytes → Bytes
  | 0, _ => []
  | _, [] => []
  | fuel + 1, ch :: s =>
    let step := unescapeStep ch s
    match splitBackslash step.2 with
    | none => step.1 ++ step.2
    | some (pre, s1) => step.1 ++ pre ++ unescapeLoop fuel s1

/-- `unescapeStringBestEffort`: decode the JSON escapes of `s`; an escape that
cannot be decoded is kept as it is. -/
def unescapeStringBestEffort (s : Bytes) : Bytes :=
  match splitBackslash s with
  | none => s
  | some (pre, s1) => pre ++ unescapeLoop s.length s1

/-! ## fastjson: objects, arena, marshalling -/

/-- `Object.unescapeKeys`: unescape every key once. -/
def Object.unescapeKeys (o : Object) : Object :=
  if o.keysUnescaped then o
  else ⟨o.kvs.map fun kv => (unescapeStringBestEffort kv.1, kv.2), true⟩

/-- The loop of `Object.Set` over `o.kvs`: substitute the value of the first
entry with the given key; `none` when there is no such entry. -/
def setFirst (key : Bytes) (value : Value) : List (Bytes × Value) → Option (List (Bytes × Value))
  | [] => none
  | kv :: t =>
    if kv.1 = key then some ((kv.1, value) :: t)
    else (setFirst key value t).map fun r => kv :: r

/-- `Object.Set(key, value)`: unescape the keys, substitute the first entry
with that key, or add a new entry at the end. -/
def Object.Set (o : Object) (key : Bytes) (value : Value) : Object :=
  let o := o.unescapeKeys
  match setFirst key value o.kvs with
  | some kvs => ⟨kvs, o.keysUnescaped⟩
  | none => ⟨o.kvs ++ [(key, value)], o.keysUnescaped⟩

/-- `Arena.NewString(s)`: a raw string value holding the escaped text of `s`
(the output of `escapeString` without its two quotes). -/
def Arena.NewString (rt : Runtime) (s : Bytes) : Value :=
  let b := escapeString rt s
  .rawString ((b.drop 1).take (b.length - 2))

mutual
/-- `Value.MarshalTo(nil)`: the JSON text of a value. -/
def Value.MarshalTo (rt : Runtime) : Value → Bytes
  | .rawString s => [0x22] ++ s ++ [0x22]
  | .object kvs ku => [0x7B] ++ marshalKVs rt ku kvs ++ [0x7D]
  | .array a => [0x5B] ++ marshalArray rt a ++ [0x5D]
  | .string s => escapeString rt s
  | .number s => s
  | .vtrue => [0x74, 0x72, 0x75, 0x65]
  | .vfalse => [0x66, 0x61, 0x6C, 0x73, 0x65]
  | .vnull => [0x6E, 0x75, 0x6C, 0x6C]
/-- The loop of `Object.MarshalTo` over the entries: `key:value` joined by
commas, the key escaped when the keys have been unescaped. -/
def marshalKVs (rt : Runtime) (ku : Bool) : List (Bytes × Value) → Bytes
  | [] => []
  | (k, v) :: rest =>
    (if ku then escapeString rt k else [0x22] ++ k ++ [0x22]) ++ [0x3A] ++ v.MarshalTo rt ++
      (match rest with
       | [] => []
       | _ :: _ => [0x2C] ++ marshalKVs rt ku rest)
/-- The loop of `Value.MarshalTo` over the elements of an array. -/
def marshalArray (rt : Runtime) : List Value → Bytes
  | [] => []
  | v :: rest =>
    v.MarshalTo rt ++
      (match rest with
       | [] => []
       | _ :: _ => [0x2C] ++ marshalArray rt rest)
end

/-- `Object.MarshalTo(nil)`. -/
def Object.MarshalTo (rt : Runtime) (o : Object) : Bytes :=
  [0x7B] ++ marshalKVs rt o.keysUnescaped o.kvs ++ [0x7D]

/-- `Object.String`: the marshalled object as a string. -/
def Object.String (rt : Runtime) (o : Object) : Bytes := o.MarshalTo rt

/-! ## filter.go -/

/-- The conversion `int64(x)` of a `uint` value. -/
def toInt64 (x : Nat) : Int :=
  if x % 2 ^ 64 < 2 ^ 63 then (x % 2 ^ 64 : Nat) else (x % 2 ^ 64 : Nat) - (2 ^ 64 : Int)

/-- What a call of `go_filter` gives back: the nil pointer, a pointer to the
first byte of the buffer `rv`, or a run-time panic. -/
inductive Outcome where
  | null
  | buffer (rv : Bytes)
  | panic
  deriving Repr, DecidableEq

/-- The expression `&rv[0]`: indexing an empty slice panics. -/
def addrFirst (rv : Bytes) : Outcome :=
  match rv with
  | [] => .panic
  | _ :: _ => .buffer rv

/-- `go_filter(tag, tag_len, time_sec, time_nsec, record, record_len)`, with
`btag` and `brecord` the byte slices the two pointer/length pairs denote. -/
def go_filter (rt : Runtime) (btag : Bytes) (time_sec time_nsec : Nat) (brecord : Bytes) :
    Outcome :=
  let now := rt.timeString (toInt64 time_sec) (toInt64 time_nsec)
  let br := brecord
  match Parser.Parse br with
  | .ok value _ =>
    match value.Object with
    | none => .null
    | some obj =>
      let obj := obj.Set (str "time") (Arena.NewString rt now)
      let obj := obj.Set (str "tag") (Arena.NewString rt btag)
      let obj := obj.Set (str "original") (Arena.NewString rt br)
      let s := obj.String rt ++ [0]
      let rv := s
      addrFirst rv
  | _ => .null


/-- The object after the three `Set` calls of `go_filter` (filter.go, lines
31 to 33), for the object `obj` the payload parsed to. -/
def enrich (rt : Runtime) (btag : Bytes) (time_sec time_nsec : Nat) (br : Bytes) (obj : Object) :
    Object :=
  ((obj.Set (str "time")
      (Arena.NewString rt (rt.timeString (toInt64 time_sec) (toInt64 time_nsec)))).Set
    (str "tag") (Arena.NewString rt btag)).Set (str "original") (Arena.NewString rt br)

/-- The entries after `Object.Set(key, value)` on an object whose keys are
unescaped: the first entry with that key substituted, or a new last entry. -/
def setKV (key : Bytes) (value : Value) (kvs : List (Bytes × Value)) : List (Bytes × Value) :=
  match setFirst key value kvs with
  | some r => r
  | none => kvs ++ [(key, value)]

/-- Two entry lists with the same keys, position by position, and the same
value wherever the key is none of `ks`. -/
def sameExcept (ks : List Bytes) (a b : List (Bytes × Value)) : Prop :=
  List.Forall₂ (fun x y => x.1 = y.1 ∧ (x.1 ∉ ks → x.2 = y.2)) a b

/-- The branches of `parseValue` that do not recurse: `true`, `false`, `null`,
`nan` and numbers. -/
def parseLeaf (s : Bytes) : Res Value :=
  match s with
  | [] => .err
  | c :: _ =>
    if c = 0x74 then
      if s.length < 4 ∨ s.take 4 ≠ [0x74, 0x72, 0x75, 0x65] then .err
      else .ok .vtrue (s.drop 4)
    else if c = 0x66 then
      if s.length < 5 ∨ s.take 5 ≠ [0x66, 0x61, 0x6C, 0x73, 0x65] then .err
      else .ok .vfalse (s.drop 5)
    else if c = 0x6E then
      if s.length < 4 ∨ s.take 4 ≠ [0x6E, 0x75, 0x6C, 0x6C] then
        if 3 ≤ s.length ∧ equalFold (s.take 3) [0x6E, 0x61, 0x6E] then
          .ok (.number (s.take 3)) (s.drop 3)
        else .err
      else .ok .vnull (s.drop 4)
    else
      match parseRawNumber s with
      | .ok ns tail => .ok (.number ns) tail
      | .err => .err
      | .oof => .oof

/-- A parsing step on `s` left `tail` unread: it read a non-empty `pre`, and
every byte of `m` (the marshalled result) is one of the bytes read. -/
def Consumed (s tail m : Bytes) : Prop :=
  ∃ pre, pre ≠ [] ∧ s = pre ++ tail ∧ ∀ b ∈ m, b ∈ pre

/-- The bytes that follow a value inside an array or an object of a marshalled
text: a comma, a closing bracket or a closing brace. -/
def isDelim (c : Nat) : Bool := c == 0x2C || c == 0x5D || c == 0x7D

/-- A piece of an escaped text that `scanString` reads as a whole: bytes other
than the quote and the backslash, possibly after one backslash and the byte it
takes with it. -/
def IsChunk (ch : Bytes) : Prop :=
  (∀ b ∈ ch, b ≠ 0x22 ∧ b ≠ 0x5C) ∨
    ∃ e l, ch = 0x5C :: e :: l ∧ ∀ b ∈ l, b ≠ 0x22 ∧ b ≠ 0x5C

/-- The text `escapeString` writes between the two quotes. -/
def escBody (rt : Runtime) (s : Bytes) : Bytes :=
  if hasSpecialChars s then quoteBody rt s.length s else s

/-- The value `v`, marshalled and followed by a delimiter, is parsed back to
`v` at depth `d`, and its text does not start with whitespace. -/
def Rereads (rt : Runtime) (v : Value) (d : Nat) : Prop :=
  (∃ c0 m, v.MarshalTo rt = c0 :: m ∧ isWS c0 = false) ∧
    ∀ c tail2, isDelim c = true →
      ∃ f, parseValue f (v.MarshalTo rt ++ c :: tail2) d = .ok v (c :: tail2)

/-! ## A left-to-right reading of the string syntax

`parseRawString` looks for a quote and counts the backslashes before it.  The
same language is read from left to right by `scanString`, which the proofs
use: the two functions are shown to be equal. -/

/-- Put `x` in front of the text of a successful result. -/
def Res.prepend (x : Bytes) : Res Bytes → Res Bytes
  | .ok k tail => .ok (x ++ k) tail
  | r => r

/-- Read a string body from left to right: a backslash takes the next byte
with it, the first quote not taken this way ends the body. -/
def scanString : Bytes → Res Bytes
  | [] => .err
  | c :: t =>
    if c = 0x22 then .ok [] t
    else if c = 0x5C then
      match t with
      | [] => .err
      | e :: t1 => (scanString t1).prepend [c, e]
    else (scanString t).prepend [c]

/-- Whether a backslash is pending after reading `p` from left to right. -/
def escPending : Bytes → Bool
  | [] => false
  | c :: t =>
    if c = 0x5C then
      match t with
      | [] => true
      | _ :: t1 => escPending t1
    else escPending t

/-- The text `unescapeStringBestEffort` returns for `x` when its loop has the
fuel `f`: `x` up to its first backslash, then what the loop appends. -/
def unescapeFrom (f : Nat) (x : Bytes) : Bytes :=
  match splitBackslash x with
  | none => x
  | some (pre, s1) => pre ++ unescapeLoop f s1

/-! ## Reading a JSON text (the notions the properties are stated with) -/

/-- `Value.StringBytes`: the decoded text of a string value. -/
def Value.StringBytes : Value → Option Bytes
  | .rawString s => some (unescapeStringBestEffort s)
  | .string s => some s
  | _ => none

/-- The value of the first entry with the given key (the search loop of
`Object.Get` over unescaped keys). -/
def lookupKey (key : Bytes) : List (Bytes × Value) → Option Value
  | [] => none
  | kv :: t => if kv.1 = key then some kv.2 else lookupKey key t

/-- The object a returned buffer holds: the bytes before the sentinel, parsed
by `Parser.Parse`, with the keys unescaped. -/
def outputObject (rv : Bytes) : Option Object :=
  match Parser.Parse rv.dropLast with
  | .ok v _ => (v.Object).map Object.unescapeKeys
  | _ => none

/-- The three keys `go_filter` sets. -/
def enrichmentKeys : List Bytes := [str "time", str "tag", str "original"]

/-- A byte that `strconv.AppendQuote` writes in a form a JSON reader decodes
back to the same byte: printable ASCII, or one of the controls with a short
escape common to Go and JSON (`\b`, `\t`, `\n`, `\f`, `\r`). -/
def quoteSafe (c : Nat) : Bool :=
  (0x20 ≤ c && c ≤ 0x7E) || c == 0x08 || c == 0x09 || c == 0x0A || c == 0x0C || c == 0x0D

/-- A text that `strconv.AppendQuote` writes in a form a JSON reader decodes
back to it: its ASCII bytes are `quoteSafe`, its other bytes are valid UTF-8
encodings of runes that are printable (written as they are) or below
`0x10000` (written as `\uXXXX`).  The fuel is the length of the text. -/
def quoteSafeText (rt : Runtime) : Nat → Bytes → Bool
  | 0, s => s.isEmpty
  | _, [] => true
  | fuel + 1, c :: rest =>
    if c < 0x80 then quoteSafe c && quoteSafeText rt fuel rest
    else
      decide ((decodeRune (c :: rest)).2 ≠ 1) &&
        (IsPrint rt (decodeRune (c :: rest)).1 || decide ((decodeRune (c :: rest)).1 < 0x10000)) &&
        quoteSafeText rt fuel ((c :: rest).drop (decodeRune (c :: rest)).2)

/-! ## RFC 8259: the JSON grammar -/

/-- A decimal digit. -/
def isDigit (c : Nat) : Bool := 0x30 ≤ c && c ≤ 0x39

/-- A hexadecimal digit. -/
def isHexDigit (c : Nat) : Bool :=
  isDigit c || (0x61 ≤ c && c ≤ 0x66) || (0x41 ≤ c && c ≤ 0x46)

/-- RFC 8259 `string`, entered after the opening quotation mark: the tail
after the closing one.  Control bytes must be escaped and only the escapes of
the grammar are allowed; bytes from `0x80` on are taken as they are. -/
def rfcString : Nat → Bytes → Option Bytes
  | 0, _ => none
  | _, [] => none
  | fuel + 1, c :: t =>
    if c = 0x22 then some t
    else if c = 0x5C then
      match t with
      | [] => none
      | e :: t1 =>
        if e = 0x22 ∨ e = 0x5C ∨ e = 0x2F ∨ e = 0x62 ∨ e = 0x66 ∨ e = 0x6E ∨ e = 0x72 ∨ e = 0x74
        then rfcString fuel t1
        else if e = 0x75 then
          if 4 ≤ t1.length ∧ (t1.take 4).all isHexDigit then rfcString fuel (t1.drop 4)
          else none
        else none
    else if c < 0x20 then none
    else rfcString fuel t

/-- Drop a run of decimal digits. -/
def dropDigits : Bytes → Bytes
  | [] => []
  | c :: t => if isDigit c then dropDigits t else c :: t

/-- RFC 8259 `exp`, optional. -/
def rfcExp : Bytes → Option Bytes
  | [] => some []
  | c :: t =>
    if c = 0x65 ∨ c = 0x45 then
      let t1 := match t with
        | s :: t2 => if s = 0x2D ∨ s = 0x2B then t2 else t
        | [] => t
      match t1 with
      | d :: t3 => if isDigit d then some (dropDigits t3) else none
      | [] => none
    else some (c :: t)

/-- RFC 8259 `frac`, optional, followed by `exp`. -/
def rfcFrac : Bytes → Option Bytes
  | [] => some []
  | c :: t =>
    if c = 0x2E then
      match t with
      | d :: t1 => if isDigit d then rfcExp (dropDigits t1) else none
      | [] => none
    else rfcExp (c :: t)

/-- RFC 8259 `number = [ minus ] int [ frac ] [ exp ]`: the tail after it. -/
def rfcNumber (s : Bytes) : Option Bytes :=
  let s1 := match s with
    | c :: t => if c = 0x2D then t else s
    | [] => s
  match s1 with
  | [] => none
  | d :: t =>
    if d = 0x30 then rfcFrac t
    else if 0x31 ≤ d ∧ d ≤ 0x39 then rfcFrac (dropDigits t)
    else none

mutual
/-- RFC 8259 `value`, for a value nested in `d` arrays or objects: the tail
after it.  A value nested in `limit` or more arrays or objects is refused. -/
def rfcValue (limit : Nat) : (fuel : Nat) → Bytes → Nat → Option Bytes
  | 0, _, _ => none
  | fuel + 1, s, d =>
    match s with
    | [] => none
    | c :: t =>
      if d + 1 > limit then none
      else if c = 0x7B then
        match skipWS t with
        | [] => none
        | c1 :: t1 => if c1 = 0x7D then some t1 else rfcMembers limit fuel (c1 :: t1) (d + 1)
      else if c = 0x5B then
        match skipWS t with
        | [] => none
        | c1 :: t1 => if c1 = 0x5D then some t1 else rfcElements limit fuel (c1 :: t1) (d + 1)
      else if c = 0x22 then rfcString t.length t
      else if s.take 4 = [0x74, 0x72, 0x75, 0x65] then some (s.drop 4)
      else if s.take 5 = [0x66, 0x61, 0x6C, 0x73, 0x65] then some (s.drop 5)
      else if s.take 4 = [0x6E, 0x75, 0x6C, 0x6C] then some (s.drop 4)
      else rfcNumber s
termination_by structural fuel => fuel
/-- RFC 8259 `member *( value-separator member ) end-object`. -/
def rfcMembers (limit : Nat) : (fuel : Nat) → Bytes → Nat → Option Bytes
  | 0, _, _ => none
  | fuel + 1, s, d =>
    match skipWS s with
    | [] => none
    | q :: s1 =>
      if q ≠ 0x22 then none
      else
        match rfcString s1.length s1 with
        | none => none
        | some s2 =>
          match skipWS s2 with
          | [] => none
          | col :: s3 =>
            if col ≠ 0x3A then none
            else
              match rfcValue limit fuel (skipWS s3) d with
              | none => none
              | some s4 =>
                match skipWS s4 with
                | [] => none
                | c :: t =>
                  if c = 0x2C then rfcMembers limit fuel t d
                  else if c = 0x7D then some t
                  else none
termination_by structural fuel => fuel
/-- RFC 8259 `value *( value-separator value ) end-array`. -/
def rfcElements (limit : Nat) : (fuel : Nat) → Bytes → Nat → Option Bytes
  | 0, _, _ => none
  | fuel + 1, s, d =>
    match rfcValue limit fuel (skipWS s) d with
    | none => none
    | some s1 =>
      match skipWS s1 with
      | [] => none
      | c :: t =>
        if c = 0x2C then rfcElements limit fuel t d
        else if c = 0x5D then some t
        else none
termination_by structural fuel => fuel
end

/-- RFC 8259 `JSON-text = ws value ws` with every value nested in fewer than
`limit` arrays and objects: the whole of `s` is one such JSON value. -/
def jsonValidWithin (limit : Nat) (s : Bytes) : Bool :=
  match rfcValue limit (3 * s.length + 1) (skipWS s) 0 with
  | some tail => skipWS tail == []
  | none => false

/-- RFC 8259 `JSON-text`: the whole of `s` is one JSON value (no value of `s`
can be nested in `s.length` arrays and objects). -/
def jsonValid (s : Bytes) : Bool := jsonValidWithin s.length s

/-- A JSON text whose value is an object. -/
def jsonValidObject (s : Bytes) : Bool :=
  jsonValid s && (skipWS s).head? == some 0x7B

/-- The text `k` between two quotes is a string of the JSON grammar, whatever
follows the closing quote. -/
def IsStringBody (k : Bytes) : Prop :=
  ∀ rest, ∃ g, rfcString g (k ++ 0x22 :: rest) = some rest

/-- The value `v`, marshalled and followed by a delimiter, is a value of the
JSON grammar nested in `d` arrays or objects, of depth below `limit`. -/
def Wellformed (rt : Runtime) (limit : Nat) (v : Value) (d : Nat) : Prop :=
  ∀ c tail2, isDelim c = true →
    ∃ f, rfcValue limit f (v.MarshalTo rt ++ c :: tail2) d = some (c :: tail2)

/-! ## The language the parser reads: JSON with unchecked numbers and strings -/

/-- A string of the relaxed grammar, entered after the opening quotation mark:
the tail after the closing one.  Every byte is allowed, and a backslash takes
the next byte with it, whatever it is. -/
def laxString : Bytes → Option Bytes
  | [] => none
  | c :: t =>
    if c = 0x22 then some t
    else if c = 0x5C then
      match t with
      | [] => none
      | _ :: t1 => laxString t1
    else laxString t

/-- The words `inf` and `nan`, in any letter case. -/
def isInfNan (w : Bytes) : Bool :=
  w.map lowerByte == [0x69, 0x6E, 0x66] || w.map lowerByte == [0x6E, 0x61, 0x6E]

/-- A number of the relaxed grammar: the tail after it.  A number is the
longest run of the bytes `0`-`9`, `.`, `-`, `+`, `e`, `E`, which is not empty
and is not a lone sign unless the text ends there; or the word `inf` or `nan`
in any letter case, after at most one sign. -/
def laxNumber (s : Bytes) : Option Bytes :=
  let p := s.takeWhile isNumChar
  let rest := s.dropWhile isNumChar
  match rest with
  | [] => if p = [] then none else some []
  | _ :: _ =>
    if p = [] ∨ p = [0x2D] ∨ p = [0x2B] then
      if 3 ≤ rest.length ∧ isInfNan (rest.take 3) then some (rest.drop 3) else none
    else some rest

mutual
/-- A value of the relaxed grammar nested in `d` arrays or objects: the tail
after it.  The grammar is that of RFC 8259 with `laxString` for strings and
`laxNumber` for numbers; a value nested in `limit` or more arrays or objects
is refused. -/
def laxValue (limit : Nat) : (fuel : Nat) → Bytes → Nat → Option Bytes
  | 0, _, _ => none
  | fuel + 1, s, d =>
    match s with
    | [] => none
    | c :: t =>
      if d + 1 > limit then none
      else if c = 0x7B then
        match skipWS t with
        | [] => none
        | c1 :: t1 => if c1 = 0x7D then some t1 else laxMembers limit fuel (c1 :: t1) (d + 1)
      else if c = 0x5B then
        match skipWS t with
        | [] => none
        | c1 :: t1 => if c1 = 0x5D then some t1 else laxElements limit fuel (c1 :: t1) (d + 1)
      else if c = 0x22 then laxString t
      else if s.take 4 = [0x74, 0x72, 0x75, 0x65] then some (s.drop 4)
      else if s.take 5 = [0x66, 0x61, 0x6C, 0x73, 0x65] then some (s.drop 5)
      else if s.take 4 = [0x6E, 0x75, 0x6C, 0x6C] then some (s.drop 4)
      else laxNumber s
termination_by structural fuel => fuel
/-- The members of an object of the relaxed grammar, up to the closing
brace. -/
def laxMembers (limit : Nat) : (fuel : Nat) → Bytes → Nat → Option Bytes
  | 0, _, _ => none
  | fuel + 1, s, d =>
    match skipWS s with
    | [] => none
    | q :: s1 =>
      if q ≠ 0x22 then none
      else
        match laxString s1 with
        | none => none
        | some s2 =>
          match skipWS s2 with
          | [] => none
          | col :: s3 =>
            if col ≠ 0x3A then none
            else
              match laxValue limit fuel (skipWS s3) d with
              | none => none
              | some s4 =>
                match skipWS s4 with
                | [] => none
                | c :: t =>
                  if c = 0x2C then laxMembers limit fuel t d
                  else if c = 0x7D then some t
                  else none
termination_by structural fuel => fuel
/-- The elements of an array of the relaxed grammar, up to the closing
bracket. -/
def laxElements (limit : Nat) : (fuel : Nat) → Bytes → Nat → Option Bytes
  | 0, _, _ => none
  | fuel + 1, s, d =>
    match laxValue limit fuel (skipWS s) d with
    | none => none
    | some s1 =>
      match skipWS s1 with
      | [] => none
      | c :: t =>
        if c = 0x2C then laxElements limit fuel t d
        else if c = 0x5D then some t
        else none
termination_by structural fuel => fuel
end

/-- A text of the relaxed grammar: the whole of `s` is one value, between
white space, with every value at a nesting level of at most `MaxDepth`. -/
def laxValid (s : Bytes) : Bool :=
  match laxValue MaxDepth (3 * s.length + 1) (skipWS s) 0 with
  | some tail => skipWS tail == []
  | none => false

/-! ## Reading the object of a text -/

/-- The byte a two-byte escape of RFC 8259 stands for (`\"`, `\\`, `\/`,
`\b`, `\f`, `\n`, `\r`, `\t`). -/
def simpleEscape (e : Nat) : Option Nat :=
  if e = 0x22 then some 0x22
  else if e = 0x5C then some 0x5C
  else if e = 0x2F then some 0x2F
  else if e = 0x62 then some 0x08
  else if e = 0x66 then some 0x0C
  else if e = 0x6E then some 0x0A
  else if e = 0x72 then some 0x0D
  else if e = 0x74 then some 0x09
  else none

/-- The text a JSON string stands for (RFC 8259, section 7), for the bytes
`s` between its quotes: the escapes are replaced by what they stand for, a
`\uXXXX` by the UTF-8 encoding of its code point, a pair of surrogate escapes
by that of the code point of the pair.  There is no text (`none`) when `s` is
not the inside of a JSON string or has a surrogate escape outside such a pair.
The fuel is the length of `s`. -/
def jsonString : Nat → Bytes → Option Bytes
  | _, [] => some []
  | 0, _ :: _ => none
  | fuel + 1, c :: t =>
    if c = 0x5C then
      match t with
      | [] => none
      | e :: t1 =>
        match simpleEscape e with
        | some d => (jsonString fuel t1).map (d :: ·)
        | none =>
          if e = 0x75 then
            match parseHex4 (t1.take 4) with
            | none => none
            | some x =>
              if x < 0xD800 ∨ 0xDFFF < x then
                (jsonString fuel (t1.drop 4)).map (encodeRune x ++ ·)
              else if x < 0xDC00 ∧ (t1.drop 4).take 2 = [0x5C, 0x75] then
                match parseHex4 ((t1.drop 6).take 4) with
                | none => none
                | some y =>
                  if 0xDC00 ≤ y ∧ y ≤ 0xDFFF then
                    (jsonString fuel (t1.drop 10)).map
                      (encodeRune ((x - 0xD800) * 1024 + (y - 0xDC00) + 0x10000) ++ ·)
                  else none
              else none
          else none
    else if c = 0x22 ∨ c < 0x20 then none
    else (jsonString fuel t).map (c :: ·)

/-- The text of a string value, `none` for any other value. -/
def jsonText : Value → Option Bytes
  | .rawString s => jsonString s.length s
  | _ => none

/-- The entries of the object a text holds, in their order: the text is read
by `Parser.Parse` and each key is decoded as a JSON string (`none` for a key
that stands for no text).  `none` when the text is not read as an object. -/
def readEntries (s : Bytes) : Option (List (Option Bytes × Value)) :=
  match Parser.Parse s with
  | .ok (.object kvs _) _ => some (kvs.map fun kv => (jsonString kv.1.length kv.1, kv.2))
  | _ => none

/-- The text of the string under the first entry with the key `key`. -/
def entryText (key : Bytes) (es : List (Option Bytes × Value)) : Option Bytes :=
  (es.find? fun e => e.1 == some key).bind fun e => jsonText e.2

/-- Whether an entry is under none of the keys `time`, `tag`, `original`. -/
def isOtherEntry (e : Option Bytes × Value) : Bool :=
  !(e.1 == some (str "time") || e.1 == some (str "tag") || e.1 == some (str "original"))

/-! ## Concrete inputs -/

/-- A runtime for the concrete scenarios: every rune above `0xFF` printable and
the scenario's timestamp as Go renders it in UTC. -/
def rt0 : Runtime := ⟨fun _ => true, fun _ _ => str "2023-11-14 22:13:20 +0000 UTC"⟩

/-- The payload of the concrete scenario: an object with the one entry
`msg: "hello"`. -/
def payloadHello : Bytes := str "\x7b\"msg\":\"hello\"\x7d"

/-- A JSON object whose one member is `n` arrays nested in one another:
`{"a":[[...]]}`. -/
def deepPayload (n : Nat) : Bytes :=
  str "\x7b\"a\":" ++ List.replicate n 0x5B ++ List.replicate n 0x5D ++ [0x7D]

/-- A JSON object whose one key is the escape of the control character
`U+0001`: `{"\u0001":1}`. -/
def keyPayload : Bytes := str "\x7b\"\\u0001\":1\x7d"

/-- A payload whose string value is not ASCII: the UTF-8 text of U+00E9
(printable), U+00A0 (not printable, below `0x10000`) and U+20AC. -/
def payloadUtf8 : Bytes :=
  str "\x7b\"a\":\"" ++ [0xC3, 0xA9, 0xC2, 0xA0, 0xE2, 0x82, 0xAC] ++ str "\"\x7d"

/-- A payload whose string value holds the byte `0x7F` (DEL), which JSON allows
unescaped in a string: `{"a":"<0x7F>"}`. -/
def payloadDel : Bytes := [0x7B, 0x22, 0x61, 0x22, 0x3A, 0x22, 0x7F, 0x22, 0x7D]

/-- A JSON object that holds the key `tag` twice: `{"tag":"a","tag":"b"}`. -/
def payloadTwoTags : Bytes := str "\x7b\"tag\":\"a\",\"tag\":\"b\"\x7d"

/-- A JSON object with the one entry `tag: "old"`. -/
def payloadOldTag : Bytes := str "\x7b\"tag\":\"old\"\x7d"

/-- A JSON object with the entries `tag: "old"` and `msg: "hello"`. -/
def payloadTagMsg : Bytes := str "\x7b\"tag\":\"old\",\"msg\":\"hello\"\x7d"

/-- A JSON object whose one key holds the escape of the control character
`U+0007`: `{"a\u0007b":[1]}`. -/
def payloadBellKey : Bytes := str "\x7b\"a\\u0007b\":[1]\x7d"

/-- A text of the JSON grammar whose one key is the escape of a lone
surrogate: `{"\ud800":1}`. -/
def payloadSurrogateKey : Bytes := str "\x7b\"\\ud800\":1\x7d"

/-- A JSON object with the entries `a`, `tag`, `b`:
`{"a":1,"tag":"old","b":[true]}`. -/
def payloadThree : Bytes := str "\x7b\"a\":1,\"tag\":\"old\",\"b\":[true]\x7d"

/-- A text that is decoded back from what `escapeString` writes for it: it
has no special byte (it is then written as it is), or it is
`quoteSafeText`. -/
def safeText (rt : Runtime) (s : Bytes) : Prop :=
  hasSpecialChars s = false ∨ quoteSafeText rt s.length s = true

/-- The decoded text of the string under `tag` in a returned buffer. -/
def tagText (rv : Bytes) : Option Bytes :=
  (outputObject rv).bind fun o => (lookupKey (str "tag") o.kvs).bind Value.StringBytes

/-- The decoded text of the string under `original` in a returned buffer. -/
def originalText (rv : Bytes) : Option Bytes :=
  (outputObject rv).bind fun o => (lookupKey (str "original") o.kvs).bind Value.StringBytes

/-! ## `parseRawString` reads strings as `scanString` does -/

theorem indexByte_none {s : Bytes} {c : Nat} (h : indexByte s c = none) : c ∉ s := by
  induction s with
  | nil => simp
  | cons b t ih =>
    unfold indexByte at h
    by_cases hb : b = c
    · simp [hb] at h
    · simp only [hb, if_false, Option.map_eq_none'] at h
      simp only [List.mem_cons, not_or]
      exact ⟨fun e => hb e.symm, ih h⟩

theorem indexByte_some {s : Bytes} {c n : Nat} (h : indexByte s c = some n) :
    c ∉ s.take n ∧ s = s.take n ++ c :: s.drop (n + 1) ∧ n < s.length := by
  induction s generalizing n with
  | nil => simp [indexByte] at h
  | cons b t ih =>
    unfold indexByte at h
    by_cases hb : b = c
    · simp only [hb, if_true, Option.some.injEq] at h
      subst h
      simp [hb]
    · simp only [hb, if_false, Option.map_eq_some'] at h
      obtain ⟨m, hm, rfl⟩ := h
      obtain ⟨h1, h2, h3⟩ := ih hm
      refine ⟨?_, ?_, ?_⟩
      · simp only [List.take_succ_cons, List.mem_cons, not_or]
        exact ⟨fun e => hb e.symm, h1⟩
      · simp only [List.take_succ_cons, List.drop_succ_cons, List.cons_append]
        rw [← h2]
      · simp only [List.length_cons]; omega

theorem indexByte_append {p rest : Bytes} {c : Nat} (h : c ∉ p) :
    indexByte (p ++ c :: rest) c = some p.length := by
  induction p with
  | nil => simp [indexByte]
  | cons b t ih =>
    simp only [List.mem_cons, not_or] at h
    have hb : ¬ b = c := fun e => h.1 e.symm
    simp only [List.cons_append, indexByte, hb, if_false, List.append_eq, ih h.2,
      Option.map_some', List.length_cons]

theorem backslashStart_le (s : Bytes) (i : Nat) : backslashStart s i ≤ i := by
  induction i with
  | zero => simp [backslashStart]
  | succ i ih =>
    unfold backslashStart
    split
    · omega
    · omega

theorem backslashStart_append (p x : Bytes) (i : Nat) (h : i ≤ p.length) :
    backslashStart (p ++ x) i = backslashStart p i := by
  induction i with
  | zero => rfl
  | succ i ih =>
    unfold backslashStart
    have hi : i < p.length := h
    have : (p ++ x).getD i 0 = p.getD i 0 := by
      simp [List.getD_eq_getElem?_getD, List.getElem?_append_left hi]
    rw [this, ih (by omega)]

theorem backslashStart_cons (c : Nat) (t : Bytes) (i : Nat) :
    backslashStart (c :: t) (i + 1) =
      if backslashStart t i = 0 then (if c = 0x5C then 0 else 1) else backslashStart t i + 1 := by
  induction i with
  | zero =>
    simp [backslashStart]
  | succ i ih =>
    rw [backslashStart]
    have : (c :: t).getD (i + 1) 0 = t.getD i 0 := by simp
    rw [this, ih]
    conv_rhs => rw [backslashStart]
    by_cases h : t.getD i 0 = 0x5C
    · simp only [h, if_true]
    · simp only [h, if_false]
      simp

/-- The run of backslashes that ends a text is not changed by a first byte
other than a backslash. -/
theorem run_cons_ne (c : Nat) (t : Bytes) (hc : c ≠ 0x5C) :
    (c :: t).length - backslashStart (c :: t) (c :: t).length =
      t.length - backslashStart t t.length := by
  simp only [List.length_cons]
  rw [backslashStart_cons, if_neg hc]
  have := backslashStart_le t t.length
  split <;> omega

theorem run_cons_cons (e : Nat) (t : Bytes) :
    ((0x5C :: e :: t).length - backslashStart (0x5C :: e :: t) (0x5C :: e :: t).length) % 2 =
      (t.length - backslashStart t t.length) % 2 := by
  simp only [List.length_cons]
  rw [backslashStart_cons, backslashStart_cons]
  have := backslashStart_le t t.length
  by_cases h0 : backslashStart t t.length = 0
  · by_cases he : e = 0x5C
    · simp [h0, he]; omega
    · simp [h0, he]
  · have h1 : ¬ (backslashStart t t.length + 1 = 0) := by omega
    simp only [h0, if_false, h1]
    omega

theorem escPending_iff (p : Bytes) :
    escPending p = true ↔ (p.length - backslashStart p p.length) % 2 = 1 := by
  generalize hn : p.length = n
  induction n using Nat.strong_induction_on generalizing p with
  | _ n ih =>
    subst hn
    match p with
    | [] => simp [escPending, backslashStart]
    | [c] =>
      by_cases hc : c = 0x5C
      · simp [escPending, backslashStart, hc]
      · simp [escPending, backslashStart, hc]
    | c :: e :: t =>
      by_cases hc : c = 0x5C
      · subst hc
        have h1 := ih t.length (by simp only [List.length_cons]; omega) t rfl
        rw [run_cons_cons]
        simp only [escPending, if_true]
        exact h1
      · have h1 := ih (e :: t).length (by simp only [List.length_cons]; omega) (e :: t) rfl
        rw [run_cons_ne c (e :: t) hc]
        simp only [escPending, hc, if_false] at h1 ⊢
        exact h1

theorem Res.prepend_prepend (x y : Bytes) (r : Res Bytes) :
    (r.prepend y).prepend x = r.prepend (x ++ y) := by
  cases r <;> simp [Res.prepend]

theorem Res.prepend_nil (r : Res Bytes) : r.prepend [] = r := by
  cases r <;> simp [Res.prepend]

theorem scanString_quote (rest : Bytes) : scanString (0x22 :: rest) = .ok [] rest := by
  rw [scanString.eq_def]; simp

theorem scanString_esc (e : Nat) (t : Bytes) :
    scanString (0x5C :: e :: t) = (scanString t).prepend [0x5C, e] := rfl

theorem scanString_esc_nil : scanString [0x5C] = .err := rfl

theorem scanString_plain (c : Nat) (t : Bytes) (hc : c ≠ 0x22) (hb : c ≠ 0x5C) :
    scanString (c :: t) = (scanString t).prepend [c] := by
  rw [scanString.eq_def]
  simp only [hc, hb, if_false]

theorem escPending_esc (e : Nat) (t : Bytes) : escPending (0x5C :: e :: t) = escPending t := rfl

theorem escPending_plain (c : Nat) (t : Bytes) (hb : c ≠ 0x5C) :
    escPending (c :: t) = escPending t := by
  rw [escPending.eq_def]
  simp only [hb, if_false]

theorem scanString_no_quote (s : Bytes) (h : 0x22 ∉ s) : scanString s = .err := by
  generalize hn : s.length = n
  induction n using Nat.strong_induction_on generalizing s with
  | _ n ih =>
    subst hn
    match s with
    | [] => rfl
    | [c] =>
      simp only [List.mem_singleton] at h
      have hc : ¬ c = 0x22 := fun e => h e.symm
      by_cases hb : c = 0x5C
      · subst hb; exact scanString_esc_nil
      · rw [scanString_plain c [] hc hb]; rfl
    | c :: e :: t =>
      simp only [List.mem_cons, not_or] at h
      have hc : ¬ c = 0x22 := fun e => h.1 e.symm
      by_cases hb : c = 0x5C
      · have h1 := ih t.length (by simp only [List.length_cons]; omega) t h.2.2 rfl
        subst hb
        rw [scanString_esc, h1]; rfl
      · have h1 := ih (e :: t).length (by simp only [List.length_cons]; omega) (e :: t)
          (by simp only [List.mem_cons, not_or]; exact h.2) rfl
        rw [scanString_plain c _ hc hb, h1]; rfl

theorem scanString_at_quote (p rest : Bytes) (h : 0x22 ∉ p) :
    scanString (p ++ 0x22 :: rest) =
      if escPending p then (scanString rest).prepend (p ++ [0x22]) else .ok p rest := by
  generalize hn : p.length = n
  induction n using Nat.strong_induction_on generalizing p with
  | _ n ih =>
    subst hn
    match p with
    | [] =>
      rw [List.nil_append, scanString_quote]; rfl
    | [c] =>
      simp only [List.mem_singleton] at h
      have hc : ¬ c = 0x22 := fun e => h e.symm
      by_cases hb : c = 0x5C
      · subst hb
        show scanString (0x5C :: 0x22 :: rest) = _
        rw [scanString_esc]; rfl
      · show scanString (c :: 0x22 :: rest) = _
        rw [scanString_plain c _ hc hb, scanString_quote, escPending_plain c _ hb]; rfl
    | c :: e :: t =>
      simp only [List.mem_cons, not_or] at h
      have hc : ¬ c = 0x22 := fun e => h.1 e.symm
      by_cases hb : c = 0x5C
      · have h1 := ih t.length (by simp only [List.length_cons]; omega) t h.2.2 rfl
        subst hb
        show scanString (0x5C :: e :: (t ++ 0x22 :: rest)) = _
        rw [scanString_esc, h1, escPending_esc]
        split
        · rw [Res.prepend_prepend]; rfl
        · rfl
      · have h1 := ih (e :: t).length (by simp only [List.length_cons]; omega) (e :: t)
          (by simp only [List.mem_cons, not_or]; exact h.2) rfl
        show scanString (c :: ((e :: t) ++ 0x22 :: rest)) = _
        rw [scanString_plain c _ hc hb, h1, escPending_plain c _ hb]
        split
        · rw [Res.prepend_prepend]; rfl
        · rfl

theorem take_length_append (pre s : Bytes) (n : Nat) :
    (pre ++ s).take ((pre ++ s).length - s.length + n) = pre ++ s.take n := by
  have : (pre ++ s).length - s.length + n = pre.length + n := by
    simp only [List.length_append]; omega
  rw [this, List.take_append]

theorem backslashStart_pred {s : Bytes} {n : Nat} (hn : 0 < n) (h : s.getD (n - 1) 0 = 0x5C) :
    backslashStart s (n - 1) = backslashStart s n := by
  obtain ⟨m, rfl⟩ : ∃ m, n = m + 1 := ⟨n - 1, by omega⟩
  simp only [Nat.add_sub_cancel] at h ⊢
  conv_rhs => rw [backslashStart]
  simp only [h, if_true]

theorem escPending_of_last_ne {p : Bytes} (h : p.length = 0 ∨ p.getD (p.length - 1) 0 ≠ 0x5C) :
    escPending p = false := by
  cases hp : escPending p with
  | false => rfl
  | true =>
    exfalso
    have h1 := (escPending_iff p).1 hp
    rcases h with h | h
    · rw [h] at h1; simp at h1
    · obtain ⟨m, hm⟩ : ∃ m, p.length = m + 1 := ⟨p.length - 1, by
        rcases Nat.eq_zero_or_pos p.length with h0 | h0
        · rw [h0] at h1; simp at h1
        · omega⟩
      rw [hm] at h h1
      simp only [Nat.add_sub_cancel] at h
      rw [backslashStart] at h1
      simp only [h, if_false] at h1
      simp at h1

theorem indexByte_some_split {s : Bytes} {c n : Nat} (h : indexByte s c = some n) :
    ∃ p rest, s = p ++ c :: rest ∧ c ∉ p ∧ n = p.length := by
  obtain ⟨h1, h2, h3⟩ := indexByte_some h
  refine ⟨s.take n, s.drop (n + 1), h2, h1, ?_⟩
  rw [List.length_take]; omega

theorem getD_append_left (p x : Bytes) (i : Nat) (h : i < p.length) :
    (p ++ x).getD i 0 = p.getD i 0 := by
  simp [List.getD_eq_getElem?_getD, List.getElem?_append_left h]

theorem drop_append_quote (p rest : Bytes) :
    (p ++ 0x22 :: rest).drop (p.length + 1) = rest := by
  rw [show p ++ 0x22 :: rest = (p ++ [0x22]) ++ rest by simp]
  exact List.drop_left' (by simp)

theorem take_append_quote (p rest : Bytes) : (p ++ 0x22 :: rest).take p.length = p :=
  List.take_left' rfl

theorem parseRawStringLoop_eq (fuel : Nat) (pre p rest : Bytes) (hq : 0x22 ∉ p)
    (hf : (p ++ 0x22 :: rest).length ≤ fuel) (hp : 0 < p.length)
    (hb : p.getD (p.length - 1) 0 = 0x5C) :
    parseRawStringLoop fuel (pre ++ (p ++ 0x22 :: rest)) (p ++ 0x22 :: rest) p.length =
      (scanString (p ++ 0x22 :: rest)).prepend pre := by
  induction fuel generalizing pre p rest with
  | zero => simp at hf
  | succ fuel ih =>
    rw [parseRawStringLoop]
    have hbs : backslashStart (p ++ 0x22 :: rest) (p.length - 1) = backslashStart p p.length := by
      rw [backslashStart_append p _ _ (by omega)]
      exact backslashStart_pred hp hb
    simp only [hbs, drop_append_quote, take_length_append, take_append_quote]
    rw [scanString_at_quote p rest hq]
    have hesc := escPending_iff p
    by_cases hpar : (p.length - backslashStart p p.length) % 2 = 0
    · have he : escPending p = false := by
        cases h : escPending p with
        | false => rfl
        | true => rw [hesc.1 h] at hpar; cases hpar
      simp only [hpar, if_true, he, Bool.false_eq_true, if_false, Res.prepend]
    · have he : escPending p = true := hesc.2 (by omega)
      simp only [hpar, if_false, he, if_true, Res.prepend_prepend]
      cases hi : indexByte rest 0x22 with
      | none =>
        simp only
        rw [scanString_no_quote rest (indexByte_none hi)]; rfl
      | some n1 =>
        obtain ⟨p1, rest2, rfl, hq1, rfl⟩ := indexByte_some_split hi
        simp only
        by_cases hc : p1.length = 0 ∨ (p1 ++ 0x22 :: rest2).getD (p1.length - 1) 0 ≠ 0x5C
        · rw [if_pos hc]
          have he1 : escPending p1 = false := by
            apply escPending_of_last_ne
            rcases hc with hc | hc
            · exact Or.inl hc
            · by_cases h0 : p1.length = 0
              · exact Or.inl h0
              · right
                rwa [getD_append_left p1 _ _ (by omega)] at hc
          rw [scanString_at_quote p1 rest2 hq1, he1]
          simp only [Bool.false_eq_true, if_false, Res.prepend, drop_append_quote]
          have : pre ++ (p ++ 0x22 :: (p1 ++ 0x22 :: rest2)) =
              (pre ++ (p ++ [0x22])) ++ (p1 ++ 0x22 :: rest2) := by simp
          rw [this, take_length_append, take_append_quote]
        · rw [if_neg hc]
          simp only [not_or, not_not] at hc
          have : pre ++ (p ++ 0x22 :: (p1 ++ 0x22 :: rest2)) =
              (pre ++ (p ++ [0x22])) ++ (p1 ++ 0x22 :: rest2) := by simp
          rw [this]
          apply ih
          · exact hq1
          · simp only [List.length_append, List.length_cons] at hf ⊢; omega
          · omega
          · rw [getD_append_left p1 _ _ (by omega)] at hc
            exact hc.2

theorem parseRawString_eq_scan (s : Bytes) : parseRawString s = scanString s := by
  unfold parseRawString
  cases hi : indexByte s 0x22 with
  | none =>
    simp only
    rw [scanString_no_quote s (indexByte_none hi)]
  | some n =>
    obtain ⟨p, rest, rfl, hq, rfl⟩ := indexByte_some_split hi
    simp only
    by_cases hc : p.length = 0 ∨ (p ++ 0x22 :: rest).getD (p.length - 1) 0 ≠ 0x5C
    · rw [if_pos hc]
      have he : escPending p = false := by
        apply escPending_of_last_ne
        rcases hc with hc | hc
        · exact Or.inl hc
        · by_cases h0 : p.length = 0
          · exact Or.inl h0
          · right
            rwa [getD_append_left p _ _ (by omega)] at hc
      rw [scanString_at_quote p rest hq, he]
      simp only [Bool.false_eq_true, if_false, drop_append_quote, take_append_quote]
    · rw [if_neg hc]
      simp only [not_or, not_not] at hc
      have h := parseRawStringLoop_eq (p ++ 0x22 :: rest).length [] p rest hq (le_refl _)
        (by omega) (by rw [getD_append_left p _ _ (by omega)] at hc; exact hc.2)
      simp only [List.nil_append] at h
      rw [h, Res.prepend_nil]

theorem parseRawKeyFast_eq_scan (s : Bytes) (r : Res Bytes) (h : parseRawKeyFast s = some r) :
    r = scanString s := by
  induction s generalizing r with
  | nil => simp only [parseRawKeyFast, Option.some.injEq] at h; rw [← h]; rfl
  | cons c t ih =>
    rw [parseRawKeyFast] at h
    by_cases hc : c = 0x22
    · subst hc
      simp only [if_true, Option.some.injEq] at h
      rw [← h, scanString_quote]
    · by_cases hb : c = 0x5C
      · simp only [hc, hb, if_false, if_true] at h
        cases h
      · simp only [hc, hb, if_false] at h
        rw [scanString_plain c t hc hb]
        cases hk : parseRawKeyFast t with
        | none => rw [hk] at h; cases h
        | some r1 =>
          rw [hk] at h
          rw [← ih r1 hk]
          cases r1 <;> simp only [Option.some.injEq] at h <;> rw [← h] <;> rfl

theorem parseRawKey_eq_scan (s : Bytes) : parseRawKey s = scanString s := by
  unfold parseRawKey
  cases hk : parseRawKeyFast s with
  | none => exact parseRawString_eq_scan s
  | some r => exact parseRawKeyFast_eq_scan s r hk

theorem Res.prepend_eq_ok {x k tail : Bytes} {r : Res Bytes} (h : r.prepend x = .ok k tail) :
    ∃ k1, r = .ok k1 tail ∧ k = x ++ k1 := by
  cases r with
  | ok k1 t1 =>
    simp only [Res.prepend, Res.ok.injEq] at h
    exact ⟨k1, by rw [h.2], h.1.symm⟩
  | err => simp [Res.prepend] at h
  | oof => simp [Res.prepend] at h

theorem scanString_ne_oof (s : Bytes) : scanString s ≠ .oof := by
  generalize hn : s.length = n
  induction n using Nat.strong_induction_on generalizing s with
  | _ n ih =>
    subst hn
    match s with
    | [] => intro h; cases h
    | [c] =>
      by_cases hc : c = 0x22
      · subst hc; rw [scanString_quote]; intro h; cases h
      · by_cases hb : c = 0x5C
        · subst hb; rw [scanString_esc_nil]; intro h; cases h
        · rw [scanString_plain c _ hc hb]; intro h; cases h
    | c :: e :: t =>
      by_cases hc : c = 0x22
      · subst hc; rw [scanString_quote]; intro h; cases h
      · by_cases hb : c = 0x5C
        · subst hb
          have h1 := ih t.length (by simp only [List.length_cons]; omega) t rfl
          rw [scanString_esc]
          cases hs : scanString t with
          | ok k tail => intro h; cases h
          | err => intro h; cases h
          | oof => exact absurd hs h1
        · have h1 := ih (e :: t).length (by simp only [List.length_cons]; omega) (e :: t) rfl
          rw [scanString_plain c _ hc hb]
          cases hs : scanString (e :: t) with
          | ok k tail => intro h; cases h
          | err => intro h; cases h
          | oof => exact absurd hs h1

/-- A string body that `scanString` accepts is followed by its closing quote,
and is read the same way whatever follows that quote. -/
theorem scanString_ok {s k tail : Bytes} (h : scanString s = .ok k tail) :
    s = k ++ 0x22 :: tail ∧ ∀ rest, scanString (k ++ 0x22 :: rest) = .ok k rest := by
  generalize hn : s.length = n at h
  induction n using Nat.strong_induction_on generalizing s k with
  | _ n ih =>
    subst hn
    match s with
    | [] => cases h
    | [c] =>
      by_cases hc : c = 0x22
      · subst hc
        rw [scanString_quote] at h
        cases h
        exact ⟨rfl, fun rest => scanString_quote rest⟩
      · by_cases hb : c = 0x5C
        · subst hb; rw [scanString_esc_nil] at h; cases h
        · rw [scanString_plain c _ hc hb] at h; cases h
    | c :: e :: t =>
      by_cases hc : c = 0x22
      · subst hc
        rw [scanString_quote] at h
        cases h
        exact ⟨rfl, fun rest => scanString_quote rest⟩
      · by_cases hb : c = 0x5C
        · subst hb
          rw [scanString_esc] at h
          obtain ⟨k1, h1, rfl⟩ := Res.prepend_eq_ok h
          obtain ⟨h2, h3⟩ := ih t.length (by simp only [List.length_cons]; omega) h1 rfl
          refine ⟨by rw [h2]; rfl, fun rest => ?_⟩
          show scanString (0x5C :: e :: (k1 ++ 0x22 :: rest)) = _
          rw [scanString_esc, h3 rest]; rfl
        · rw [scanString_plain c _ hc hb] at h
          obtain ⟨k1, h1, rfl⟩ := Res.prepend_eq_ok h
          obtain ⟨h2, h3⟩ := ih (e :: t).length (by simp only [List.length_cons]; omega) h1 rfl
          refine ⟨by rw [h2]; rfl, fun rest => ?_⟩
          show scanString (c :: (k1 ++ 0x22 :: rest)) = _
          rw [scanString_plain c _ hc hb, h3 rest]; rfl

theorem skipWS_suffix (s : Bytes) : ∃ ws, s = ws ++ skipWS s := by
  induction s with
  | nil => exact ⟨[], rfl⟩
  | cons c t ih =>
    rw [skipWS]
    split
    · obtain ⟨ws, h⟩ := ih
      exact ⟨c :: ws, by rw [List.cons_append, ← h]⟩
    · exact ⟨[], rfl⟩

theorem skipWS_length_le (s : Bytes) : (skipWS s).length ≤ s.length := by
  obtain ⟨ws, h⟩ := skipWS_suffix s
  conv_rhs => rw [h]
  simp

theorem skipWS_head {s t : Bytes} {c : Nat} (h : skipWS s = c :: t) : isWS c = false := by
  induction s with
  | nil => cases h
  | cons b u ih =>
    rw [skipWS] at h
    split at h
    · exact ih h
    · rename_i hb
      cases h
      simpa using hb

theorem skipWS_of_not_ws {c : Nat} (t : Bytes) (h : isWS c = false) : skipWS (c :: t) = c :: t := by
  rw [skipWS]; simp [h]

theorem skipWS_mem {s : Bytes} {b : Nat} (h : b ∈ skipWS s) : b ∈ s := by
  obtain ⟨ws, hs⟩ := skipWS_suffix s
  rw [hs]; exact List.mem_append_right _ h

/-! ## The parser, one step at a time -/

theorem parseValue_zero (s : Bytes) (d : Nat) : parseValue 0 s d = .oof := by
  rw [parseValue]

theorem parseValue_nil (f d : Nat) : parseValue (f + 1) [] d = .err := by
  rw [parseValue]

theorem parseValue_deep (f : Nat) (s : Bytes) (d : Nat) (h : d + 1 > MaxDepth) (hs : s ≠ []) :
    parseValue (f + 1) s d = .err := by
  cases s with
  | nil => exact absurd rfl hs
  | cons c t => rw [parseValue]; simp only [h, if_true]

theorem parseValue_object (f : Nat) (t : Bytes) (d : Nat) (h : d + 1 ≤ MaxDepth) :
    parseValue (f + 1) (0x7B :: t) d = parseObject f t (d + 1) := by
  rw [parseValue]
  have : ¬ d + 1 > MaxDepth := by omega
  simp only [this, if_false, if_true]

theorem parseValue_array (f : Nat) (t : Bytes) (d : Nat) (h : d + 1 ≤ MaxDepth) :
    parseValue (f + 1) (0x5B :: t) d = parseArray f t (d + 1) := by
  rw [parseValue]
  have : ¬ d + 1 > MaxDepth := by omega
  simp [this]

theorem parseValue_string (f : Nat) (t : Bytes) (d : Nat) (h : d + 1 ≤ MaxDepth) :
    parseValue (f + 1) (0x22 :: t) d =
      match scanString t with
      | .ok ss tail => .ok (.rawString ss) tail
      | .err => .err
      | .oof => .oof := by
  rw [parseValue, parseRawString_eq_scan]
  have : ¬ d + 1 > MaxDepth := by omega
  simp [this]

theorem parseValue_leaf (f : Nat) (c : Nat) (t : Bytes) (d : Nat) (h : d + 1 ≤ MaxDepth)
    (h1 : c ≠ 0x7B) (h2 : c ≠ 0x5B) (h3 : c ≠ 0x22) :
    parseValue (f + 1) (c :: t) d = parseLeaf (c :: t) := by
  rw [parseValue, parseLeaf]
  have : ¬ d + 1 > MaxDepth := by omega
  simp only [this, h1, h2, h3, if_false]

theorem parseArray_succ (f : Nat) (s : Bytes) (d : Nat) :
    parseArray (f + 1) s d =
      match skipWS s with
      | [] => .err
      | c :: t =>
        if c = 0x5D then .ok (.array []) t
        else
          match parseArrayLoop f (c :: t) d with
          | .ok a tail => .ok (.array a) tail
          | .err => .err
          | .oof => .oof := by
  rw [parseArray]

theorem parseArrayLoop_succ (f : Nat) (s : Bytes) (d : Nat) :
    parseArrayLoop (f + 1) s d =
      match parseValue f (skipWS s) d with
      | .err => .err
      | .oof => .oof
      | .ok v s1 =>
        match skipWS s1 with
        | [] => .err
        | c :: t =>
          if c = 0x2C then
            match parseArrayLoop f t d with
            | .ok a tail => .ok (v :: a) tail
            | r => r
          else if c = 0x5D then .ok [v] t
          else .err := by
  rw [parseArrayLoop]

theorem parseObject_succ (f : Nat) (s : Bytes) (d : Nat) :
    parseObject (f + 1) s d =
      match skipWS s with
      | [] => .err
      | c :: t =>
        if c = 0x7D then .ok (.object [] false) t
        else
          match parseObjectLoop f (c :: t) d with
          | .ok kvs tail => .ok (.object kvs false) tail
          | .err => .err
          | .oof => .oof := by
  rw [parseObject]

theorem parseObjectLoop_succ (f : Nat) (s : Bytes) (d : Nat) :
    parseObjectLoop (f + 1) s d =
      match skipWS s with
      | [] => .err
      | q :: s1 =>
        if q ≠ 0x22 then .err
        else
          match scanString s1 with
          | .err => .err
          | .oof => .oof
          | .ok k s2 =>
            match skipWS s2 with
            | [] => .err
            | col :: s3 =>
              if col ≠ 0x3A then .err
              else
                match parseValue f (skipWS s3) d with
                | .err => .err
                | .oof => .oof
                | .ok v s4 =>
                  match skipWS s4 with
                  | [] => .err
                  | c :: t =>
                    if c = 0x2C then
                      match parseObjectLoop f t d with
                      | .ok kvs tail => .ok ((k, v) :: kvs) tail
                      | r => r
                    else if c = 0x7D then .ok [(k, v)] t
                    else .err := by
  rw [parseObjectLoop]
  simp only [parseRawKey_eq_scan]

/-! ## `parseRawNumber` -/

theorem parseRawNumberLoop_nil (s pre : Bytes) : parseRawNumberLoop s pre [] = .ok s [] := by
  rw [parseRawNumberLoop]

theorem parseRawNumberLoop_num (s pre rest : Bytes) (ch : Nat) (h : isNumChar ch = true) :
    parseRawNumberLoop s pre (ch :: rest) = parseRawNumberLoop s (pre ++ [ch]) rest := by
  rw [parseRawNumberLoop]; simp only [h, if_true]

theorem parseRawNumberLoop_stop (s pre rest : Bytes) (ch : Nat) (h : isNumChar ch = false)
    (hc : ¬ (pre.length = 0 ∨ (pre.length = 1 ∧ (pre.getD 0 0 = 0x2D ∨ pre.getD 0 0 = 0x2B)))) :
    parseRawNumberLoop s pre (ch :: rest) = .ok pre (ch :: rest) := by
  rw [parseRawNumberLoop]; simp only [h, Bool.false_eq_true, if_false, hc]

theorem parseRawNumberLoop_word (s pre rest : Bytes) (ch : Nat) (h : isNumChar ch = false)
    (hc : pre.length = 0 ∨ (pre.length = 1 ∧ (pre.getD 0 0 = 0x2D ∨ pre.getD 0 0 = 0x2B))) :
    parseRawNumberLoop s pre (ch :: rest) =
      if 3 ≤ (ch :: rest).length ∧
          (equalFold ((ch :: rest).take 3) [0x69, 0x6E, 0x66] ||
            equalFold ((ch :: rest).take 3) [0x6E, 0x61, 0x6E]) = true then
        .ok (s.take (pre.length + 3)) (s.drop (pre.length + 3))
      else .err := by
  rw [parseRawNumberLoop]
  simp only [h, Bool.false_eq_true, if_false, hc, if_true]
  by_cases h3 : 3 ≤ (ch :: rest).length
  · simp only [h3, if_true, true_and]
  · simp only [h3, if_false, false_and]

theorem parseRawNumberLoop_split (s : Bytes) (rest pre ns tail : Bytes) (hs : s = pre ++ rest)
    (h : parseRawNumberLoop s pre rest = .ok ns tail) :
    s = ns ++ tail ∧ (s ≠ [] → ns ≠ []) ∧ pre <+: ns := by
  induction rest generalizing pre with
  | nil =>
    rw [parseRawNumberLoop_nil] at h
    cases h
    simp only [List.append_nil] at hs
    exact ⟨by simp, fun h => h, by rw [hs]⟩
  | cons ch rest ih =>
    by_cases hn : isNumChar ch = true
    · rw [parseRawNumberLoop_num _ _ _ _ hn] at h
      obtain ⟨h1, h2, h3⟩ := ih (pre ++ [ch]) (by rw [hs]; simp) h
      exact ⟨h1, h2, (List.prefix_append pre [ch]).trans h3⟩
    · have hn : isNumChar ch = false := by simpa using hn
      by_cases hc : pre.length = 0 ∨ (pre.length = 1 ∧ (pre.getD 0 0 = 0x2D ∨ pre.getD 0 0 = 0x2B))
      · rw [parseRawNumberLoop_word _ _ _ _ hn hc] at h
        split at h
        · rename_i h3
          cases h
          refine ⟨(List.take_append_drop _ _).symm, fun _ hc => ?_, ?_⟩
          · have := congrArg List.length hc
            rw [List.length_take, hs] at this
            simp at this
          · rw [hs, List.take_append_eq_append_take]
            have : pre.length + 3 - pre.length = 3 := by omega
            rw [List.take_of_length_le (by omega), this]
            exact List.prefix_append _ _
        · cases h
      · rw [parseRawNumberLoop_stop _ _ _ _ hn hc] at h
        cases h
        refine ⟨hs, fun _ hc2 => ?_, List.prefix_refl _⟩
        subst hc2
        simp at hc

theorem parseRawNumberLoop_ne_oof (s : Bytes) (rest pre : Bytes) :
    parseRawNumberLoop s pre rest ≠ .oof := by
  induction rest generalizing pre with
  | nil => rw [parseRawNumberLoop_nil]; intro h; cases h
  | cons ch rest ih =>
    by_cases hn : isNumChar ch = true
    · rw [parseRawNumberLoop_num _ _ _ _ hn]; exact ih _
    · have hn : isNumChar ch = false := by simpa using hn
      by_cases hc : pre.length = 0 ∨ (pre.length = 1 ∧ (pre.getD 0 0 = 0x2D ∨ pre.getD 0 0 = 0x2B))
      · rw [parseRawNumberLoop_word _ _ _ _ hn hc]
        split <;> (intro h; cases h)
      · rw [parseRawNumberLoop_stop _ _ _ _ hn hc]; intro h; cases h

theorem parseRawNumber_split {s ns tail : Bytes} (h : parseRawNumber s = .ok ns tail) :
    s = ns ++ tail ∧ (s ≠ [] → ns ≠ []) := by
  have := parseRawNumberLoop_split s s [] ns tail rfl h
  exact ⟨this.1, this.2.1⟩

theorem parseRawNumber_ne_oof (s : Bytes) : parseRawNumber s ≠ .oof :=
  parseRawNumberLoop_ne_oof s s []

theorem parseLeaf_true (t : Bytes) :
    parseLeaf (0x74 :: t) =
      if (0x74 :: t).take 4 = [0x74, 0x72, 0x75, 0x65] then .ok .vtrue ((0x74 :: t).drop 4)
      else .err := by
  rw [parseLeaf]
  simp only [if_true]
  by_cases h : (0x74 :: t).take 4 = [0x74, 0x72, 0x75, 0x65]
  · have hl : ¬ (0x74 :: t).length < 4 := by
      have := congrArg List.length h
      rw [List.length_take] at this
      simp at this
      simp; omega
    rw [if_neg (by simp only [not_or, not_not]; exact ⟨hl, h⟩), if_pos h]
  · rw [if_pos (Or.inr h), if_neg h]

theorem parseLeaf_false (t : Bytes) :
    parseLeaf (0x66 :: t) =
      if (0x66 :: t).take 5 = [0x66, 0x61, 0x6C, 0x73, 0x65] then .ok .vfalse ((0x66 :: t).drop 5)
      else .err := by
  rw [parseLeaf]
  have : ¬ ((0x66 : Nat) = 0x74) := by decide
  simp only [this, if_false, if_true]
  by_cases h : (0x66 :: t).take 5 = [0x66, 0x61, 0x6C, 0x73, 0x65]
  · have hl : ¬ (0x66 :: t).length < 5 := by
      have := congrArg List.length h
      rw [List.length_take] at this
      simp at this
      simp; omega
    rw [if_neg (by simp only [not_or, not_not]; exact ⟨hl, h⟩), if_pos h]
  · rw [if_pos (Or.inr h), if_neg h]

theorem parseLeaf_n (t : Bytes) :
    parseLeaf (0x6E :: t) =
      if (0x6E :: t).take 4 = [0x6E, 0x75, 0x6C, 0x6C] then .ok .vnull ((0x6E :: t).drop 4)
      else if 3 ≤ (0x6E :: t).length ∧ equalFold ((0x6E :: t).take 3) [0x6E, 0x61, 0x6E] = true then
        .ok (.number ((0x6E :: t).take 3)) ((0x6E :: t).drop 3)
      else .err := by
  rw [parseLeaf]
  have h1 : ¬ ((0x6E : Nat) = 0x74) := by decide
  have h2 : ¬ ((0x6E : Nat) = 0x66) := by decide
  simp only [h1, h2, if_false, if_true]
  by_cases h : (0x6E :: t).take 4 = [0x6E, 0x75, 0x6C, 0x6C]
  · have hl : ¬ (0x6E :: t).length < 4 := by
      have := congrArg List.length h
      rw [List.length_take] at this
      simp at this
      simp; omega
    rw [if_neg (by simp only [not_or, not_not]; exact ⟨hl, h⟩), if_pos h]
  · rw [if_pos (Or.inr h), if_neg h]

theorem parseLeaf_number (c : Nat) (t : Bytes) (h1 : c ≠ 0x74) (h2 : c ≠ 0x66) (h3 : c ≠ 0x6E) :
    parseLeaf (c :: t) =
      match parseRawNumber (c :: t) with
      | .ok ns tail => .ok (.number ns) tail
      | .err => .err
      | .oof => .oof := by
  rw [parseLeaf]
  simp only [h1, h2, h3, if_false]

/-- A value read by a branch of `parseValue` that does not recurse is the
text it was read from. -/
theorem parseLeaf_ok (rt : Runtime) {s : Bytes} {v : Value} {tail : Bytes}
    (h : parseLeaf s = .ok v tail) :
    s = v.MarshalTo rt ++ tail ∧ v.MarshalTo rt ≠ [] ∧
      (v = .vtrue ∨ v = .vfalse ∨ v = .vnull ∨ ∃ ns, v = .number ns) := by
  cases s with
  | nil => rw [parseLeaf] at h; cases h
  | cons c t =>
    by_cases h1 : c = 0x74
    · subst h1
      rw [parseLeaf_true] at h
      split at h
      · rename_i ht
        cases h
        refine ⟨?_, by simp [Value.MarshalTo], Or.inl rfl⟩
        rw [Value.MarshalTo, ← ht, List.take_append_drop]
      · cases h
    · by_cases h2 : c = 0x66
      · subst h2
        rw [parseLeaf_false] at h
        split at h
        · rename_i ht
          cases h
          refine ⟨?_, by simp [Value.MarshalTo], Or.inr (Or.inl rfl)⟩
          rw [Value.MarshalTo, ← ht, List.take_append_drop]
        · cases h
      · by_cases h3 : c = 0x6E
        · subst h3
          rw [parseLeaf_n] at h
          split at h
          · rename_i ht
            cases h
            refine ⟨?_, by simp [Value.MarshalTo], Or.inr (Or.inr (Or.inl rfl))⟩
            rw [Value.MarshalTo, ← ht, List.take_append_drop]
          · split at h
            · cases h
              refine ⟨?_, ?_, Or.inr (Or.inr (Or.inr ⟨_, rfl⟩))⟩
              · rw [Value.MarshalTo, List.take_append_drop]
              · rw [Value.MarshalTo]
                simp
            · cases h
        · rw [parseLeaf_number c t h1 h2 h3] at h
          cases hn : parseRawNumber (c :: t) with
          | ok ns tl =>
            rw [hn] at h
            cases h
            obtain ⟨h4, h5⟩ := parseRawNumber_split hn
            exact ⟨by rw [Value.MarshalTo]; exact h4, by rw [Value.MarshalTo]; exact h5 (by simp),
              Or.inr (Or.inr (Or.inr ⟨_, rfl⟩))⟩
          | err => rw [hn] at h; cases h
          | oof => rw [hn] at h; cases h

theorem parseLeaf_ne_oof (s : Bytes) : parseLeaf s ≠ .oof := by
  cases s with
  | nil => rw [parseLeaf]; intro h; cases h
  | cons c t =>
    by_cases h1 : c = 0x74
    · subst h1
      rw [parseLeaf_true]
      split <;> (intro h; cases h)
    · by_cases h2 : c = 0x66
      · subst h2
        rw [parseLeaf_false]
        split <;> (intro h; cases h)
      · by_cases h3 : c = 0x6E
        · subst h3
          rw [parseLeaf_n]
          split
          · intro h; cases h
          · split <;> (intro h; cases h)
        · rw [parseLeaf_number c t h1 h2 h3]
          cases hn : parseRawNumber (c :: t) with
          | ok ns tl => intro h; cases h
          | err => intro h; cases h
          | oof => exact absurd hn (parseRawNumber_ne_oof _)

/-! ## What the parser reads -/

theorem Consumed.base (pre tail : Bytes) (h : pre ≠ []) : Consumed (pre ++ tail) tail pre :=
  ⟨pre, h, rfl, fun _ hb => hb⟩

theorem Consumed.mono {s tail m m2 : Bytes} (h : Consumed s tail m) (hm : ∀ b ∈ m2, b ∈ m) :
    Consumed s tail m2 := by
  obtain ⟨pre, h1, h2, h3⟩ := h
  exact ⟨pre, h1, h2, fun b hb => h3 b (hm b hb)⟩

theorem Consumed.cons {s tail m : Bytes} (c : Nat) (h : Consumed s tail m) :
    Consumed (c :: s) tail (c :: m) := by
  obtain ⟨pre, _, h2, h3⟩ := h
  refine ⟨c :: pre, by simp, by rw [h2]; rfl, fun b hb => ?_⟩
  rcases List.mem_cons.1 hb with hb | hb
  · rw [hb]; exact List.mem_cons_self _ _
  · exact List.mem_cons_of_mem _ (h3 b hb)

theorem Consumed.trans {s s1 tail m1 m2 : Bytes} (h1 : Consumed s s1 m1)
    (h2 : Consumed s1 tail m2) : Consumed s tail (m1 ++ m2) := by
  obtain ⟨p1, a1, b1, c1⟩ := h1
  obtain ⟨p2, _, b2, c2⟩ := h2
  refine ⟨p1 ++ p2, by simp [a1], by rw [b1, b2, List.append_assoc], fun b hb => ?_⟩
  rcases List.mem_append.1 hb with hb | hb
  · exact List.mem_append_left _ (c1 b hb)
  · exact List.mem_append_right _ (c2 b hb)

theorem Consumed.skipWS {s tail m : Bytes} (h : Consumed (skipWS s) tail m) :
    Consumed s tail m := by
  obtain ⟨ws, hws⟩ := skipWS_suffix s
  obtain ⟨pre, h1, h2, h3⟩ := h
  refine ⟨ws ++ pre, by simp [h1], ?_, fun b hb => List.mem_append_right _ (h3 b hb)⟩
  rw [List.append_assoc, ← h2, ← hws]

theorem Consumed.of_skipWS_cons {s t : Bytes} {c : Nat} (h : FilterWasmGo.skipWS s = c :: t) :
    Consumed s t [c] := by
  apply Consumed.skipWS
  rw [h]
  exact Consumed.base [c] t (by simp)

theorem Consumed.length_lt {s tail m : Bytes} (h : Consumed s tail m) :
    tail.length < s.length := by
  obtain ⟨pre, h1, h2, _⟩ := h
  rw [h2, List.length_append]
  have : 0 < pre.length := List.length_pos.2 h1
  omega

theorem Consumed.mem_tail {s tail m : Bytes} (h : Consumed s tail m) {b : Nat} (hb : b ∈ tail) :
    b ∈ s := by
  obtain ⟨pre, _, h2, _⟩ := h
  rw [h2]; exact List.mem_append_right _ hb

theorem Consumed.mem {s tail m : Bytes} (h : Consumed s tail m) {b : Nat} (hb : b ∈ m) :
    b ∈ s := by
  obtain ⟨pre, _, h2, h3⟩ := h
  rw [h2]; exact List.mem_append_left _ (h3 b hb)

theorem marshalArray_single (rt : Runtime) (v : Value) :
    marshalArray rt [v] = v.MarshalTo rt := by
  rw [marshalArray]; simp

theorem marshalArray_cons_cons (rt : Runtime) (v w : Value) (a : List Value) :
    marshalArray rt (v :: w :: a) = v.MarshalTo rt ++ [0x2C] ++ marshalArray rt (w :: a) := by
  rw [marshalArray]; simp

theorem marshalArray_cons (rt : Runtime) (v : Value) (a : List Value) (h : a ≠ []) :
    marshalArray rt (v :: a) = v.MarshalTo rt ++ [0x2C] ++ marshalArray rt a := by
  cases a with
  | nil => exact absurd rfl h
  | cons w a => exact marshalArray_cons_cons rt v w a

theorem marshalKVs_single (rt : Runtime) (ku : Bool) (k : Bytes) (v : Value) :
    marshalKVs rt ku [(k, v)] =
      (if ku then escapeString rt k else [0x22] ++ k ++ [0x22]) ++ [0x3A] ++ v.MarshalTo rt := by
  rw [marshalKVs]; simp

theorem marshalKVs_cons (rt : Runtime) (ku : Bool) (k : Bytes) (v : Value)
    (kvs : List (Bytes × Value)) (h : kvs ≠ []) :
    marshalKVs rt ku ((k, v) :: kvs) =
      (if ku then escapeString rt k else [0x22] ++ k ++ [0x22]) ++ [0x3A] ++ v.MarshalTo rt ++
        [0x2C] ++ marshalKVs rt ku kvs := by
  cases kvs with
  | nil => exact absurd rfl h
  | cons w a => rw [marshalKVs]; simp

theorem parse_consumed (rt : Runtime) (f : Nat) :
    (∀ s d v tail, parseValue f s d = .ok v tail → Consumed s tail (v.MarshalTo rt)) ∧
    (∀ s d v tail, parseArray f s d = .ok v tail →
      ∃ a, v = .array a ∧ Consumed s tail (marshalArray rt a ++ [0x5D])) ∧
    (∀ s d a tail, parseArrayLoop f s d = .ok a tail →
      a ≠ [] ∧ Consumed s tail (marshalArray rt a ++ [0x5D])) ∧
    (∀ s d v tail, parseObject f s d = .ok v tail →
      ∃ kvs, v = .object kvs false ∧ Consumed s tail (marshalKVs rt false kvs ++ [0x7D])) ∧
    (∀ s d kvs tail, parseObjectLoop f s d = .ok kvs tail →
      kvs ≠ [] ∧ Consumed s tail (marshalKVs rt false kvs ++ [0x7D])) := by
  induction f with
  | zero =>
    refine ⟨?_, ?_, ?_, ?_, ?_⟩ <;> intro s d v tail h
    · rw [parseValue] at h; cases h
    · rw [parseArray] at h; cases h
    · rw [parseArrayLoop] at h; cases h
    · rw [parseObject] at h; cases h
    · rw [parseObjectLoop] at h; cases h
  | succ f ih =>
    obtain ⟨ihV, ihA, ihAL, ihO, ihOL⟩ := ih
    refine ⟨?_, ?_, ?_, ?_, ?_⟩
    · intro s d v tail h
      cases s with
      | nil => rw [parseValue_nil] at h; cases h
      | cons c t =>
        by_cases hd : d + 1 ≤ MaxDepth
        · by_cases h1 : c = 0x7B
          · subst h1
            rw [parseValue_object f t d hd] at h
            obtain ⟨kvs, rfl, hc⟩ := ihO _ _ _ _ h
            have := hc.cons 0x7B
            rw [Value.MarshalTo]
            exact this
          · by_cases h2 : c = 0x5B
            · subst h2
              rw [parseValue_array f t d hd] at h
              obtain ⟨a, rfl, hc⟩ := ihA _ _ _ _ h
              have := hc.cons 0x5B
              rw [Value.MarshalTo]
              exact this
            · by_cases h3 : c = 0x22
              · subst h3
                rw [parseValue_string f t d hd] at h
                cases hs : scanString t with
                | ok ss tl =>
                  rw [hs] at h
                  cases h
                  obtain ⟨h4, _⟩ := scanString_ok hs
                  rw [Value.MarshalTo, h4]
                  have := Consumed.base ([0x22] ++ ss ++ [0x22]) tail (by simp)
                  simpa using this
                | err => rw [hs] at h; cases h
                | oof => rw [hs] at h; cases h
              · rw [parseValue_leaf f c t d hd h1 h2 h3] at h
                obtain ⟨h4, h5, _⟩ := parseLeaf_ok rt h
                rw [h4]
                exact Consumed.base _ _ h5
        · rw [parseValue_deep f _ d (by omega) (by simp)] at h; cases h
    · intro s d v tail h
      rw [parseArray_succ] at h
      cases hw : skipWS s with
      | nil => rw [hw] at h; cases h
      | cons c t =>
        rw [hw] at h
        simp only at h
        by_cases hc : c = 0x5D
        · subst hc
          simp only [if_true] at h
          cases h
          refine ⟨[], rfl, ?_⟩
          rw [marshalArray]
          exact Consumed.of_skipWS_cons hw
        · simp only [hc, if_false] at h
          cases hl : parseArrayLoop f (c :: t) d with
          | ok a tl =>
            rw [hl] at h
            cases h
            obtain ⟨_, h2⟩ := ihAL _ _ _ _ hl
            refine ⟨a, rfl, ?_⟩
            apply Consumed.skipWS
            rw [hw]; exact h2
          | err => rw [hl] at h; cases h
          | oof => rw [hl] at h; cases h
    · intro s d a tail h
      rw [parseArrayLoop_succ] at h
      cases hv : parseValue f (skipWS s) d with
      | err => rw [hv] at h; cases h
      | oof => rw [hv] at h; cases h
      | ok v s1 =>
        rw [hv] at h
        simp only at h
        have hcv := (ihV _ _ _ _ hv).skipWS
        cases hw : skipWS s1 with
        | nil => rw [hw] at h; cases h
        | cons c t =>
          rw [hw] at h
          simp only at h
          by_cases hc : c = 0x2C
          · subst hc
            simp only [if_true] at h
            cases hl : parseArrayLoop f t d with
            | ok a1 tl =>
              rw [hl] at h
              cases h
              obtain ⟨h1, h2⟩ := ihAL _ _ _ _ hl
              refine ⟨by simp, ?_⟩
              rw [marshalArray_cons rt v a1 h1]
              have := (hcv.trans (Consumed.of_skipWS_cons hw)).trans h2
              simpa using this
            | err => rw [hl] at h; cases h
            | oof => rw [hl] at h; cases h
          · simp only [hc, if_false] at h
            by_cases hc2 : c = 0x5D
            · subst hc2
              simp only [if_true] at h
              cases h
              refine ⟨by simp, ?_⟩
              rw [marshalArray_single]
              exact hcv.trans (Consumed.of_skipWS_cons hw)
            · simp only [hc2, if_false] at h
              cases h
    · intro s d v tail h
      rw [parseObject_succ] at h
      cases hw : skipWS s with
      | nil => rw [hw] at h; cases h
      | cons c t =>
        rw [hw] at h
        simp only at h
        by_cases hc : c = 0x7D
        · subst hc
          simp only [if_true] at h
          cases h
          refine ⟨[], rfl, ?_⟩
          rw [marshalKVs]
          exact Consumed.of_skipWS_cons hw
        · simp only [hc, if_false] at h
          cases hl : parseObjectLoop f (c :: t) d with
          | ok a tl =>
            rw [hl] at h
            cases h
            obtain ⟨_, h2⟩ := ihOL _ _ _ _ hl
            refine ⟨a, rfl, ?_⟩
            apply Consumed.skipWS
            rw [hw]; exact h2
          | err => rw [hl] at h; cases h
          | oof => rw [hl] at h; cases h
    · intro s d kvs tail h
      rw [parseObjectLoop_succ] at h
      cases hw : skipWS s with
      | nil => rw [hw] at h; cases h
      | cons q s1 =>
        rw [hw] at h
        simp only at h
        by_cases hq : q = 0x22
        · subst hq
          simp only [ne_eq, not_true, if_false] at h
          cases hs : scanString s1 with
          | err => rw [hs] at h; cases h
          | oof => rw [hs] at h; cases h
          | ok k s2 =>
            rw [hs] at h
            simp only at h
            obtain ⟨hk, _⟩ := scanString_ok hs
            have hck : Consumed s s2 ([0x22] ++ k ++ [0x22]) := by
              apply Consumed.skipWS
              rw [hw, hk]
              have := Consumed.base ([0x22] ++ k ++ [0x22]) s2 (by simp)
              simpa using this
            cases hw2 : skipWS s2 with
            | nil => rw [hw2] at h; cases h
            | cons col s3 =>
              rw [hw2] at h
              simp only at h
              by_cases hcol : col = 0x3A
              · subst hcol
                simp only [ne_eq, not_true, if_false] at h
                cases hv : parseValue f (skipWS s3) d with
                | err => rw [hv] at h; cases h
                | oof => rw [hv] at h; cases h
                | ok v s4 =>
                  rw [hv] at h
                  simp only at h
                  have hcv := (ihV _ _ _ _ hv).skipWS
                  have hkv := (hck.trans (Consumed.of_skipWS_cons hw2)).trans hcv
                  cases hw4 : skipWS s4 with
                  | nil => rw [hw4] at h; cases h
                  | cons c t =>
                    rw [hw4] at h
                    simp only at h
                    by_cases hc : c = 0x2C
                    · subst hc
                      simp only [if_true] at h
                      cases hl : parseObjectLoop f t d with
                      | ok a1 tl =>
                        rw [hl] at h
                        cases h
                        obtain ⟨h1, h2⟩ := ihOL _ _ _ _ hl
                        refine ⟨by simp, ?_⟩
                        rw [marshalKVs_cons rt false k v a1 h1]
                        have := (hkv.trans (Consumed.of_skipWS_cons hw4)).trans h2
                        simpa using this
                      | err => rw [hl] at h; cases h
                      | oof => rw [hl] at h; cases h
                    · simp only [hc, if_false] at h
                      by_cases hc2 : c = 0x7D
                      · subst hc2
                        simp only [if_true] at h
                        cases h
                        refine ⟨by simp, ?_⟩
                        rw [marshalKVs_single]
                        have := hkv.trans (Consumed.of_skipWS_cons hw4)
                        simpa using this
                      · simp only [hc2, if_false] at h
                        cases h
              · simp only [ne_eq, hcol, not_false_eq_true, if_true] at h
                cases h
        · simp only [ne_eq, hq, not_false_eq_true, if_true] at h
          cases h

/-! ## No byte below `0x20` leaves `escapeString` -/

theorem lowerhex_ge (d : Nat) : 0x20 ≤ lowerhex d := by
  unfold lowerhex; split <;> omega

theorem encodeRune_ge (r : Nat) (h : 0x20 ≤ r) : ∀ b ∈ encodeRune r, 0x20 ≤ b := by
  intro b hb
  unfold encodeRune at hb
  split at hb
  · simp only [List.mem_singleton] at hb; omega
  · split at hb
    · simp only [List.mem_cons, List.mem_singleton, List.not_mem_nil, or_false] at hb
      rcases hb with hb | hb <;> omega
    · split at hb
      · simp only [List.mem_cons, List.mem_singleton, List.not_mem_nil, or_false] at hb
        rcases hb with hb | hb | hb <;> omega
      · split at hb
        · simp only [List.mem_cons, List.mem_singleton, List.not_mem_nil, or_false] at hb
          rcases hb with hb | hb | hb <;> omega
        · simp only [List.mem_cons, List.mem_singleton, List.not_mem_nil, or_false] at hb
          rcases hb with hb | hb | hb | hb <;> omega

theorem IsPrint_ge (rt : Runtime) (r : Nat) (h : IsPrint rt r = true) : 0x20 ≤ r := by
  unfold IsPrint at h
  split at h
  · split at h
    · omega
    · split at h
      · omega
      · cases h
  · omega

theorem forall_mem_ite {P : Nat → Prop} {c : Prop} [Decidable c] {l1 l2 : Bytes}
    (h1 : c → ∀ b ∈ l1, P b) (h2 : ¬ c → ∀ b ∈ l2, P b) :
    ∀ b ∈ (if c then l1 else l2), P b := by
  split
  · exact h1 (by assumption)
  · exact h2 (by assumption)

theorem appendEscapedRune_ge (rt : Runtime) (r : Nat) :
    ∀ b ∈ appendEscapedRune rt r, 0x20 ≤ b := by
  unfold appendEscapedRune
  have hl := lowerhex_ge
  apply forall_mem_ite
  · intro h b hb
    simp only [List.mem_cons, List.mem_singleton, List.not_mem_nil, or_false] at hb
    rcases hb with hb | hb <;> omega
  · intro _
    apply forall_mem_ite
    · intro h
      exact encodeRune_ge r (IsPrint_ge rt r h)
    · intro _
      repeat' (apply forall_mem_ite <;> intro _)
      all_goals
        intro b hb
        simp only [List.mem_cons, List.mem_singleton, List.not_mem_nil, or_false] at hb
        rcases hb with hb | hb | hb | hb | hb | hb | hb | hb | hb | hb <;>
          first
          | omega
          | exact hl _
          | (rw [hb]; exact hl _)

theorem quoteBody_zero (rt : Runtime) (s : Bytes) : quoteBody rt 0 s = [] := by
  rw [quoteBody]

theorem quoteBody_nil (rt : Runtime) (f : Nat) : quoteBody rt f [] = [] := by
  cases f <;> rfl

theorem quoteBody_cons (rt : Runtime) (f s0 : Nat) (rest : Bytes) :
    quoteBody rt (f + 1) (s0 :: rest) =
      if (if s0 ≥ 0x80 then decodeRune (s0 :: rest) else (s0, 1)).2 = 1 ∧
          (if s0 ≥ 0x80 then decodeRune (s0 :: rest) else (s0, 1)).1 = 0xFFFD then
        [0x5C, 0x78, lowerhex (s0 / 16), lowerhex (s0 % 16)] ++ quoteBody rt f rest
      else
        appendEscapedRune rt (if s0 ≥ 0x80 then decodeRune (s0 :: rest) else (s0, 1)).1 ++
          quoteBody rt f
            ((s0 :: rest).drop (if s0 ≥ 0x80 then decodeRune (s0 :: rest) else (s0, 1)).2) := rfl

theorem decodeRune_width_pos (c : Nat) (rest : Bytes) : 1 ≤ (decodeRune (c :: rest)).2 := by
  unfold decodeRune
  simp only
  repeat' split
  all_goals simp

/-- The fuel of `quoteBody`, the length of the text, is enough: with that much
fuel or more the loop reaches the end of the text. -/
theorem quoteBody_fuel (rt : Runtime) (f : Nat) :
    ∀ s g, s.length ≤ f → s.length ≤ g → quoteBody rt f s = quoteBody rt g s := by
  induction f with
  | zero =>
    intro s g hf _
    have : s = [] := List.length_eq_zero.1 (by omega)
    subst this
    rw [quoteBody_zero]
    cases g <;> rfl
  | succ f ih =>
    intro s g hf hg
    cases s with
    | nil =>
      rw [quoteBody_nil]
      cases g <;> rfl
    | cons c rest =>
      obtain ⟨g, rfl⟩ : ∃ g1, g = g1 + 1 := ⟨g - 1, by simp only [List.length_cons] at hg; omega⟩
      simp only [List.length_cons] at hf hg
      rw [quoteBody_cons, quoteBody_cons]
      have hw : 1 ≤ (if c ≥ 0x80 then decodeRune (c :: rest) else (c, 1)).2 := by
        split
        · exact decodeRune_width_pos c rest
        · exact le_refl _
      have hd : ((c :: rest).drop (if c ≥ 0x80 then decodeRune (c :: rest) else (c, 1)).2).length ≤
          rest.length := by
        rw [List.length_drop]
        simp only [List.length_cons]
        omega
      rw [ih rest g (by omega) (by omega), ih _ g (by omega) (by omega)]

/-- The fuel of `quoteSafeText`, the length of the text, is enough. -/
theorem quoteSafeText_fuel (rt : Runtime) (f : Nat) :
    ∀ s g, s.length ≤ f → s.length ≤ g → quoteSafeText rt f s = quoteSafeText rt g s := by
  induction f with
  | zero =>
    intro s g hf _
    have : s = [] := List.length_eq_zero.1 (by omega)
    subst this
    cases g <;> rfl
  | succ f ih =>
    intro s g hf hg
    cases s with
    | nil => cases g <;> rfl
    | cons c rest =>
      obtain ⟨g, rfl⟩ : ∃ g1, g = g1 + 1 := ⟨g - 1, by simp only [List.length_cons] at hg; omega⟩
      simp only [List.length_cons] at hf hg
      rw [quoteSafeText, quoteSafeText]
      have hw := decodeRune_width_pos c rest
      have hd : ((c :: rest).drop (decodeRune (c :: rest)).2).length ≤ rest.length := by
        rw [List.length_drop]
        simp only [List.length_cons]
        omega
      rw [ih rest g (by omega) (by omega), ih _ g (by omega) (by omega)]

theorem quoteBody_ge (rt : Runtime) (f : Nat) (s : Bytes) : ∀ b ∈ quoteBody rt f s, 0x20 ≤ b := by
  induction f generalizing s with
  | zero => intro b hb; rw [quoteBody_zero] at hb; cases hb
  | succ f ih =>
    intro b hb
    cases s with
    | nil => rw [quoteBody_nil] at hb; cases hb
    | cons s0 rest =>
      rw [quoteBody_cons] at hb
      generalize (if s0 ≥ 0x80 then decodeRune (s0 :: rest) else (s0, 1)) = rw at hb
      split at hb
      · rcases List.mem_append.1 hb with hb | hb
        · simp only [List.mem_cons, List.mem_singleton, List.not_mem_nil, or_false] at hb
          have hl := lowerhex_ge
          rcases hb with hb | hb | hb | hb <;>
            first | omega | exact hl _ | (rw [hb]; exact hl _)
        · exact ih _ b hb
      · rcases List.mem_append.1 hb with hb | hb
        · exact appendEscapedRune_ge rt _ b hb
        · exact ih _ b hb

theorem hasSpecialChars_false {s : Bytes} (h : hasSpecialChars s = false) :
    ∀ b ∈ s, b ≠ 0x22 ∧ b ≠ 0x5C ∧ 0x20 ≤ b := by
  intro b hb
  unfold hasSpecialChars at h
  rw [List.any_eq_false] at h
  have := h b hb
  simp only [Bool.or_eq_true, beq_iff_eq, decide_eq_true_eq, not_or] at this
  exact ⟨this.1.1, this.1.2, by omega⟩

theorem escapeString_ge (rt : Runtime) (s : Bytes) : ∀ b ∈ escapeString rt s, 0x20 ≤ b := by
  intro b hb
  unfold escapeString at hb
  split at hb
  · rename_i h
    have h : hasSpecialChars s = false := by simpa using h
    simp only [List.mem_append, List.mem_singleton] at hb
    rcases hb with (hb | hb) | hb
    · omega
    · exact (hasSpecialChars_false h b hb).2.2
    · omega
  · unfold AppendQuote at hb
    simp only [List.mem_append, List.mem_singleton] at hb
    rcases hb with (hb | hb) | hb
    · omega
    · exact quoteBody_ge rt _ _ b hb
    · omega

theorem NewString_marshal_ge (rt : Runtime) (s : Bytes) :
    ∀ b ∈ (Arena.NewString rt s).MarshalTo rt, 0x20 ≤ b := by
  intro b hb
  unfold Arena.NewString at hb
  simp only [Value.MarshalTo, List.mem_append, List.mem_singleton] at hb
  rcases hb with (hb | hb) | hb
  · omega
  · exact escapeString_ge rt s b (List.mem_of_mem_drop (List.mem_of_mem_take hb))
  · omega

/-! ## Successful steps of the parser, inverted -/

theorem parseArray_ok_inv {f : Nat} {s : Bytes} {d : Nat} {v : Value} {tail : Bytes}
    (h : parseArray (f + 1) s d = .ok v tail) :
    ∃ c t, skipWS s = c :: t ∧
      ((c = 0x5D ∧ v = .array [] ∧ tail = t) ∨
        (c ≠ 0x5D ∧ ∃ a, parseArrayLoop f (c :: t) d = .ok a tail ∧ v = .array a)) := by
  rw [parseArray_succ] at h
  cases hw : skipWS s with
  | nil => rw [hw] at h; cases h
  | cons c t =>
    rw [hw] at h
    simp only at h
    refine ⟨c, t, rfl, ?_⟩
    by_cases hc : c = 0x5D
    · simp only [hc, if_true] at h
      cases h
      exact Or.inl ⟨hc, rfl, rfl⟩
    · simp only [hc, if_false] at h
      cases hl : parseArrayLoop f (c :: t) d with
      | ok a tl =>
        rw [hl] at h
        cases h
        exact Or.inr ⟨hc, a, rfl, rfl⟩
      | err => rw [hl] at h; cases h
      | oof => rw [hl] at h; cases h

theorem parseArrayLoop_ok_inv {f : Nat} {s : Bytes} {d : Nat} {a : List Value} {tail : Bytes}
    (h : parseArrayLoop (f + 1) s d = .ok a tail) :
    ∃ v s1 c t, parseValue f (skipWS s) d = .ok v s1 ∧ skipWS s1 = c :: t ∧
      ((c = 0x2C ∧ ∃ a1, parseArrayLoop f t d = .ok a1 tail ∧ a = v :: a1) ∨
        (c = 0x5D ∧ a = [v] ∧ tail = t)) := by
  rw [parseArrayLoop_succ] at h
  cases hv : parseValue f (skipWS s) d with
  | err => rw [hv] at h; cases h
  | oof => rw [hv] at h; cases h
  | ok v s1 =>
    rw [hv] at h
    simp only at h
    cases hw : skipWS s1 with
    | nil => rw [hw] at h; cases h
    | cons c t =>
      rw [hw] at h
      simp only at h
      refine ⟨v, s1, c, t, rfl, hw, ?_⟩
      by_cases hc : c = 0x2C
      · simp only [hc, if_true] at h
        cases hl : parseArrayLoop f t d with
        | ok a1 tl =>
          rw [hl] at h
          cases h
          exact Or.inl ⟨hc, a1, rfl, rfl⟩
        | err => rw [hl] at h; cases h
        | oof => rw [hl] at h; cases h
      · simp only [hc, if_false] at h
        by_cases hc2 : c = 0x5D
        · simp only [hc2, if_true] at h
          cases h
          exact Or.inr ⟨hc2, rfl, rfl⟩
        · simp only [hc2, if_false] at h
          cases h

theorem parseObject_ok_inv {f : Nat} {s : Bytes} {d : Nat} {v : Value} {tail : Bytes}
    (h : parseObject (f + 1) s d = .ok v tail) :
    ∃ c t, skipWS s = c :: t ∧
      ((c = 0x7D ∧ v = .object [] false ∧ tail = t) ∨
        (c ≠ 0x7D ∧ ∃ kvs, parseObjectLoop f (c :: t) d = .ok kvs tail ∧
          v = .object kvs false)) := by
  rw [parseObject_succ] at h
  cases hw : skipWS s with
  | nil => rw [hw] at h; cases h
  | cons c t =>
    rw [hw] at h
    simp only at h
    refine ⟨c, t, rfl, ?_⟩
    by_cases hc : c = 0x7D
    · simp only [hc, if_true] at h
      cases h
      exact Or.inl ⟨hc, rfl, rfl⟩
    · simp only [hc, if_false] at h
      cases hl : parseObjectLoop f (c :: t) d with
      | ok a tl =>
        rw [hl] at h
        cases h
        exact Or.inr ⟨hc, a, rfl, rfl⟩
      | err => rw [hl] at h; cases h
      | oof => rw [hl] at h; cases h

theorem parseObjectLoop_ok_inv {f : Nat} {s : Bytes} {d : Nat} {kvs : List (Bytes × Value)}
    {tail : Bytes} (h : parseObjectLoop (f + 1) s d = .ok kvs tail) :
    ∃ s1 k s2 s3 v s4 c t, skipWS s = 0x22 :: s1 ∧ scanString s1 = .ok k s2 ∧
      skipWS s2 = 0x3A :: s3 ∧ parseValue f (skipWS s3) d = .ok v s4 ∧ skipWS s4 = c :: t ∧
      ((c = 0x2C ∧ ∃ kvs1, parseObjectLoop f t d = .ok kvs1 tail ∧ kvs = (k, v) :: kvs1) ∨
        (c = 0x7D ∧ kvs = [(k, v)] ∧ tail = t)) := by
  rw [parseObjectLoop_succ] at h
  cases hw : skipWS s with
  | nil => rw [hw] at h; cases h
  | cons q s1 =>
    rw [hw] at h
    simp only at h
    by_cases hq : q = 0x22
    · subst hq
      simp only [ne_eq, not_true, if_false] at h
      cases hs : scanString s1 with
      | err => rw [hs] at h; cases h
      | oof => rw [hs] at h; cases h
      | ok k s2 =>
        rw [hs] at h
        simp only at h
        cases hw2 : skipWS s2 with
        | nil => rw [hw2] at h; cases h
        | cons col s3 =>
          rw [hw2] at h
          simp only at h
          by_cases hcol : col = 0x3A
          · subst hcol
            simp only [ne_eq, not_true, if_false] at h
            cases hv : parseValue f (skipWS s3) d with
            | err => rw [hv] at h; cases h
            | oof => rw [hv] at h; cases h
            | ok v s4 =>
              rw [hv] at h
              simp only at h
              cases hw4 : skipWS s4 with
              | nil => rw [hw4] at h; cases h
              | cons c t =>
                rw [hw4] at h
                simp only at h
                refine ⟨s1, k, s2, s3, v, s4, c, t, rfl, hs, hw2, hv, hw4, ?_⟩
                by_cases hc : c = 0x2C
                · simp only [hc, if_true] at h
                  cases hl : parseObjectLoop f t d with
                  | ok a1 tl =>
                    rw [hl] at h
                    cases h
                    exact Or.inl ⟨hc, a1, rfl, rfl⟩
                  | err => rw [hl] at h; cases h
                  | oof => rw [hl] at h; cases h
                · simp only [hc, if_false] at h
                  by_cases hc2 : c = 0x7D
                  · simp only [hc2, if_true] at h
                    cases h
                    exact Or.inr ⟨hc2, rfl, rfl⟩
                  · simp only [hc2, if_false] at h
                    cases h
          · simp only [ne_eq, hcol, not_false_eq_true, if_true] at h
            cases h
    · simp only [ne_eq, hq, not_false_eq_true, if_true] at h
      cases h

/-! ## Successful steps of the parser, built -/

theorem parseArray_empty {f : Nat} {s t : Bytes} (d : Nat) (hw : skipWS s = 0x5D :: t) :
    parseArray (f + 1) s d = .ok (.array []) t := by
  rw [parseArray_succ, hw]
  simp

theorem parseArray_loop {f : Nat} {s t tail : Bytes} {c d : Nat} {a : List Value}
    (hw : skipWS s = c :: t) (hc : c ≠ 0x5D) (hl : parseArrayLoop f (c :: t) d = .ok a tail) :
    parseArray (f + 1) s d = .ok (.array a) tail := by
  rw [parseArray_succ, hw]
  simp only [hc, if_false, hl]

theorem parseArrayLoop_more {f : Nat} {s s1 t tail : Bytes} {d : Nat} {v : Value}
    {a : List Value} (hv : parseValue f (skipWS s) d = .ok v s1) (hw : skipWS s1 = 0x2C :: t)
    (hl : parseArrayLoop f t d = .ok a tail) :
    parseArrayLoop (f + 1) s d = .ok (v :: a) tail := by
  rw [parseArrayLoop_succ, hv]
  simp only [hw, if_true, hl]

theorem parseArrayLoop_last {f : Nat} {s s1 t : Bytes} {d : Nat} {v : Value}
    (hv : parseValue f (skipWS s) d = .ok v s1) (hw : skipWS s1 = 0x5D :: t) :
    parseArrayLoop (f + 1) s d = .ok [v] t := by
  rw [parseArrayLoop_succ, hv]
  simp [hw]

theorem parseObject_empty {f : Nat} {s t : Bytes} (d : Nat) (hw : skipWS s = 0x7D :: t) :
    parseObject (f + 1) s d = .ok (.object [] false) t := by
  rw [parseObject_succ, hw]
  simp

theorem parseObject_loop {f : Nat} {s t tail : Bytes} {c d : Nat} {kvs : List (Bytes × Value)}
    (hw : skipWS s = c :: t) (hc : c ≠ 0x7D) (hl : parseObjectLoop f (c :: t) d = .ok kvs tail) :
    parseObject (f + 1) s d = .ok (.object kvs false) tail := by
  rw [parseObject_succ, hw]
  simp only [hc, if_false, hl]

theorem parseObjectLoop_more {f : Nat} {s s1 k s2 s3 s4 t tail : Bytes} {d : Nat} {v : Value}
    {kvs : List (Bytes × Value)} (hw : skipWS s = 0x22 :: s1) (hs : scanString s1 = .ok k s2)
    (hw2 : skipWS s2 = 0x3A :: s3) (hv : parseValue f (skipWS s3) d = .ok v s4)
    (hw4 : skipWS s4 = 0x2C :: t) (hl : parseObjectLoop f t d = .ok kvs tail) :
    parseObjectLoop (f + 1) s d = .ok ((k, v) :: kvs) tail := by
  rw [parseObjectLoop_succ, hw]
  simp only [ne_eq, not_true, if_false, hs, hw2, hv, hw4, if_true, hl]

theorem parseObjectLoop_last {f : Nat} {s s1 k s2 s3 s4 t : Bytes} {d : Nat} {v : Value}
    (hw : skipWS s = 0x22 :: s1) (hs : scanString s1 = .ok k s2)
    (hw2 : skipWS s2 = 0x3A :: s3) (hv : parseValue f (skipWS s3) d = .ok v s4)
    (hw4 : skipWS s4 = 0x7D :: t) :
    parseObjectLoop (f + 1) s d = .ok [(k, v)] t := by
  rw [parseObjectLoop_succ, hw]
  simp [hs, hw2, hv, hw4]

/-! ## The fuel is enough -/

theorem skipWS_cons_length {s t : Bytes} {c : Nat} (h : skipWS s = c :: t) :
    t.length + 1 ≤ s.length := by
  have := skipWS_length_le s
  rw [h] at this
  simpa using this

/-- With fuel above three times the length of the input, no parsing function
runs out of fuel. -/
theorem parse_ne_oof (rt : Runtime) (f : Nat) :
    (∀ s d, 3 * s.length + 1 ≤ f → parseValue f s d ≠ .oof) ∧
    (∀ s d, 3 * s.length + 3 ≤ f → parseArray f s d ≠ .oof) ∧
    (∀ s d, 3 * s.length + 2 ≤ f → parseArrayLoop f s d ≠ .oof) ∧
    (∀ s d, 3 * s.length + 3 ≤ f → parseObject f s d ≠ .oof) ∧
    (∀ s d, 3 * s.length + 2 ≤ f → parseObjectLoop f s d ≠ .oof) := by
  induction f with
  | zero =>
    refine ⟨?_, ?_, ?_, ?_, ?_⟩ <;> intro s d h <;> omega
  | succ f ih =>
    obtain ⟨ihV, ihA, ihAL, ihO, ihOL⟩ := ih
    refine ⟨?_, ?_, ?_, ?_, ?_⟩
    · intro s d hf
      cases s with
      | nil => rw [parseValue_nil]; intro h; cases h
      | cons c t =>
        simp only [List.length_cons] at hf
        by_cases hd : d + 1 ≤ MaxDepth
        · by_cases h1 : c = 0x7B
          · subst h1
            rw [parseValue_object f t d hd]
            exact ihO _ _ (by omega)
          · by_cases h2 : c = 0x5B
            · subst h2
              rw [parseValue_array f t d hd]
              exact ihA _ _ (by omega)
            · by_cases h3 : c = 0x22
              · subst h3
                rw [parseValue_string f t d hd]
                cases hs : scanString t with
                | ok ss tl => intro h; cases h
                | err => intro h; cases h
                | oof => exact absurd hs (scanString_ne_oof t)
              · rw [parseValue_leaf f c t d hd h1 h2 h3]
                exact parseLeaf_ne_oof _
        · rw [parseValue_deep f _ d (by omega) (by simp)]; intro h; cases h
    · intro s d hf
      rw [parseArray_succ]
      cases hw : skipWS s with
      | nil => intro h; cases h
      | cons c t =>
        simp only
        have hl := skipWS_cons_length hw
        by_cases hc : c = 0x5D
        · simp only [hc, if_true]; intro h; cases h
        · simp only [hc, if_false]
          cases hl2 : parseArrayLoop f (c :: t) d with
          | ok a tl => intro h; cases h
          | err => intro h; cases h
          | oof => exact absurd hl2 (ihAL _ _ (by simp only [List.length_cons]; omega))
    · intro s d hf
      rw [parseArrayLoop_succ]
      have hws := skipWS_length_le s
      cases hv : parseValue f (skipWS s) d with
      | err => intro h; cases h
      | oof => exact absurd hv (ihV _ _ (by omega))
      | ok v s1 =>
        simp only
        have hlt := ((parse_consumed rt f).1 _ _ _ _ hv).length_lt
        cases hw : skipWS s1 with
        | nil => intro h; cases h
        | cons c t =>
          simp only
          have hl := skipWS_cons_length hw
          by_cases hc : c = 0x2C
          · simp only [hc, if_true]
            cases hl2 : parseArrayLoop f t d with
            | ok a tl => intro h; cases h
            | err => intro h; cases h
            | oof => exact absurd hl2 (ihAL _ _ (by omega))
          · simp only [hc, if_false]
            split <;> (intro h; cases h)
    · intro s d hf
      rw [parseObject_succ]
      cases hw : skipWS s with
      | nil => intro h; cases h
      | cons c t =>
        simp only
        have hl := skipWS_cons_length hw
        by_cases hc : c = 0x7D
        · simp only [hc, if_true]; intro h; cases h
        · simp only [hc, if_false]
          cases hl2 : parseObjectLoop f (c :: t) d with
          | ok a tl => intro h; cases h
          | err => intro h; cases h
          | oof => exact absurd hl2 (ihOL _ _ (by simp only [List.length_cons]; omega))
    · intro s d hf
      rw [parseObjectLoop_succ]
      cases hw : skipWS s with
      | nil => intro h; cases h
      | cons q s1 =>
        simp only
        have hl1 := skipWS_cons_length hw
        by_cases hq : q = 0x22
        · simp only [ne_eq, hq, not_true, if_false]
          cases hs : scanString s1 with
          | err => intro h; cases h
          | oof => exact absurd hs (scanString_ne_oof s1)
          | ok k s2 =>
            simp only
            have hk := (scanString_ok hs).1
            have hl2 : s2.length + 1 ≤ s1.length := by
              rw [hk]; simp
            cases hw2 : skipWS s2 with
            | nil => intro h; cases h
            | cons col s3 =>
              simp only
              have hl3 := skipWS_cons_length hw2
              by_cases hcol : col = 0x3A
              · simp only [ne_eq, hcol, not_true, if_false]
                have hws := skipWS_length_le s3
                cases hv : parseValue f (skipWS s3) d with
                | err => intro h; cases h
                | oof => exact absurd hv (ihV _ _ (by omega))
                | ok v s4 =>
                  simp only
                  have hlt := ((parse_consumed rt f).1 _ _ _ _ hv).length_lt
                  cases hw4 : skipWS s4 with
                  | nil => intro h; cases h
                  | cons c t =>
                    simp only
                    have hl4 := skipWS_cons_length hw4
                    by_cases hc : c = 0x2C
                    · simp only [hc, if_true]
                      cases hl5 : parseObjectLoop f t d with
                      | ok a tl => intro h; cases h
                      | err => intro h; cases h
                      | oof => exact absurd hl5 (ihOL _ _ (by omega))
                    · simp only [hc, if_false]
                      split <;> (intro h; cases h)
              · simp only [ne_eq, hcol, not_false_eq_true, if_true]; intro h; cases h
        · simp only [ne_eq, hq, not_false_eq_true, if_true]; intro h; cases h

/-- A successful result does not depend on the fuel: any other amount of fuel
gives the same result or runs out. -/
theorem parse_transfer (f : Nat) :
    (∀ s d v tail g, parseValue f s d = .ok v tail → parseValue g s d ≠ .oof →
      parseValue g s d = .ok v tail) ∧
    (∀ s d v tail g, parseArray f s d = .ok v tail → parseArray g s d ≠ .oof →
      parseArray g s d = .ok v tail) ∧
    (∀ s d a tail g, parseArrayLoop f s d = .ok a tail → parseArrayLoop g s d ≠ .oof →
      parseArrayLoop g s d = .ok a tail) ∧
    (∀ s d v tail g, parseObject f s d = .ok v tail → parseObject g s d ≠ .oof →
      parseObject g s d = .ok v tail) ∧
    (∀ s d kvs tail g, parseObjectLoop f s d = .ok kvs tail → parseObjectLoop g s d ≠ .oof →
      parseObjectLoop g s d = .ok kvs tail) := by
  induction f with
  | zero =>
    refine ⟨?_, ?_, ?_, ?_, ?_⟩ <;> intro s d v tail g h
    · rw [parseValue] at h; cases h
    · rw [parseArray] at h; cases h
    · rw [parseArrayLoop] at h; cases h
    · rw [parseObject] at h; cases h
    · rw [parseObjectLoop] at h; cases h
  | succ f ih =>
    obtain ⟨ihV, ihA, ihAL, ihO, ihOL⟩ := ih
    refine ⟨?_, ?_, ?_, ?_, ?_⟩
    · intro s d v tail g h hg
      cases g with
      | zero => rw [parseValue_zero] at hg; exact absurd rfl hg
      | succ g =>
        cases s with
        | nil => rw [parseValue_nil] at h; cases h
        | cons c t =>
          by_cases hd : d + 1 ≤ MaxDepth
          · by_cases h1 : c = 0x7B
            · subst h1
              rw [parseValue_object _ t d hd] at h hg ⊢
              exact ihO _ _ _ _ _ h hg
            · by_cases h2 : c = 0x5B
              · subst h2
                rw [parseValue_array _ t d hd] at h hg ⊢
                exact ihA _ _ _ _ _ h hg
              · by_cases h3 : c = 0x22
                · subst h3
                  rw [parseValue_string _ t d hd] at h ⊢
                  exact h
                · rw [parseValue_leaf _ c t d hd h1 h2 h3] at h ⊢
                  exact h
          · rw [parseValue_deep f _ d (by omega) (by simp)] at h; cases h
    · intro s d v tail g h hg
      cases g with
      | zero => rw [parseArray] at hg; exact absurd rfl hg
      | succ g =>
        obtain ⟨c, t, hw, hcase⟩ := parseArray_ok_inv h
        rcases hcase with ⟨rfl, rfl, rfl⟩ | ⟨hc, a, hl, rfl⟩
        · exact parseArray_empty d hw
        · refine parseArray_loop hw hc (ihAL _ _ _ _ _ hl ?_)
          intro hoof
          apply hg
          rw [parseArray_succ, hw]
          simp only [hc, if_false, hoof]
    · intro s d a tail g h hg
      cases g with
      | zero => rw [parseArrayLoop] at hg; exact absurd rfl hg
      | succ g =>
        obtain ⟨v, s1, c, t, hv, hw, hcase⟩ := parseArrayLoop_ok_inv h
        have hv2 : parseValue g (skipWS s) d = .ok v s1 := by
          refine ihV _ _ _ _ _ hv ?_
          intro hoof
          apply hg
          rw [parseArrayLoop_succ, hoof]
        rcases hcase with ⟨rfl, a1, hl, rfl⟩ | ⟨rfl, rfl, rfl⟩
        · refine parseArrayLoop_more hv2 hw (ihAL _ _ _ _ _ hl ?_)
          intro hoof
          apply hg
          rw [parseArrayLoop_succ, hv2]
          simp only [hw, if_true, hoof]
        · exact parseArrayLoop_last hv2 hw
    · intro s d v tail g h hg
      cases g with
      | zero => rw [parseObject] at hg; exact absurd rfl hg
      | succ g =>
        obtain ⟨c, t, hw, hcase⟩ := parseObject_ok_inv h
        rcases hcase with ⟨rfl, rfl, rfl⟩ | ⟨hc, a, hl, rfl⟩
        · exact parseObject_empty d hw
        · refine parseObject_loop hw hc (ihOL _ _ _ _ _ hl ?_)
          intro hoof
          apply hg
          rw [parseObject_succ, hw]
          simp only [hc, if_false, hoof]
    · intro s d kvs tail g h hg
      cases g with
      | zero => rw [parseObjectLoop] at hg; exact absurd rfl hg
      | succ g =>
        obtain ⟨s1, k, s2, s3, v, s4, c, t, hw, hs, hw2, hv, hw4, hcase⟩ :=
          parseObjectLoop_ok_inv h
        have hv2 : parseValue g (skipWS s3) d = .ok v s4 := by
          refine ihV _ _ _ _ _ hv ?_
          intro hoof
          apply hg
          rw [parseObjectLoop_succ, hw]
          simp only [ne_eq, not_true, if_false, hs, hw2, hoof]
        rcases hcase with ⟨rfl, a1, hl, rfl⟩ | ⟨rfl, rfl, rfl⟩
        · refine parseObjectLoop_more hw hs hw2 hv2 hw4 (ihOL _ _ _ _ _ hl ?_)
          intro hoof
          apply hg
          rw [parseObjectLoop_succ, hw]
          simp only [ne_eq, not_true, if_false, hs, hw2, hv2, hw4, if_true, hoof]
        · exact parseObjectLoop_last hw hs hw2 hv2 hw4

/-- The fuel `Parser.Parse` supplies is enough: whatever `parseValue` returns
with some fuel, it returns with that fuel. -/
theorem parseValue_fuel_enough (rt : Runtime) {f : Nat} {s : Bytes} {d : Nat} {v : Value}
    {tail : Bytes} (h : parseValue f s d = .ok v tail) (g : Nat) (hg : 3 * s.length + 1 ≤ g) :
    parseValue g s d = .ok v tail :=
  (parse_transfer f).1 s d v tail g h ((parse_ne_oof rt g).1 s d hg)

/-- `Parser.Parse` reports an error only when `parseValue` does, not because
the fuel ran out. -/
theorem Parse_fuel_enough (rt : Runtime) (s : Bytes) :
    parseValue (3 * (skipWS s).length + 1) (skipWS s) 0 ≠ .oof :=
  (parse_ne_oof rt _).1 _ _ (le_refl _)

/-! ## Unescaping what `escapeString` wrote -/

theorem splitBackslash_plain (c : Nat) (t : Bytes) (h : c ≠ 0x5C) :
    splitBackslash (c :: t) = (splitBackslash t).map fun p => (c :: p.1, p.2) := by
  rw [splitBackslash, if_neg h]

theorem splitBackslash_bs (t : Bytes) : splitBackslash (0x5C :: t) = some ([], t) := by
  rw [splitBackslash, if_pos rfl]

theorem splitBackslash_some {x pre s1 : Bytes} (h : splitBackslash x = some (pre, s1)) :
    x = pre ++ 0x5C :: s1 := by
  induction x generalizing pre with
  | nil => rw [splitBackslash] at h; cases h
  | cons c t ih =>
    by_cases hc : c = 0x5C
    · subst hc
      rw [splitBackslash_bs] at h
      cases h
      rfl
    · rw [splitBackslash_plain c t hc] at h
      simp only [Option.map_eq_some', Prod.mk.injEq] at h
      obtain ⟨⟨p1, p2⟩, h1, h2, h3⟩ := h
      subst h2 h3
      rw [ih h1]
      rfl

theorem splitBackslash_none {x : Bytes} (h : 0x5C ∉ x) : splitBackslash x = none := by
  induction x with
  | nil => rfl
  | cons c t ih =>
    simp only [List.mem_cons, not_or] at h
    rw [splitBackslash_plain c t (fun e => h.1 e.symm), ih h.2]
    rfl

theorem unescapeStep_length (ch : Nat) (s : Bytes) : (unescapeStep ch s).2.length ≤ s.length := by
  unfold unescapeStep
  by_cases h0 : ch = 0x22
  · rw [if_pos h0]
  rw [if_neg h0]
  by_cases h1 : ch = 0x5C
  · rw [if_pos h1]
  rw [if_neg h1]
  by_cases h2 : ch = 0x2F
  · rw [if_pos h2]
  rw [if_neg h2]
  by_cases h3 : ch = 0x62
  · rw [if_pos h3]
  rw [if_neg h3]
  by_cases h4 : ch = 0x66
  · rw [if_pos h4]
  rw [if_neg h4]
  by_cases h5 : ch = 0x6E
  · rw [if_pos h5]
  rw [if_neg h5]
  by_cases h6 : ch = 0x72
  · rw [if_pos h6]
  rw [if_neg h6]
  by_cases h7 : ch = 0x74
  · rw [if_pos h7]
  rw [if_neg h7]
  by_cases h9 : ch = 0x75
  · rw [if_pos h9]
    by_cases hl : s.length < 4
    · rw [if_pos hl]
    rw [if_neg hl]
    simp only
    cases parseHex4 (s.take 4) with
    | none => exact le_refl _
    | some x =>
      simp only
      by_cases hs : (!isSurrogate x) = true
      · rw [if_pos hs]; simp only [List.length_drop]; omega
      rw [if_neg hs]
      by_cases hc : (s.drop 4).length < 6 ∨ (s.drop 4).getD 0 0 ≠ 0x5C ∨ (s.drop 4).getD 1 0 ≠ 0x75
      · rw [if_pos hc]; simp only [List.length_drop]; omega
      rw [if_neg hc]
      cases parseHex4 (((s.drop 4).drop 2).take 4) with
      | none => simp only [List.length_drop]; omega
      | some x1 => simp only [List.length_drop]; omega
  · rw [if_neg h9]

theorem unescapeLoop_zero (s : Bytes) : unescapeLoop 0 s = [] := by
  rw [unescapeLoop]

theorem unescapeLoop_nil (f : Nat) : unescapeLoop f [] = [] := by
  cases f <;> rfl

theorem unescapeLoop_cons (f ch : Nat) (s : Bytes) :
    unescapeLoop (f + 1) (ch :: s) =
      match splitBackslash (unescapeStep ch s).2 with
      | none => (unescapeStep ch s).1 ++ (unescapeStep ch s).2
      | some (pre, s1) => (unescapeStep ch s).1 ++ pre ++ unescapeLoop f s1 := rfl

theorem unescapeLoop_fuel (f g : Nat) (s : Bytes) (hf : s.length ≤ f) (hg : s.length ≤ g) :
    unescapeLoop f s = unescapeLoop g s := by
  induction f generalizing g s with
  | zero =>
    have : s = [] := List.length_eq_zero.1 (by omega)
    subst this
    rw [unescapeLoop_nil, unescapeLoop_nil]
  | succ f ih =>
    cases s with
    | nil => rw [unescapeLoop_nil, unescapeLoop_nil]
    | cons ch s =>
      cases g with
      | zero => simp at hg
      | succ g =>
        rw [unescapeLoop_cons, unescapeLoop_cons]
        cases hsp : splitBackslash (unescapeStep ch s).2 with
        | none => rfl
        | some p =>
          obtain ⟨pre, s1⟩ := p
          simp only
          have h1 := splitBackslash_some hsp
          have h2 := unescapeStep_length ch s
          have h3 : s1.length < (unescapeStep ch s).2.length := by
            rw [h1]; simp only [List.length_append, List.length_cons]; omega
          simp only [List.length_cons] at hf hg
          rw [ih g s1 (by omega) (by omega)]

theorem unescapeStringBestEffort_eq (s : Bytes) :
    unescapeStringBestEffort s = unescapeFrom s.length s := rfl

theorem unescapeFrom_nil (f : Nat) : unescapeFrom f [] = [] := rfl

theorem unescapeFrom_plain (f c : Nat) (x : Bytes) (h : c ≠ 0x5C) :
    unescapeFrom f (c :: x) = c :: unescapeFrom f x := by
  unfold unescapeFrom
  rw [splitBackslash_plain c x h]
  cases splitBackslash x with
  | none => rfl
  | some p => rfl

theorem unescapeFrom_esc (f ch : Nat) (x : Bytes) :
    unescapeFrom (f + 1) (0x5C :: ch :: x) =
      (unescapeStep ch x).1 ++ unescapeFrom f (unescapeStep ch x).2 := by
  unfold unescapeFrom
  rw [splitBackslash_bs]
  simp only [List.nil_append]
  rw [unescapeLoop_cons]
  cases splitBackslash (unescapeStep ch x).2 with
  | none => rfl
  | some p => simp only [List.append_assoc]

theorem unescapeFrom_fuel (f g : Nat) (x : Bytes) (hf : x.length ≤ f) (hg : x.length ≤ g) :
    unescapeFrom f x = unescapeFrom g x := by
  unfold unescapeFrom
  cases hsp : splitBackslash x with
  | none => rfl
  | some p =>
    obtain ⟨pre, s1⟩ := p
    simp only
    have h1 := splitBackslash_some hsp
    have h3 : s1.length < x.length := by
      rw [h1]; simp only [List.length_append, List.length_cons]; omega
    rw [unescapeLoop_fuel f g s1 (by omega) (by omega)]

theorem unescapeFrom_no_backslash (f : Nat) (x : Bytes) (h : 0x5C ∉ x) : unescapeFrom f x = x := by
  unfold unescapeFrom
  rw [splitBackslash_none h]

theorem quoteSafe_cases {c : Nat} (h : quoteSafe c = true) :
    (0x20 ≤ c ∧ c ≤ 0x7E) ∨ c = 0x08 ∨ c = 0x09 ∨ c = 0x0A ∨ c = 0x0C ∨ c = 0x0D := by
  unfold quoteSafe at h
  simp only [Bool.or_eq_true, Bool.and_eq_true, decide_eq_true_eq, beq_iff_eq] at h
  omega

theorem quoteBody_ascii (rt : Runtime) (f c : Nat) (rest : Bytes) (h : c < 0x80) :
    quoteBody rt (f + 1) (c :: rest) = appendEscapedRune rt c ++ quoteBody rt f rest := by
  rw [quoteBody_cons]
  have h1 : ¬ c ≥ 0x80 := by omega
  simp only [h1, if_false]
  have h2 : ¬ (True ∧ c = 0xFFFD) := by
    intro h3
    have := h3.2
    omega
  rw [if_neg h2]
  rfl

theorem appendEscapedRune_printable (rt : Runtime) (c : Nat) (h1 : 0x20 ≤ c) (h2 : c ≤ 0x7E) :
    appendEscapedRune rt c = if c = 0x22 ∨ c = 0x5C then [0x5C, c] else [c] := by
  unfold appendEscapedRune
  by_cases hq : c = 0x22 ∨ c = 0x5C
  · rw [if_pos hq, if_pos hq]
  · rw [if_neg hq, if_neg hq]
    have hp : IsPrint rt c = true := by
      unfold IsPrint
      rw [if_pos (by omega), if_pos ⟨h1, h2⟩]
    rw [if_pos hp]
    unfold encodeRune
    rw [if_pos (by omega)]

theorem isCont_iff {b : Nat} : isCont b = true ↔ 0x80 ≤ b ∧ b ≤ 0xBF := by
  unfold isCont
  simp only [Bool.and_eq_true, decide_eq_true_eq]

/-- A multi-byte encoding that `utf8.DecodeRuneInString` accepts is the
encoding `utf8.AppendRune` writes for the rune it decodes to. -/
theorem decodeRune_valid (c : Nat) (rest : Bytes) (hc : 0x80 ≤ c)
    (hw : (decodeRune (c :: rest)).2 ≠ 1) :
    (c :: rest).take (decodeRune (c :: rest)).2 = encodeRune (decodeRune (c :: rest)).1 ∧
      0x80 ≤ (decodeRune (c :: rest)).1 ∧ (decodeRune (c :: rest)).1 ≤ 0x10FFFF ∧
      ¬ (0xD800 ≤ (decodeRune (c :: rest)).1 ∧ (decodeRune (c :: rest)).1 ≤ 0xDFFF) ∧
      2 ≤ (decodeRune (c :: rest)).2 := by
  unfold decodeRune at hw ⊢
  simp only at hw ⊢
  rw [if_neg (by omega)] at hw ⊢
  by_cases h1 : c < 0xC2
  · rw [if_pos h1] at hw; exact absurd rfl hw
  · rw [if_neg h1] at hw ⊢
    by_cases h2 : c < 0xE0
    · rw [if_pos h2] at hw ⊢
      cases rest with
      | nil => exact absurd rfl hw
      | cons s1 r1 =>
        simp only at hw ⊢
        by_cases hs1 : isCont s1 = true
        · rw [if_pos hs1]
          rw [isCont_iff] at hs1
          simp only [encodeRune]
          refine ⟨?_, by omega, by omega, by omega, by omega⟩
          rw [if_neg (by omega), if_pos (by omega)]
          simp only [List.take_succ_cons, List.take_zero, List.cons.injEq, and_true]
          constructor <;> omega
        · rw [if_neg hs1] at hw; exact absurd rfl hw
    · rw [if_neg h2] at hw ⊢
      by_cases h3 : c < 0xF0
      · rw [if_pos h3] at hw ⊢
        match rest, hw with
        | [], hw => exact absurd rfl hw
        | [_], hw => exact absurd rfl hw
        | s1 :: s2 :: r2, hw =>
          simp only at hw ⊢
          by_cases hr : s1 < (if c = 0xE0 then 0xA0 else 0x80) ∨ (if c = 0xED then 0x9F else 0xBF) < s1
          · rw [if_pos hr] at hw; exact absurd rfl hw
          · rw [if_neg hr] at hw ⊢
            by_cases hs2 : isCont s2 = true
            · simp only [hs2, Bool.not_true, Bool.false_eq_true, if_false]
              rw [isCont_iff] at hs2
              have hlo : (if c = 0xE0 then 0xA0 else 0x80) ≤ s1 := by omega
              have hhi : s1 ≤ (if c = 0xED then 0x9F else 0xBF) := by omega
              have hs1 : 0x80 ≤ s1 ∧ s1 ≤ 0xBF := by
                constructor
                · split at hlo <;> omega
                · split at hhi <;> omega
              have hrlo : 0x800 ≤ c % 16 * 4096 + s1 % 64 * 64 + s2 % 64 := by
                split at hlo <;> omega
              have hrsur : ¬ (0xD800 ≤ c % 16 * 4096 + s1 % 64 * 64 + s2 % 64 ∧
                  c % 16 * 4096 + s1 % 64 * 64 + s2 % 64 ≤ 0xDFFF) := by
                split at hhi <;> omega
              simp only [encodeRune]
              refine ⟨?_, by omega, by omega, hrsur, by omega⟩
              rw [if_neg (by omega), if_neg (by omega), if_neg (by omega), if_pos (by omega)]
              simp only [List.take_succ_cons, List.take_zero, List.cons.injEq, and_true]
              refine ⟨?_, ?_, ?_⟩ <;> omega
            · simp only [hs2, Bool.not_false, if_true] at hw
              exact absurd rfl hw
      · rw [if_neg h3] at hw ⊢
        by_cases h4 : c < 0xF5
        · rw [if_pos h4] at hw ⊢
          match rest, hw with
          | [], hw => exact absurd rfl hw
          | [_], hw => exact absurd rfl hw
          | [_, _], hw => exact absurd rfl hw
          | s1 :: s2 :: s3 :: r3, hw =>
            simp only at hw ⊢
            by_cases hr : s1 < (if c = 0xF0 then 0x90 else 0x80) ∨
                (if c = 0xF4 then 0x8F else 0xBF) < s1
            · rw [if_pos hr] at hw; exact absurd rfl hw
            · rw [if_neg hr] at hw ⊢
              by_cases hs2 : isCont s2 = true
              · simp only [hs2, Bool.not_true, Bool.false_eq_true, if_false] at hw ⊢
                by_cases hs3 : isCont s3 = true
                · simp only [hs3, Bool.not_true, Bool.false_eq_true, if_false]
                  rw [isCont_iff] at hs2 hs3
                  have hlo : (if c = 0xF0 then 0x90 else 0x80) ≤ s1 := by omega
                  have hhi : s1 ≤ (if c = 0xF4 then 0x8F else 0xBF) := by omega
                  have hs1 : 0x80 ≤ s1 ∧ s1 ≤ 0xBF := by
                    constructor
                    · split at hlo <;> omega
                    · split at hhi <;> omega
                  have hrlo : 0x10000 ≤
                      c % 8 * 262144 + s1 % 64 * 4096 + s2 % 64 * 64 + s3 % 64 := by
                    split at hlo <;> omega
                  have hrhi : c % 8 * 262144 + s1 % 64 * 4096 + s2 % 64 * 64 + s3 % 64 ≤
                      0x10FFFF := by
                    split at hhi <;> omega
                  simp only [encodeRune]
                  refine ⟨?_, by omega, hrhi, by omega, by omega⟩
                  rw [if_neg (by omega), if_neg (by omega), if_neg (by omega), if_neg (by omega)]
                  simp only [List.take_succ_cons, List.take_zero, List.cons.injEq, and_true]
                  refine ⟨?_, ?_, ?_, ?_⟩ <;> omega
                · simp only [hs3, Bool.not_false, if_true] at hw
                  exact absurd rfl hw
              · simp only [hs2, Bool.not_false, if_true] at hw
                exact absurd rfl hw
        · rw [if_neg h4] at hw; exact absurd rfl hw

theorem encodeRune_high (r : Nat) (h : 0x80 ≤ r) : ∀ b ∈ encodeRune r, 0x80 ≤ b := by
  intro b hb
  unfold encodeRune at hb
  rw [if_neg (by omega)] at hb
  split at hb
  · simp only [List.mem_cons, List.mem_singleton, List.not_mem_nil, or_false] at hb
    rcases hb with e | e <;> omega
  · split at hb
    · simp only [List.mem_cons, List.mem_singleton, List.not_mem_nil, or_false] at hb
      rcases hb with e | e | e <;> omega
    · split at hb
      · simp only [List.mem_cons, List.mem_singleton, List.not_mem_nil, or_false] at hb
        rcases hb with e | e | e <;> omega
      · simp only [List.mem_cons, List.mem_singleton, List.not_mem_nil, or_false] at hb
        rcases hb with e | e | e | e <;> omega

theorem hexVal_lowerhex (d : Nat) (h : d < 16) : hexVal (lowerhex d) = some d := by
  unfold lowerhex hexVal
  by_cases hd : d < 10
  · rw [if_pos hd, if_pos (by omega)]
    simp
  · rw [if_neg hd, if_neg (by omega), if_pos (by omega)]
    simp only [Option.some.injEq]
    omega

theorem isHexDigit_lowerhex (d : Nat) (h : d < 16) : isHexDigit (lowerhex d) = true := by
  unfold lowerhex isHexDigit isDigit
  simp only [Bool.or_eq_true, Bool.and_eq_true, decide_eq_true_eq]
  by_cases hd : d < 10
  · rw [if_pos hd]; omega
  · rw [if_neg hd]; omega

theorem parseHex4_lowerhex (r : Nat) (h : r < 0x10000) :
    parseHex4 [lowerhex (r / 4096 % 16), lowerhex (r / 256 % 16), lowerhex (r / 16 % 16),
      lowerhex (r % 16)] = some r := by
  have h3 := hexVal_lowerhex (r / 4096 % 16) (Nat.mod_lt _ (by decide))
  have h2 := hexVal_lowerhex (r / 256 % 16) (Nat.mod_lt _ (by decide))
  have h1 := hexVal_lowerhex (r / 16 % 16) (Nat.mod_lt _ (by decide))
  have h0 := hexVal_lowerhex (r % 16) (Nat.mod_lt _ (by decide))
  simp only [parseHex4, h3, h2, h1, h0, Option.some.injEq]
  omega

theorem appendEscapedRune_high (rt : Runtime) (r : Nat) (h : 0x80 ≤ r) :
    appendEscapedRune rt r =
      if IsPrint rt r then encodeRune r
      else if r < 0x10000 then
        [0x5C, 0x75, lowerhex (r / 4096 % 16), lowerhex (r / 256 % 16), lowerhex (r / 16 % 16),
          lowerhex (r % 16)]
      else
        [0x5C, 0x55, lowerhex (r / 268435456 % 16), lowerhex (r / 16777216 % 16),
          lowerhex (r / 1048576 % 16), lowerhex (r / 65536 % 16), lowerhex (r / 4096 % 16),
          lowerhex (r / 256 % 16), lowerhex (r / 16 % 16), lowerhex (r % 16)] := by
  unfold appendEscapedRune
  rw [if_neg (by omega)]
  by_cases hp : IsPrint rt r = true
  · rw [if_pos hp, if_pos hp]
  · rw [if_neg hp, if_neg hp, if_neg (by omega), if_neg (by omega), if_neg (by omega),
      if_neg (by omega), if_neg (by omega), if_neg (by omega), if_neg (by omega),
      if_neg (by omega)]

theorem unescapeStep_u (r : Nat) (y : Bytes) (h : r < 0x10000)
    (hs : ¬ (0xD800 ≤ r ∧ r ≤ 0xDFFF)) :
    unescapeStep 0x75 (lowerhex (r / 4096 % 16) :: lowerhex (r / 256 % 16) ::
      lowerhex (r / 16 % 16) :: lowerhex (r % 16) :: y) = (encodeRune r, y) := by
  unfold unescapeStep
  rw [if_neg (by decide), if_neg (by decide), if_neg (by decide), if_neg (by decide),
    if_neg (by decide), if_neg (by decide), if_neg (by decide), if_neg (by decide),
    if_pos rfl, if_neg (by simp only [List.length_cons]; omega)]
  simp only [List.take_succ_cons, List.take_zero, List.drop_succ_cons, List.drop_zero]
  rw [parseHex4_lowerhex r h]
  simp only
  have : isSurrogate r = false := by
    unfold isSurrogate
    simp only [Bool.and_eq_false_iff, decide_eq_false_iff_not]
    omega
  rw [this]
  rfl

theorem unescapeFrom_plain_run (f : Nat) (l x : Bytes) (hl : ∀ b ∈ l, b ≠ 0x5C) :
    unescapeFrom f (l ++ x) = l ++ unescapeFrom f x := by
  induction l with
  | nil => rfl
  | cons c l ih =>
    rw [List.cons_append, unescapeFrom_plain f c _ (hl c (List.mem_cons_self _ _)),
      ih (fun b hb => hl b (List.mem_cons_of_mem _ hb))]
    rfl

theorem quoteSafeText_of_bytes (rt : Runtime) (s : Bytes) (hs : ∀ b ∈ s, quoteSafe b = true)
    (n : Nat) (hn : s.length ≤ n) : quoteSafeText rt n s = true := by
  induction s generalizing n with
  | nil => cases n <;> rfl
  | cons c rest ih =>
    obtain ⟨m, rfl⟩ : ∃ m, n = m + 1 := ⟨n - 1, by simp only [List.length_cons] at hn; omega⟩
    have hc := hs c (List.mem_cons_self _ _)
    have hlt : c < 0x80 := by rcases quoteSafe_cases hc with h | h | h | h | h | h <;> omega
    rw [quoteSafeText, if_pos hlt, hc, ih (fun b hb => hs b (List.mem_cons_of_mem _ hb)) m
      (by simp only [List.length_cons] at hn; omega)]
    rfl

/-- The step of `quoteBody` on a text that is `quoteSafeText`: what is written
for the first rune and what is left, the written text being one that decodes
to the bytes of the rune. -/
theorem quoteBody_safe_step (rt : Runtime) (n c : Nat) (rest : Bytes)
    (hs : quoteSafeText rt (n + 1) (c :: rest) = true) :
    ∃ w out, 1 ≤ w ∧ quoteBody rt (n + 1) (c :: rest) = out ++ quoteBody rt n ((c :: rest).drop w) ∧
      quoteSafeText rt n ((c :: rest).drop w) = true ∧
      ((out = (c :: rest).take w ∧ ∀ b ∈ out, b ≠ 0x22 ∧ b ≠ 0x5C ∧ 0x20 ≤ b) ∨
        (∃ e d, out = [0x5C, e] ∧ (c :: rest).take w = [d] ∧ unescapeStep e = (fun x => ([d], x)) ∧
          (e = 0x22 ∨ e = 0x5C ∨ e = 0x2F ∨ e = 0x62 ∨ e = 0x66 ∨ e = 0x6E ∨ e = 0x72 ∨
            e = 0x74)) ∨
        (∃ r, r < 0x10000 ∧ ¬ (0xD800 ≤ r ∧ r ≤ 0xDFFF) ∧ encodeRune r = (c :: rest).take w ∧
          out = [0x5C, 0x75, lowerhex (r / 4096 % 16), lowerhex (r / 256 % 16),
            lowerhex (r / 16 % 16), lowerhex (r % 16)])) := by
  rw [quoteSafeText] at hs
  by_cases hlt : c < 0x80
  · rw [if_pos hlt] at hs
    simp only [Bool.and_eq_true] at hs
    obtain ⟨hc, hrest⟩ := hs
    refine ⟨1, appendEscapedRune rt c, le_refl _, quoteBody_ascii rt n c rest hlt, hrest, ?_⟩
    simp only [List.take_succ_cons, List.take_zero]
    have key : ∀ e d : Nat, appendEscapedRune rt c = [0x5C, e] →
        unescapeStep e = (fun x => ([d], x)) → d = c →
        (e = 0x22 ∨ e = 0x5C ∨ e = 0x2F ∨ e = 0x62 ∨ e = 0x66 ∨ e = 0x6E ∨ e = 0x72 ∨
            e = 0x74) →
        ∃ e d, appendEscapedRune rt c = [0x5C, e] ∧ [c] = [d] ∧
          unescapeStep e = (fun x => ([d], x)) ∧
          (e = 0x22 ∨ e = 0x5C ∨ e = 0x2F ∨ e = 0x62 ∨ e = 0x66 ∨ e = 0x6E ∨ e = 0x72 ∨
            e = 0x74) :=
      fun e d h1 h2 h3 h4 => ⟨e, d, h1, by rw [h3], h2, h4⟩
    rcases quoteSafe_cases hc with ⟨h1, h2⟩ | h | h | h | h | h
    · by_cases hq : c = 0x22 ∨ c = 0x5C
      · have he : appendEscapedRune rt c = [0x5C, c] := by
          rw [appendEscapedRune_printable rt c h1 h2, if_pos hq]
        rcases hq with hq | hq
        · subst hq
          exact Or.inr (Or.inl (key 0x22 0x22 he (by funext x; rfl) rfl (by decide)))
        · subst hq
          exact Or.inr (Or.inl (key 0x5C 0x5C he (by funext x; rfl) rfl (by decide)))
      · have he : appendEscapedRune rt c = [c] := by
          rw [appendEscapedRune_printable rt c h1 h2, if_neg hq]
        refine Or.inl ⟨he, fun b hb => ?_⟩
        rw [he, List.mem_singleton] at hb
        subst hb
        exact ⟨fun e => hq (Or.inl e), fun e => hq (Or.inr e), h1⟩
    · subst h
      exact Or.inr (Or.inl (key 0x62 0x08 (by rfl) (by funext x; rfl) rfl (by decide)))
    · subst h
      exact Or.inr (Or.inl (key 0x74 0x09 (by rfl) (by funext x; rfl) rfl (by decide)))
    · subst h
      exact Or.inr (Or.inl (key 0x6E 0x0A (by rfl) (by funext x; rfl) rfl (by decide)))
    · subst h
      exact Or.inr (Or.inl (key 0x66 0x0C (by rfl) (by funext x; rfl) rfl (by decide)))
    · subst h
      exact Or.inr (Or.inl (key 0x72 0x0D (by rfl) (by funext x; rfl) rfl (by decide)))
  · rw [if_neg hlt] at hs
    simp only [Bool.and_eq_true, Bool.or_eq_true, decide_eq_true_eq] at hs
    obtain ⟨⟨hw, hp⟩, hrest⟩ := hs
    obtain ⟨htake, hr80, hrmax, hrsur, hw2⟩ := decodeRune_valid c rest (by omega) hw
    refine ⟨(decodeRune (c :: rest)).2, appendEscapedRune rt (decodeRune (c :: rest)).1,
      by omega, ?_, hrest, ?_⟩
    · rw [quoteBody_cons]
      simp only [ge_iff_le, if_pos (show 0x80 ≤ c by omega)]
      rw [if_neg (fun h => hw h.1)]
    · rw [appendEscapedRune_high rt _ hr80]
      by_cases hpr : IsPrint rt (decodeRune (c :: rest)).1 = true
      · rw [if_pos hpr]
        refine Or.inl ⟨htake.symm, fun b hb => ?_⟩
        have := encodeRune_high _ hr80 b hb
        omega
      · rw [if_neg hpr]
        have hlt2 : (decodeRune (c :: rest)).1 < 0x10000 := by
          rcases hp with h | h
          · exact absurd h hpr
          · exact h
        rw [if_pos hlt2]
        exact Or.inr (Or.inr ⟨_, hlt2, hrsur, htake.symm, rfl⟩)

/-- Unescaping undoes the quoting of a text that is `quoteSafeText`. -/
theorem unescapeFrom_quoteBody_text (rt : Runtime) (n : Nat) :
    ∀ s, quoteSafeText rt n s = true → s.length ≤ n →
      ∀ f, (quoteBody rt n s).length ≤ f → unescapeFrom f (quoteBody rt n s) = s := by
  induction n with
  | zero =>
    intro s _ hn f _
    have : s = [] := List.length_eq_zero.1 (by omega)
    subst this
    rw [quoteBody_zero]; rfl
  | succ n ih =>
    intro s hs hn f hf
    cases s with
    | nil => rw [quoteBody_nil]; rfl
    | cons c rest =>
      obtain ⟨w, out, hw1, hq, hsafe, hcase⟩ := quoteBody_safe_step rt n c rest hs
      have hdl : ((c :: rest).drop w).length ≤ n := by
        rw [List.length_drop]
        simp only [List.length_cons] at hn ⊢
        omega
      rw [hq] at hf ⊢
      simp only [List.length_append] at hf
      rcases hcase with ⟨ho, hpl⟩ | ⟨e, d, ho, htk, hstep, _⟩ | ⟨r, hr, hsur, henc, ho⟩
      · rw [unescapeFrom_plain_run f out _ (fun b hb => (hpl b hb).2.1),
          ih _ hsafe hdl f (by omega), ho, List.take_append_drop]
      · rw [ho] at hf ⊢
        simp only [List.length_cons, List.length_nil] at hf
        obtain ⟨g, rfl⟩ : ∃ g, f = g + 1 := ⟨f - 1, by omega⟩
        simp only [List.cons_append, List.nil_append]
        rw [unescapeFrom_esc, hstep]
        simp only
        rw [ih _ hsafe hdl g (by omega), ← htk, List.take_append_drop]
      · rw [ho] at hf ⊢
        simp only [List.length_cons, List.length_nil] at hf
        obtain ⟨g, rfl⟩ : ∃ g, f = g + 1 := ⟨f - 1, by omega⟩
        simp only [List.cons_append, List.nil_append]
        rw [unescapeFrom_esc, unescapeStep_u r _ hr hsur]
        simp only
        rw [ih _ hsafe hdl g (by omega), henc, List.take_append_drop]

theorem drop_take_quotes (x : Bytes) :
    (([0x22] ++ x ++ [0x22]).drop 1).take (([0x22] ++ x ++ [0x22]).length - 2) = x := by
  simp

theorem NewString_eq (rt : Runtime) (s : Bytes) :
    Arena.NewString rt s =
      .rawString (if hasSpecialChars s then quoteBody rt s.length s else s) := by
  unfold Arena.NewString escapeString AppendQuote
  cases h : hasSpecialChars s with
  | true =>
    simp only [Bool.not_true, Bool.false_eq_true, if_false, if_true]
    rw [drop_take_quotes]
  | false =>
    simp only [Bool.not_false, if_true, Bool.false_eq_true, if_false]
    rw [drop_take_quotes]

/-- The string value `Arena.NewString` makes of a `safeText` decodes to that
text. -/
theorem NewString_StringBytes (rt : Runtime) (s : Bytes) (hs : safeText rt s) :
    (Arena.NewString rt s).StringBytes = some s := by
  rw [NewString_eq]
  unfold Value.StringBytes
  simp only [Option.some.injEq]
  rw [unescapeStringBestEffort_eq]
  by_cases h : hasSpecialChars s = true
  · rw [if_pos h]
    rcases hs with hs | hs
    · rw [h] at hs; cases hs
    · exact unescapeFrom_quoteBody_text rt _ s hs (le_refl _) _ (le_refl _)
  · rw [if_neg h]
    simp only [Bool.not_eq_true] at h
    exact unescapeFrom_no_backslash _ s (fun hm => (hasSpecialChars_false h _ hm).2.1 rfl)

/-! ## Reading a marshalled value again -/

theorem isDelim_not_num {c : Nat} (h : isDelim c = true) : isNumChar c = false := by
  unfold isDelim at h
  simp only [Bool.or_eq_true, beq_iff_eq] at h
  rcases h with (h | h) | h <;> subst h <;> rfl

theorem isDelim_not_ws {c : Nat} (h : isDelim c = true) : isWS c = false := by
  unfold isDelim at h
  simp only [Bool.or_eq_true, beq_iff_eq] at h
  rcases h with (h | h) | h <;> subst h <;> rfl

theorem parseRawNumberLoop_skip (s mid : Bytes) (hmid : ∀ b ∈ mid, isNumChar b = true)
    (pre rest : Bytes) :
    parseRawNumberLoop s pre (mid ++ rest) = parseRawNumberLoop s (pre ++ mid) rest := by
  induction mid generalizing pre with
  | nil => simp
  | cons b mid ih =>
    rw [List.cons_append, parseRawNumberLoop_num _ _ _ _ (hmid b (List.mem_cons_self _ _))]
    rw [ih (fun x hx => hmid x (List.mem_cons_of_mem _ hx))]
    simp

/-- How `parseRawNumberLoop` came to a number that is followed by more text:
it is a run of number bytes stopped by another byte, or an optional sign with
the word `inf` or `nan`. -/
theorem parseRawNumberLoop_shape (s : Bytes) (rest pre ns tail : Bytes) (hs : s = pre ++ rest)
    (hpre : ∀ b ∈ pre, isNumChar b = true)
    (h : parseRawNumberLoop s pre rest = .ok ns tail) (ht : tail ≠ []) :
    ((∀ b ∈ ns, isNumChar b = true) ∧
      ¬ (ns.length = 0 ∨ (ns.length = 1 ∧ (ns.getD 0 0 = 0x2D ∨ ns.getD 0 0 = 0x2B)))) ∨
    (∃ p w0 w1 w2, ns = p ++ [w0, w1, w2] ∧ (∀ b ∈ p, isNumChar b = true) ∧
      (p.length = 0 ∨ (p.length = 1 ∧ (p.getD 0 0 = 0x2D ∨ p.getD 0 0 = 0x2B))) ∧
      isNumChar w0 = false ∧
      (equalFold [w0, w1, w2] [0x69, 0x6E, 0x66] || equalFold [w0, w1, w2] [0x6E, 0x61, 0x6E]) =
        true) := by
  induction rest generalizing pre with
  | nil =>
    rw [parseRawNumberLoop_nil] at h
    cases h
    exact absurd rfl ht
  | cons ch rest ih =>
    by_cases hn : isNumChar ch = true
    · rw [parseRawNumberLoop_num _ _ _ _ hn] at h
      refine ih (pre ++ [ch]) (by rw [hs]; simp) ?_ h
      intro b hb
      rcases List.mem_append.1 hb with hb | hb
      · exact hpre b hb
      · simp only [List.mem_singleton] at hb; rw [hb]; exact hn
    · have hn : isNumChar ch = false := by simpa using hn
      by_cases hc : pre.length = 0 ∨ (pre.length = 1 ∧ (pre.getD 0 0 = 0x2D ∨ pre.getD 0 0 = 0x2B))
      · rw [parseRawNumberLoop_word _ _ _ _ hn hc] at h
        split at h
        · rename_i h3
          cases h
          right
          obtain ⟨hlen, hfold⟩ := h3
          match rest, hlen with
          | w1 :: w2 :: rest2, _ =>
            refine ⟨pre, ch, w1, w2, ?_, hpre, hc, hn, ?_⟩
            · rw [hs, List.take_append_eq_append_take]
              have : pre.length + 3 - pre.length = 3 := by omega
              rw [List.take_of_length_le (by omega), this]
              rfl
            · exact hfold
        · cases h
      · rw [parseRawNumberLoop_stop _ _ _ _ hn hc] at h
        cases h
        exact Or.inl ⟨hpre, hc⟩

/-- A number followed by more text is read again as the same number when a
delimiter follows it. -/
theorem parseRawNumber_again {s ns tail : Bytes} (h : parseRawNumber s = .ok ns tail)
    (ht : tail ≠ []) (c : Nat) (tail2 : Bytes) (hc : isDelim c = true) :
    parseRawNumber (ns ++ c :: tail2) = .ok ns (c :: tail2) := by
  have hcn := isDelim_not_num hc
  rcases parseRawNumberLoop_shape s s [] ns tail rfl (by simp) h ht with ⟨h1, h2⟩ |
    ⟨p, w0, w1, w2, rfl, hp, hsign, hw0, hfold⟩
  · unfold parseRawNumber
    rw [parseRawNumberLoop_skip _ ns h1 [] (c :: tail2)]
    simp only [List.nil_append]
    exact parseRawNumberLoop_stop _ _ _ _ hcn h2
  · unfold parseRawNumber
    rw [List.append_assoc, parseRawNumberLoop_skip _ p hp [] _]
    simp only [List.nil_append, List.cons_append]
    rw [parseRawNumberLoop_word _ _ _ _ hw0 hsign]
    have h3 : 3 ≤ (w0 :: w1 :: w2 :: c :: tail2).length := by simp
    have h4 : (w0 :: w1 :: w2 :: c :: tail2).take 3 = [w0, w1, w2] := rfl
    rw [if_pos ⟨h3, by rw [h4]; exact hfold⟩]
    have h5 : p ++ w0 :: w1 :: w2 :: c :: tail2 = (p ++ [w0, w1, w2]) ++ c :: tail2 := by simp
    rw [h5]
    have h6 : p.length + 3 = (p ++ [w0, w1, w2]).length := by simp
    rw [h6, List.take_left, List.drop_left]

theorem isDelim_cases {c : Nat} (h : isDelim c = true) : c = 0x2C ∨ c = 0x5D ∨ c = 0x7D := by
  unfold isDelim at h
  simp only [Bool.or_eq_true, beq_iff_eq] at h
  rcases h with (h | h) | h
  · exact Or.inl h
  · exact Or.inr (Or.inl h)
  · exact Or.inr (Or.inr h)

/-- A value read by a branch of `parseValue` that does not recurse, and
followed by more text, is read again from its marshalled text when a delimiter
follows. -/
theorem parseLeaf_again (rt : Runtime) {s : Bytes} {v : Value} {tail : Bytes}
    (h : parseLeaf s = .ok v tail) (ht : tail ≠ []) (c : Nat) (tail2 : Bytes)
    (hc : isDelim c = true) :
    parseLeaf (v.MarshalTo rt ++ c :: tail2) = .ok v (c :: tail2) := by
  cases s with
  | nil => rw [parseLeaf] at h; cases h
  | cons c0 t =>
    by_cases h1 : c0 = 0x74
    · subst h1
      rw [parseLeaf_true] at h
      split at h
      · cases h
        rw [Value.MarshalTo]
        show parseLeaf (0x74 :: 0x72 :: 0x75 :: 0x65 :: c :: tail2) = _
        rw [parseLeaf_true]
        rfl
      · cases h
    · by_cases h2 : c0 = 0x66
      · subst h2
        rw [parseLeaf_false] at h
        split at h
        · cases h
          rw [Value.MarshalTo]
          show parseLeaf (0x66 :: 0x61 :: 0x6C :: 0x73 :: 0x65 :: c :: tail2) = _
          rw [parseLeaf_false]
          rfl
        · cases h
      · by_cases h3 : c0 = 0x6E
        · subst h3
          rw [parseLeaf_n] at h
          split at h
          · cases h
            rw [Value.MarshalTo]
            show parseLeaf (0x6E :: 0x75 :: 0x6C :: 0x6C :: c :: tail2) = _
            rw [parseLeaf_n]
            rfl
          · split at h
            · rename_i hnan
              cases h
              obtain ⟨hlen, hfold⟩ := hnan
              match t, hlen with
              | w1 :: w2 :: t2, _ =>
                rw [Value.MarshalTo]
                show parseLeaf (0x6E :: w1 :: w2 :: c :: tail2) = _
                rw [parseLeaf_n]
                have hne : ¬ (0x6E :: w1 :: w2 :: c :: tail2).take 4 = [0x6E, 0x75, 0x6C, 0x6C] := by
                  intro he
                  simp only [List.take_succ_cons, List.take_zero, List.cons.injEq, and_true,
                    true_and] at he
                  rcases isDelim_cases hc with e | e | e <;> omega
                rw [if_neg hne, if_pos ⟨by simp, hfold⟩]
                rfl
            · cases h
        · rw [parseLeaf_number c0 t h1 h2 h3] at h
          cases hn : parseRawNumber (c0 :: t) with
          | ok ns tl =>
            rw [hn] at h
            cases h
            obtain ⟨h4, h5⟩ := parseRawNumber_split hn
            rw [Value.MarshalTo]
            have h6 := parseRawNumber_again hn ht c tail2 hc
            cases ns with
            | nil => exact absurd rfl (h5 (by simp))
            | cons n0 ns2 =>
              have : n0 = c0 := by
                have := congrArg List.head? h4
                simpa using this.symm
              subst this
              rw [List.cons_append, parseLeaf_number n0 _ h1 h2 h3]
              rw [List.cons_append] at h6
              rw [h6]
          | err => rw [hn] at h; cases h
          | oof => rw [hn] at h; cases h

/-- The marshalled text of a parsed value starts with the byte the value was
read from. -/
theorem parseValue_head (rt : Runtime) {f : Nat} {s : Bytes} {d : Nat} {v : Value}
    {tail : Bytes} (h : parseValue f s d = .ok v tail) :
    ∃ c t m, s = c :: t ∧ v.MarshalTo rt = c :: m := by
  cases f with
  | zero => rw [parseValue_zero] at h; cases h
  | succ f =>
    cases s with
    | nil => rw [parseValue_nil] at h; cases h
    | cons c t =>
      refine ⟨c, t, ?_⟩
      by_cases hd : d + 1 ≤ MaxDepth
      · by_cases h1 : c = 0x7B
        · subst h1
          rw [parseValue_object f t d hd] at h
          obtain ⟨kvs, rfl, _⟩ := (parse_consumed rt f).2.2.2.1 _ _ _ _ h
          exact ⟨_, rfl, by rw [Value.MarshalTo]; rfl⟩
        · by_cases h2 : c = 0x5B
          · subst h2
            rw [parseValue_array f t d hd] at h
            obtain ⟨a, rfl, _⟩ := (parse_consumed rt f).2.1 _ _ _ _ h
            exact ⟨_, rfl, by rw [Value.MarshalTo]; rfl⟩
          · by_cases h3 : c = 0x22
            · subst h3
              rw [parseValue_string f t d hd] at h
              cases hs : scanString t with
              | ok ss tl =>
                rw [hs] at h; cases h
                exact ⟨_, rfl, by rw [Value.MarshalTo]; rfl⟩
              | err => rw [hs] at h; cases h
              | oof => rw [hs] at h; cases h
            · rw [parseValue_leaf f c t d hd h1 h2 h3] at h
              obtain ⟨h4, h5, _⟩ := parseLeaf_ok rt h
              cases hm : v.MarshalTo rt with
              | nil => exact absurd hm h5
              | cons m0 m =>
                rw [hm] at h4
                have := congrArg List.head? h4
                simp only [List.head?_cons, List.cons_append, Option.some.injEq] at this
                subst this
                exact ⟨m, rfl, rfl⟩
      · rw [parseValue_deep f _ d (by omega) (by simp)] at h; cases h

theorem skipWS_marshal (rt : Runtime) {f : Nat} {s : Bytes} {d : Nat} {v : Value} {s1 : Bytes}
    (h : parseValue f (skipWS s) d = .ok v s1) (x : Bytes) :
    skipWS (v.MarshalTo rt ++ x) = v.MarshalTo rt ++ x := by
  obtain ⟨c, t, m, h1, h2⟩ := parseValue_head rt h
  rw [h2, List.cons_append]
  exact skipWS_of_not_ws _ (skipWS_head h1)

theorem parseArrayLoop_head (rt : Runtime) {f : Nat} {s : Bytes} {d : Nat} {a : List Value}
    {tail : Bytes} (h : parseArrayLoop f s d = .ok a tail) :
    ∃ c t m, skipWS s = c :: t ∧ marshalArray rt a = c :: m := by
  cases f with
  | zero => rw [parseArrayLoop] at h; cases h
  | succ f =>
    obtain ⟨v, s1, c, t, hv, _, hcase⟩ := parseArrayLoop_ok_inv h
    obtain ⟨c0, t0, m, h1, h2⟩ := parseValue_head rt hv
    refine ⟨c0, t0, ?_⟩
    rcases hcase with ⟨_, a1, hl, rfl⟩ | ⟨_, rfl, _⟩
    · have hne := ((parse_consumed rt f).2.2.1 _ _ _ _ hl).1
      exact ⟨m ++ [0x2C] ++ marshalArray rt a1, h1, by rw [marshalArray_cons rt v a1 hne, h2]; simp⟩
    · exact ⟨m, h1, by rw [marshalArray_single, h2]⟩

theorem parseObjectLoop_head (rt : Runtime) {f : Nat} {s : Bytes} {d : Nat}
    {kvs : List (Bytes × Value)} {tail : Bytes} (h : parseObjectLoop f s d = .ok kvs tail) :
    ∃ t m, skipWS s = 0x22 :: t ∧ marshalKVs rt false kvs = 0x22 :: m := by
  cases f with
  | zero => rw [parseObjectLoop] at h; cases h
  | succ f =>
    obtain ⟨s1, k, s2, s3, v, s4, c, t, hw, _, _, _, _, hcase⟩ := parseObjectLoop_ok_inv h
    refine ⟨s1, ?_⟩
    rcases hcase with ⟨_, kvs1, hl, rfl⟩ | ⟨_, rfl, _⟩
    · have hne := ((parse_consumed rt f).2.2.2.2 _ _ _ _ hl).1
      exact ⟨k ++ 0x22 :: 0x3A :: (v.MarshalTo rt ++ 0x2C :: marshalKVs rt false kvs1), hw,
        by rw [marshalKVs_cons rt false k v kvs1 hne]; simp⟩
    · exact ⟨k ++ 0x22 :: 0x3A :: v.MarshalTo rt, hw, by rw [marshalKVs_single]; simp⟩

/-- The marshalled text of a parsed value, followed by a delimiter, parses to
the same value with the same fuel and at the same depth. -/
theorem parse_again (rt : Runtime) (f : Nat) :
    (∀ s d v tail, parseValue f s d = .ok v tail → tail ≠ [] → ∀ c tail2, isDelim c = true →
      parseValue f (v.MarshalTo rt ++ c :: tail2) d = .ok v (c :: tail2)) ∧
    (∀ s d v tail, parseArray f s d = .ok v tail → ∃ a, v = .array a ∧
      ∀ tail2, parseArray f (marshalArray rt a ++ 0x5D :: tail2) d = .ok v tail2) ∧
    (∀ s d a tail, parseArrayLoop f s d = .ok a tail →
      ∀ tail2, parseArrayLoop f (marshalArray rt a ++ 0x5D :: tail2) d = .ok a tail2) ∧
    (∀ s d v tail, parseObject f s d = .ok v tail → ∃ kvs, v = .object kvs false ∧
      ∀ tail2, parseObject f (marshalKVs rt false kvs ++ 0x7D :: tail2) d = .ok v tail2) ∧
    (∀ s d kvs tail, parseObjectLoop f s d = .ok kvs tail →
      ∀ tail2, parseObjectLoop f (marshalKVs rt false kvs ++ 0x7D :: tail2) d = .ok kvs tail2) := by
  induction f with
  | zero =>
    refine ⟨?_, ?_, ?_, ?_, ?_⟩ <;> intro s d v tail h
    · rw [parseValue] at h; cases h
    · rw [parseArray] at h; cases h
    · rw [parseArrayLoop] at h; cases h
    · rw [parseObject] at h; cases h
    · rw [parseObjectLoop] at h; cases h
  | succ f ih =>
    obtain ⟨ihV, ihA, ihAL, ihO, ihOL⟩ := ih
    refine ⟨?_, ?_, ?_, ?_, ?_⟩
    · intro s d v tail h ht c tail2 hc
      cases s with
      | nil => rw [parseValue_nil] at h; cases h
      | cons c0 t =>
        by_cases hd : d + 1 ≤ MaxDepth
        · by_cases h1 : c0 = 0x7B
          · subst h1
            rw [parseValue_object f t d hd] at h
            obtain ⟨kvs, rfl, hk⟩ := ihO _ _ _ _ h
            have e : (Value.object kvs false).MarshalTo rt ++ c :: tail2 =
                0x7B :: (marshalKVs rt false kvs ++ 0x7D :: (c :: tail2)) := by
              rw [Value.MarshalTo]; simp
            rw [e, parseValue_object f _ d hd]
            exact hk _
          · by_cases h2 : c0 = 0x5B
            · subst h2
              rw [parseValue_array f t d hd] at h
              obtain ⟨a, rfl, hk⟩ := ihA _ _ _ _ h
              have e : (Value.array a).MarshalTo rt ++ c :: tail2 =
                  0x5B :: (marshalArray rt a ++ 0x5D :: (c :: tail2)) := by
                rw [Value.MarshalTo]; simp
              rw [e, parseValue_array f _ d hd]
              exact hk _
            · by_cases h3 : c0 = 0x22
              · subst h3
                rw [parseValue_string f t d hd] at h
                cases hs : scanString t with
                | ok ss tl =>
                  rw [hs] at h
                  cases h
                  have e : (Value.rawString ss).MarshalTo rt ++ c :: tail2 =
                      0x22 :: (ss ++ 0x22 :: (c :: tail2)) := by
                    rw [Value.MarshalTo]; simp
                  rw [e, parseValue_string f _ d hd, (scanString_ok hs).2]
                | err => rw [hs] at h; cases h
                | oof => rw [hs] at h; cases h
              · obtain ⟨c1, t1, m, e1, e2⟩ := parseValue_head rt h
                cases e1
                rw [parseValue_leaf f c0 t d hd h1 h2 h3] at h
                have h4 := parseLeaf_again rt h ht c tail2 hc
                rw [e2, List.cons_append] at h4 ⊢
                rw [parseValue_leaf f c0 _ d hd h1 h2 h3]
                exact h4
        · rw [parseValue_deep f _ d (by omega) (by simp)] at h; cases h
    · intro s d v tail h
      obtain ⟨c, t, hw, hcase⟩ := parseArray_ok_inv h
      rcases hcase with ⟨rfl, rfl, rfl⟩ | ⟨hc, a, hl, rfl⟩
      · refine ⟨[], rfl, fun tail2 => ?_⟩
        rw [marshalArray]
        exact parseArray_empty d (skipWS_of_not_ws _ (by rfl))
      · refine ⟨a, rfl, fun tail2 => ?_⟩
        obtain ⟨c1, t1, m, e1, e2⟩ := parseArrayLoop_head rt hl
        have hcw : isWS c = false := skipWS_head hw
        rw [skipWS_of_not_ws t hcw] at e1
        cases e1
        have hl2 := ihAL _ _ _ _ hl tail2
        rw [e2, List.cons_append] at hl2 ⊢
        exact parseArray_loop (skipWS_of_not_ws _ hcw) hc hl2
    · intro s d a tail h tail2
      obtain ⟨v, s1, c, t, hv, hw, hcase⟩ := parseArrayLoop_ok_inv h
      have hs1 : s1 ≠ [] := by
        intro e; rw [e] at hw; cases hw
      rcases hcase with ⟨rfl, a1, hl, rfl⟩ | ⟨rfl, rfl, rfl⟩
      · have hne := ((parse_consumed rt f).2.2.1 _ _ _ _ hl).1
        have e : marshalArray rt (v :: a1) ++ 0x5D :: tail2 =
            v.MarshalTo rt ++ 0x2C :: (marshalArray rt a1 ++ 0x5D :: tail2) := by
          rw [marshalArray_cons rt v a1 hne]; simp
        rw [e]
        refine parseArrayLoop_more ?_ (skipWS_of_not_ws _ (by rfl)) (ihAL _ _ _ _ hl tail2)
        rw [skipWS_marshal rt hv]
        exact ihV _ _ _ _ hv hs1 _ _ (by rfl)
      · have e : marshalArray rt [v] ++ 0x5D :: tail2 = v.MarshalTo rt ++ 0x5D :: tail2 := by
          rw [marshalArray_single]
        rw [e]
        refine parseArrayLoop_last ?_ (skipWS_of_not_ws _ (by rfl))
        rw [skipWS_marshal rt hv]
        exact ihV _ _ _ _ hv hs1 _ _ (by rfl)
    · intro s d v tail h
      obtain ⟨c, t, hw, hcase⟩ := parseObject_ok_inv h
      rcases hcase with ⟨rfl, rfl, rfl⟩ | ⟨hc, kvs, hl, rfl⟩
      · refine ⟨[], rfl, fun tail2 => ?_⟩
        rw [marshalKVs]
        exact parseObject_empty d (skipWS_of_not_ws _ (by rfl))
      · refine ⟨kvs, rfl, fun tail2 => ?_⟩
        obtain ⟨t1, m, e1, e2⟩ := parseObjectLoop_head rt hl
        have hcw : isWS c = false := skipWS_head hw
        rw [skipWS_of_not_ws t hcw] at e1
        cases e1
        have hl2 := ihOL _ _ _ _ hl tail2
        rw [e2, List.cons_append] at hl2 ⊢
        exact parseObject_loop (skipWS_of_not_ws _ hcw) hc hl2
    · intro s d kvs tail h tail2
      obtain ⟨s1, k, s2, s3, v, s4, c, t, hw, hs, hw2, hv, hw4, hcase⟩ :=
        parseObjectLoop_ok_inv h
      have hs4 : s4 ≠ [] := by
        intro e; rw [e] at hw4; cases hw4
      rcases hcase with ⟨rfl, kvs1, hl, rfl⟩ | ⟨rfl, rfl, rfl⟩
      · have hne := ((parse_consumed rt f).2.2.2.2 _ _ _ _ hl).1
        have e : marshalKVs rt false ((k, v) :: kvs1) ++ 0x7D :: tail2 =
            0x22 :: (k ++ 0x22 :: 0x3A :: (v.MarshalTo rt ++
              0x2C :: (marshalKVs rt false kvs1 ++ 0x7D :: tail2))) := by
          rw [marshalKVs_cons rt false k v kvs1 hne]; simp
        rw [e]
        refine parseObjectLoop_more (skipWS_of_not_ws _ (by rfl)) ((scanString_ok hs).2 _)
          (skipWS_of_not_ws _ (by rfl)) ?_ (skipWS_of_not_ws _ (by rfl)) (ihOL _ _ _ _ hl tail2)
        rw [skipWS_marshal rt hv]
        exact ihV _ _ _ _ hv hs4 _ _ (by rfl)
      · have e : marshalKVs rt false [(k, v)] ++ 0x7D :: tail2 =
            0x22 :: (k ++ 0x22 :: 0x3A :: (v.MarshalTo rt ++ 0x7D :: tail2)) := by
          rw [marshalKVs_single]; simp
        rw [e]
        refine parseObjectLoop_last (skipWS_of_not_ws _ (by rfl)) ((scanString_ok hs).2 _)
          (skipWS_of_not_ws _ (by rfl)) ?_ (skipWS_of_not_ws _ (by rfl))
        rw [skipWS_marshal rt hv]
        exact ihV _ _ _ _ hv hs4 _ _ (by rfl)

/-! ## Reading the text `escapeString` wrote -/

theorem escapeString_eq (rt : Runtime) (s : Bytes) :
    escapeString rt s = [0x22] ++ escBody rt s ++ [0x22] := by
  unfold escapeString escBody AppendQuote
  cases hasSpecialChars s <;> rfl

theorem NewString_escBody (rt : Runtime) (s : Bytes) :
    Arena.NewString rt s = .rawString (escBody rt s) := NewString_eq rt s

theorem scanString_plain_append (l y : Bytes) (hl : ∀ b ∈ l, b ≠ 0x22 ∧ b ≠ 0x5C) :
    scanString (l ++ y) = (scanString y).prepend l := by
  induction l with
  | nil => rw [List.nil_append, Res.prepend_nil]
  | cons b l ih =>
    have hb := hl b (List.mem_cons_self _ _)
    rw [List.cons_append, scanString_plain b _ hb.1 hb.2,
      ih (fun x hx => hl x (List.mem_cons_of_mem _ hx)), Res.prepend_prepend]
    rfl

theorem scanString_chunk (ch y : Bytes) (h : IsChunk ch) :
    scanString (ch ++ y) = (scanString y).prepend ch := by
  rcases h with h | ⟨e, l, rfl, hl⟩
  · exact scanString_plain_append ch y h
  · show scanString (0x5C :: e :: (l ++ y)) = _
    rw [scanString_esc, scanString_plain_append l y hl, Res.prepend_prepend]
    rfl

theorem lowerhex_plain (d : Nat) : lowerhex d ≠ 0x22 ∧ lowerhex d ≠ 0x5C := by
  unfold lowerhex
  split <;> constructor <;> omega

theorem encodeRune_plain (r : Nat) (h1 : r ≠ 0x22) (h2 : r ≠ 0x5C) :
    ∀ b ∈ encodeRune r, b ≠ 0x22 ∧ b ≠ 0x5C := by
  intro b hb
  unfold encodeRune at hb
  split at hb
  · simp only [List.mem_singleton] at hb; subst hb; exact ⟨h1, h2⟩
  · split at hb
    · simp only [List.mem_cons, List.mem_singleton, List.not_mem_nil, or_false] at hb
      rcases hb with hb | hb <;> constructor <;> omega
    · split at hb
      · simp only [List.mem_cons, List.mem_singleton, List.not_mem_nil, or_false] at hb
        rcases hb with hb | hb | hb <;> constructor <;> omega
      · split at hb
        · simp only [List.mem_cons, List.mem_singleton, List.not_mem_nil, or_false] at hb
          rcases hb with hb | hb | hb <;> constructor <;> omega
        · simp only [List.mem_cons, List.mem_singleton, List.not_mem_nil, or_false] at hb
          rcases hb with hb | hb | hb | hb <;> constructor <;> omega

theorem ite_ind {α : Type} {P : α → Prop} {c : Prop} [Decidable c] {a b : α}
    (ha : c → P a) (hb : ¬ c → P b) : P (if c then a else b) := by
  split
  · exact ha (by assumption)
  · exact hb (by assumption)

theorem appendEscapedRune_chunk (rt : Runtime) (r : Nat) :
    IsChunk (appendEscapedRune rt r) := by
  unfold appendEscapedRune
  have hl := lowerhex_plain
  apply ite_ind
  · intro _
    exact Or.inr ⟨r, [], rfl, fun b hb => by cases hb⟩
  · intro hq
    simp only [not_or] at hq
    apply ite_ind
    · intro _
      exact Or.inl (encodeRune_plain r hq.1 hq.2)
    · intro _
      repeat' (apply ite_ind <;> intro _)
      all_goals
        refine Or.inr ⟨_, _, rfl, fun b hb => ?_⟩
        first
          | exact absurd hb (List.not_mem_nil _)
          | (have hd : ∃ d, b = lowerhex d := by
              simp only [List.mem_cons, List.mem_singleton, List.not_mem_nil, or_false] at hb
              rcases hb with h | h | h | h | h | h | h | h <;>
                first | exact ⟨_, h⟩ | exact ⟨_, rfl⟩
             obtain ⟨d, rfl⟩ := hd
             exact hl d)

theorem quoteBody_scan (rt : Runtime) (f : Nat) (s rest : Bytes) :
    scanString (quoteBody rt f s ++ 0x22 :: rest) = .ok (quoteBody rt f s) rest := by
  induction f generalizing s with
  | zero => rw [quoteBody_zero, List.nil_append, scanString_quote]
  | succ f ih =>
    cases s with
    | nil => rw [quoteBody_nil, List.nil_append, scanString_quote]
    | cons s0 t =>
      rw [quoteBody_cons]
      generalize (if s0 ≥ 0x80 then decodeRune (s0 :: t) else (s0, 1)) = rw
      split
      · rw [List.append_assoc, scanString_chunk _ _ (Or.inr ⟨0x78,
          [lowerhex (s0 / 16), lowerhex (s0 % 16)], rfl, fun b hb => by
            simp only [List.mem_cons, List.mem_singleton, List.not_mem_nil, or_false] at hb
            rcases hb with hb | hb <;> (rw [hb]; exact lowerhex_plain _)⟩), ih]
        rfl
      · rw [List.append_assoc, scanString_chunk _ _ (appendEscapedRune_chunk rt _), ih]
        rfl

theorem escBody_scan (rt : Runtime) (s rest : Bytes) :
    scanString (escBody rt s ++ 0x22 :: rest) = .ok (escBody rt s) rest := by
  unfold escBody
  cases h : hasSpecialChars s with
  | true => exact quoteBody_scan rt _ s rest
  | false =>
    simp only [Bool.false_eq_true, if_false]
    rw [scanString_plain_append s _ (fun b hb =>
      ⟨(hasSpecialChars_false h b hb).1, (hasSpecialChars_false h b hb).2.1⟩), scanString_quote]
    simp [Res.prepend]

/-- A text without special bytes, or of bytes that are `quoteSafe`, is
unescaped from what `escapeString` wrote. -/
theorem unescape_escBody (rt : Runtime) (s : Bytes) (hs : safeText rt s) :
    unescapeStringBestEffort (escBody rt s) = s := by
  rw [unescapeStringBestEffort_eq]
  unfold escBody
  cases h : hasSpecialChars s with
  | true =>
    rcases hs with hs | hs
    · rw [h] at hs; cases hs
    · exact unescapeFrom_quoteBody_text rt _ s hs (le_refl _) _ (le_refl _)
  | false =>
    exact unescapeFrom_no_backslash _ s (fun hm => (hasSpecialChars_false h _ hm).2.1 rfl)

/-! ## The parser accepts every JSON text nested no deeper than `MaxDepth` -/

theorem isDigit_isNumChar {b : Nat} (h : isDigit b = true) : isNumChar b = true := by
  unfold isDigit at h
  unfold isNumChar
  simp only [Bool.and_eq_true, decide_eq_true_eq] at h
  simp only [Bool.or_eq_true, Bool.and_eq_true, decide_eq_true_eq, beq_iff_eq]
  exact Or.inl (Or.inl (Or.inl (Or.inl (Or.inl h))))

theorem dropDigits_split (s : Bytes) :
    ∃ p, s = p ++ dropDigits s ∧ ∀ b ∈ p, isNumChar b = true := by
  induction s with
  | nil => exact ⟨[], rfl, fun b hb => by cases hb⟩
  | cons c t ih =>
    rw [dropDigits]
    by_cases hc : isDigit c = true
    · rw [if_pos hc]
      obtain ⟨p, h1, h2⟩ := ih
      refine ⟨c :: p, by rw [List.cons_append, ← h1], fun b hb => ?_⟩
      rcases List.mem_cons.1 hb with e | e
      · rw [e]; exact isDigit_isNumChar hc
      · exact h2 b e
    · rw [if_neg hc]
      exact ⟨[], rfl, fun b hb => by cases hb⟩

theorem rfcExp_split {s tail : Bytes} (h : rfcExp s = some tail) :
    ∃ p, s = p ++ tail ∧ ∀ b ∈ p, isNumChar b = true := by
  cases s with
  | nil =>
    rw [rfcExp] at h
    cases h
    exact ⟨[], rfl, fun b hb => by cases hb⟩
  | cons c t =>
    rw [rfcExp.eq_def] at h
    simp only at h
    by_cases hc : c = 0x65 ∨ c = 0x45
    · rw [if_pos hc] at h
      have hcn : isNumChar c = true := by
        rcases hc with e | e <;> subst e <;> rfl
      cases t with
      | nil => simp at h
      | cons sg t2 =>
        by_cases hs : sg = 0x2D ∨ sg = 0x2B
        · simp only [hs, if_true] at h
          have hsn : isNumChar sg = true := by
            rcases hs with e | e <;> subst e <;> rfl
          cases t2 with
          | nil => simp at h
          | cons dg t3 =>
            simp only at h
            by_cases hd : isDigit dg = true
            · rw [if_pos hd] at h
              cases h
              obtain ⟨p, h1, h2⟩ := dropDigits_split t3
              refine ⟨c :: sg :: dg :: p, by simp only [List.cons_append]; rw [← h1],
                fun b hb => ?_⟩
              simp only [List.mem_cons] at hb
              rcases hb with e | e | e | e
              · rw [e]; exact hcn
              · rw [e]; exact hsn
              · rw [e]; exact isDigit_isNumChar hd
              · exact h2 b e
            · rw [if_neg hd] at h; cases h
        · simp only [hs, if_false] at h
          by_cases hd : isDigit sg = true
          · rw [if_pos hd] at h
            cases h
            obtain ⟨p, h1, h2⟩ := dropDigits_split t2
            refine ⟨c :: sg :: p, by simp only [List.cons_append]; rw [← h1], fun b hb => ?_⟩
            simp only [List.mem_cons] at hb
            rcases hb with e | e | e
            · rw [e]; exact hcn
            · rw [e]; exact isDigit_isNumChar hd
            · exact h2 b e
          · rw [if_neg hd] at h; cases h
    · rw [if_neg hc] at h
      cases h
      exact ⟨[], rfl, fun b hb => by cases hb⟩

theorem rfcFrac_split {s tail : Bytes} (h : rfcFrac s = some tail) :
    ∃ p, s = p ++ tail ∧ ∀ b ∈ p, isNumChar b = true := by
  cases s with
  | nil =>
    rw [rfcFrac] at h
    cases h
    exact ⟨[], rfl, fun b hb => by cases hb⟩
  | cons c t =>
    rw [rfcFrac.eq_def] at h
    simp only at h
    by_cases hc : c = 0x2E
    · rw [if_pos hc] at h
      have hcn : isNumChar c = true := by subst hc; rfl
      cases t with
      | nil => simp at h
      | cons dg t2 =>
        simp only at h
        by_cases hd : isDigit dg = true
        · rw [if_pos hd] at h
          obtain ⟨p1, h1, h2⟩ := dropDigits_split t2
          obtain ⟨p2, h3, h4⟩ := rfcExp_split h
          refine ⟨c :: dg :: (p1 ++ p2), ?_, fun b hb => ?_⟩
          · simp only [List.cons_append, List.append_assoc]
            rw [← h3, ← h1]
          · simp only [List.mem_cons, List.mem_append] at hb
            rcases hb with e | e | e | e
            · rw [e]; exact hcn
            · rw [e]; exact isDigit_isNumChar hd
            · exact h2 b e
            · exact h4 b e
        · rw [if_neg hd] at h; cases h
    · rw [if_neg hc] at h
      exact rfcExp_split h

theorem rfcNumber_split {s tail : Bytes} (h : rfcNumber s = some tail) :
    ∃ p, s = p ++ tail ∧ (∀ b ∈ p, isNumChar b = true) ∧ (∃ dg ∈ p, isDigit dg = true) ∧
      ∃ c t, s = c :: t ∧ (c = 0x2D ∨ isDigit c = true) := by
  have key : ∀ s1 : Bytes, (match s1 with
      | [] => none
      | d :: t =>
        if d = 0x30 then rfcFrac t
        else if 0x31 ≤ d ∧ d ≤ 0x39 then rfcFrac (dropDigits t)
        else none) = some tail →
      ∃ p, s1 = p ++ tail ∧ (∀ b ∈ p, isNumChar b = true) ∧ (∃ dg ∈ p, isDigit dg = true) ∧
        ∃ c t, s1 = c :: t ∧ isDigit c = true := by
    intro s1 h1
    cases s1 with
    | nil => cases h1
    | cons d t =>
      simp only at h1
      by_cases hd0 : d = 0x30
      · rw [if_pos hd0] at h1
        have hdd : isDigit d = true := by subst hd0; rfl
        obtain ⟨p, h2, h3⟩ := rfcFrac_split h1
        refine ⟨d :: p, by rw [List.cons_append, ← h2], fun b hb => ?_,
          ⟨d, List.mem_cons_self _ _, hdd⟩, d, t, rfl, hdd⟩
        rcases List.mem_cons.1 hb with e | e
        · rw [e]; exact isDigit_isNumChar hdd
        · exact h3 b e
      · rw [if_neg hd0] at h1
        by_cases hd1 : 0x31 ≤ d ∧ d ≤ 0x39
        · rw [if_pos hd1] at h1
          have hdd : isDigit d = true := by
            unfold isDigit
            simp only [Bool.and_eq_true, decide_eq_true_eq]
            omega
          obtain ⟨p1, h2, h3⟩ := dropDigits_split t
          obtain ⟨p2, h4, h5⟩ := rfcFrac_split h1
          refine ⟨d :: (p1 ++ p2), ?_, fun b hb => ?_,
            ⟨d, List.mem_cons_self _ _, hdd⟩, d, t, rfl, hdd⟩
          · simp only [List.cons_append, List.append_assoc]
            rw [← h4, ← h2]
          · simp only [List.mem_cons, List.mem_append] at hb
            rcases hb with e | e | e
            · rw [e]; exact isDigit_isNumChar hdd
            · exact h3 b e
            · exact h5 b e
        · rw [if_neg hd1] at h1; cases h1
  unfold rfcNumber at h
  cases s with
  | nil => simp at h
  | cons c t =>
    by_cases hm : c = 0x2D
    · simp only [hm, if_true] at h
      obtain ⟨p, h1, h2, ⟨dg, h3, h4⟩, _⟩ := key t h
      refine ⟨c :: p, by rw [List.cons_append, ← h1], fun b hb => ?_,
        ⟨dg, List.mem_cons_of_mem _ h3, h4⟩, c, t, rfl, Or.inl hm⟩
      rcases List.mem_cons.1 hb with e | e
      · rw [e, hm]; rfl
      · exact h2 b e
    · simp only [hm, if_false] at h
      obtain ⟨p, h1, h2, h3, c1, t1, h4, h5⟩ := key (c :: t) h
      cases h4
      exact ⟨p, h1, h2, h3, c, t, rfl, Or.inr h5⟩

theorem parseRawNumber_of_run (p tail : Bytes) (hp : ∀ b ∈ p, isNumChar b = true)
    (hd : ∃ dg ∈ p, isDigit dg = true) (ht : ∀ c t, tail = c :: t → isNumChar c = false) :
    parseRawNumber (p ++ tail) = .ok p tail := by
  unfold parseRawNumber
  rw [parseRawNumberLoop_skip _ p hp [] tail]
  simp only [List.nil_append]
  cases tail with
  | nil => rw [parseRawNumberLoop_nil, List.append_nil]
  | cons c t =>
    refine parseRawNumberLoop_stop _ _ _ _ (ht c t rfl) ?_
    obtain ⟨dg, h1, h2⟩ := hd
    intro hc
    rcases hc with hc | ⟨hc, hs⟩
    · rw [List.length_eq_zero.1 hc] at h1; cases h1
    · match p, hc with
      | [x], _ =>
        simp only [List.mem_singleton] at h1
        subst h1
        simp only [List.getD_cons_zero] at hs
        unfold isDigit at h2
        simp only [Bool.and_eq_true, decide_eq_true_eq] at h2
        omega

theorem rfcString_cons (f c : Nat) (t : Bytes) :
    rfcString (f + 1) (c :: t) =
      if c = 0x22 then some t
      else if c = 0x5C then
        match t with
        | [] => none
        | e :: t1 =>
          if e = 0x22 ∨ e = 0x5C ∨ e = 0x2F ∨ e = 0x62 ∨ e = 0x66 ∨ e = 0x6E ∨ e = 0x72 ∨ e = 0x74
          then rfcString f t1
          else if e = 0x75 then
            if 4 ≤ t1.length ∧ (t1.take 4).all isHexDigit then rfcString f (t1.drop 4)
            else none
          else none
      else if c < 0x20 then none
      else rfcString f t := rfl

theorem isHexDigit_plain {b : Nat} (h : isHexDigit b = true) : b ≠ 0x22 ∧ b ≠ 0x5C := by
  unfold isHexDigit isDigit at h
  simp only [Bool.or_eq_true, Bool.and_eq_true, decide_eq_true_eq] at h
  constructor <;> omega

/-- A string of the JSON grammar is a string for `scanString`, with the same
text after it. -/
theorem rfcString_scan (f : Nat) (s tail : Bytes) (h : rfcString f s = some tail) :
    ∃ k, scanString s = .ok k tail := by
  induction f generalizing s with
  | zero => rw [rfcString] at h; cases h
  | succ f ih =>
    cases s with
    | nil => cases h
    | cons c t =>
      rw [rfcString_cons] at h
      by_cases hq : c = 0x22
      · rw [if_pos hq] at h
        cases h
        subst hq
        exact ⟨[], scanString_quote _⟩
      · rw [if_neg hq] at h
        by_cases hb : c = 0x5C
        · rw [if_pos hb] at h
          subst hb
          cases t with
          | nil => cases h
          | cons e t1 =>
            simp only at h
            split at h
            · obtain ⟨k, hk⟩ := ih t1 h
              exact ⟨[0x5C, e] ++ k, by rw [scanString_esc, hk]; rfl⟩
            · split at h
              · split at h
                · rename_i hx
                  obtain ⟨k, hk⟩ := ih _ h
                  refine ⟨[0x5C, e] ++ (t1.take 4 ++ k), ?_⟩
                  rw [scanString_esc]
                  conv_lhs => rw [← List.take_append_drop 4 t1]
                  rw [scanString_plain_append _ _ (fun b hb =>
                    isHexDigit_plain (List.all_eq_true.1 hx.2 b hb)), hk]
                  rfl
                · cases h
              · cases h
        · rw [if_neg hb] at h
          by_cases hl : c < 0x20
          · rw [if_pos hl] at h; cases h
          · rw [if_neg hl] at h
            obtain ⟨k, hk⟩ := ih t h
            exact ⟨[c] ++ k, by rw [scanString_plain c t hq hb, hk]; rfl⟩

theorem parseArrayLoop_fuel_enough (rt : Runtime) {f : Nat} {s : Bytes} {d : Nat}
    {a : List Value} {tail : Bytes} (h : parseArrayLoop f s d = .ok a tail) (g : Nat)
    (hg : 3 * s.length + 2 ≤ g) : parseArrayLoop g s d = .ok a tail :=
  (parse_transfer f).2.2.1 s d a tail g h ((parse_ne_oof rt g).2.2.1 s d hg)

theorem parseObjectLoop_fuel_enough (rt : Runtime) {f : Nat} {s : Bytes} {d : Nat}
    {kvs : List (Bytes × Value)} {tail : Bytes} (h : parseObjectLoop f s d = .ok kvs tail)
    (g : Nat) (hg : 3 * s.length + 2 ≤ g) : parseObjectLoop g s d = .ok kvs tail :=
  (parse_transfer f).2.2.2.2 s d kvs tail g h ((parse_ne_oof rt g).2.2.2.2 s d hg)

theorem rfcValue_succ (lim f : Nat) (s : Bytes) (d : Nat) :
    rfcValue lim (f + 1) s d =
      match s with
      | [] => none
      | c :: t =>
        if d + 1 > lim then none
        else if c = 0x7B then
          match skipWS t with
          | [] => none
          | c1 :: t1 => if c1 = 0x7D then some t1 else rfcMembers lim f (c1 :: t1) (d + 1)
        else if c = 0x5B then
          match skipWS t with
          | [] => none
          | c1 :: t1 => if c1 = 0x5D then some t1 else rfcElements lim f (c1 :: t1) (d + 1)
        else if c = 0x22 then rfcString t.length t
        else if s.take 4 = [0x74, 0x72, 0x75, 0x65] then some (s.drop 4)
        else if s.take 5 = [0x66, 0x61, 0x6C, 0x73, 0x65] then some (s.drop 5)
        else if s.take 4 = [0x6E, 0x75, 0x6C, 0x6C] then some (s.drop 4)
        else rfcNumber s := by
  rw [rfcValue.eq_def]

theorem rfcMembers_succ (lim f : Nat) (s : Bytes) (d : Nat) :
    rfcMembers lim (f + 1) s d =
      match skipWS s with
      | [] => none
      | q :: s1 =>
        if q ≠ 0x22 then none
        else
          match rfcString s1.length s1 with
          | none => none
          | some s2 =>
            match skipWS s2 with
            | [] => none
            | col :: s3 =>
              if col ≠ 0x3A then none
              else
                match rfcValue lim f (skipWS s3) d with
                | none => none
                | some s4 =>
                  match skipWS s4 with
                  | [] => none
                  | c :: t =>
                    if c = 0x2C then rfcMembers lim f t d
                    else if c = 0x7D then some t
                    else none := by
  rw [rfcMembers.eq_def]

theorem rfcElements_succ (lim f : Nat) (s : Bytes) (d : Nat) :
    rfcElements lim (f + 1) s d =
      match rfcValue lim f (skipWS s) d with
      | none => none
      | some s1 =>
        match skipWS s1 with
        | [] => none
        | c :: t =>
          if c = 0x2C then rfcElements lim f t d
          else if c = 0x5D then some t
          else none := by
  rw [rfcElements.eq_def]

theorem isWS_not_num {c : Nat} (h : isWS c = true) : isNumChar c = false := by
  unfold isWS at h
  simp only [Bool.or_eq_true, beq_iff_eq] at h
  rcases h with ((h | h) | h) | h <;> subst h <;> rfl

theorem skipWS_first {s t : Bytes} {c : Nat} (h : skipWS s = c :: t) {c0 : Nat} {t0 : Bytes}
    (hs : s = c0 :: t0) : isWS c0 = true ∨ c0 = c := by
  subst hs
  rw [skipWS] at h
  by_cases hw : isWS c0 = true
  · exact Or.inl hw
  · rw [if_neg hw] at h
    cases h
    exact Or.inr rfl

theorem numEnd_of_skipWS {s t : Bytes} {c : Nat} (h : skipWS s = c :: t)
    (hc : isNumChar c = false) : ∀ c0 t0, s = c0 :: t0 → isNumChar c0 = false := by
  intro c0 t0 hs
  rcases skipWS_first h hs with hw | e
  · exact isWS_not_num hw
  · rw [e]; exact hc

theorem numEnd_of_skipWS_nil {s : Bytes} (h : skipWS s = []) :
    ∀ c0 t0, s = c0 :: t0 → isNumChar c0 = false := by
  intro c0 t0 hs
  subst hs
  rw [skipWS] at h
  by_cases hw : isWS c0 = true
  · exact isWS_not_num hw
  · rw [if_neg hw] at h; cases h

/-! ## The JSON grammar: fuel and what follows a value -/

theorem not_num_cases {c : Nat} (h : isNumChar c = false) :
    isDigit c = false ∧ c ≠ 0x2E ∧ c ≠ 0x2D ∧ c ≠ 0x65 ∧ c ≠ 0x45 ∧ c ≠ 0x2B := by
  unfold isNumChar at h
  simp only [Bool.or_eq_false_iff, Bool.and_eq_false_iff, decide_eq_false_iff_not,
    beq_eq_false_iff_ne, ne_eq] at h
  obtain ⟨⟨⟨⟨⟨h1, h2⟩, h3⟩, h4⟩, h5⟩, h6⟩ := h
  refine ⟨?_, h2, h3, h4, h5, h6⟩
  unfold isDigit
  simp only [Bool.and_eq_false_iff, decide_eq_false_iff_not]
  exact h1

theorem dropDigits_local (p tl : Bytes) (h : ∀ c t, tl = c :: t → isNumChar c = false) :
    dropDigits (p ++ tl) = dropDigits p ++ tl := by
  induction p with
  | nil =>
    cases tl with
    | nil => rfl
    | cons c t =>
      simp only [List.nil_append, dropDigits, (not_num_cases (h c t rfl)).1]
      rfl
  | cons c t ih =>
    simp only [List.cons_append, dropDigits, List.append_eq]
    by_cases hc : isDigit c = true
    · rw [if_pos hc, if_pos hc, ih]
    · rw [if_neg hc, if_neg hc]; rfl

theorem rfcExp_local (p tl : Bytes) (h : ∀ c t, tl = c :: t → isNumChar c = false) :
    rfcExp (p ++ tl) = (rfcExp p).map (· ++ tl) := by
  cases p with
  | nil =>
    cases tl with
    | nil => rfl
    | cons c t =>
      obtain ⟨_, _, _, h4, h5, _⟩ := not_num_cases (h c t rfl)
      simp [rfcExp, h4, h5]
  | cons c p1 =>
    by_cases hc : c = 0x65 ∨ c = 0x45
    · cases p1 with
      | nil =>
        cases tl with
        | nil => simp [rfcExp, hc]
        | cons s t2 =>
          obtain ⟨h1, _, h3, _, _, h6⟩ := not_num_cases (h s t2 rfl)
          simp [rfcExp, hc, h3, h6, h1]
      | cons sg p2 =>
        by_cases hs : sg = 0x2D ∨ sg = 0x2B
        · cases p2 with
          | nil =>
            cases tl with
            | nil => simp [rfcExp, hc, hs]
            | cons s t2 =>
              obtain ⟨h1, _, _, _, _, _⟩ := not_num_cases (h s t2 rfl)
              simp [rfcExp, hc, hs, h1]
          | cons dg p3 =>
            by_cases hd : isDigit dg = true
            · simp [rfcExp, hc, hs, hd, dropDigits_local p3 tl h]
            · simp [rfcExp, hc, hs, hd]
        · by_cases hd : isDigit sg = true
          · simp [rfcExp, hc, hs, hd, dropDigits_local p2 tl h]
          · simp [rfcExp, hc, hs, hd]
    · simp [rfcExp, hc]

theorem rfcFrac_local (p tl : Bytes) (h : ∀ c t, tl = c :: t → isNumChar c = false) :
    rfcFrac (p ++ tl) = (rfcFrac p).map (· ++ tl) := by
  cases p with
  | nil =>
    cases tl with
    | nil => rfl
    | cons c t =>
      obtain ⟨_, h2, _, h4, h5, _⟩ := not_num_cases (h c t rfl)
      simp [rfcFrac, rfcExp, h2, h4, h5]
  | cons c p1 =>
    by_cases hc : c = 0x2E
    · cases p1 with
      | nil =>
        cases tl with
        | nil => simp [rfcFrac, hc]
        | cons s t2 =>
          obtain ⟨h1, _, _, _, _, _⟩ := not_num_cases (h s t2 rfl)
          simp [rfcFrac, hc, h1]
      | cons dg p2 =>
        by_cases hd : isDigit dg = true
        · simp only [rfcFrac, List.cons_append, hc, if_true, hd]
          rw [dropDigits_local p2 tl h, rfcExp_local _ tl h]
        · simp [rfcFrac, hc, hd]
    · have := rfcExp_local (c :: p1) tl h
      simp only [List.cons_append] at this
      simp only [rfcFrac, List.cons_append, hc, if_false, this]

theorem rfcNumber_local (p tl : Bytes) (h : ∀ c t, tl = c :: t → isNumChar c = false) :
    rfcNumber (p ++ tl) = (rfcNumber p).map (· ++ tl) := by
  have key : ∀ s1 : Bytes, (match s1 ++ tl with
      | [] => none
      | d :: t =>
        if d = 0x30 then rfcFrac t
        else if 0x31 ≤ d ∧ d ≤ 0x39 then rfcFrac (dropDigits t)
        else none) = (match s1 with
      | [] => none
      | d :: t =>
        if d = 0x30 then rfcFrac t
        else if 0x31 ≤ d ∧ d ≤ 0x39 then rfcFrac (dropDigits t)
        else none).map (· ++ tl) := by
    intro s1
    cases s1 with
    | nil =>
      cases tl with
      | nil => rfl
      | cons c t =>
        have h1 := (not_num_cases (h c t rfl)).1
        unfold isDigit at h1
        simp only [Bool.and_eq_false_iff, decide_eq_false_iff_not] at h1
        have a : c ≠ 0x30 := by omega
        have b : ¬ (0x31 ≤ c ∧ c ≤ 0x39) := by omega
        simp [a, b]
    | cons d t =>
      simp only [List.cons_append]
      by_cases hd0 : d = 0x30
      · simp only [hd0, if_true]
        exact rfcFrac_local t tl h
      · by_cases hd1 : 0x31 ≤ d ∧ d ≤ 0x39
        · simp only [hd0, if_false, hd1, and_self, if_true]
          rw [dropDigits_local t tl h]
          exact rfcFrac_local _ tl h
        · simp [hd0, hd1]
  unfold rfcNumber
  cases p with
  | nil =>
    cases tl with
    | nil => rfl
    | cons c t =>
      obtain ⟨h1, _, h3, _, _, _⟩ := not_num_cases (h c t rfl)
      have := key []
      simp only [List.nil_append] at this
      simp only [List.nil_append, h3, if_false]
      exact this
  | cons c p1 =>
    simp only [List.cons_append]
    by_cases hm : c = 0x2D
    · simp only [hm, if_true]
      exact key p1
    · simp only [hm, if_false]
      exact key (c :: p1)

/-- A number of the JSON grammar that ends where no number byte follows is
read as the same number before any delimiter. -/
theorem rfcNumber_again {p tail : Bytes} (h : rfcNumber (p ++ tail) = some tail)
    (hend : ∀ c t, tail = c :: t → isNumChar c = false) {c : Nat} (hc : isDelim c = true)
    (t2 : Bytes) : rfcNumber (p ++ c :: t2) = some (c :: t2) := by
  rw [rfcNumber_local p tail hend] at h
  cases hp : rfcNumber p with
  | none => rw [hp] at h; cases h
  | some r =>
    rw [hp] at h
    simp only [Option.map_some', Option.some.injEq] at h
    have hr : r = [] := by
      have := congrArg List.length h
      simp only [List.length_append] at this
      exact List.length_eq_zero.1 (by omega)
    rw [rfcNumber_local p (c :: t2) (fun c1 t1 e => by cases e; exact isDelim_not_num hc), hp, hr]
    rfl

/-- A string of the JSON grammar ends at a quote, and the text before the quote
is a string whatever follows it, with any fuel above its length. -/
theorem rfcString_ok (f : Nat) (s tail : Bytes) (h : rfcString f s = some tail) :
    ∃ k, s = k ++ 0x22 :: tail ∧
      ∀ rest g, k.length < g → rfcString g (k ++ 0x22 :: rest) = some rest := by
  induction f generalizing s with
  | zero => rw [rfcString] at h; cases h
  | succ f ih =>
    cases s with
    | nil => cases h
    | cons c t =>
      rw [rfcString_cons] at h
      by_cases hq : c = 0x22
      · rw [if_pos hq] at h
        cases h
        subst hq
        refine ⟨[], rfl, fun rest g hg => ?_⟩
        obtain ⟨g, rfl⟩ : ∃ g1, g = g1 + 1 := ⟨g - 1, by simp only [List.length_nil] at hg; omega⟩
        rw [List.nil_append, rfcString_cons, if_pos rfl]
      · rw [if_neg hq] at h
        by_cases hb : c = 0x5C
        · rw [if_pos hb] at h
          subst hb
          cases t with
          | nil => cases h
          | cons e t1 =>
            simp only at h
            by_cases he : e = 0x22 ∨ e = 0x5C ∨ e = 0x2F ∨ e = 0x62 ∨ e = 0x66 ∨ e = 0x6E ∨
                e = 0x72 ∨ e = 0x74
            · rw [if_pos he] at h
              obtain ⟨k, hk, hr⟩ := ih t1 h
              refine ⟨0x5C :: e :: k, by rw [hk]; rfl, fun rest g hg => ?_⟩
              obtain ⟨g, rfl⟩ : ∃ g1, g = g1 + 1 :=
                ⟨g - 1, by simp only [List.length_cons] at hg; omega⟩
              simp only [List.cons_append]
              rw [rfcString_cons, if_neg (by decide), if_pos rfl]
              simp only
              rw [if_pos he]
              exact hr rest g (by simp only [List.length_cons] at hg; omega)
            · rw [if_neg he] at h
              by_cases hu : e = 0x75
              · rw [if_pos hu] at h
                by_cases hx : 4 ≤ t1.length ∧ (t1.take 4).all isHexDigit = true
                · rw [if_pos hx] at h
                  obtain ⟨k, hk, hr⟩ := ih _ h
                  refine ⟨0x5C :: e :: (t1.take 4 ++ k), ?_, fun rest g hg => ?_⟩
                  · simp only [List.cons_append, List.append_assoc]
                    rw [← hk, List.take_append_drop]
                  · obtain ⟨g, rfl⟩ : ∃ g1, g = g1 + 1 :=
                      ⟨g - 1, by simp only [List.length_cons] at hg; omega⟩
                    have hl4 : (t1.take 4).length = 4 := by
                      rw [List.length_take]; omega
                    simp only [List.cons_append, List.append_assoc]
                    rw [rfcString_cons, if_neg (by decide), if_pos rfl]
                    simp only
                    rw [if_neg he, if_pos hu]
                    have ht : (List.take 4 t1 ++ (k ++ 0x22 :: rest)).take 4 = t1.take 4 := by
                      rw [List.take_append_of_le_length (by omega), List.take_of_length_le (by omega)]
                    have hd : (List.take 4 t1 ++ (k ++ 0x22 :: rest)).drop 4 = k ++ 0x22 :: rest := by
                      rw [List.drop_append_of_le_length (by omega), List.drop_of_length_le (by omega)]
                      rfl
                    rw [ht, hd, if_pos ⟨by simp only [List.length_append]; omega, hx.2⟩]
                    apply hr
                    simp only [List.length_cons, List.length_append] at hg
                    omega
                · rw [if_neg hx] at h; cases h
              · rw [if_neg hu] at h; cases h
        · rw [if_neg hb] at h
          by_cases hl : c < 0x20
          · rw [if_pos hl] at h; cases h
          · rw [if_neg hl] at h
            obtain ⟨k, hk, hr⟩ := ih t h
            refine ⟨c :: k, by rw [hk]; rfl, fun rest g hg => ?_⟩
            obtain ⟨g, rfl⟩ : ∃ g1, g = g1 + 1 :=
              ⟨g - 1, by simp only [List.length_cons] at hg; omega⟩
            simp only [List.cons_append]
            rw [rfcString_cons, if_neg hq, if_neg hb, if_neg hl]
            exact hr rest g (by simp only [List.length_cons] at hg; omega)

theorem rfcString_lt {f : Nat} {s tail : Bytes} (h : rfcString f s = some tail) :
    tail.length < s.length := by
  obtain ⟨k, hk, _⟩ := rfcString_ok f s tail h
  rw [hk]
  simp only [List.length_append, List.length_cons]
  omega

/-- The fuel `rfcValue` gives to `rfcString`, the length of the text, is
enough. -/
theorem rfcString_fuel {f : Nat} {s tail : Bytes} (h : rfcString f s = some tail) :
    rfcString s.length s = some tail := by
  obtain ⟨k, hk, hr⟩ := rfcString_ok f s tail h
  rw [hk]
  apply hr
  simp only [List.length_append, List.length_cons]
  omega

theorem take_eq_length {s w : Bytes} {n : Nat} (h : s.take n = w) (hw : w.length = n) :
    n ≤ s.length := by
  have := congrArg List.length h
  rw [List.length_take, hw] at this
  omega

/-- A value of the JSON grammar is not empty. -/
theorem rfc_lt (lim f : Nat) :
    (∀ s d tail, rfcValue lim f s d = some tail → tail.length < s.length) ∧
    (∀ s d tail, rfcMembers lim f s d = some tail → tail.length < s.length) ∧
    (∀ s d tail, rfcElements lim f s d = some tail → tail.length < s.length) := by
  induction f with
  | zero =>
    refine ⟨?_, ?_, ?_⟩ <;> intro s d tail h
    · rw [rfcValue] at h; cases h
    · rw [rfcMembers] at h; cases h
    · rw [rfcElements] at h; cases h
  | succ f ih =>
    obtain ⟨ihV, ihM, ihE⟩ := ih
    refine ⟨?_, ?_, ?_⟩
    · intro s d tail h
      rw [rfcValue_succ] at h
      cases s with
      | nil => cases h
      | cons c t =>
        simp only at h
        by_cases hd : d + 1 > lim
        · rw [if_pos hd] at h; cases h
        · rw [if_neg hd] at h
          by_cases h1 : c = 0x7B
          · rw [if_pos h1] at h
            cases hw : skipWS t with
            | nil => rw [hw] at h; cases h
            | cons c1 t1 =>
              rw [hw] at h
              simp only at h
              have hl := skipWS_cons_length hw
              by_cases hc1 : c1 = 0x7D
              · rw [if_pos hc1] at h
                cases h
                simp only [List.length_cons]; omega
              · rw [if_neg hc1] at h
                have := ihM _ _ _ h
                simp only [List.length_cons] at this ⊢; omega
          · rw [if_neg h1] at h
            by_cases h2 : c = 0x5B
            · rw [if_pos h2] at h
              cases hw : skipWS t with
              | nil => rw [hw] at h; cases h
              | cons c1 t1 =>
                rw [hw] at h
                simp only at h
                have hl := skipWS_cons_length hw
                by_cases hc1 : c1 = 0x5D
                · rw [if_pos hc1] at h
                  cases h
                  simp only [List.length_cons]; omega
                · rw [if_neg hc1] at h
                  have := ihE _ _ _ h
                  simp only [List.length_cons] at this ⊢; omega
            · rw [if_neg h2] at h
              by_cases h3 : c = 0x22
              · rw [if_pos h3] at h
                have := rfcString_lt h
                simp only [List.length_cons]; omega
              · rw [if_neg h3] at h
                by_cases ht : (c :: t).take 4 = [0x74, 0x72, 0x75, 0x65]
                · rw [if_pos ht] at h
                  cases h
                  rw [List.length_drop]
                  simp only [List.length_cons]; omega
                · rw [if_neg ht] at h
                  by_cases hf : (c :: t).take 5 = [0x66, 0x61, 0x6C, 0x73, 0x65]
                  · rw [if_pos hf] at h
                    cases h
                    rw [List.length_drop]
                    simp only [List.length_cons]; omega
                  · rw [if_neg hf] at h
                    by_cases hn : (c :: t).take 4 = [0x6E, 0x75, 0x6C, 0x6C]
                    · rw [if_pos hn] at h
                      cases h
                      rw [List.length_drop]
                      simp only [List.length_cons]; omega
                    · rw [if_neg hn] at h
                      obtain ⟨p, hp1, _, ⟨dg, hdg, _⟩, _⟩ := rfcNumber_split h
                      have hpl : 0 < p.length := List.length_pos_of_mem hdg
                      rw [hp1]
                      simp only [List.length_append]; omega
    · intro s d tail h
      rw [rfcMembers_succ] at h
      cases hw : skipWS s with
      | nil => rw [hw] at h; cases h
      | cons q s1 =>
        rw [hw] at h
        simp only at h
        have l1 := skipWS_cons_length hw
        by_cases hq : q = 0x22
        · subst hq
          simp only [ne_eq, not_true, if_false] at h
          cases hs : rfcString s1.length s1 with
          | none => rw [hs] at h; cases h
          | some s2 =>
            rw [hs] at h
            simp only at h
            have l2 := rfcString_lt hs
            cases hw2 : skipWS s2 with
            | nil => rw [hw2] at h; cases h
            | cons col s3 =>
              rw [hw2] at h
              simp only at h
              have l3 := skipWS_cons_length hw2
              by_cases hcol : col = 0x3A
              · subst hcol
                simp only [ne_eq, not_true, if_false] at h
                cases hv : rfcValue lim f (skipWS s3) d with
                | none => rw [hv] at h; cases h
                | some s4 =>
                  rw [hv] at h
                  simp only at h
                  have l4 := ihV _ _ _ hv
                  have l5 := skipWS_length_le s3
                  cases hw4 : skipWS s4 with
                  | nil => rw [hw4] at h; cases h
                  | cons c t =>
                    rw [hw4] at h
                    simp only at h
                    have l6 := skipWS_cons_length hw4
                    by_cases hc : c = 0x2C
                    · rw [if_pos hc] at h
                      have := ihM _ _ _ h
                      omega
                    · rw [if_neg hc] at h
                      by_cases hc2 : c = 0x7D
                      · rw [if_pos hc2] at h
                        cases h
                        omega
                      · rw [if_neg hc2] at h; cases h
              · simp only [ne_eq, hcol, not_false_eq_true, if_true] at h
                cases h
        · simp only [ne_eq, hq, not_false_eq_true, if_true] at h
          cases h
    · intro s d tail h
      rw [rfcElements_succ] at h
      cases hv : rfcValue lim f (skipWS s) d with
      | none => rw [hv] at h; cases h
      | some s1 =>
        rw [hv] at h
        simp only at h
        have l1 := ihV _ _ _ hv
        have l2 := skipWS_length_le s
        cases hw : skipWS s1 with
        | nil => rw [hw] at h; cases h
        | cons c t =>
          rw [hw] at h
          simp only at h
          have l3 := skipWS_cons_length hw
          by_cases hc : c = 0x2C
          · rw [if_pos hc] at h
            have := ihE _ _ _ h
            omega
          · rw [if_neg hc] at h
            by_cases hc2 : c = 0x5D
            · rw [if_pos hc2] at h
              cases h
              omega
            · rw [if_neg hc2] at h; cases h

/-- The fuel of `jsonValidWithin` is enough: a text that the grammar accepts
with some fuel is accepted with three units for each byte. -/
theorem rfc_fuel (lim f : Nat) :
    (∀ s d tail, rfcValue lim f s d = some tail →
      ∀ g, 3 * s.length + 1 ≤ g → rfcValue lim g s d = some tail) ∧
    (∀ s d tail, rfcMembers lim f s d = some tail →
      ∀ g, 3 * s.length + 2 ≤ g → rfcMembers lim g s d = some tail) ∧
    (∀ s d tail, rfcElements lim f s d = some tail →
      ∀ g, 3 * s.length + 2 ≤ g → rfcElements lim g s d = some tail) := by
  induction f with
  | zero =>
    refine ⟨?_, ?_, ?_⟩ <;> intro s d tail h
    · rw [rfcValue] at h; cases h
    · rw [rfcMembers] at h; cases h
    · rw [rfcElements] at h; cases h
  | succ f ih =>
    obtain ⟨ihV, ihM, ihE⟩ := ih
    refine ⟨?_, ?_, ?_⟩
    · intro s d tail h g hg
      obtain ⟨g, rfl⟩ : ∃ g1, g = g1 + 1 := ⟨g - 1, by omega⟩
      rw [rfcValue_succ] at h ⊢
      cases s with
      | nil => cases h
      | cons c t =>
        simp only at h ⊢
        simp only [List.length_cons] at hg
        by_cases hd : d + 1 > lim
        · rw [if_pos hd] at h; cases h
        · rw [if_neg hd] at h ⊢
          by_cases h1 : c = 0x7B
          · rw [if_pos h1] at h ⊢
            cases hw : skipWS t with
            | nil => rw [hw] at h; cases h
            | cons c1 t1 =>
              rw [hw] at h
              simp only at h ⊢
              have hl := skipWS_cons_length hw
              by_cases hc1 : c1 = 0x7D
              · rw [if_pos hc1] at h ⊢
                exact h
              · rw [if_neg hc1] at h ⊢
                exact ihM _ _ _ h g (by simp only [List.length_cons]; omega)
          · rw [if_neg h1] at h ⊢
            by_cases h2 : c = 0x5B
            · rw [if_pos h2] at h ⊢
              cases hw : skipWS t with
              | nil => rw [hw] at h; cases h
              | cons c1 t1 =>
                rw [hw] at h
                simp only at h ⊢
                have hl := skipWS_cons_length hw
                by_cases hc1 : c1 = 0x5D
                · rw [if_pos hc1] at h ⊢
                  exact h
                · rw [if_neg hc1] at h ⊢
                  exact ihE _ _ _ h g (by simp only [List.length_cons]; omega)
            · rw [if_neg h2] at h ⊢
              exact h
    · intro s d tail h g hg
      obtain ⟨g, rfl⟩ : ∃ g1, g = g1 + 1 := ⟨g - 1, by omega⟩
      rw [rfcMembers_succ] at h ⊢
      cases hw : skipWS s with
      | nil => rw [hw] at h; cases h
      | cons q s1 =>
        rw [hw] at h
        simp only at h ⊢
        have l1 := skipWS_cons_length hw
        by_cases hq : q = 0x22
        · subst hq
          simp only [ne_eq, not_true, if_false] at h ⊢
          cases hs : rfcString s1.length s1 with
          | none => rw [hs] at h; cases h
          | some s2 =>
            rw [hs] at h
            simp only at h ⊢
            have l2 := rfcString_lt hs
            cases hw2 : skipWS s2 with
            | nil => rw [hw2] at h; cases h
            | cons col s3 =>
              rw [hw2] at h
              simp only at h ⊢
              have l3 := skipWS_cons_length hw2
              by_cases hcol : col = 0x3A
              · subst hcol
                simp only [ne_eq, not_true, if_false] at h ⊢
                cases hv : rfcValue lim f (skipWS s3) d with
                | none => rw [hv] at h; cases h
                | some s4 =>
                  rw [hv] at h
                  simp only at h
                  have l4 := (rfc_lt lim f).1 _ _ _ hv
                  have l5 := skipWS_length_le s3
                  rw [ihV _ _ _ hv g (by omega)]
                  simp only
                  cases hw4 : skipWS s4 with
                  | nil => rw [hw4] at h; cases h
                  | cons c t =>
                    rw [hw4] at h
                    simp only at h ⊢
                    have l6 := skipWS_cons_length hw4
                    by_cases hc : c = 0x2C
                    · rw [if_pos hc] at h ⊢
                      exact ihM _ _ _ h g (by omega)
                    · rw [if_neg hc] at h ⊢
                      exact h
              · simp only [ne_eq, hcol, not_false_eq_true, if_true] at h
                cases h
        · simp only [ne_eq, hq, not_false_eq_true, if_true] at h
          cases h
    · intro s d tail h g hg
      obtain ⟨g, rfl⟩ : ∃ g1, g = g1 + 1 := ⟨g - 1, by omega⟩
      rw [rfcElements_succ] at h ⊢
      cases hv : rfcValue lim f (skipWS s) d with
      | none => rw [hv] at h; cases h
      | some s1 =>
        rw [hv] at h
        simp only at h
        have l1 := (rfc_lt lim f).1 _ _ _ hv
        have l2 := skipWS_length_le s
        rw [ihV _ _ _ hv g (by omega)]
        simp only
        cases hw : skipWS s1 with
        | nil => rw [hw] at h; cases h
        | cons c t =>
          rw [hw] at h
          simp only at h ⊢
          have l3 := skipWS_cons_length hw
          by_cases hc : c = 0x2C
          · rw [if_pos hc] at h ⊢
            exact ihE _ _ _ h g (by omega)
          · rw [if_neg hc] at h ⊢
            exact h

/-- `jsonValidWithin` holds as soon as the grammar accepts the text with some
fuel. -/
theorem jsonValidWithin_of_fuel (lim f : Nat) (s tail : Bytes)
    (h : rfcValue lim f (skipWS s) 0 = some tail) (ht : skipWS tail = []) :
    jsonValidWithin lim s = true := by
  unfold jsonValidWithin
  have l := skipWS_length_le s
  rw [(rfc_fuel lim f).1 _ _ _ h _ (by omega)]
  simp only [ht, beq_self_eq_true]

/-- The limit on the nesting only matters below the length of the text: a text
accepted within one limit is accepted within any limit that is larger, or
that leaves room for as many levels as the text has bytes. -/
theorem rfc_limit (lim lim2 f : Nat) :
    (∀ s d tail, rfcValue lim f s d = some tail → min lim (d + s.length) ≤ lim2 →
      rfcValue lim2 f s d = some tail) ∧
    (∀ s d tail, rfcMembers lim f s d = some tail → min lim (d + s.length) ≤ lim2 →
      rfcMembers lim2 f s d = some tail) ∧
    (∀ s d tail, rfcElements lim f s d = some tail → min lim (d + s.length) ≤ lim2 →
      rfcElements lim2 f s d = some tail) := by
  induction f with
  | zero =>
    refine ⟨?_, ?_, ?_⟩ <;> intro s d tail h
    · rw [rfcValue] at h; cases h
    · rw [rfcMembers] at h; cases h
    · rw [rfcElements] at h; cases h
  | succ f ih =>
    obtain ⟨ihV, ihM, ihE⟩ := ih
    refine ⟨?_, ?_, ?_⟩
    · intro s d tail h hg
      rw [rfcValue_succ] at h ⊢
      cases s with
      | nil => cases h
      | cons c t =>
        simp only at h ⊢
        simp only [List.length_cons] at hg
        by_cases hd : d + 1 > lim
        · rw [if_pos hd] at h; cases h
        · rw [if_neg hd] at h
          rw [if_neg (by omega)]
          by_cases h1 : c = 0x7B
          · rw [if_pos h1] at h ⊢
            cases hw : skipWS t with
            | nil => rw [hw] at h; cases h
            | cons c1 t1 =>
              rw [hw] at h
              simp only at h ⊢
              have hl := skipWS_cons_length hw
              by_cases hc1 : c1 = 0x7D
              · rw [if_pos hc1] at h ⊢
                exact h
              · rw [if_neg hc1] at h ⊢
                exact ihM _ _ _ h (by simp only [List.length_cons]; omega)
          · rw [if_neg h1] at h ⊢
            by_cases h2 : c = 0x5B
            · rw [if_pos h2] at h ⊢
              cases hw : skipWS t with
              | nil => rw [hw] at h; cases h
              | cons c1 t1 =>
                rw [hw] at h
                simp only at h ⊢
                have hl := skipWS_cons_length hw
                by_cases hc1 : c1 = 0x5D
                · rw [if_pos hc1] at h ⊢
                  exact h
                · rw [if_neg hc1] at h ⊢
                  exact ihE _ _ _ h (by simp only [List.length_cons]; omega)
            · rw [if_neg h2] at h ⊢
              exact h
    · intro s d tail h hg
      rw [rfcMembers_succ] at h ⊢
      cases hw : skipWS s with
      | nil => rw [hw] at h; cases h
      | cons q s1 =>
        rw [hw] at h
        simp only at h ⊢
        have l1 := skipWS_cons_length hw
        by_cases hq : q = 0x22
        · subst hq
          simp only [ne_eq, not_true, if_false] at h ⊢
          cases hs : rfcString s1.length s1 with
          | none => rw [hs] at h; cases h
          | some s2 =>
            rw [hs] at h
            simp only at h ⊢
            have l2 := rfcString_lt hs
            cases hw2 : skipWS s2 with
            | nil => rw [hw2] at h; cases h
            | cons col s3 =>
              rw [hw2] at h
              simp only at h ⊢
              have l3 := skipWS_cons_length hw2
              by_cases hcol : col = 0x3A
              · subst hcol
                simp only [ne_eq, not_true, if_false] at h ⊢
                cases hv : rfcValue lim f (skipWS s3) d with
                | none => rw [hv] at h; cases h
                | some s4 =>
                  rw [hv] at h
                  simp only at h
                  have l4 := (rfc_lt lim f).1 _ _ _ hv
                  have l5 := skipWS_length_le s3
                  rw [ihV _ _ _ hv (by omega)]
                  simp only
                  cases hw4 : skipWS s4 with
                  | nil => rw [hw4] at h; cases h
                  | cons c t =>
                    rw [hw4] at h
                    simp only at h ⊢
                    have l6 := skipWS_cons_length hw4
                    by_cases hc : c = 0x2C
                    · rw [if_pos hc] at h ⊢
                      exact ihM _ _ _ h (by omega)
                    · rw [if_neg hc] at h ⊢
                      exact h
              · simp only [ne_eq, hcol, not_false_eq_true, if_true] at h
                cases h
        · simp only [ne_eq, hq, not_false_eq_true, if_true] at h
          cases h
    · intro s d tail h hg
      rw [rfcElements_succ] at h ⊢
      cases hv : rfcValue lim f (skipWS s) d with
      | none => rw [hv] at h; cases h
      | some s1 =>
        rw [hv] at h
        simp only at h
        have l1 := (rfc_lt lim f).1 _ _ _ hv
        have l2 := skipWS_length_le s
        rw [ihV _ _ _ hv (by omega)]
        simp only
        cases hw : skipWS s1 with
        | nil => rw [hw] at h; cases h
        | cons c t =>
          rw [hw] at h
          simp only at h ⊢
          have l3 := skipWS_cons_length hw
          by_cases hc : c = 0x2C
          · rw [if_pos hc] at h ⊢
            exact ihE _ _ _ h (by omega)
          · rw [if_neg hc] at h ⊢
            exact h

/-- A text is `jsonValid` exactly when it is a JSON text within some limit on
the nesting. -/
theorem jsonValid_iff (s : Bytes) : jsonValid s = true ↔ ∃ lim, jsonValidWithin lim s = true := by
  constructor
  · intro h
    exact ⟨s.length, h⟩
  · rintro ⟨lim, h⟩
    unfold jsonValid
    unfold jsonValidWithin at h ⊢
    cases hv : rfcValue lim (3 * s.length + 1) (skipWS s) 0 with
    | none => rw [hv] at h; cases h
    | some tail =>
      rw [hv] at h
      have l := skipWS_length_le s
      rw [(rfc_limit lim s.length _).1 _ _ _ hv (by omega)]
      exact h

/-! ## Marshalled values in the JSON grammar -/

/-- A value of the JSON grammar starts with a byte that is neither white
space nor a delimiter. -/
theorem rfcValue_head {lim f : Nat} {s : Bytes} {d : Nat} {tail : Bytes}
    (h : rfcValue lim f s d = some tail) :
    ∃ c t, s = c :: t ∧ isWS c = false ∧ isDelim c = false := by
  cases f with
  | zero => rw [rfcValue] at h; cases h
  | succ f =>
    rw [rfcValue_succ] at h
    cases s with
    | nil => cases h
    | cons c t =>
      refine ⟨c, t, rfl, ?_⟩
      simp only at h
      by_cases hd : d + 1 > lim
      · rw [if_pos hd] at h; cases h
      · rw [if_neg hd] at h
        by_cases h1 : c = 0x7B
        · subst h1; exact ⟨rfl, rfl⟩
        · rw [if_neg h1] at h
          by_cases h2 : c = 0x5B
          · subst h2; exact ⟨rfl, rfl⟩
          · rw [if_neg h2] at h
            by_cases h3 : c = 0x22
            · subst h3; exact ⟨rfl, rfl⟩
            · rw [if_neg h3] at h
              by_cases ht : (c :: t).take 4 = [0x74, 0x72, 0x75, 0x65]
              · have hc : c = 0x74 := by
                  have := congrArg List.head? ht
                  simpa using this
                subst hc; exact ⟨rfl, rfl⟩
              · rw [if_neg ht] at h
                by_cases hf : (c :: t).take 5 = [0x66, 0x61, 0x6C, 0x73, 0x65]
                · have hc : c = 0x66 := by
                    have := congrArg List.head? hf
                    simpa using this
                  subst hc; exact ⟨rfl, rfl⟩
                · rw [if_neg hf] at h
                  by_cases hn : (c :: t).take 4 = [0x6E, 0x75, 0x6C, 0x6C]
                  · have hc : c = 0x6E := by
                      have := congrArg List.head? hn
                      simpa using this
                    subst hc; exact ⟨rfl, rfl⟩
                  · rw [if_neg hn] at h
                    obtain ⟨p, _, _, _, c2, t2, hp4, hp5⟩ := rfcNumber_split h
                    cases hp4
                    rcases hp5 with e | e
                    · subst e; exact ⟨rfl, rfl⟩
                    · unfold isDigit at e
                      simp only [Bool.and_eq_true, decide_eq_true_eq] at e
                      unfold isWS isDelim
                      simp only [Bool.or_eq_false_iff, beq_eq_false_iff_ne, ne_eq]
                      refine ⟨⟨⟨⟨?_, ?_⟩, ?_⟩, ?_⟩, ⟨?_, ?_⟩, ?_⟩ <;> omega

theorem Wellformed_head {rt : Runtime} {lim : Nat} {v : Value} {d : Nat}
    (h : Wellformed rt lim v d) : ∃ c0 m, v.MarshalTo rt = c0 :: m ∧ isWS c0 = false := by
  obtain ⟨f, hf⟩ := h 0x2C [] rfl
  obtain ⟨c, t, hs, hw, hdl⟩ := rfcValue_head hf
  cases hm : v.MarshalTo rt with
  | nil =>
    rw [hm] at hs
    simp only [List.nil_append, List.cons.injEq] at hs
    rw [← hs.1] at hdl
    cases hdl
  | cons c0 m =>
    rw [hm] at hs
    simp only [List.cons_append, List.cons.injEq] at hs
    exact ⟨c0, m, rfl, by rw [hs.1]; exact hw⟩

theorem Wellformed_skipWS {rt : Runtime} {lim : Nat} {v : Value} {d : Nat}
    (h : Wellformed rt lim v d) (x : Bytes) :
    skipWS (v.MarshalTo rt ++ x) = v.MarshalTo rt ++ x := by
  obtain ⟨c0, m, hm, hw⟩ := Wellformed_head h
  rw [hm, List.cons_append]
  exact skipWS_of_not_ws _ hw

/-- The elements of an array, marshalled one after the other, are the
elements of an array of the JSON grammar. -/
theorem rfcElements_marshal (rt : Runtime) (lim d : Nat) (a : List Value) (ha : a ≠ [])
    (hv : ∀ v ∈ a, Wellformed rt lim v d) (rest : Bytes) :
    ∃ f, rfcElements lim f (marshalArray rt a ++ 0x5D :: rest) d = some rest := by
  induction a with
  | nil => exact absurd rfl ha
  | cons v a ih =>
    have hwf := hv v (List.mem_cons_self _ _)
    cases a with
    | nil =>
      obtain ⟨f, hf⟩ := hwf 0x5D rest rfl
      refine ⟨f + 1, ?_⟩
      rw [rfcElements_succ, marshalArray_single, Wellformed_skipWS hwf, hf]
      simp only
      rw [skipWS_of_not_ws _ (by rfl)]
      simp
    | cons w a2 =>
      obtain ⟨f2, hf2⟩ := ih (by simp) (fun u hu => hv u (List.mem_cons_of_mem _ hu))
      obtain ⟨f1, hf1⟩ := hwf 0x2C (marshalArray rt (w :: a2) ++ 0x5D :: rest) rfl
      refine ⟨3 * (marshalArray rt (v :: w :: a2) ++ 0x5D :: rest).length + 2 + 1, ?_⟩
      rw [rfcElements_succ, marshalArray_cons_cons]
      simp only [List.append_assoc, List.singleton_append, List.cons_append, List.nil_append]
      rw [Wellformed_skipWS hwf]
      rw [(rfc_fuel lim f1).1 _ _ _ hf1 _ (by omega)]
      simp only
      rw [skipWS_of_not_ws _ (by rfl)]
      simp only [if_true]
      exact (rfc_fuel lim f2).2.2 _ _ _ hf2 _ (by
        simp only [List.length_append, List.length_cons]; omega)

theorem marshalKVs_head (rt : Runtime) (ku : Bool) (E : List (Bytes × Value)) (hE : E ≠ []) :
    ∃ m, marshalKVs rt ku E = 0x22 :: m := by
  have hkey : ∀ k : Bytes, (if ku then escapeString rt k else [0x22] ++ k ++ [0x22]) =
      [0x22] ++ (if ku then escBody rt k else k) ++ [0x22] := by
    intro k
    cases ku with
    | true => simp only [if_true]; exact escapeString_eq rt k
    | false => rfl
  cases E with
  | nil => exact absurd rfl hE
  | cons kv E2 =>
    obtain ⟨k, v⟩ := kv
    cases E2 with
    | nil => exact ⟨_, by rw [marshalKVs_single, hkey]; rfl⟩
    | cons kv2 E3 => exact ⟨_, by rw [marshalKVs_cons rt ku k v _ (by simp), hkey]; rfl⟩

/-- The entries of an object, marshalled one after the other, are the members
of an object of the JSON grammar when the keys between their quotes are
strings of the grammar. -/
theorem rfcMembers_marshal (rt : Runtime) (lim d : Nat) (ku : Bool)
    (kvs : List (Bytes × Value)) (hne : kvs ≠ [])
    (hkv : ∀ kv ∈ kvs, IsStringBody (if ku then escBody rt kv.1 else kv.1) ∧
      Wellformed rt lim kv.2 d) (rest : Bytes) :
    ∃ f, rfcMembers lim f (marshalKVs rt ku kvs ++ 0x7D :: rest) d = some rest := by
  have hkey : ∀ k : Bytes, (if ku then escapeString rt k else [0x22] ++ k ++ [0x22]) =
      [0x22] ++ (if ku then escBody rt k else k) ++ [0x22] := by
    intro k
    cases ku with
    | true => simp only [if_true]; exact escapeString_eq rt k
    | false => rfl
  induction kvs with
  | nil => exact absurd rfl hne
  | cons kv kvs ih =>
    obtain ⟨k, v⟩ := kv
    obtain ⟨hk, hwf⟩ := hkv (k, v) (List.mem_cons_self _ _)
    simp only at hk hwf
    cases kvs with
    | nil =>
      obtain ⟨f, hf⟩ := hwf 0x7D rest rfl
      obtain ⟨g, hg⟩ := hk (0x3A :: (v.MarshalTo rt ++ 0x7D :: rest))
      refine ⟨f + 1, ?_⟩
      rw [rfcMembers_succ, marshalKVs_single, hkey]
      simp only [List.append_assoc, List.singleton_append, List.cons_append, List.nil_append]
      rw [skipWS_of_not_ws _ (by rfl)]
      simp only [ne_eq, not_true, if_false]
      rw [rfcString_fuel hg]
      simp only
      rw [skipWS_of_not_ws _ (by rfl)]
      simp only [ne_eq, not_true, if_false]
      rw [Wellformed_skipWS hwf, hf]
      simp only
      rw [skipWS_of_not_ws _ (by rfl)]
      simp
    | cons kv2 kvs2 =>
      obtain ⟨f2, hf2⟩ := ih (by simp) (fun u hu => hkv u (List.mem_cons_of_mem _ hu))
      obtain ⟨f1, hf1⟩ := hwf 0x2C (marshalKVs rt ku (kv2 :: kvs2) ++ 0x7D :: rest) rfl
      obtain ⟨g, hg⟩ := hk (0x3A :: (v.MarshalTo rt ++
        0x2C :: (marshalKVs rt ku (kv2 :: kvs2) ++ 0x7D :: rest)))
      refine ⟨3 * (marshalKVs rt ku ((k, v) :: kv2 :: kvs2) ++ 0x7D :: rest).length + 2 + 1, ?_⟩
      rw [rfcMembers_succ, marshalKVs_cons rt ku k v _ (by simp), hkey]
      simp only [List.append_assoc, List.singleton_append, List.cons_append, List.nil_append]
      rw [skipWS_of_not_ws _ (by rfl)]
      simp only [ne_eq, not_true, if_false]
      rw [rfcString_fuel hg]
      simp only
      rw [skipWS_of_not_ws _ (by rfl)]
      simp only [ne_eq, not_true, if_false]
      rw [Wellformed_skipWS hwf]
      rw [(rfc_fuel lim f1).1 _ _ _ hf1 _ (by
        simp only [List.length_append, List.length_cons]; omega)]
      simp only
      rw [skipWS_of_not_ws _ (by rfl)]
      simp only [if_true]
      exact (rfc_fuel lim f2).2.1 _ _ _ hf2 _ (by
        simp only [List.length_append, List.length_cons]; omega)

theorem rfcString_plain_cons (f c : Nat) (y : Bytes) (h1 : c ≠ 0x22) (h2 : c ≠ 0x5C)
    (h3 : 0x20 ≤ c) : rfcString (f + 1) (c :: y) = rfcString f y := by
  rw [rfcString_cons, if_neg h1, if_neg h2, if_neg (by omega)]

theorem rfcString_esc_cons (f e : Nat) (y : Bytes)
    (he : e = 0x22 ∨ e = 0x5C ∨ e = 0x2F ∨ e = 0x62 ∨ e = 0x66 ∨ e = 0x6E ∨ e = 0x72 ∨ e = 0x74) :
    rfcString (f + 1) (0x5C :: e :: y) = rfcString f y := by
  rw [rfcString_cons, if_neg (by decide), if_pos rfl]
  simp only
  rw [if_pos he]

theorem rfcString_plain_run (l y r : Bytes) (hl : ∀ b ∈ l, b ≠ 0x22 ∧ b ≠ 0x5C ∧ 0x20 ≤ b)
    (f : Nat) (h : rfcString f y = some r) : ∃ g, rfcString g (l ++ y) = some r := by
  induction l with
  | nil => exact ⟨f, h⟩
  | cons c l ih =>
    obtain ⟨g, hg⟩ := ih (fun b hb => hl b (List.mem_cons_of_mem _ hb))
    obtain ⟨h1, h2, h3⟩ := hl c (List.mem_cons_self _ _)
    exact ⟨g + 1, by rw [List.cons_append, rfcString_plain_cons g c _ h1 h2 h3, hg]⟩

theorem rfcString_u_cons (f h3 h2 h1 h0 : Nat) (y : Bytes)
    (hx : isHexDigit h3 = true ∧ isHexDigit h2 = true ∧ isHexDigit h1 = true ∧
      isHexDigit h0 = true) :
    rfcString (f + 1) (0x5C :: 0x75 :: h3 :: h2 :: h1 :: h0 :: y) = rfcString f y := by
  rw [rfcString_cons, if_neg (by decide), if_pos rfl]
  simp only
  rw [if_neg (by decide)]
  simp only [if_true]
  rw [if_pos]
  · rfl
  · refine ⟨by simp only [List.length_cons]; omega, ?_⟩
    simp only [List.take_succ_cons, List.take_zero, List.all_cons, List.all_nil, hx.1, hx.2.1,
      hx.2.2.1, hx.2.2.2, Bool.and_self]

/-- The quoting of a text that is `quoteSafeText` is the body of a string of
the JSON grammar. -/
theorem rfcString_quoteBody_text (rt : Runtime) (n : Nat) :
    ∀ s, quoteSafeText rt n s = true → s.length ≤ n →
      ∀ y r f, rfcString f y = some r → ∃ g, rfcString g (quoteBody rt n s ++ y) = some r := by
  induction n with
  | zero =>
    intro s _ hn y r f h
    have : s = [] := List.length_eq_zero.1 (by omega)
    subst this
    rw [quoteBody_zero]; exact ⟨f, h⟩
  | succ n ih =>
    intro s hs hn y r f h
    cases s with
    | nil => rw [quoteBody_nil]; exact ⟨f, h⟩
    | cons c rest =>
      obtain ⟨w, out, hw1, hq, hsafe, hcase⟩ := quoteBody_safe_step rt n c rest hs
      have hdl : ((c :: rest).drop w).length ≤ n := by
        rw [List.length_drop]
        simp only [List.length_cons] at hn ⊢
        omega
      obtain ⟨g, hg⟩ := ih _ hsafe hdl y r f h
      rw [hq, List.append_assoc]
      rcases hcase with ⟨_, hpl⟩ | ⟨e, d, ho, _, _, he⟩ | ⟨r1, hr, _, _, ho⟩
      · exact rfcString_plain_run out _ r hpl g hg
      · refine ⟨g + 1, ?_⟩
        rw [ho]
        simp only [List.cons_append, List.nil_append]
        rw [rfcString_esc_cons g e _ he, hg]
      · refine ⟨g + 1, ?_⟩
        rw [ho]
        simp only [List.cons_append, List.nil_append]
        rw [rfcString_u_cons g _ _ _ _ _ ⟨isHexDigit_lowerhex _ (Nat.mod_lt _ (by decide)),
          isHexDigit_lowerhex _ (Nat.mod_lt _ (by decide)),
          isHexDigit_lowerhex _ (Nat.mod_lt _ (by decide)),
          isHexDigit_lowerhex _ (Nat.mod_lt _ (by decide))⟩, hg]

/-- What `escapeString` writes between the quotes for a `safeText` is a string
of the JSON grammar. -/
theorem IsStringBody_escBody (rt : Runtime) (k : Bytes) (hk : safeText rt k) :
    IsStringBody (escBody rt k) := by
  intro rest
  have base : rfcString 1 (0x22 :: rest) = some rest := by
    rw [rfcString_cons, if_pos rfl]
  unfold escBody
  by_cases hsp : hasSpecialChars k = true
  · rw [if_pos hsp]
    rcases hk with h | h
    · rw [h] at hsp; cases hsp
    · exact rfcString_quoteBody_text rt _ k h (le_refl _) _ _ 1 base
  · rw [if_neg hsp]
    exact rfcString_plain_run k _ _
      (hasSpecialChars_false (by simpa using hsp)) 1 base

/-- A string that `Arena.NewString` makes of a `safeText` is a value of the
JSON grammar. -/
theorem Wellformed_NewString (rt : Runtime) (lim : Nat) (x : Bytes) (d : Nat)
    (hd : d + 1 ≤ lim) (hx : safeText rt x) : Wellformed rt lim (Arena.NewString rt x) d := by
  intro c tail2 _
  obtain ⟨g, hg⟩ := IsStringBody_escBody rt x hx (c :: tail2)
  refine ⟨1, ?_⟩
  rw [NewString_escBody, rfcValue_succ]
  simp only [Value.MarshalTo, List.append_assoc, List.singleton_append, List.cons_append,
    List.nil_append]
  rw [if_neg (by omega), if_neg (by decide), if_neg (by decide)]
  simp only [if_true]
  exact rfcString_fuel hg

/-! ## The parser on the texts of the JSON grammar -/

theorem take_head_ne {c w : Nat} (h : c ≠ w) (x y : Bytes) (n : Nat) :
    (c :: x).take (n + 1) ≠ w :: y := by
  intro e
  rw [List.take_succ_cons] at e
  exact h (List.cons.inj e).1

theorem Wellformed_literal (rt : Runtime) (lim d : Nat) (hd : ¬ d + 1 > lim) :
    Wellformed rt lim .vtrue d ∧ Wellformed rt lim .vfalse d ∧ Wellformed rt lim .vnull d := by
  refine ⟨?_, ?_, ?_⟩ <;> intro c tail2 _ <;> refine ⟨1, ?_⟩ <;> rw [rfcValue_succ] <;>
    simp [Value.MarshalTo, hd]

theorem Wellformed_rawString (rt : Runtime) (lim d : Nat) (hd : ¬ d + 1 > lim) (k : Bytes)
    (hk : ∀ rest g, k.length < g → rfcString g (k ++ 0x22 :: rest) = some rest) :
    Wellformed rt lim (.rawString k) d := by
  intro c tail2 _
  refine ⟨1, ?_⟩
  rw [rfcValue_succ]
  simp only [Value.MarshalTo, List.append_assoc, List.singleton_append, List.cons_append,
    List.nil_append]
  rw [if_neg hd, if_neg (by decide), if_neg (by decide)]
  simp only [if_true]
  apply hk
  simp only [List.length_append, List.length_cons]
  omega

theorem Wellformed_object (rt : Runtime) (lim d : Nat) (hd : ¬ d + 1 > lim)
    (kvs : List (Bytes × Value))
    (hkv : ∀ kv ∈ kvs, IsStringBody kv.1 ∧ Wellformed rt lim kv.2 (d + 1)) :
    Wellformed rt lim (.object kvs false) d := by
  intro c tail2 _
  by_cases hne : kvs = []
  · subst hne
    refine ⟨1, ?_⟩
    rw [rfcValue_succ]
    simp only [Value.MarshalTo, marshalKVs, List.append_assoc, List.singleton_append,
      List.cons_append, List.nil_append]
    rw [if_neg hd]
    simp only [if_true]
    rw [skipWS_of_not_ws _ (by rfl)]
    simp
  · obtain ⟨f, hf⟩ := rfcMembers_marshal rt lim (d + 1) false kvs hne
      (fun kv h => by simpa using hkv kv h) (c :: tail2)
    obtain ⟨m, hm⟩ := marshalKVs_head rt false kvs hne
    refine ⟨f + 1, ?_⟩
    rw [rfcValue_succ]
    simp only [Value.MarshalTo, List.append_assoc, List.singleton_append, List.cons_append,
      List.nil_append]
    rw [if_neg hd]
    simp only [if_true]
    rw [hm] at hf ⊢
    simp only [List.cons_append] at hf ⊢
    rw [skipWS_of_not_ws _ (by rfl)]
    simp only
    rw [if_neg (by decide)]
    exact hf

theorem Wellformed_array (rt : Runtime) (lim d : Nat) (hd : ¬ d + 1 > lim) (a : List Value)
    (hv : ∀ v ∈ a, Wellformed rt lim v (d + 1)) : Wellformed rt lim (.array a) d := by
  intro c tail2 _
  by_cases hne : a = []
  · subst hne
    refine ⟨1, ?_⟩
    rw [rfcValue_succ]
    simp only [Value.MarshalTo, marshalArray, List.append_assoc, List.singleton_append,
      List.cons_append, List.nil_append]
    rw [if_neg hd, if_neg (by decide)]
    simp only [if_true]
    rw [skipWS_of_not_ws _ (by rfl)]
    simp
  · obtain ⟨f, hf⟩ := rfcElements_marshal rt lim (d + 1) a hne hv (c :: tail2)
    obtain ⟨v, a2, rfl⟩ : ∃ v a2, a = v :: a2 := by
      cases a with
      | nil => exact absurd rfl hne
      | cons v a2 => exact ⟨v, a2, rfl⟩
    obtain ⟨c0, m, hm, hw⟩ := Wellformed_head (hv v (List.mem_cons_self _ _))
    have hma : ∃ m2, marshalArray rt (v :: a2) = c0 :: m2 := by
      cases a2 with
      | nil => exact ⟨m, by rw [marshalArray_single, hm]⟩
      | cons w a3 => exact ⟨_, by rw [marshalArray_cons_cons, hm]; rfl⟩
    obtain ⟨m2, hm2⟩ := hma
    have hwd : isDelim c0 = false ∧ isWS c0 = false := by
      obtain ⟨f1, hf1⟩ := hv v (List.mem_cons_self _ _) 0x2C [] rfl
      obtain ⟨c1, t1, hs, hw1, hd1⟩ := rfcValue_head hf1
      rw [hm] at hs
      simp only [List.cons_append, List.cons.injEq] at hs
      rw [hs.1]
      exact ⟨hd1, hw1⟩
    refine ⟨f + 1, ?_⟩
    rw [rfcValue_succ]
    simp only [Value.MarshalTo, List.append_assoc, List.singleton_append, List.cons_append,
      List.nil_append]
    rw [if_neg hd, if_neg (by decide)]
    simp only [if_true]
    rw [hm2] at hf ⊢
    simp only [List.cons_append] at hf ⊢
    rw [skipWS_of_not_ws _ hwd.2]
    simp only
    rw [if_neg ?_]
    · exact hf
    · intro e
      rw [e] at hwd
      exact absurd hwd.1 (by decide)

/-- Every value of the JSON grammar that is nested no deeper than `MaxDepth`
is accepted by the parser, with the same text left after it, and the value
read is marshalled to a value of the grammar. -/
theorem rfc_parse (rt : Runtime) (lim : Nat) (hlim : lim ≤ MaxDepth) (f : Nat) :
    (∀ s d tail, rfcValue lim f s d = some tail →
      (∀ c t, tail = c :: t → isNumChar c = false) →
      ∃ g v, parseValue g s d = .ok v tail ∧ Wellformed rt lim v d ∧
        (s.head? = some 0x7B → ∃ kvs, v = .object kvs false ∧
          ∀ kv ∈ kvs, IsStringBody kv.1 ∧ Wellformed rt lim kv.2 (d + 1))) ∧
    (∀ s d tail, rfcMembers lim f s d = some tail →
      ∃ g kvs, parseObjectLoop g s d = .ok kvs tail ∧
        ∀ kv ∈ kvs, IsStringBody kv.1 ∧ Wellformed rt lim kv.2 d) ∧
    (∀ s d tail, rfcElements lim f s d = some tail →
      ∃ g a, parseArrayLoop g s d = .ok a tail ∧ ∀ v ∈ a, Wellformed rt lim v d) := by
  induction f with
  | zero =>
    refine ⟨?_, ?_, ?_⟩ <;> intro s d tail h
    · rw [rfcValue] at h; cases h
    · rw [rfcMembers] at h; cases h
    · rw [rfcElements] at h; cases h
  | succ f ih =>
    obtain ⟨ihV, ihM, ihE⟩ := ih
    refine ⟨?_, ?_, ?_⟩
    · intro s d tail h hend
      rw [rfcValue_succ] at h
      cases s with
      | nil => cases h
      | cons c t =>
        simp only at h
        by_cases hd : d + 1 > lim
        · rw [if_pos hd] at h; cases h
        · rw [if_neg hd] at h
          have hdm : d + 1 ≤ MaxDepth := by omega
          obtain ⟨wt, wf, wn⟩ := Wellformed_literal rt lim d hd
          by_cases h1 : c = 0x7B
          · rw [if_pos h1] at h
            subst h1
            cases hw : skipWS t with
            | nil => rw [hw] at h; cases h
            | cons c1 t1 =>
              rw [hw] at h
              simp only at h
              by_cases hc1 : c1 = 0x7D
              · rw [if_pos hc1] at h
                cases h
                subst hc1
                have hno : ∀ kv ∈ ([] : List (Bytes × Value)),
                    IsStringBody kv.1 ∧ Wellformed rt lim kv.2 (d + 1) :=
                  fun kv hkv => by cases hkv
                refine ⟨2, .object [] false, ?_, Wellformed_object rt lim d hd [] hno,
                  fun _ => ⟨[], rfl, hno⟩⟩
                rw [parseValue_object 1 t d hdm]
                exact parseObject_empty (d + 1) hw
              · rw [if_neg hc1] at h
                obtain ⟨g, kvs, hl, hkv⟩ := ihM _ _ _ h
                refine ⟨g + 2, .object kvs false, ?_, Wellformed_object rt lim d hd kvs hkv,
                  fun _ => ⟨kvs, rfl, hkv⟩⟩
                rw [parseValue_object (g + 1) t d hdm]
                exact parseObject_loop hw hc1 hl
          · rw [if_neg h1] at h
            have hhead : ∀ v : Value, (c :: t).head? = some 0x7B → ∃ kvs, v = .object kvs false ∧
                ∀ kv ∈ kvs, IsStringBody kv.1 ∧ Wellformed rt lim kv.2 (d + 1) := by
              intro v e
              simp only [List.head?_cons, Option.some.injEq] at e
              exact absurd e h1
            by_cases h2 : c = 0x5B
            · rw [if_pos h2] at h
              subst h2
              cases hw : skipWS t with
              | nil => rw [hw] at h; cases h
              | cons c1 t1 =>
                rw [hw] at h
                simp only at h
                by_cases hc1 : c1 = 0x5D
                · rw [if_pos hc1] at h
                  cases h
                  subst hc1
                  refine ⟨2, .array [], ?_,
                    Wellformed_array rt lim d hd [] (fun v hv => by cases hv), hhead _⟩
                  rw [parseValue_array 1 t d hdm]
                  exact parseArray_empty (d + 1) hw
                · rw [if_neg hc1] at h
                  obtain ⟨g, a, hl, hv⟩ := ihE _ _ _ h
                  refine ⟨g + 2, .array a, ?_, Wellformed_array rt lim d hd a hv, hhead _⟩
                  rw [parseValue_array (g + 1) t d hdm]
                  exact parseArray_loop hw hc1 hl
            · rw [if_neg h2] at h
              by_cases h3 : c = 0x22
              · rw [if_pos h3] at h
                subst h3
                obtain ⟨k, hk⟩ := rfcString_scan _ _ _ h
                obtain ⟨k2, hk2, hr⟩ := rfcString_ok _ _ _ h
                have hkk : k2 = k := by
                  have := (scanString_ok hk).1
                  rw [hk2] at this
                  exact List.append_cancel_right this
                subst hkk
                refine ⟨1, .rawString k2, ?_, Wellformed_rawString rt lim d hd k2 hr, hhead _⟩
                rw [parseValue_string 0 t d hdm, hk]
              · rw [if_neg h3] at h
                refine ⟨1, ?_⟩
                rw [parseValue_leaf 0 c t d hdm h1 h2 h3]
                by_cases ht : (c :: t).take 4 = [0x74, 0x72, 0x75, 0x65]
                · rw [if_pos ht] at h
                  cases h
                  have hc : c = 0x74 := by
                    have := congrArg List.head? ht
                    simpa using this
                  subst hc
                  exact ⟨.vtrue, by rw [parseLeaf_true, if_pos ht], wt, hhead _⟩
                · rw [if_neg ht] at h
                  by_cases hf : (c :: t).take 5 = [0x66, 0x61, 0x6C, 0x73, 0x65]
                  · rw [if_pos hf] at h
                    cases h
                    have hc : c = 0x66 := by
                      have := congrArg List.head? hf
                      simpa using this
                    subst hc
                    exact ⟨.vfalse, by rw [parseLeaf_false, if_pos hf], wf, hhead _⟩
                  · rw [if_neg hf] at h
                    by_cases hn : (c :: t).take 4 = [0x6E, 0x75, 0x6C, 0x6C]
                    · rw [if_pos hn] at h
                      cases h
                      have hc : c = 0x6E := by
                        have := congrArg List.head? hn
                        simpa using this
                      subst hc
                      exact ⟨.vnull, by rw [parseLeaf_n, if_pos hn], wn, hhead _⟩
                    · rw [if_neg hn] at h
                      obtain ⟨p, hp1, hp2, hp3, c2, t2, hp4, hp5⟩ := rfcNumber_split h
                      cases hp4
                      have hc1 : c ≠ 0x74 := by
                        rcases hp5 with e | e
                        · omega
                        · unfold isDigit at e
                          simp only [Bool.and_eq_true, decide_eq_true_eq] at e
                          omega
                      have hc2 : c ≠ 0x66 := by
                        rcases hp5 with e | e
                        · omega
                        · unfold isDigit at e
                          simp only [Bool.and_eq_true, decide_eq_true_eq] at e
                          omega
                      have hc3 : c ≠ 0x6E := by
                        rcases hp5 with e | e
                        · omega
                        · unfold isDigit at e
                          simp only [Bool.and_eq_true, decide_eq_true_eq] at e
                          omega
                      refine ⟨.number p, ?_, ?_, hhead _⟩
                      · rw [parseLeaf_number c t hc1 hc2 hc3]
                        conv_lhs => rw [hp1]
                        rw [parseRawNumber_of_run p tail hp2 hp3 hend]
                      · intro c3 tail3 hc3d
                        obtain ⟨p1, rfl⟩ : ∃ p1, p = c :: p1 := by
                          cases p with
                          | nil =>
                            obtain ⟨dg, hdg, _⟩ := hp3
                            cases hdg
                          | cons c0 p1 =>
                            simp only [List.cons_append, List.cons.injEq] at hp1
                            exact ⟨p1, by rw [hp1.1]⟩
                        refine ⟨1, ?_⟩
                        rw [rfcValue_succ]
                        simp only [Value.MarshalTo, List.cons_append]
                        rw [if_neg hd, if_neg h1, if_neg h2, if_neg h3,
                          if_neg (take_head_ne hc1 _ _ 3), if_neg (take_head_ne hc2 _ _ 4),
                          if_neg (take_head_ne hc3 _ _ 3)]
                        rw [hp1] at h
                        exact rfcNumber_again h hend hc3d tail3
    · intro s d tail h
      rw [rfcMembers_succ] at h
      cases hw : skipWS s with
      | nil => rw [hw] at h; cases h
      | cons q s1 =>
        rw [hw] at h
        simp only at h
        by_cases hq : q = 0x22
        · subst hq
          simp only [ne_eq, not_true, if_false] at h
          cases hs : rfcString s1.length s1 with
          | none => rw [hs] at h; cases h
          | some s2 =>
            rw [hs] at h
            simp only at h
            obtain ⟨k, hk⟩ := rfcString_scan _ _ _ hs
            have hkb : IsStringBody k := by
              obtain ⟨k2, hk2, hr⟩ := rfcString_ok _ _ _ hs
              have hkk : k2 = k := by
                have := (scanString_ok hk).1
                rw [hk2] at this
                exact List.append_cancel_right this
              subst hkk
              exact fun rest => ⟨k2.length + 1, hr rest _ (by omega)⟩
            cases hw2 : skipWS s2 with
            | nil => rw [hw2] at h; cases h
            | cons col s3 =>
              rw [hw2] at h
              simp only at h
              by_cases hcol : col = 0x3A
              · subst hcol
                simp only [ne_eq, not_true, if_false] at h
                cases hv : rfcValue lim f (skipWS s3) d with
                | none => rw [hv] at h; cases h
                | some s4 =>
                  rw [hv] at h
                  simp only at h
                  cases hw4 : skipWS s4 with
                  | nil => rw [hw4] at h; cases h
                  | cons c t =>
                    rw [hw4] at h
                    simp only at h
                    by_cases hc : c = 0x2C
                    · rw [if_pos hc] at h
                      subst hc
                      obtain ⟨g1, v, hv1, hwf, _⟩ :=
                        ihV _ _ _ hv (numEnd_of_skipWS hw4 (by rfl))
                      obtain ⟨g2, kvs, hl, hkv⟩ := ihM _ _ _ h
                      refine ⟨max (3 * (skipWS s3).length + 1) (3 * t.length + 2) + 1,
                        (k, v) :: kvs, ?_, ?_⟩
                      · exact parseObjectLoop_more hw hk hw2
                          (parseValue_fuel_enough rt hv1 _ (le_max_left _ _)) hw4
                          (parseObjectLoop_fuel_enough rt hl _ (le_max_right _ _))
                      · intro kv hm
                        rcases List.mem_cons.1 hm with e | e
                        · rw [e]; exact ⟨hkb, hwf⟩
                        · exact hkv kv e
                    · rw [if_neg hc] at h
                      by_cases hc2 : c = 0x7D
                      · rw [if_pos hc2] at h
                        cases h
                        subst hc2
                        obtain ⟨g1, v, hv1, hwf, _⟩ :=
                          ihV _ _ _ hv (numEnd_of_skipWS hw4 (by rfl))
                        refine ⟨g1 + 1, [(k, v)], parseObjectLoop_last hw hk hw2 hv1 hw4, ?_⟩
                        intro kv hm
                        rw [List.mem_singleton.1 hm]
                        exact ⟨hkb, hwf⟩
                      · rw [if_neg hc2] at h; cases h
              · simp only [ne_eq, hcol, not_false_eq_true, if_true] at h
                cases h
        · simp only [ne_eq, hq, not_false_eq_true, if_true] at h
          cases h
    · intro s d tail h
      rw [rfcElements_succ] at h
      cases hv : rfcValue lim f (skipWS s) d with
      | none => rw [hv] at h; cases h
      | some s1 =>
        rw [hv] at h
        simp only at h
        cases hw : skipWS s1 with
        | nil => rw [hw] at h; cases h
        | cons c t =>
          rw [hw] at h
          simp only at h
          by_cases hc : c = 0x2C
          · rw [if_pos hc] at h
            subst hc
            obtain ⟨g1, v, hv1, hwf, _⟩ := ihV _ _ _ hv (numEnd_of_skipWS hw (by rfl))
            obtain ⟨g2, a, hl, ha⟩ := ihE _ _ _ h
            refine ⟨max (3 * (skipWS s).length + 1) (3 * t.length + 2) + 1, v :: a, ?_, ?_⟩
            · exact parseArrayLoop_more (parseValue_fuel_enough rt hv1 _ (le_max_left _ _)) hw
                (parseArrayLoop_fuel_enough rt hl _ (le_max_right _ _))
            · intro u hu
              rcases List.mem_cons.1 hu with e | e
              · rw [e]; exact hwf
              · exact ha u e
          · rw [if_neg hc] at h
            by_cases hc2 : c = 0x5D
            · rw [if_pos hc2] at h
              cases h
              subst hc2
              obtain ⟨g1, v, hv1, hwf, _⟩ := ihV _ _ _ hv (numEnd_of_skipWS hw (by rfl))
              refine ⟨g1 + 1, [v], parseArrayLoop_last hv1 hw, ?_⟩
              intro u hu
              rw [List.mem_singleton.1 hu]
              exact hwf
            · rw [if_neg hc2] at h; cases h

/-! ## What `go_filter` returns -/

theorem addrFirst_append (l : Bytes) (b : Nat) : addrFirst (l ++ [b]) = .buffer (l ++ [b]) := by
  cases l <;> rfl

theorem go_filter_ok (rt : Runtime) (btag : Bytes) (sec nsec : Nat) (br : Bytes) (v : Value)
    (tail : Bytes) (obj : Object) (hp : Parser.Parse br = .ok v tail) (ho : v.Object = some obj) :
    go_filter rt btag sec nsec br = .buffer ((enrich rt btag sec nsec br obj).String rt ++ [0]) := by
  simp only [go_filter, hp, ho, addrFirst_append, enrich]

theorem go_filter_null_of_err (rt : Runtime) (btag : Bytes) (sec nsec : Nat) (br : Bytes)
    (hp : ∀ v tail, Parser.Parse br ≠ .ok v tail) :
    go_filter rt btag sec nsec br = .null := by
  cases h : Parser.Parse br with
  | ok v tail => exact absurd h (hp v tail)
  | err => simp only [go_filter, h]
  | oof => simp only [go_filter, h]

theorem go_filter_null_of_not_object (rt : Runtime) (btag : Bytes) (sec nsec : Nat) (br : Bytes)
    (v : Value) (tail : Bytes) (hp : Parser.Parse br = .ok v tail) (ho : v.Object = none) :
    go_filter rt btag sec nsec br = .null := by
  simp only [go_filter, hp, ho]

theorem Value.Object_eq_none (v : Value) (h : ∀ kvs ku, v ≠ .object kvs ku) : v.Object = none := by
  cases v <;> first | rfl | exact absurd rfl (h _ _)

/-! ## `Object.Set` -/

theorem unescapeKeys_keysUnescaped (o : Object) : o.unescapeKeys.keysUnescaped = true := by
  unfold Object.unescapeKeys
  split
  · assumption
  · rfl

theorem unescapeKeys_idem (o : Object) : o.unescapeKeys.unescapeKeys = o.unescapeKeys := by
  have h := unescapeKeys_keysUnescaped o
  generalize o.unescapeKeys = u at h
  simp only [Object.unescapeKeys, h, if_true]

theorem Set_eq (o : Object) (key : Bytes) (value : Value) :
    o.Set key value = ⟨setKV key value o.unescapeKeys.kvs, true⟩ := by
  unfold Object.Set setKV
  simp only [unescapeKeys_keysUnescaped]
  cases setFirst key value o.unescapeKeys.kvs <;> rfl

theorem Set_unescapeKeys (o : Object) (key : Bytes) (value : Value) :
    (o.Set key value).unescapeKeys = o.Set key value := by
  rw [Set_eq]; rfl

theorem enrich_eq (rt : Runtime) (btag : Bytes) (sec nsec : Nat) (br : Bytes) (obj : Object) :
    enrich rt btag sec nsec br obj =
      ⟨setKV (str "original") (Arena.NewString rt br)
        (setKV (str "tag") (Arena.NewString rt btag)
          (setKV (str "time")
            (Arena.NewString rt (rt.timeString (toInt64 sec) (toInt64 nsec)))
            obj.unescapeKeys.kvs)), true⟩ := by
  unfold enrich
  rw [Set_eq, Set_eq, Set_eq]
  rfl

theorem setFirst_none_iff (key : Bytes) (value : Value) (l : List (Bytes × Value)) :
    setFirst key value l = none ↔ key ∉ l.map Prod.fst := by
  induction l with
  | nil => simp [setFirst]
  | cons kv t ih =>
    unfold setFirst
    by_cases h : kv.1 = key
    · simp [h]
    · simp only [h, if_false, Option.map_eq_none', ih, List.map_cons, List.mem_cons, not_or]
      constructor
      · intro h2; exact ⟨fun e => h e.symm, h2⟩
      · intro h2; exact h2.2

theorem setFirst_keys (key : Bytes) (value : Value) (l r : List (Bytes × Value))
    (h : setFirst key value l = some r) : r.map Prod.fst = l.map Prod.fst := by
  induction l generalizing r with
  | nil => simp [setFirst] at h
  | cons kv t ih =>
    unfold setFirst at h
    by_cases hk : kv.1 = key
    · simp only [hk, if_true, Option.some.injEq] at h
      subst h; simp [hk]
    · simp only [hk, if_false, Option.map_eq_some'] at h
      obtain ⟨r1, h1, rfl⟩ := h
      simp [ih r1 h1]

theorem setKV_keys (key : Bytes) (value : Value) (l : List (Bytes × Value)) :
    (setKV key value l).map Prod.fst =
      if key ∈ l.map Prod.fst then l.map Prod.fst else l.map Prod.fst ++ [key] := by
  unfold setKV
  cases h : setFirst key value l with
  | none =>
    have := (setFirst_none_iff key value l).1 h
    simp [this]
  | some r =>
    have hm : key ∈ l.map Prod.fst := by
      by_contra hc
      rw [(setFirst_none_iff key value l).2 hc] at h
      cases h
    simp only [hm, if_true]
    exact setFirst_keys key value l r h

theorem setKV_of_not_mem (key : Bytes) (value : Value) (l : List (Bytes × Value))
    (h : key ∉ l.map Prod.fst) : setKV key value l = l ++ [(key, value)] := by
  unfold setKV
  rw [(setFirst_none_iff key value l).2 h]

theorem lookupKey_append_of_not_mem (key : Bytes) (l r : List (Bytes × Value))
    (h : key ∉ l.map Prod.fst) : lookupKey key (l ++ r) = lookupKey key r := by
  induction l with
  | nil => rfl
  | cons kv t ih =>
    simp only [List.map_cons, List.mem_cons, not_or] at h
    have h1 : ¬ kv.1 = key := fun e => h.1 e.symm
    simp only [List.cons_append, lookupKey, h1, if_false]
    exact ih h.2

theorem lookupKey_setFirst (key : Bytes) (value : Value) (l r : List (Bytes × Value))
    (h : setFirst key value l = some r) : lookupKey key r = some value := by
  induction l generalizing r with
  | nil => simp [setFirst] at h
  | cons kv t ih =>
    unfold setFirst at h
    by_cases hk : kv.1 = key
    · simp only [hk, if_true, Option.some.injEq] at h
      subst h; simp [lookupKey]
    · simp only [hk, if_false, Option.map_eq_some'] at h
      obtain ⟨r1, h1, rfl⟩ := h
      simp only [lookupKey, hk, if_false]
      exact ih r1 h1

theorem lookupKey_setKV_self (key : Bytes) (value : Value) (l : List (Bytes × Value)) :
    lookupKey key (setKV key value l) = some value := by
  unfold setKV
  cases h : setFirst key value l with
  | none =>
    simp only
    rw [lookupKey_append_of_not_mem key l _ ((setFirst_none_iff key value l).1 h)]
    simp [lookupKey]
  | some r => exact lookupKey_setFirst key value l r h

theorem lookupKey_setFirst_ne (key k2 : Bytes) (value : Value) (l r : List (Bytes × Value))
    (hne : k2 ≠ key) (h : setFirst key value l = some r) : lookupKey k2 r = lookupKey k2 l := by
  induction l generalizing r with
  | nil => simp [setFirst] at h
  | cons kv t ih =>
    unfold setFirst at h
    by_cases hk : kv.1 = key
    · simp only [hk, if_true, Option.some.injEq] at h
      subst h
      have : ¬ key = k2 := fun e => hne e.symm
      simp [lookupKey, hk, this]
    · simp only [hk, if_false, Option.map_eq_some'] at h
      obtain ⟨r1, h1, rfl⟩ := h
      simp only [lookupKey]
      rw [ih r1 h1]

theorem lookupKey_append_single_ne (key k2 : Bytes) (value : Value) (l : List (Bytes × Value))
    (hne : k2 ≠ key) : lookupKey k2 (l ++ [(key, value)]) = lookupKey k2 l := by
  induction l with
  | nil =>
    have : ¬ key = k2 := fun e => hne e.symm
    simp [lookupKey, this]
  | cons kv t ih =>
    simp only [List.cons_append, lookupKey, List.append_eq, ih]

theorem lookupKey_setKV_ne (key k2 : Bytes) (value : Value) (l : List (Bytes × Value))
    (hne : k2 ≠ key) : lookupKey k2 (setKV key value l) = lookupKey k2 l := by
  unfold setKV
  cases h : setFirst key value l with
  | none => exact lookupKey_append_single_ne key k2 value l hne
  | some r => exact lookupKey_setFirst_ne key k2 value l r hne h

theorem filter_setFirst (p : Bytes → Bool) (key : Bytes) (value : Value)
    (l r : List (Bytes × Value)) (hp : p key = false) (h : setFirst key value l = some r) :
    r.filter (fun kv => p kv.1) = l.filter (fun kv => p kv.1) := by
  induction l generalizing r with
  | nil => simp [setFirst] at h
  | cons kv t ih =>
    unfold setFirst at h
    by_cases hk : kv.1 = key
    · simp only [hk, if_true, Option.some.injEq] at h
      subst h
      simp [List.filter_cons, hk, hp]
    · simp only [hk, if_false, Option.map_eq_some'] at h
      obtain ⟨r1, h1, rfl⟩ := h
      simp only [List.filter_cons]
      rw [ih r1 h1]

theorem filter_setKV (p : Bytes → Bool) (key : Bytes) (value : Value)
    (l : List (Bytes × Value)) (hp : p key = false) :
    (setKV key value l).filter (fun kv => p kv.1) = l.filter (fun kv => p kv.1) := by
  unfold setKV
  cases h : setFirst key value l with
  | none => simp [List.filter_append, List.filter_cons, hp]
  | some r => exact filter_setFirst p key value l r hp h

theorem sameExcept_refl (ks : List Bytes) (a : List (Bytes × Value)) : sameExcept ks a a := by
  unfold sameExcept
  induction a with
  | nil => exact List.Forall₂.nil
  | cons x t ih => exact List.Forall₂.cons ⟨rfl, fun _ => rfl⟩ ih

theorem sameExcept_setFirst (ks : List Bytes) (key : Bytes) (va vb : Value)
    (a b : List (Bytes × Value)) (h : sameExcept ks a b) (hv : key ∈ ks ∨ va = vb) :
    (setFirst key va a = none ∧ setFirst key vb b = none) ∨
      ∃ ra rb, setFirst key va a = some ra ∧ setFirst key vb b = some rb ∧ sameExcept ks ra rb := by
  unfold sameExcept at h
  induction h with
  | nil => left; exact ⟨rfl, rfl⟩
  | @cons x y ta tb hxy _ ih =>
    obtain ⟨hk, hval⟩ := hxy
    by_cases hx : x.1 = key
    · right
      have hy : y.1 = key := hk ▸ hx
      refine ⟨(x.1, va) :: ta, (y.1, vb) :: tb, by simp [setFirst, hx], by simp [setFirst, hy], ?_⟩
      refine List.Forall₂.cons ⟨hk, fun hn => ?_⟩ (by assumption)
      rcases hv with hv | hv
      · exact absurd (hx ▸ hv) hn
      · exact hv
    · have hy : ¬ y.1 = key := hk ▸ hx
      rcases ih with ⟨h1, h2⟩ | ⟨ra, rb, h1, h2, h3⟩
      · left
        simp [setFirst, hx, hy, h1, h2]
      · right
        refine ⟨x :: ra, y :: rb, by simp [setFirst, hx, h1], by simp [setFirst, hy, h2], ?_⟩
        exact List.Forall₂.cons ⟨hk, hval⟩ h3

theorem sameExcept_setKV (ks : List Bytes) (key : Bytes) (va vb : Value)
    (a b : List (Bytes × Value)) (h : sameExcept ks a b) (hv : key ∈ ks ∨ va = vb) :
    sameExcept ks (setKV key va a) (setKV key vb b) := by
  rcases sameExcept_setFirst ks key va vb a b h hv with ⟨h1, h2⟩ | ⟨ra, rb, h1, h2, h3⟩
  · unfold setKV
    rw [h1, h2]
    unfold sameExcept at h ⊢
    refine List.rel_append h (List.Forall₂.cons ⟨rfl, fun hn => ?_⟩ List.Forall₂.nil)
    rcases hv with hv | hv
    · exact absurd hv hn
    · exact hv
  · unfold setKV
    rw [h1, h2]
    exact h3

theorem setKV_keys_extend (key : Bytes) (value : Value) (l : List (Bytes × Value)) :
    l.map Prod.fst <+: (setKV key value l).map Prod.fst := by
  rw [setKV_keys]
  split
  · exact List.prefix_refl _
  · exact List.prefix_append _ _

theorem setKV_count_self (key : Bytes) (value : Value) (l : List (Bytes × Value))
    (h : (l.map Prod.fst).count key ≤ 1) : ((setKV key value l).map Prod.fst).count key = 1 := by
  rw [setKV_keys]
  split
  · rename_i hm
    have := List.count_pos_iff.2 hm
    omega
  · rename_i hm
    rw [List.count_append, List.count_eq_zero_of_not_mem hm]
    simp

theorem setKV_count_ne (key k2 : Bytes) (value : Value) (l : List (Bytes × Value))
    (hne : k2 ≠ key) :
    ((setKV key value l).map Prod.fst).count k2 = (l.map Prod.fst).count k2 := by
  rw [setKV_keys]
  split
  · rfl
  · rw [List.count_append]
    have : List.count k2 [key] = 0 := by
      apply List.count_eq_zero_of_not_mem
      simpa using hne
    omega

/-! ## Inside a returned buffer -/

theorem Parse_ok_inv {br : Bytes} {v : Value} {tail : Bytes} (h : Parser.Parse br = .ok v tail) :
    ∃ t1, parseValue (3 * (skipWS br).length + 1) (skipWS br) 0 = .ok v t1 ∧ skipWS t1 = [] ∧
      tail = [] := by
  unfold Parser.Parse at h
  simp only at h
  cases hv : parseValue (3 * (skipWS br).length + 1) (skipWS br) 0 with
  | ok v1 t1 =>
    rw [hv] at h
    simp only at h
    cases hw : skipWS t1 with
    | nil =>
      rw [hw] at h
      cases h
      exact ⟨t1, rfl, hw, rfl⟩
    | cons c t => rw [hw] at h; cases h
  | err => rw [hv] at h; cases h
  | oof => rw [hv] at h; cases h

theorem go_filter_buffer_inv {rt : Runtime} {tag : Bytes} {sec nsec : Nat} {payload rv : Bytes}
    (h : go_filter rt tag sec nsec payload = .buffer rv) :
    ∃ v tail obj, Parser.Parse payload = .ok v tail ∧ v.Object = some obj ∧
      rv = (enrich rt tag sec nsec payload obj).String rt ++ [0] := by
  cases hp : Parser.Parse payload with
  | ok v tail =>
    cases ho : v.Object with
    | none =>
      rw [go_filter_null_of_not_object rt tag sec nsec payload v tail hp ho] at h
      cases h
    | some obj =>
      rw [go_filter_ok rt tag sec nsec payload v tail obj hp ho] at h
      cases h
      exact ⟨v, tail, obj, rfl, ho, rfl⟩
  | err =>
    rw [go_filter_null_of_err rt tag sec nsec payload (fun v t e => by rw [hp] at e; cases e)] at h
    cases h
  | oof =>
    rw [go_filter_null_of_err rt tag sec nsec payload (fun v t e => by rw [hp] at e; cases e)] at h
    cases h

/-- A successful `parseValue` gives an object only on an opening brace, and
the object is the one `parseObject` reads after the brace. -/
theorem parseValue_object_inv (rt : Runtime) {f : Nat} {s : Bytes} {d : Nat} {v : Value}
    {tail : Bytes} {obj : Object} (h : parseValue f s d = .ok v tail) (ho : v.Object = some obj) :
    ∃ f1 t, f = f1 + 1 ∧ s = 0x7B :: t ∧ d + 1 ≤ MaxDepth ∧ parseObject f1 t (d + 1) = .ok v tail ∧
      v = .object obj.kvs false ∧ obj.keysUnescaped = false := by
  cases f with
  | zero => rw [parseValue_zero] at h; cases h
  | succ f =>
    cases s with
    | nil => rw [parseValue_nil] at h; cases h
    | cons c t =>
      by_cases hd : d + 1 ≤ MaxDepth
      · by_cases h1 : c = 0x7B
        · subst h1
          rw [parseValue_object f t d hd] at h
          obtain ⟨kvs, rfl, _⟩ := (parse_consumed rt f).2.2.2.1 _ _ _ _ h
          simp only [Value.Object, Option.some.injEq] at ho
          subst ho
          exact ⟨f, t, rfl, rfl, hd, h, rfl, rfl⟩
        · exfalso
          by_cases h2 : c = 0x5B
          · subst h2
            rw [parseValue_array f t d hd] at h
            obtain ⟨a, rfl, _⟩ := (parse_consumed rt f).2.1 _ _ _ _ h
            cases ho
          · by_cases h3 : c = 0x22
            · subst h3
              rw [parseValue_string f t d hd] at h
              cases hs : scanString t with
              | ok ss tl => rw [hs] at h; cases h; cases ho
              | err => rw [hs] at h; cases h
              | oof => rw [hs] at h; cases h
            · rw [parseValue_leaf f c t d hd h1 h2 h3] at h
              obtain ⟨_, _, h4⟩ := parseLeaf_ok rt h
              rcases h4 with rfl | rfl | rfl | ⟨ns, rfl⟩ <;> cases ho
      · rw [parseValue_deep f _ d (by omega) (by simp)] at h; cases h

theorem marshalKVs_value_mem (rt : Runtime) (ku : Bool) (kvs : List (Bytes × Value))
    (kv : Bytes × Value) (h : kv ∈ kvs) : ∀ b ∈ kv.2.MarshalTo rt, b ∈ marshalKVs rt ku kvs := by
  induction kvs with
  | nil => cases h
  | cons x rest ih =>
    obtain ⟨k, v⟩ := x
    intro b hb
    by_cases hr : rest = []
    · subst hr
      simp only [List.mem_singleton] at h
      subst h
      rw [marshalKVs_single]
      exact List.mem_append_right _ hb
    · rw [marshalKVs_cons rt ku k v rest hr]
      rcases List.mem_cons.1 h with h | h
      · subst h
        simp only [List.mem_append]
        exact Or.inl (Or.inl (Or.inr hb))
      · exact List.mem_append_right _ (ih h b hb)

theorem marshalKVs_true_forall (rt : Runtime) (P : Nat → Prop) (hc : P 0x3A) (hm : P 0x2C)
    (hq : ∀ s, ∀ b ∈ escapeString rt s, P b) (kvs : List (Bytes × Value))
    (h : ∀ kv ∈ kvs, ∀ b ∈ kv.2.MarshalTo rt, P b) : ∀ b ∈ marshalKVs rt true kvs, P b := by
  induction kvs with
  | nil => intro b hb; rw [marshalKVs] at hb; cases hb
  | cons x rest ih =>
    obtain ⟨k, v⟩ := x
    intro b hb
    have hv := h (k, v) (List.mem_cons_self _ _)
    by_cases hr : rest = []
    · subst hr
      rw [marshalKVs_single] at hb
      simp only [if_true, List.mem_append, List.mem_singleton] at hb
      rcases hb with (hb | hb) | hb
      · exact hq k b hb
      · rw [hb]; exact hc
      · exact hv b hb
    · rw [marshalKVs_cons rt true k v rest hr] at hb
      simp only [if_true, List.mem_append, List.mem_singleton] at hb
      rcases hb with (((hb | hb) | hb) | hb) | hb
      · exact hq k b hb
      · rw [hb]; exact hc
      · exact hv b hb
      · rw [hb]; exact hm
      · exact ih (fun kv hkv => h kv (List.mem_cons_of_mem _ hkv)) b hb

theorem mem_setFirst {key : Bytes} {value : Value} {l r : List (Bytes × Value)}
    (h : setFirst key value l = some r) {kv : Bytes × Value} (hkv : kv ∈ r) :
    kv.2 = value ∨ kv ∈ l := by
  induction l generalizing r with
  | nil => simp [setFirst] at h
  | cons x t ih =>
    unfold setFirst at h
    by_cases hk : x.1 = key
    · simp only [hk, if_true, Option.some.injEq] at h
      subst h
      rcases List.mem_cons.1 hkv with e | e
      · left; rw [e]
      · right; exact List.mem_cons_of_mem _ e
    · simp only [hk, if_false, Option.map_eq_some'] at h
      obtain ⟨r1, h1, rfl⟩ := h
      rcases List.mem_cons.1 hkv with e | e
      · right; rw [e]; exact List.mem_cons_self _ _
      · rcases ih h1 e with e2 | e2
        · left; exact e2
        · right; exact List.mem_cons_of_mem _ e2

theorem mem_setKV {key : Bytes} {value : Value} {l : List (Bytes × Value)}
    {kv : Bytes × Value} (hkv : kv ∈ setKV key value l) : kv.2 = value ∨ kv ∈ l := by
  unfold setKV at hkv
  cases h : setFirst key value l with
  | none =>
    rw [h] at hkv
    simp only [List.mem_append, List.mem_singleton] at hkv
    rcases hkv with e | e
    · right; exact e
    · left; rw [e]
  | some r =>
    rw [h] at hkv
    exact mem_setFirst h hkv

theorem mem_unescapeKeys {o : Object} {kv : Bytes × Value} (h : kv ∈ o.unescapeKeys.kvs) :
    ∃ kv1 ∈ o.kvs, kv.2 = kv1.2 := by
  unfold Object.unescapeKeys at h
  split at h
  · exact ⟨kv, h, rfl⟩
  · simp only [List.mem_map] at h
    obtain ⟨kv1, h1, rfl⟩ := h
    exact ⟨kv1, h1, rfl⟩

/-- The values of the enriched object are the three new strings and values of
the parsed object. -/
theorem mem_enrich {rt : Runtime} {tag : Bytes} {sec nsec : Nat} {payload : Bytes} {obj : Object}
    {kv : Bytes × Value} (h : kv ∈ (enrich rt tag sec nsec payload obj).kvs) :
    kv.2 = Arena.NewString rt (rt.timeString (toInt64 sec) (toInt64 nsec)) ∨
      kv.2 = Arena.NewString rt tag ∨ kv.2 = Arena.NewString rt payload ∨
      ∃ kv1 ∈ obj.kvs, kv.2 = kv1.2 := by
  rw [enrich_eq] at h
  simp only at h
  rcases mem_setKV h with e | e
  · exact Or.inr (Or.inr (Or.inl e))
  · rcases mem_setKV e with e | e
    · exact Or.inr (Or.inl e)
    · rcases mem_setKV e with e | e
      · exact Or.inl e
      · exact Or.inr (Or.inr (Or.inr (mem_unescapeKeys e)))

theorem enrich_keysUnescaped (rt : Runtime) (tag : Bytes) (sec nsec : Nat) (payload : Bytes)
    (obj : Object) : (enrich rt tag sec nsec payload obj).keysUnescaped = true := by
  rw [enrich_eq]

/-- The entries of an object that `Parser.Parse` returns hold only bytes of
the text parsed. -/
theorem Parse_object_bytes (rt : Runtime) {br : Bytes} {v : Value} {tail : Bytes} {obj : Object}
    (hp : Parser.Parse br = .ok v tail) (ho : v.Object = some obj) :
    obj.keysUnescaped = false ∧ ∀ kv ∈ obj.kvs, ∀ b ∈ kv.2.MarshalTo rt, b ∈ br := by
  obtain ⟨t1, h1, _, _⟩ := Parse_ok_inv hp
  obtain ⟨f1, t, _, _, _, _, hv, hku⟩ := parseValue_object_inv rt h1 ho
  refine ⟨hku, fun kv hkv b hb => ?_⟩
  have hc := (parse_consumed rt _).1 _ _ _ _ h1
  apply skipWS_mem
  apply hc.mem
  rw [hv, Value.MarshalTo]
  simp only [List.mem_append, List.mem_singleton]
  exact Or.inl (Or.inr (marshalKVs_value_mem rt false obj.kvs kv hkv b hb))

/-! ## Parsing the returned text -/

theorem Rereads_NewString (rt : Runtime) (s : Bytes) (d : Nat) (hd : d + 1 ≤ MaxDepth) :
    Rereads rt (Arena.NewString rt s) d := by
  rw [NewString_escBody]
  refine ⟨⟨0x22, escBody rt s ++ [0x22], by rw [Value.MarshalTo]; rfl, by rfl⟩, ?_⟩
  intro c tail2 _
  refine ⟨1, ?_⟩
  have e : (Value.rawString (escBody rt s)).MarshalTo rt ++ c :: tail2 =
      0x22 :: (escBody rt s ++ 0x22 :: (c :: tail2)) := by
    rw [Value.MarshalTo]; simp
  rw [e, parseValue_string 0 _ d hd, escBody_scan]

theorem Rereads_of_parse (rt : Runtime) {f : Nat} {s : Bytes} {d : Nat} {v : Value}
    {tail : Bytes} (h : parseValue f (skipWS s) d = .ok v tail) (ht : tail ≠ []) :
    Rereads rt v d := by
  obtain ⟨c0, t, m, h1, h2⟩ := parseValue_head rt h
  exact ⟨⟨c0, m, h2, skipWS_head h1⟩,
    fun c tail2 hc => ⟨f, (parse_again rt f).1 _ _ _ _ h ht c tail2 hc⟩⟩

theorem parseObjectLoop_rereads (rt : Runtime) (f : Nat) (s : Bytes) (d : Nat)
    (kvs : List (Bytes × Value)) (tail : Bytes) (h : parseObjectLoop f s d = .ok kvs tail) :
    ∀ kv ∈ kvs, Rereads rt kv.2 d := by
  induction f generalizing s kvs with
  | zero => rw [parseObjectLoop] at h; cases h
  | succ f ih =>
    obtain ⟨s1, k, s2, s3, v, s4, c, t, hw, hs, hw2, hv, hw4, hcase⟩ := parseObjectLoop_ok_inv h
    have hs4 : s4 ≠ [] := by
      intro e; rw [e] at hw4; cases hw4
    have hv2 := Rereads_of_parse rt hv hs4
    intro kv hkv
    rcases hcase with ⟨_, kvs1, hl, rfl⟩ | ⟨_, rfl, _⟩
    · rcases List.mem_cons.1 hkv with e | e
      · rw [e]; exact hv2
      · exact ih t kvs1 hl kv e
    · simp only [List.mem_singleton] at hkv
      rw [hkv]; exact hv2

/-- The values of the object `Parser.Parse` returns are parsed back from
their marshalled text. -/
theorem Parse_object_rereads (rt : Runtime) {br : Bytes} {v : Value} {tail : Bytes}
    {obj : Object} (hp : Parser.Parse br = .ok v tail) (ho : v.Object = some obj) :
    ∀ kv ∈ obj.kvs, Rereads rt kv.2 1 := by
  obtain ⟨t1, h1, _, _⟩ := Parse_ok_inv hp
  obtain ⟨f1, t, _, _, _, h2, hv, _⟩ := parseValue_object_inv rt h1 ho
  cases f1 with
  | zero => rw [parseObject] at h2; cases h2
  | succ f1 =>
    obtain ⟨c, t2, _, hcase⟩ := parseObject_ok_inv h2
    rcases hcase with ⟨_, e, _⟩ | ⟨_, kvs, hl, e⟩
    · rw [hv] at e
      simp only [Value.object.injEq, and_true] at e
      rw [e]
      intro kv hkv; cases hkv
    · rw [hv] at e
      simp only [Value.object.injEq, and_true] at e
      rw [e]
      exact parseObjectLoop_rereads rt f1 _ _ kvs _ hl

theorem skipWS_rereads (rt : Runtime) {v : Value} {d : Nat} (h : Rereads rt v d) (x : Bytes) :
    skipWS (v.MarshalTo rt ++ x) = v.MarshalTo rt ++ x := by
  obtain ⟨⟨c0, m, h1, h2⟩, _⟩ := h
  rw [h1, List.cons_append]
  exact skipWS_of_not_ws _ h2

/-- The marshalled entries of an object whose keys are unescaped, followed by
the closing brace, are parsed back: the keys as `escapeString` wrote them, the
values as they were. -/
theorem parseObjectLoop_marshalKVs (rt : Runtime) (d : Nat) (E : List (Bytes × Value))
    (hE : E ≠ []) (hR : ∀ kv ∈ E, Rereads rt kv.2 d) (tail2 : Bytes) (g : Nat)
    (hg : 3 * (marshalKVs rt true E ++ 0x7D :: tail2).length + 2 ≤ g) :
    parseObjectLoop g (marshalKVs rt true E ++ 0x7D :: tail2) d =
      .ok (E.map fun kv => (escBody rt kv.1, kv.2)) tail2 := by
  induction E generalizing g with
  | nil => exact absurd rfl hE
  | cons x E1 ih =>
    obtain ⟨k, v⟩ := x
    have hv := hR (k, v) (List.mem_cons_self _ _)
    obtain ⟨g1, rfl⟩ : ∃ g1, g = g1 + 1 := ⟨g - 1, by omega⟩
    by_cases hE1 : E1 = []
    · subst hE1
      have e : marshalKVs rt true [(k, v)] ++ 0x7D :: tail2 =
          0x22 :: (escBody rt k ++ 0x22 :: 0x3A :: (v.MarshalTo rt ++ 0x7D :: tail2)) := by
        rw [marshalKVs_single, if_pos rfl, escapeString_eq]; simp
      rw [e] at hg ⊢
      simp only [List.map_cons, List.map_nil]
      refine parseObjectLoop_last (skipWS_of_not_ws _ (by rfl)) (escBody_scan rt k _)
        (skipWS_of_not_ws _ (by rfl)) ?_ (skipWS_of_not_ws _ (by rfl))
      rw [skipWS_rereads rt hv]
      obtain ⟨f0, h0⟩ := hv.2 0x7D tail2 (by rfl)
      refine parseValue_fuel_enough rt h0 g1 ?_
      simp only [List.length_cons, List.length_append] at hg ⊢
      omega
    · have e : marshalKVs rt true ((k, v) :: E1) ++ 0x7D :: tail2 =
          0x22 :: (escBody rt k ++ 0x22 :: 0x3A :: (v.MarshalTo rt ++
            0x2C :: (marshalKVs rt true E1 ++ 0x7D :: tail2))) := by
        rw [marshalKVs_cons rt true k v E1 hE1, if_pos rfl, escapeString_eq]; simp
      rw [e] at hg ⊢
      simp only [List.map_cons]
      refine parseObjectLoop_more (skipWS_of_not_ws _ (by rfl)) (escBody_scan rt k _)
        (skipWS_of_not_ws _ (by rfl)) ?_ (skipWS_of_not_ws _ (by rfl))
        (ih hE1 (fun kv hkv => hR kv (List.mem_cons_of_mem _ hkv)) g1 ?_)
      · rw [skipWS_rereads rt hv]
        obtain ⟨f0, h0⟩ := hv.2 0x2C (marshalKVs rt true E1 ++ 0x7D :: tail2) (by rfl)
        refine parseValue_fuel_enough rt h0 g1 ?_
        simp only [List.length_cons, List.length_append] at hg ⊢
        omega
      · simp only [List.length_cons, List.length_append] at hg ⊢
        omega

theorem marshalKVs_true_head (rt : Runtime) (E : List (Bytes × Value)) (hE : E ≠ []) :
    ∃ m, marshalKVs rt true E = 0x22 :: m := by
  cases E with
  | nil => exact absurd rfl hE
  | cons x E1 =>
    obtain ⟨k, v⟩ := x
    by_cases hE1 : E1 = []
    · subst hE1
      exact ⟨_, by rw [marshalKVs_single, if_pos rfl, escapeString_eq]; rfl⟩
    · exact ⟨_, by rw [marshalKVs_cons rt true k v E1 hE1, if_pos rfl, escapeString_eq]; rfl⟩

/-- The marshalled text of an object with unescaped keys parses to an object
with the same values, the keys being the escaped texts. -/
theorem Parse_String (rt : Runtime) (E : List (Bytes × Value)) (hE : E ≠ [])
    (hR : ∀ kv ∈ E, Rereads rt kv.2 1) :
    Parser.Parse ((⟨E, true⟩ : Object).String rt) =
      .ok (.object (E.map fun kv => (escBody rt kv.1, kv.2)) false) [] := by
  obtain ⟨m, hm⟩ := marshalKVs_true_head rt E hE
  have hS : (⟨E, true⟩ : Object).String rt = 0x7B :: (marshalKVs rt true E ++ 0x7D :: []) := by
    unfold Object.String Object.MarshalTo; simp
  have hw : skipWS ((⟨E, true⟩ : Object).String rt) = (⟨E, true⟩ : Object).String rt := by
    rw [hS]; exact skipWS_of_not_ws _ (by rfl)
  unfold Parser.Parse
  simp only [hw]
  rw [hS]
  have hlen : 3 * (0x7B :: (marshalKVs rt true E ++ 0x7D :: [])).length + 1 =
      (3 * (marshalKVs rt true E ++ 0x7D :: []).length + 2 + 1) + 1 := by
    simp only [List.length_cons]; omega
  rw [hlen, parseValue_object _ _ 0 (by decide)]
  have hl := parseObjectLoop_marshalKVs rt 1 E hE hR []
    (3 * (marshalKVs rt true E ++ 0x7D :: []).length + 2) (le_refl _)
  have hw2 : skipWS (marshalKVs rt true E ++ 0x7D :: []) =
      0x22 :: (m ++ 0x7D :: []) := by
    rw [hm, List.cons_append]; exact skipWS_of_not_ws _ (by rfl)
  have hl2 : parseObjectLoop (3 * (marshalKVs rt true E ++ 0x7D :: []).length + 2)
      (0x22 :: (m ++ 0x7D :: [])) 1 = .ok (E.map fun kv => (escBody rt kv.1, kv.2)) [] := by
    rw [← List.cons_append, ← hm]; exact hl
  rw [parseObject_loop hw2 (by decide) hl2]
  rfl

/-! ## The object a returned buffer holds -/

theorem setKV_ne_nil (key : Bytes) (value : Value) (l : List (Bytes × Value)) :
    setKV key value l ≠ [] := by
  intro h
  have := lookupKey_setKV_self key value l
  rw [h] at this
  cases this

theorem mem_keys_setKV {key k : Bytes} {value : Value} {l : List (Bytes × Value)} :
    k ∈ (setKV key value l).map Prod.fst ↔ k = key ∨ k ∈ l.map Prod.fst := by
  rw [setKV_keys]
  split
  · rename_i hm
    constructor
    · intro h; exact Or.inr h
    · rintro (h | h)
      · rw [h]; exact hm
      · exact h
  · simp only [List.mem_append, List.mem_singleton]
    constructor
    · rintro (h | h)
      · exact Or.inr h
      · exact Or.inl h
    · rintro (h | h)
      · exact Or.inr h
      · exact Or.inl h

/-- The keys of the enriched object are the keys of the parsed object and the
three keys `time`, `tag`, `original`. -/
theorem mem_keys_enrich (rt : Runtime) (tag : Bytes) (sec nsec : Nat) (payload : Bytes)
    (obj : Object) (k : Bytes) :
    k ∈ (enrich rt tag sec nsec payload obj).kvs.map Prod.fst ↔
      k ∈ obj.unescapeKeys.kvs.map Prod.fst ∨ k ∈ enrichmentKeys := by
  rw [enrich_eq]
  simp only [mem_keys_setKV, enrichmentKeys, List.mem_cons, List.mem_singleton,
    List.not_mem_nil, or_false]
  constructor
  · rintro (h | h | h | h)
    · exact Or.inr (Or.inr (Or.inr h))
    · exact Or.inr (Or.inr (Or.inl h))
    · exact Or.inr (Or.inl h)
    · exact Or.inl h
  · rintro (h | h | h | h)
    · exact Or.inr (Or.inr (Or.inr h))
    · exact Or.inr (Or.inr (Or.inl h))
    · exact Or.inr (Or.inl h)
    · exact Or.inl h

theorem enrich_rereads (rt : Runtime) (tag : Bytes) (sec nsec : Nat) {payload : Bytes}
    {v : Value} {tail : Bytes} {obj : Object} (hp : Parser.Parse payload = .ok v tail)
    (ho : v.Object = some obj) :
    ∀ kv ∈ (enrich rt tag sec nsec payload obj).kvs, Rereads rt kv.2 1 := by
  intro kv hkv
  rcases mem_enrich hkv with e | e | e | ⟨kv1, h1, e⟩
  · rw [e]; exact Rereads_NewString rt _ 1 (by decide)
  · rw [e]; exact Rereads_NewString rt _ 1 (by decide)
  · rw [e]; exact Rereads_NewString rt _ 1 (by decide)
  · rw [e]; exact Parse_object_rereads rt hp ho kv1 h1

theorem enrich_kvs_ne_nil (rt : Runtime) (tag : Bytes) (sec nsec : Nat) (payload : Bytes)
    (obj : Object) : (enrich rt tag sec nsec payload obj).kvs ≠ [] := by
  rw [enrich_eq]
  exact setKV_ne_nil _ _ _

theorem enrich_mk (rt : Runtime) (tag : Bytes) (sec nsec : Nat) (payload : Bytes)
    (obj : Object) :
    enrich rt tag sec nsec payload obj = ⟨(enrich rt tag sec nsec payload obj).kvs, true⟩ := by
  rw [enrich_eq]

/-- The text `go_filter` returns is accepted by `Parser.Parse`, whatever the
tag, the timestamp and the payload: it parses to an object with the values of
the enriched object, under the keys as `escapeString` wrote them. -/
theorem Parse_enrich (rt : Runtime) (tag : Bytes) (sec nsec : Nat) {payload : Bytes}
    {v : Value} {tail : Bytes} {obj : Object} (hp : Parser.Parse payload = .ok v tail)
    (ho : v.Object = some obj) :
    Parser.Parse ((enrich rt tag sec nsec payload obj).String rt) =
      .ok (.object ((enrich rt tag sec nsec payload obj).kvs.map
        fun kv => (escBody rt kv.1, kv.2)) false) [] := by
  have h := Parse_String rt (enrich rt tag sec nsec payload obj).kvs
    (enrich_kvs_ne_nil rt tag sec nsec payload obj) (enrich_rereads rt tag sec nsec hp ho)
  rw [← enrich_mk] at h
  exact h

/-- When the keys of the parsed payload are `safeText`, the buffer holds the
enriched object itself. -/
theorem outputObject_enrich (rt : Runtime) (tag : Bytes) (sec nsec : Nat) {payload : Bytes}
    {v : Value} {tail : Bytes} {obj : Object} (hp : Parser.Parse payload = .ok v tail)
    (ho : v.Object = some obj)
    (hkeys : ∀ k ∈ obj.unescapeKeys.kvs.map Prod.fst, safeText rt k) :
    outputObject ((enrich rt tag sec nsec payload obj).String rt ++ [0]) =
      some (enrich rt tag sec nsec payload obj) := by
  unfold outputObject
  rw [List.dropLast_concat, Parse_enrich rt tag sec nsec hp ho]
  simp only [Value.Object, Option.map_some', Option.some.injEq]
  rw [enrich_mk rt tag sec nsec payload obj]
  unfold Object.unescapeKeys
  simp only [Bool.false_eq_true, if_false, List.map_map, Object.mk.injEq, and_true]
  conv_rhs => rw [← List.map_id (enrich rt tag sec nsec payload obj).kvs]
  apply List.map_congr_left
  intro kv hkv
  have hk : safeText rt kv.1 := by
    have hm : kv.1 ∈ (enrich rt tag sec nsec payload obj).kvs.map Prod.fst :=
      List.mem_map_of_mem Prod.fst hkv
    rcases (mem_keys_enrich rt tag sec nsec payload obj kv.1).1 hm with h | h
    · exact hkeys _ h
    · simp only [enrichmentKeys, List.mem_cons, List.mem_singleton, List.not_mem_nil,
        or_false] at h
      rcases h with h | h | h <;> (rw [h]; exact Or.inl (by decide))
  simp only [Function.comp, id]
  rw [unescape_escBody rt kv.1 hk]

/-! ## The returned text in the JSON grammar -/

/-- A JSON text nested no deeper than `MaxDepth` is accepted by
`Parser.Parse`; when it starts with an opening brace it parses to an object,
whose values are marshalled to values of the JSON grammar. -/
theorem Parse_of_jsonValidWithin (rt : Runtime) (s : Bytes)
    (h : jsonValidWithin MaxDepth s = true) :
    ∃ v, Parser.Parse s = .ok v [] ∧
      ((skipWS s).head? = some 0x7B → ∃ obj, v.Object = some obj ∧
        ∀ kv ∈ obj.kvs, Wellformed rt MaxDepth kv.2 1) := by
  unfold jsonValidWithin at h
  cases hv : rfcValue MaxDepth (3 * s.length + 1) (skipWS s) 0 with
  | none => rw [hv] at h; cases h
  | some tail =>
    rw [hv] at h
    simp only [beq_iff_eq] at h
    obtain ⟨g, v, hp, _, hobj⟩ := (rfc_parse rt MaxDepth (le_refl _) _).1 _ _ _ hv
      (numEnd_of_skipWS_nil h)
    have hp2 := parseValue_fuel_enough rt hp (3 * (skipWS s).length + 1) (le_refl _)
    refine ⟨v, ?_, fun e => ?_⟩
    · unfold Parser.Parse
      simp only [hp2, h]
    · obtain ⟨kvs, rfl, hkv⟩ := hobj e
      exact ⟨⟨kvs, false⟩, rfl, fun kv hm => (hkv kv hm).2⟩

/-- The text `go_filter` returns is a JSON text when the values of the parsed
payload are, the decoded keys of the payload are `safeText` and so are the
formatted time, the tag and the payload. -/
theorem enrich_valid (rt : Runtime) (tag : Bytes) (sec nsec : Nat) (payload : Bytes)
    (obj : Object) (hkv : ∀ kv ∈ obj.kvs, Wellformed rt MaxDepth kv.2 1)
    (hkeys : ∀ k ∈ obj.unescapeKeys.kvs.map Prod.fst, safeText rt k)
    (htime : safeText rt (rt.timeString (toInt64 sec) (toInt64 nsec))) (htag : safeText rt tag)
    (hpay : safeText rt payload) :
    jsonValidWithin MaxDepth ((enrich rt tag sec nsec payload obj).String rt) = true := by
  have hne := enrich_kvs_ne_nil rt tag sec nsec payload obj
  have hE : ∀ kv ∈ (enrich rt tag sec nsec payload obj).kvs,
      IsStringBody (if true = true then escBody rt kv.1 else kv.1) ∧
        Wellformed rt MaxDepth kv.2 1 := by
    intro kv hm
    constructor
    · rw [if_pos rfl]
      apply IsStringBody_escBody
      have hk : kv.1 ∈ (enrich rt tag sec nsec payload obj).kvs.map Prod.fst :=
        List.mem_map_of_mem Prod.fst hm
      rcases (mem_keys_enrich rt tag sec nsec payload obj kv.1).1 hk with h | h
      · exact hkeys _ h
      · simp only [enrichmentKeys, List.mem_cons, List.mem_singleton, List.not_mem_nil,
          or_false] at h
        rcases h with h | h | h <;> (rw [h]; exact Or.inl (by decide))
    · rcases mem_enrich hm with e | e | e | ⟨kv1, h1, e⟩
      · rw [e]; exact Wellformed_NewString rt _ _ 1 (by decide) htime
      · rw [e]; exact Wellformed_NewString rt _ _ 1 (by decide) htag
      · rw [e]; exact Wellformed_NewString rt _ _ 1 (by decide) hpay
      · rw [e]; exact hkv kv1 h1
  obtain ⟨f, hf⟩ := rfcMembers_marshal rt MaxDepth 1 true _ hne hE []
  obtain ⟨m, hm⟩ := marshalKVs_head rt true _ hne
  apply jsonValidWithin_of_fuel MaxDepth (f + 1) _ [] _ rfl
  rw [enrich_mk rt tag sec nsec payload obj]
  simp only [Object.String, Object.MarshalTo, List.append_assoc, List.singleton_append,
    List.cons_append, List.nil_append]
  rw [skipWS_of_not_ws _ (by rfl), rfcValue_succ]
  simp only
  rw [if_neg (by decide)]
  simp only [if_true]
  rw [hm] at hf ⊢
  simp only [List.cons_append] at hf ⊢
  rw [skipWS_of_not_ws _ (by rfl)]
  simp only
  rw [if_neg (by decide)]
  exact hf

/-- Under the hypotheses of `enrich_valid` the text `go_filter` returns is a
JSON text whose value is an object. -/
theorem enrich_valid_object (rt : Runtime) (tag : Bytes) (sec nsec : Nat) (payload : Bytes)
    (obj : Object) (hkv : ∀ kv ∈ obj.kvs, Wellformed rt MaxDepth kv.2 1)
    (hkeys : ∀ k ∈ obj.unescapeKeys.kvs.map Prod.fst, safeText rt k)
    (htime : safeText rt (rt.timeString (toInt64 sec) (toInt64 nsec))) (htag : safeText rt tag)
    (hpay : safeText rt payload) :
    jsonValidObject ((enrich rt tag sec nsec payload obj).String rt) = true := by
  have h := enrich_valid rt tag sec nsec payload obj hkv hkeys htime htag hpay
  unfold jsonValidObject
  rw [(jsonValid_iff _).2 ⟨MaxDepth, h⟩]
  simp only [Object.String, Object.MarshalTo, List.append_assoc, List.singleton_append,
    List.cons_append, List.nil_append]
  rw [skipWS_of_not_ws _ (by rfl)]
  rfl

/-! ## Payloads by their first byte -/

/-- A payload whose first byte after the white space is not an opening brace
does not parse to an object: `go_filter` returns the nil pointer. -/
theorem go_filter_null_of_head (rt : Runtime) (btag : Bytes) (sec nsec : Nat) (br : Bytes)
    (hhead : (skipWS br).head? ≠ some 0x7B) : go_filter rt btag sec nsec br = .null := by
  cases hp : Parser.Parse br with
  | ok v tail =>
    cases ho : v.Object with
    | none => exact go_filter_null_of_not_object rt btag sec nsec br v tail hp ho
    | some obj =>
      obtain ⟨t1, hv, _, _⟩ := Parse_ok_inv hp
      obtain ⟨f1, t, _, hs, _⟩ := parseValue_object_inv rt hv ho
      rw [hs] at hhead
      exact absurd rfl hhead
  | err => simp only [go_filter, hp]
  | oof => simp only [go_filter, hp]

/-- The text `go_filter` returns for a payload that parses to an object, read
again: its keys are those of the payload and `time`, `tag`, `original`, and
the strings under `original` and `tag` decode to the payload and to the tag. -/
theorem go_filter_output_of_parse (rt : Runtime) (tag : Bytes) (sec nsec : Nat)
    (payload : Bytes) (v : Value) (tail : Bytes) (obj : Object)
    (hp : Parser.Parse payload = .ok v tail) (ho : v.Object = some obj)
    (hkeys : ∀ k ∈ obj.unescapeKeys.kvs.map Prod.fst, safeText rt k) :
    ∃ rv out,
      go_filter rt tag sec nsec payload = .buffer rv ∧
      outputObject rv = some out ∧
      (∀ k, k ∈ out.kvs.map Prod.fst ↔
        k ∈ obj.unescapeKeys.kvs.map Prod.fst ∨ k ∈ enrichmentKeys) ∧
      (safeText rt payload → originalText rv = some payload) ∧
      (safeText rt tag → tagText rv = some tag) := by
  have hout := outputObject_enrich rt tag sec nsec hp ho hkeys
  refine ⟨_, enrich rt tag sec nsec payload obj,
    go_filter_ok rt tag sec nsec payload v tail obj hp ho, hout,
    mem_keys_enrich rt tag sec nsec payload obj, ?_, ?_⟩
  · intro hs
    unfold originalText
    rw [hout]
    simp only [Option.bind_eq_bind, Option.some_bind]
    have : lookupKey (str "original") (enrich rt tag sec nsec payload obj).kvs =
        some (Arena.NewString rt payload) := by
      rw [enrich_eq]; exact lookupKey_setKV_self _ _ _
    rw [this]
    simp only [Option.some_bind]
    rw [NewString_escBody, Value.StringBytes, unescape_escBody rt payload hs]
  · intro hs
    unfold tagText
    rw [hout]
    simp only [Option.bind_eq_bind, Option.some_bind]
    have : lookupKey (str "tag") (enrich rt tag sec nsec payload obj).kvs =
        some (Arena.NewString rt tag) := by
      rw [enrich_eq]
      simp only
      rw [lookupKey_setKV_ne _ _ _ _ (by decide), lookupKey_setKV_self]
    rw [this]
    simp only [Option.some_bind]
    rw [NewString_escBody, Value.StringBytes, unescape_escBody rt tag hs]

/-! ## The relaxed grammar is the language of the parser -/

theorem laxString_eq_scan (s : Bytes) :
    laxString s = match scanString s with
      | .ok _ tail => some tail
      | _ => none := by
  generalize hn : s.length = n
  induction n using Nat.strong_induction_on generalizing s with
  | _ n ih =>
    subst hn
    match s with
    | [] => rfl
    | c :: t =>
      rw [laxString.eq_def]
      simp only
      by_cases hq : c = 0x22
      · subst hq
        rw [if_pos rfl, scanString_quote]
      · rw [if_neg hq]
        by_cases hb : c = 0x5C
        · subst hb
          rw [if_pos rfl]
          match t with
          | [] => rfl
          | e :: t1 =>
            simp only
            rw [ih t1.length (by simp only [List.length_cons]; omega) t1 rfl, scanString_esc]
            cases scanString t1 <;> rfl
        · rw [if_neg hb, ih t.length (by simp only [List.length_cons]; omega) t rfl,
            scanString_plain c t hq hb]
          cases scanString t <;> rfl

theorem laxString_of_scan {s k tail : Bytes} (h : scanString s = .ok k tail) :
    laxString s = some tail := by
  rw [laxString_eq_scan, h]

theorem scan_of_laxString {s tail : Bytes} (h : laxString s = some tail) :
    ∃ k, scanString s = .ok k tail := by
  rw [laxString_eq_scan] at h
  cases hs : scanString s with
  | ok k t => rw [hs] at h; cases h; exact ⟨k, rfl⟩
  | err => rw [hs] at h; cases h
  | oof => rw [hs] at h; cases h

/-- The loop of `parseRawNumber`, in one step: the run of number bytes is
skipped, and the byte that ends it decides. -/
theorem parseRawNumberLoop_eq (s : Bytes) (rest pre : Bytes) :
    parseRawNumberLoop s pre rest =
      match rest.dropWhile isNumChar with
      | [] => .ok s []
      | ch :: r3 =>
        if (pre ++ rest.takeWhile isNumChar).length = 0 ∨
            ((pre ++ rest.takeWhile isNumChar).length = 1 ∧
              ((pre ++ rest.takeWhile isNumChar).getD 0 0 = 0x2D ∨
                (pre ++ rest.takeWhile isNumChar).getD 0 0 = 0x2B)) then
          if 3 ≤ (ch :: r3).length ∧
              (equalFold ((ch :: r3).take 3) [0x69, 0x6E, 0x66] ||
                equalFold ((ch :: r3).take 3) [0x6E, 0x61, 0x6E]) = true then
            .ok (s.take ((pre ++ rest.takeWhile isNumChar).length + 3))
              (s.drop ((pre ++ rest.takeWhile isNumChar).length + 3))
          else .err
        else .ok (pre ++ rest.takeWhile isNumChar) (ch :: r3) := by
  induction rest generalizing pre with
  | nil => rw [parseRawNumberLoop_nil]; rfl
  | cons ch rest ih =>
    by_cases hc : isNumChar ch = true
    · rw [parseRawNumberLoop_num s pre rest ch hc, ih (pre ++ [ch])]
      simp only [List.dropWhile_cons, List.takeWhile_cons, hc, if_true, List.append_assoc,
        List.singleton_append]
    · simp only [Bool.not_eq_true] at hc
      simp only [List.dropWhile_cons, List.takeWhile_cons, hc, Bool.false_eq_true, if_false,
        List.append_nil]
      by_cases hp : pre.length = 0 ∨ (pre.length = 1 ∧ (pre.getD 0 0 = 0x2D ∨ pre.getD 0 0 = 0x2B))
      · rw [parseRawNumberLoop_word s pre rest ch hc hp, if_pos hp]
      · rw [parseRawNumberLoop_stop s pre rest ch hc hp, if_neg hp]

theorem lone_sign_iff (p : Bytes) :
    (p.length = 0 ∨ (p.length = 1 ∧ (p.getD 0 0 = 0x2D ∨ p.getD 0 0 = 0x2B))) ↔
      (p = [] ∨ p = [0x2D] ∨ p = [0x2B]) := by
  match p with
  | [] => simp
  | [a] => simp
  | a :: b :: t => simp

/-- `laxNumber` accepts what `parseRawNumber` accepts, with the same tail. -/
theorem laxNumber_eq (s : Bytes) (hs : s ≠ []) :
    laxNumber s = match parseRawNumber s with
      | .ok _ tail => some tail
      | _ => none := by
  unfold parseRawNumber laxNumber
  rw [parseRawNumberLoop_eq]
  simp only [List.nil_append]
  have hsplit := List.takeWhile_append_dropWhile isNumChar s
  cases hd : s.dropWhile isNumChar with
  | nil =>
    simp only
    rw [hd, List.append_nil] at hsplit
    rw [if_neg (by rw [hsplit]; exact hs)]
  | cons ch r3 =>
    simp only
    by_cases hp : List.takeWhile isNumChar s = [] ∨ List.takeWhile isNumChar s = [0x2D] ∨
        List.takeWhile isNumChar s = [0x2B]
    · rw [if_pos hp, if_pos ((lone_sign_iff _).2 hp)]
      have hw : isInfNan ((ch :: r3).take 3) =
          (equalFold ((ch :: r3).take 3) [0x69, 0x6E, 0x66] ||
            equalFold ((ch :: r3).take 3) [0x6E, 0x61, 0x6E]) := rfl
      rw [hw]
      by_cases hword : 3 ≤ (ch :: r3).length ∧
          (equalFold ((ch :: r3).take 3) [0x69, 0x6E, 0x66] ||
            equalFold ((ch :: r3).take 3) [0x6E, 0x61, 0x6E]) = true
      · rw [if_pos hword, if_pos hword]
        simp only [Option.some.injEq]
        rw [hd] at hsplit
        have key : List.drop ((List.takeWhile isNumChar s).length + 3)
            (List.takeWhile isNumChar s ++ (ch :: r3)) = List.drop 3 (ch :: r3) :=
          List.drop_append 3
        rw [hsplit] at key
        exact key.symm
      · rw [if_neg hword, if_neg hword]
    · rw [if_neg hp, if_neg (fun h => hp ((lone_sign_iff _).1 h))]

theorem laxNumber_of_parse {s ns tail : Bytes} (h : parseRawNumber s = .ok ns tail)
    (hs : s ≠ []) : laxNumber s = some tail := by
  rw [laxNumber_eq s hs, h]

theorem parse_of_laxNumber {s tail : Bytes} (h : laxNumber s = some tail) :
    ∃ ns, parseRawNumber s = .ok ns tail := by
  have hs : s ≠ [] := by
    rintro rfl
    cases h
  rw [laxNumber_eq s hs] at h
  cases hp : parseRawNumber s with
  | ok ns t => rw [hp] at h; cases h; exact ⟨ns, rfl⟩
  | err => rw [hp] at h; cases h
  | oof => rw [hp] at h; cases h

theorem laxValue_succ (lim f : Nat) (s : Bytes) (d : Nat) :
    laxValue lim (f + 1) s d =
      match s with
      | [] => none
      | c :: t =>
        if d + 1 > lim then none
        else if c = 0x7B then
          match skipWS t with
          | [] => none
          | c1 :: t1 => if c1 = 0x7D then some t1 else laxMembers lim f (c1 :: t1) (d + 1)
        else if c = 0x5B then
          match skipWS t with
          | [] => none
          | c1 :: t1 => if c1 = 0x5D then some t1 else laxElements lim f (c1 :: t1) (d + 1)
        else if c = 0x22 then laxString t
        else if s.take 4 = [0x74, 0x72, 0x75, 0x65] then some (s.drop 4)
        else if s.take 5 = [0x66, 0x61, 0x6C, 0x73, 0x65] then some (s.drop 5)
        else if s.take 4 = [0x6E, 0x75, 0x6C, 0x6C] then some (s.drop 4)
        else laxNumber s := by
  rw [laxValue.eq_def]

theorem laxMembers_succ (lim f : Nat) (s : Bytes) (d : Nat) :
    laxMembers lim (f + 1) s d =
      match skipWS s with
      | [] => none
      | q :: s1 =>
        if q ≠ 0x22 then none
        else
          match laxString s1 with
          | none => none
          | some s2 =>
            match skipWS s2 with
            | [] => none
            | col :: s3 =>
              if col ≠ 0x3A then none
              else
                match laxValue lim f (skipWS s3) d with
                | none => none
                | some s4 =>
                  match skipWS s4 with
                  | [] => none
                  | c :: t =>
                    if c = 0x2C then laxMembers lim f t d
                    else if c = 0x7D then some t
                    else none := by
  rw [laxMembers.eq_def]

theorem laxElements_succ (lim f : Nat) (s : Bytes) (d : Nat) :
    laxElements lim (f + 1) s d =
      match laxValue lim f (skipWS s) d with
      | none => none
      | some s1 =>
        match skipWS s1 with
        | [] => none
        | c :: t =>
          if c = 0x2C then laxElements lim f t d
          else if c = 0x5D then some t
          else none := by
  rw [laxElements.eq_def]

/-- The leaves of the relaxed grammar: `true`, `false`, `null` and numbers. -/
theorem laxValue_leaf (lim f c : Nat) (t : Bytes) (d : Nat) (hd : ¬ d + 1 > lim)
    (h1 : c ≠ 0x7B) (h2 : c ≠ 0x5B) (h3 : c ≠ 0x22) :
    laxValue lim (f + 1) (c :: t) d =
      if (c :: t).take 4 = [0x74, 0x72, 0x75, 0x65] then some ((c :: t).drop 4)
      else if (c :: t).take 5 = [0x66, 0x61, 0x6C, 0x73, 0x65] then some ((c :: t).drop 5)
      else if (c :: t).take 4 = [0x6E, 0x75, 0x6C, 0x6C] then some ((c :: t).drop 4)
      else laxNumber (c :: t) := by
  rw [laxValue_succ]
  simp only
  rw [if_neg hd, if_neg h1, if_neg h2, if_neg h3]

theorem laxNumber_not_num (c : Nat) (t : Bytes) (hc : isNumChar c = false) :
    laxNumber (c :: t) =
      if 3 ≤ (c :: t).length ∧ isInfNan ((c :: t).take 3) = true then some ((c :: t).drop 3)
      else none := by
  unfold laxNumber
  simp only [List.takeWhile_cons, List.dropWhile_cons, hc, Bool.false_eq_true, if_false,
    true_or, if_true]

/-- What `parseLeaf` accepts is a leaf of the relaxed grammar. -/
theorem parseLeaf_lax {c : Nat} {t : Bytes} {v : Value} {tail : Bytes}
    (h : parseLeaf (c :: t) = .ok v tail) :
    (if (c :: t).take 4 = [0x74, 0x72, 0x75, 0x65] then some ((c :: t).drop 4)
      else if (c :: t).take 5 = [0x66, 0x61, 0x6C, 0x73, 0x65] then some ((c :: t).drop 5)
      else if (c :: t).take 4 = [0x6E, 0x75, 0x6C, 0x6C] then some ((c :: t).drop 4)
      else laxNumber (c :: t)) = some tail := by
  by_cases h1 : c = 0x74
  · subst h1
    rw [parseLeaf_true] at h
    by_cases ht : (0x74 :: t).take 4 = [0x74, 0x72, 0x75, 0x65]
    · rw [if_pos ht] at h ⊢
      cases h; rfl
    · rw [if_neg ht] at h; cases h
  · rw [if_neg (take_head_ne h1 _ _ 3)]
    by_cases h2 : c = 0x66
    · subst h2
      rw [parseLeaf_false] at h
      by_cases hf : (0x66 :: t).take 5 = [0x66, 0x61, 0x6C, 0x73, 0x65]
      · rw [if_pos hf] at h ⊢
        cases h; rfl
      · rw [if_neg hf] at h; cases h
    · rw [if_neg (take_head_ne h2 _ _ 4)]
      by_cases h3 : c = 0x6E
      · subst h3
        rw [parseLeaf_n] at h
        by_cases hn : (0x6E :: t).take 4 = [0x6E, 0x75, 0x6C, 0x6C]
        · rw [if_pos hn] at h ⊢
          cases h; rfl
        · rw [if_neg hn] at h ⊢
          rw [laxNumber_not_num _ _ (by rfl)]
          by_cases hw : 3 ≤ (0x6E :: t).length ∧
              equalFold ((0x6E :: t).take 3) [0x6E, 0x61, 0x6E] = true
          · rw [if_pos hw] at h
            cases h
            rw [if_pos ⟨hw.1, by
              unfold isInfNan
              have := hw.2
              unfold equalFold at this
              rw [this, Bool.or_true]⟩]
          · rw [if_neg hw] at h; cases h
      · rw [if_neg (take_head_ne h3 _ _ 3)]
        rw [parseLeaf_number c t h1 h2 h3] at h
        cases hp : parseRawNumber (c :: t) with
        | ok ns tl =>
          rw [hp] at h
          cases h
          exact laxNumber_of_parse hp (by simp)
        | err => rw [hp] at h; cases h
        | oof => rw [hp] at h; cases h

/-- Every text the parser reads is a text of the relaxed grammar: the steps of
the parser are steps of the grammar, with the same text left. -/
theorem parse_lax (g : Nat) :
    (∀ s d v tail, parseValue g s d = .ok v tail →
      ∀ f, g ≤ f → laxValue MaxDepth f s d = some tail) ∧
    (∀ s d v tail, parseArray g s d = .ok v tail → ∀ f, g ≤ f →
      (match skipWS s with
        | [] => none
        | c1 :: t1 => if c1 = 0x5D then some t1 else laxElements MaxDepth f (c1 :: t1) d) =
        some tail) ∧
    (∀ s d a tail, parseArrayLoop g s d = .ok a tail →
      ∀ f, g ≤ f → laxElements MaxDepth f s d = some tail) ∧
    (∀ s d v tail, parseObject g s d = .ok v tail → ∀ f, g ≤ f →
      (match skipWS s with
        | [] => none
        | c1 :: t1 => if c1 = 0x7D then some t1 else laxMembers MaxDepth f (c1 :: t1) d) =
        some tail) ∧
    (∀ s d kvs tail, parseObjectLoop g s d = .ok kvs tail →
      ∀ f, g ≤ f → laxMembers MaxDepth f s d = some tail) := by
  induction g with
  | zero =>
    refine ⟨?_, ?_, ?_, ?_, ?_⟩ <;> intro s d v tail h
    · rw [parseValue] at h; cases h
    · rw [parseArray] at h; cases h
    · rw [parseArrayLoop] at h; cases h
    · rw [parseObject] at h; cases h
    · rw [parseObjectLoop] at h; cases h
  | succ g ih =>
    obtain ⟨ihV, ihA, ihAL, ihO, ihOL⟩ := ih
    refine ⟨?_, ?_, ?_, ?_, ?_⟩
    · intro s d v tail h f hf
      obtain ⟨f, rfl⟩ : ∃ f1, f = f1 + 1 := ⟨f - 1, by omega⟩
      have hf2 : g ≤ f := by omega
      cases s with
      | nil => rw [parseValue_nil] at h; cases h
      | cons c t =>
        by_cases hd : d + 1 ≤ MaxDepth
        · have hd2 : ¬ d + 1 > MaxDepth := by omega
          by_cases h1 : c = 0x7B
          · subst h1
            rw [parseValue_object g t d hd] at h
            rw [laxValue_succ]
            simp only
            rw [if_neg hd2]
            simp only [if_true]
            exact ihO _ _ _ _ h f hf2
          · by_cases h2 : c = 0x5B
            · subst h2
              rw [parseValue_array g t d hd] at h
              rw [laxValue_succ]
              simp only
              rw [if_neg hd2, if_neg (by decide)]
              simp only [if_true]
              exact ihA _ _ _ _ h f hf2
            · by_cases h3 : c = 0x22
              · subst h3
                rw [parseValue_string g t d hd] at h
                rw [laxValue_succ]
                simp only
                rw [if_neg hd2, if_neg (by decide), if_neg (by decide)]
                simp only [if_true]
                cases hs : scanString t with
                | ok k tl =>
                  rw [hs] at h
                  cases h
                  exact laxString_of_scan hs
                | err => rw [hs] at h; cases h
                | oof => rw [hs] at h; cases h
              · rw [parseValue_leaf g c t d hd h1 h2 h3] at h
                rw [laxValue_leaf MaxDepth f c t d hd2 h1 h2 h3]
                exact parseLeaf_lax h
        · rw [parseValue_deep g (c :: t) d (by omega) (by simp)] at h
          cases h
    · intro s d v tail h f hf
      obtain ⟨c, t, hw, hcase⟩ := parseArray_ok_inv h
      rw [hw]
      simp only
      rcases hcase with ⟨hc, _, ht⟩ | ⟨hc, a, hl, _⟩
      · rw [if_pos hc, ht]
      · rw [if_neg hc]
        exact ihAL _ _ _ _ hl f (by omega)
    · intro s d a tail h f hf
      obtain ⟨f, rfl⟩ : ∃ f1, f = f1 + 1 := ⟨f - 1, by omega⟩
      obtain ⟨v, s1, c, t, hv, hw, hcase⟩ := parseArrayLoop_ok_inv h
      rw [laxElements_succ, ihV _ _ _ _ hv f (by omega)]
      simp only
      rw [hw]
      simp only
      rcases hcase with ⟨hc, a1, hl, _⟩ | ⟨hc, _, ht⟩
      · rw [if_pos hc]
        exact ihAL _ _ _ _ hl f (by omega)
      · subst hc
        rw [if_neg (by decide), if_pos rfl, ht]
    · intro s d v tail h f hf
      obtain ⟨c, t, hw, hcase⟩ := parseObject_ok_inv h
      rw [hw]
      simp only
      rcases hcase with ⟨hc, _, ht⟩ | ⟨hc, kvs, hl, _⟩
      · rw [if_pos hc, ht]
      · rw [if_neg hc]
        exact ihOL _ _ _ _ hl f (by omega)
    · intro s d kvs tail h f hf
      obtain ⟨f, rfl⟩ : ∃ f1, f = f1 + 1 := ⟨f - 1, by omega⟩
      obtain ⟨s1, k, s2, s3, v, s4, c, t, hw, hk, hw2, hv, hw4, hcase⟩ :=
        parseObjectLoop_ok_inv h
      rw [laxMembers_succ, hw]
      simp only [ne_eq, not_true, if_false]
      rw [laxString_of_scan hk]
      simp only
      rw [hw2]
      simp only [ne_eq, not_true, if_false]
      rw [ihV _ _ _ _ hv f (by omega)]
      simp only
      rw [hw4]
      simp only
      rcases hcase with ⟨hc, kvs1, hl, _⟩ | ⟨hc, _, ht⟩
      · rw [if_pos hc]
        exact ihOL _ _ _ _ hl f (by omega)
      · subst hc
        rw [if_neg (by decide), if_pos rfl, ht]

theorem isInfNan_head {c : Nat} {t : Bytes} (h : isInfNan ((c :: t).take 3) = true) :
    lowerByte c = 0x69 ∨ lowerByte c = 0x6E := by
  unfold isInfNan at h
  simp only [List.take_succ_cons, List.map_cons, Bool.or_eq_true, beq_iff_eq] at h
  rcases h with h | h
  · exact Or.inl (List.cons.inj h).1
  · exact Or.inr (List.cons.inj h).1

/-- A leaf of the relaxed grammar is accepted by `parseLeaf`. -/
theorem lax_parseLeaf {c : Nat} {t : Bytes} {tail : Bytes}
    (h : (if (c :: t).take 4 = [0x74, 0x72, 0x75, 0x65] then some ((c :: t).drop 4)
      else if (c :: t).take 5 = [0x66, 0x61, 0x6C, 0x73, 0x65] then some ((c :: t).drop 5)
      else if (c :: t).take 4 = [0x6E, 0x75, 0x6C, 0x6C] then some ((c :: t).drop 4)
      else laxNumber (c :: t)) = some tail) :
    ∃ v, parseLeaf (c :: t) = .ok v tail := by
  by_cases ht : (c :: t).take 4 = [0x74, 0x72, 0x75, 0x65]
  · rw [if_pos ht] at h
    cases h
    have hc : c = 0x74 := by
      have := congrArg List.head? ht
      simpa using this
    subst hc
    exact ⟨.vtrue, by rw [parseLeaf_true, if_pos ht]⟩
  · rw [if_neg ht] at h
    by_cases hf : (c :: t).take 5 = [0x66, 0x61, 0x6C, 0x73, 0x65]
    · rw [if_pos hf] at h
      cases h
      have hc : c = 0x66 := by
        have := congrArg List.head? hf
        simpa using this
      subst hc
      exact ⟨.vfalse, by rw [parseLeaf_false, if_pos hf]⟩
    · rw [if_neg hf] at h
      by_cases hn : (c :: t).take 4 = [0x6E, 0x75, 0x6C, 0x6C]
      · rw [if_pos hn] at h
        cases h
        have hc : c = 0x6E := by
          have := congrArg List.head? hn
          simpa using this
        subst hc
        exact ⟨.vnull, by rw [parseLeaf_n, if_pos hn]⟩
      · rw [if_neg hn] at h
        have hword : ∀ c0 : Nat, c0 = c → isNumChar c0 = false →
            3 ≤ (c :: t).length ∧ isInfNan ((c :: t).take 3) = true ∧ tail = (c :: t).drop 3 := by
          intro c0 e hc
          subst e
          rw [laxNumber_not_num _ _ hc] at h
          by_cases hw : 3 ≤ (c0 :: t).length ∧ isInfNan ((c0 :: t).take 3) = true
          · rw [if_pos hw] at h
            cases h
            exact ⟨hw.1, hw.2, rfl⟩
          · rw [if_neg hw] at h; cases h
        by_cases h1 : c = 0x74
        · obtain ⟨_, hw, _⟩ := hword 0x74 h1.symm (by rfl)
          subst h1
          rcases isInfNan_head hw with e | e <;> exact absurd e (by decide)
        · by_cases h2 : c = 0x66
          · obtain ⟨_, hw, _⟩ := hword 0x66 h2.symm (by rfl)
            subst h2
            rcases isInfNan_head hw with e | e <;> exact absurd e (by decide)
          · by_cases h3 : c = 0x6E
            · obtain ⟨hl, hw, htl⟩ := hword 0x6E h3.symm (by rfl)
              subst h3
              refine ⟨.number ((0x6E :: t).take 3), ?_⟩
              rw [parseLeaf_n, if_neg hn, if_pos, htl]
              refine ⟨hl, ?_⟩
              unfold isInfNan at hw
              unfold equalFold
              simp only [Bool.or_eq_true] at hw
              rcases hw with e | e
              · simp only [List.take_succ_cons, List.map_cons, beq_iff_eq] at e
                exact absurd (List.cons.inj e).1 (by decide)
              · exact e
            · obtain ⟨ns, hp⟩ := parse_of_laxNumber h
              exact ⟨.number ns, by rw [parseLeaf_number c t h1 h2 h3, hp]⟩

/-- Every text of the relaxed grammar is read by the parser, with the same
text left. -/
theorem lax_parse (rt : Runtime) (f : Nat) :
    (∀ s d tail, laxValue MaxDepth f s d = some tail → ∃ g v, parseValue g s d = .ok v tail) ∧
    (∀ s d tail, laxMembers MaxDepth f s d = some tail →
      ∃ g kvs, parseObjectLoop g s d = .ok kvs tail) ∧
    (∀ s d tail, laxElements MaxDepth f s d = some tail →
      ∃ g a, parseArrayLoop g s d = .ok a tail) := by
  induction f with
  | zero =>
    refine ⟨?_, ?_, ?_⟩ <;> intro s d tail h
    · rw [laxValue] at h; cases h
    · rw [laxMembers] at h; cases h
    · rw [laxElements] at h; cases h
  | succ f ih =>
    obtain ⟨ihV, ihM, ihE⟩ := ih
    refine ⟨?_, ?_, ?_⟩
    · intro s d tail h
      cases s with
      | nil => rw [laxValue_succ] at h; cases h
      | cons c t =>
        by_cases hd : d + 1 > MaxDepth
        · rw [laxValue_succ] at h
          simp only at h
          rw [if_pos hd] at h; cases h
        · have hdm : d + 1 ≤ MaxDepth := by omega
          by_cases h1 : c = 0x7B
          · subst h1
            rw [laxValue_succ] at h
            simp only at h
            rw [if_neg hd] at h
            simp only [if_true] at h
            cases hw : skipWS t with
            | nil => rw [hw] at h; cases h
            | cons c1 t1 =>
              rw [hw] at h
              simp only at h
              by_cases hc1 : c1 = 0x7D
              · rw [if_pos hc1] at h
                cases h
                subst hc1
                refine ⟨2, .object [] false, ?_⟩
                rw [parseValue_object 1 t d hdm]
                exact parseObject_empty (d + 1) hw
              · rw [if_neg hc1] at h
                obtain ⟨g, kvs, hl⟩ := ihM _ _ _ h
                refine ⟨g + 2, .object kvs false, ?_⟩
                rw [parseValue_object (g + 1) t d hdm]
                exact parseObject_loop hw hc1 hl
          · by_cases h2 : c = 0x5B
            · subst h2
              rw [laxValue_succ] at h
              simp only at h
              rw [if_neg hd, if_neg (by decide)] at h
              simp only [if_true] at h
              cases hw : skipWS t with
              | nil => rw [hw] at h; cases h
              | cons c1 t1 =>
                rw [hw] at h
                simp only at h
                by_cases hc1 : c1 = 0x5D
                · rw [if_pos hc1] at h
                  cases h
                  subst hc1
                  refine ⟨2, .array [], ?_⟩
                  rw [parseValue_array 1 t d hdm]
                  exact parseArray_empty (d + 1) hw
                · rw [if_neg hc1] at h
                  obtain ⟨g, a, hl⟩ := ihE _ _ _ h
                  refine ⟨g + 2, .array a, ?_⟩
                  rw [parseValue_array (g + 1) t d hdm]
                  exact parseArray_loop hw hc1 hl
            · by_cases h3 : c = 0x22
              · subst h3
                rw [laxValue_succ] at h
                simp only at h
                rw [if_neg hd, if_neg (by decide), if_neg (by decide)] at h
                simp only [if_true] at h
                obtain ⟨k, hk⟩ := scan_of_laxString h
                refine ⟨1, .rawString k, ?_⟩
                rw [parseValue_string 0 t d hdm, hk]
              · rw [laxValue_leaf MaxDepth f c t d hd h1 h2 h3] at h
                obtain ⟨v, hv⟩ := lax_parseLeaf h
                exact ⟨1, v, by rw [parseValue_leaf 0 c t d hdm h1 h2 h3, hv]⟩
    · intro s d tail h
      rw [laxMembers_succ] at h
      cases hw : skipWS s with
      | nil => rw [hw] at h; cases h
      | cons q s1 =>
        rw [hw] at h
        simp only at h
        by_cases hq : q = 0x22
        · subst hq
          simp only [ne_eq, not_true, if_false] at h
          cases hs : laxString s1 with
          | none => rw [hs] at h; cases h
          | some s2 =>
            rw [hs] at h
            simp only at h
            obtain ⟨k, hk⟩ := scan_of_laxString hs
            cases hw2 : skipWS s2 with
            | nil => rw [hw2] at h; cases h
            | cons col s3 =>
              rw [hw2] at h
              simp only at h
              by_cases hcol : col = 0x3A
              · subst hcol
                simp only [ne_eq, not_true, if_false] at h
                cases hv : laxValue MaxDepth f (skipWS s3) d with
                | none => rw [hv] at h; cases h
                | some s4 =>
                  rw [hv] at h
                  simp only at h
                  obtain ⟨g1, v, hv1⟩ := ihV _ _ _ hv
                  cases hw4 : skipWS s4 with
                  | nil => rw [hw4] at h; cases h
                  | cons c t =>
                    rw [hw4] at h
                    simp only at h
                    by_cases hc : c = 0x2C
                    · rw [if_pos hc] at h
                      subst hc
                      obtain ⟨g2, kvs, hl⟩ := ihM _ _ _ h
                      refine ⟨max (3 * (skipWS s3).length + 1) (3 * t.length + 2) + 1,
                        (k, v) :: kvs, ?_⟩
                      exact parseObjectLoop_more hw hk hw2
                        (parseValue_fuel_enough rt hv1 _ (le_max_left _ _)) hw4
                        (parseObjectLoop_fuel_enough rt hl _ (le_max_right _ _))
                    · rw [if_neg hc] at h
                      by_cases hc2 : c = 0x7D
                      · rw [if_pos hc2] at h
                        cases h
                        subst hc2
                        exact ⟨g1 + 1, [(k, v)], parseObjectLoop_last hw hk hw2 hv1 hw4⟩
                      · rw [if_neg hc2] at h; cases h
              · simp only [ne_eq, hcol, not_false_eq_true, if_true] at h
                cases h
        · simp only [ne_eq, hq, not_false_eq_true, if_true] at h
          cases h
    · intro s d tail h
      rw [laxElements_succ] at h
      cases hv : laxValue MaxDepth f (skipWS s) d with
      | none => rw [hv] at h; cases h
      | some s1 =>
        rw [hv] at h
        simp only at h
        obtain ⟨g1, v, hv1⟩ := ihV _ _ _ hv
        cases hw : skipWS s1 with
        | nil => rw [hw] at h; cases h
        | cons c t =>
          rw [hw] at h
          simp only at h
          by_cases hc : c = 0x2C
          · rw [if_pos hc] at h
            subst hc
            obtain ⟨g2, a, hl⟩ := ihE _ _ _ h
            refine ⟨max (3 * (skipWS s).length + 1) (3 * t.length + 2) + 1, v :: a, ?_⟩
            exact parseArrayLoop_more (parseValue_fuel_enough rt hv1 _ (le_max_left _ _)) hw
              (parseArrayLoop_fuel_enough rt hl _ (le_max_right _ _))
          · rw [if_neg hc] at h
            by_cases hc2 : c = 0x5D
            · rw [if_pos hc2] at h
              cases h
              subst hc2
              exact ⟨g1 + 1, [v], parseArrayLoop_last hv1 hw⟩
            · rw [if_neg hc2] at h; cases h

/-- The texts `Parser.Parse` accepts are the texts of the relaxed grammar. -/
theorem Parse_ok_iff_laxValid (rt : Runtime) (s : Bytes) :
    (∃ v, Parser.Parse s = .ok v []) ↔ laxValid s = true := by
  constructor
  · rintro ⟨v, h⟩
    obtain ⟨t1, hv, ht, _⟩ := Parse_ok_inv h
    have hl := skipWS_length_le s
    unfold laxValid
    rw [(parse_lax _).1 _ _ _ _ hv (3 * s.length + 1) (by omega)]
    simp only [ht, beq_self_eq_true]
  · intro h
    unfold laxValid at h
    cases hv : laxValue MaxDepth (3 * s.length + 1) (skipWS s) 0 with
    | none => rw [hv] at h; cases h
    | some tail =>
      rw [hv] at h
      simp only [beq_iff_eq] at h
      obtain ⟨g, v, hp⟩ := (lax_parse rt _).1 _ _ _ hv
      have hp2 := parseValue_fuel_enough rt hp (3 * (skipWS s).length + 1) (le_refl _)
      refine ⟨v, ?_⟩
      unfold Parser.Parse
      simp only [hp2, h]

/-- A payload outside the relaxed grammar makes `go_filter` return the nil
pointer. -/
theorem go_filter_null_of_not_lax (rt : Runtime) (btag : Bytes) (sec nsec : Nat) (br : Bytes)
    (h : laxValid br = false) : go_filter rt btag sec nsec br = .null := by
  apply go_filter_null_of_err
  intro v tail hp
  obtain ⟨_, _, _, ht⟩ := Parse_ok_inv hp
  subst ht
  rw [(Parse_ok_iff_laxValid rt br).1 ⟨v, hp⟩] at h
  cases h

/-- The payloads for which `go_filter` returns the nil pointer: those outside
the relaxed grammar and those whose first byte after the white space is not an
opening brace. -/
theorem go_filter_null_iff (rt : Runtime) (btag : Bytes) (sec nsec : Nat) (br : Bytes) :
    go_filter rt btag sec nsec br = .null ↔
      (laxValid br = false ∨ (skipWS br).head? ≠ some 0x7B) := by
  constructor
  · intro hnull
    by_contra hc
    simp only [not_or, Bool.not_eq_false, ne_eq, not_not] at hc
    obtain ⟨hl, hh⟩ := hc
    obtain ⟨v, hp⟩ := (Parse_ok_iff_laxValid rt br).2 hl
    obtain ⟨t1, hv, _, _⟩ := Parse_ok_inv hp
    cases hs : skipWS br with
    | nil => rw [hs] at hh; cases hh
    | cons c t =>
      rw [hs] at hh hv
      simp only [List.head?_cons, Option.some.injEq] at hh
      subst hh
      simp only [List.length_cons] at hv
      rw [show 3 * (t.length + 1) + 1 = (3 * t.length + 2) + 1 + 1 by omega,
        parseValue_object _ t 0 (by decide)] at hv
      obtain ⟨c1, t2, _, hcase⟩ := parseObject_ok_inv hv
      have hobj : ∃ obj, v.Object = some obj := by
        rcases hcase with ⟨_, hv2, _⟩ | ⟨_, kvs, _, hv2⟩
        · exact ⟨_, by rw [hv2]; rfl⟩
        · exact ⟨_, by rw [hv2]; rfl⟩
      obtain ⟨obj, ho⟩ := hobj
      rw [go_filter_ok rt btag sec nsec br v [] obj hp ho] at hnull
      cases hnull
  · rintro (h | h)
    · exact go_filter_null_of_not_lax rt btag sec nsec br h
    · exact go_filter_null_of_head rt btag sec nsec br h

/-! ## Keys and strings as JSON reads them -/

theorem jsonString_nil (f : Nat) : jsonString f [] = some [] := by
  cases f <;> rfl

theorem jsonString_cons (f c : Nat) (t : Bytes) :
    jsonString (f + 1) (c :: t) =
      if c = 0x5C then
        match t with
        | [] => none
        | e :: t1 =>
          match simpleEscape e with
          | some d => (jsonString f t1).map (d :: ·)
          | none =>
            if e = 0x75 then
              match parseHex4 (t1.take 4) with
              | none => none
              | some x =>
                if x < 0xD800 ∨ 0xDFFF < x then
                  (jsonString f (t1.drop 4)).map (encodeRune x ++ ·)
                else if x < 0xDC00 ∧ (t1.drop 4).take 2 = [0x5C, 0x75] then
                  match parseHex4 ((t1.drop 6).take 4) with
                  | none => none
                  | some y =>
                    if 0xDC00 ≤ y ∧ y ≤ 0xDFFF then
                      (jsonString f (t1.drop 10)).map
                        (encodeRune ((x - 0xD800) * 1024 + (y - 0xDC00) + 0x10000) ++ ·)
                    else none
                else none
            else none
      else if c = 0x22 ∨ c < 0x20 then none
      else (jsonString f t).map (c :: ·) := rfl

theorem parseHex4_length {l : Bytes} {x : Nat} (h : parseHex4 l = some x) : l.length = 4 := by
  match l, h with
  | [_, _, _, _], _ => rfl

theorem take_length_le {l : Bytes} {n : Nat} (h : (l.take n).length = n) : n ≤ l.length := by
  rw [List.length_take] at h
  omega

theorem simpleEscape_step {e d : Nat} (h : simpleEscape e = some d) (x : Bytes) :
    unescapeStep e x = ([d], x) := by
  unfold simpleEscape at h
  unfold unescapeStep
  by_cases h1 : e = 0x22
  · rw [if_pos h1] at h ⊢; cases h; rfl
  · rw [if_neg h1] at h ⊢
    by_cases h2 : e = 0x5C
    · rw [if_pos h2] at h ⊢; cases h; rfl
    · rw [if_neg h2] at h ⊢
      by_cases h3 : e = 0x2F
      · rw [if_pos h3] at h ⊢; cases h; rfl
      · rw [if_neg h3] at h ⊢
        by_cases h4 : e = 0x62
        · rw [if_pos h4] at h ⊢; cases h; rfl
        · rw [if_neg h4] at h ⊢
          by_cases h5 : e = 0x66
          · rw [if_pos h5] at h ⊢; cases h; rfl
          · rw [if_neg h5] at h ⊢
            by_cases h6 : e = 0x6E
            · rw [if_pos h6] at h ⊢; cases h; rfl
            · rw [if_neg h6] at h ⊢
              by_cases h7 : e = 0x72
              · rw [if_pos h7] at h ⊢; cases h; rfl
              · rw [if_neg h7] at h ⊢
                by_cases h8 : e = 0x74
                · rw [if_pos h8] at h ⊢; cases h; rfl
                · rw [if_neg h8] at h; cases h

theorem simpleEscape_none_u {e : Nat} (h : e = 0x75) : simpleEscape e = none := by
  subst h; rfl

/-- The step of `unescapeStringBestEffort` on a `\uXXXX` whose code point is
not a surrogate. -/
theorem unescapeStep_u_plain (t1 : Bytes) (x : Nat) (hx : parseHex4 (t1.take 4) = some x)
    (hs : x < 0xD800 ∨ 0xDFFF < x) :
    unescapeStep 0x75 t1 = (encodeRune x, t1.drop 4) := by
  have hl := take_length_le (parseHex4_length hx)
  unfold unescapeStep
  rw [if_neg (by decide), if_neg (by decide), if_neg (by decide), if_neg (by decide),
    if_neg (by decide), if_neg (by decide), if_neg (by decide), if_neg (by decide),
    if_pos rfl, if_neg (by omega)]
  simp only [hx]
  have : isSurrogate x = false := by
    unfold isSurrogate
    simp only [Bool.and_eq_false_iff, decide_eq_false_iff_not]
    omega
  rw [this]
  rfl

/-- The step of `unescapeStringBestEffort` on a pair of surrogate escapes. -/
theorem unescapeStep_u_pair (t1 : Bytes) (x y : Nat) (hx : parseHex4 (t1.take 4) = some x)
    (hs : ¬ (x < 0xD800 ∨ 0xDFFF < x)) (hhi : x < 0xDC00)
    (hbs : (t1.drop 4).take 2 = [0x5C, 0x75])
    (hy : parseHex4 ((t1.drop 6).take 4) = some y) (hlo : 0xDC00 ≤ y ∧ y ≤ 0xDFFF) :
    unescapeStep 0x75 t1 =
      (encodeRune ((x - 0xD800) * 1024 + (y - 0xDC00) + 0x10000), t1.drop 10) := by
  have hl := take_length_le (parseHex4_length hx)
  have hl2 := take_length_le (parseHex4_length hy)
  rw [List.length_drop] at hl2
  unfold unescapeStep
  rw [if_neg (by decide), if_neg (by decide), if_neg (by decide), if_neg (by decide),
    if_neg (by decide), if_neg (by decide), if_neg (by decide), if_neg (by decide),
    if_pos rfl, if_neg (by omega)]
  simp only [hx]
  have hsur : isSurrogate x = true := by
    unfold isSurrogate
    simp only [Bool.and_eq_true, decide_eq_true_eq]
    omega
  rw [hsur]
  simp only [Bool.not_true, Bool.false_eq_true, if_false]
  have hg : (t1.drop 4).getD 0 0 = 0x5C ∧ (t1.drop 4).getD 1 0 = 0x75 := by
    match hd : t1.drop 4, hbs with
    | a :: b :: r, hbs =>
      simp only [List.take_succ_cons, List.take_zero, List.cons.injEq, and_true] at hbs
      simp only [List.getD_cons_zero, List.getD_cons_succ]
      exact hbs
  rw [if_neg (by
    simp only [List.length_drop, not_or, not_lt, ne_eq, not_not]
    exact ⟨by omega, hg.1, hg.2⟩)]
  simp only [List.drop_drop]
  rw [show 2 + 4 = 6 from rfl, hy]
  simp only
  rw [show 6 + 4 = 10 from rfl]
  unfold utf16DecodeRune
  rw [if_pos (by omega)]

/-- On a JSON string `unescapeStringBestEffort` gives the text the string
stands for. -/
theorem jsonString_unescapeFrom (f : Nat) :
    ∀ s k, jsonString f s = some k → ∀ g, s.length ≤ g → unescapeFrom g s = k := by
  induction f with
  | zero =>
    intro s k h g _
    cases s with
    | nil => cases h; rfl
    | cons c t => cases h
  | succ f ih =>
    intro s k h g hg
    cases s with
    | nil => rw [jsonString_nil] at h; cases h; rfl
    | cons c t =>
      rw [jsonString_cons] at h
      simp only [List.length_cons] at hg
      by_cases hb : c = 0x5C
      · subst hb
        rw [if_pos rfl] at h
        obtain ⟨g, rfl⟩ : ∃ g1, g = g1 + 1 := ⟨g - 1, by omega⟩
        cases t with
        | nil => cases h
        | cons e t1 =>
          simp only [List.length_cons] at hg
          simp only at h
          rw [unescapeFrom_esc]
          cases hse : simpleEscape e with
          | some d =>
            rw [hse] at h
            simp only at h
            cases hr : jsonString f t1 with
            | none => rw [hr] at h; exact absurd h (by simp)
            | some k1 =>
              rw [hr] at h
              simp only [Option.map_some', Option.some.injEq] at h
              subst h
              rw [simpleEscape_step hse]
              simp only
              rw [ih _ _ hr g (by omega)]
              rfl
          | none =>
            rw [hse] at h
            simp only at h
            by_cases hu : e = 0x75
            · subst hu
              rw [if_pos rfl] at h
              cases hx : parseHex4 (t1.take 4) with
              | none => rw [hx] at h; cases h
              | some x =>
                rw [hx] at h
                simp only at h
                by_cases hs : x < 0xD800 ∨ 0xDFFF < x
                · rw [if_pos hs] at h
                  cases hr : jsonString f (t1.drop 4) with
                  | none => rw [hr] at h; exact absurd h (by simp)
                  | some k1 =>
                    rw [hr] at h
                    simp only [Option.map_some', Option.some.injEq] at h
                    subst h
                    rw [unescapeStep_u_plain t1 x hx hs]
                    simp only
                    rw [ih _ _ hr g (by rw [List.length_drop]; omega)]
                · rw [if_neg hs] at h
                  by_cases hp : x < 0xDC00 ∧ (t1.drop 4).take 2 = [0x5C, 0x75]
                  · rw [if_pos hp] at h
                    cases hy : parseHex4 ((t1.drop 6).take 4) with
                    | none => rw [hy] at h; cases h
                    | some y =>
                      rw [hy] at h
                      simp only at h
                      by_cases hlo : 0xDC00 ≤ y ∧ y ≤ 0xDFFF
                      · rw [if_pos hlo] at h
                        cases hr : jsonString f (t1.drop 10) with
                        | none => rw [hr] at h; exact absurd h (by simp)
                        | some k1 =>
                          rw [hr] at h
                          simp only [Option.map_some', Option.some.injEq] at h
                          subst h
                          rw [unescapeStep_u_pair t1 x y hx hs hp.1 hp.2 hy hlo]
                          simp only
                          rw [ih _ _ hr g (by rw [List.length_drop]; omega)]
                      · rw [if_neg hlo] at h; cases h
                  · rw [if_neg hp] at h; cases h
            · rw [if_neg hu] at h; cases h
      · rw [if_neg hb] at h
        by_cases hq : c = 0x22 ∨ c < 0x20
        · rw [if_pos hq] at h; cases h
        · rw [if_neg hq] at h
          cases hr : jsonString f t with
          | none => rw [hr] at h; exact absurd h (by simp)
          | some k1 =>
            rw [hr] at h
            simp only [Option.map_some', Option.some.injEq] at h
            subst h
            rw [unescapeFrom_plain g c t hb, ih _ _ hr g (by omega)]

theorem jsonString_unescape {s k : Bytes} (h : jsonString s.length s = some k) :
    unescapeStringBestEffort s = k := by
  rw [unescapeStringBestEffort_eq]
  exact jsonString_unescapeFrom _ _ _ h _ (le_refl _)

/-- The fuel of `jsonString`, the length of the text, is enough. -/
theorem jsonString_fuel (f : Nat) :
    ∀ s k, jsonString f s = some k → ∀ g, s.length ≤ g → jsonString g s = some k := by
  induction f with
  | zero =>
    intro s k h g _
    cases s with
    | nil => rw [jsonString_nil] at h ⊢; exact h
    | cons c t => cases h
  | succ f ih =>
    intro s k h g hg
    cases s with
    | nil => rw [jsonString_nil] at h ⊢; exact h
    | cons c t =>
      simp only [List.length_cons] at hg
      obtain ⟨g, rfl⟩ : ∃ g1, g = g1 + 1 := ⟨g - 1, by omega⟩
      rw [jsonString_cons] at h ⊢
      by_cases hb : c = 0x5C
      · rw [if_pos hb] at h ⊢
        cases t with
        | nil => exact absurd h (by simp)
        | cons e t1 =>
          simp only [List.length_cons] at hg
          simp only at h ⊢
          cases hse : simpleEscape e with
          | some d =>
            rw [hse] at h
            simp only at h ⊢
            cases hr : jsonString f t1 with
            | none => rw [hr] at h; exact absurd h (by simp)
            | some k1 =>
              rw [hr] at h
              rw [ih _ _ hr g (by omega)]
              exact h
          | none =>
            rw [hse] at h
            simp only at h ⊢
            by_cases hu : e = 0x75
            · rw [if_pos hu] at h ⊢
              cases hx : parseHex4 (t1.take 4) with
              | none => rw [hx] at h; exact absurd h (by simp)
              | some x =>
                rw [hx] at h
                simp only at h ⊢
                by_cases hs : x < 0xD800 ∨ 0xDFFF < x
                · rw [if_pos hs] at h ⊢
                  cases hr : jsonString f (t1.drop 4) with
                  | none => rw [hr] at h; exact absurd h (by simp)
                  | some k1 =>
                    rw [hr] at h
                    rw [ih _ _ hr g (by rw [List.length_drop]; omega)]
                    exact h
                · rw [if_neg hs] at h ⊢
                  by_cases hp : x < 0xDC00 ∧ (t1.drop 4).take 2 = [0x5C, 0x75]
                  · rw [if_pos hp] at h ⊢
                    cases hy : parseHex4 ((t1.drop 6).take 4) with
                    | none => rw [hy] at h; exact absurd h (by simp)
                    | some y =>
                      rw [hy] at h
                      simp only at h ⊢
                      by_cases hlo : 0xDC00 ≤ y ∧ y ≤ 0xDFFF
                      · rw [if_pos hlo] at h ⊢
                        cases hr : jsonString f (t1.drop 10) with
                        | none => rw [hr] at h; exact absurd h (by simp)
                        | some k1 =>
                          rw [hr] at h
                          rw [ih _ _ hr g (by rw [List.length_drop]; omega)]
                          exact h
                      · rw [if_neg hlo] at h; exact absurd h (by simp)
                  · rw [if_neg hp] at h; exact absurd h (by simp)
            · rw [if_neg hu] at h; exact absurd h (by simp)
      · rw [if_neg hb] at h ⊢
        by_cases hq : c = 0x22 ∨ c < 0x20
        · rw [if_pos hq] at h; exact absurd h (by simp)
        · rw [if_neg hq] at h ⊢
          cases hr : jsonString f t with
          | none => rw [hr] at h; exact absurd h (by simp)
          | some k1 =>
            rw [hr] at h
            rw [ih _ _ hr g (by omega)]
            exact h

theorem jsonString_plain_run (l y ky : Bytes) (hl : ∀ b ∈ l, b ≠ 0x22 ∧ b ≠ 0x5C ∧ 0x20 ≤ b)
    (f : Nat) (h : jsonString f y = some ky) : ∃ g, jsonString g (l ++ y) = some (l ++ ky) := by
  induction l with
  | nil => exact ⟨f, h⟩
  | cons c l ih =>
    obtain ⟨g, hg⟩ := ih (fun b hb => hl b (List.mem_cons_of_mem _ hb))
    obtain ⟨h1, h2, h3⟩ := hl c (List.mem_cons_self _ _)
    refine ⟨g + 1, ?_⟩
    rw [List.cons_append, jsonString_cons, if_neg h2, if_neg (by omega), hg]
    rfl

theorem simpleEscape_of_mem {e : Nat}
    (he : e = 0x22 ∨ e = 0x5C ∨ e = 0x2F ∨ e = 0x62 ∨ e = 0x66 ∨ e = 0x6E ∨ e = 0x72 ∨ e = 0x74) :
    ∃ d, simpleEscape e = some d := by
  rcases he with h | h | h | h | h | h | h | h <;> subst h <;> exact ⟨_, rfl⟩

/-- The quoting of a text that is `quoteSafeText` is a JSON string that stands
for that text. -/
theorem jsonString_quoteBody (rt : Runtime) (n : Nat) :
    ∀ s, quoteSafeText rt n s = true → s.length ≤ n →
      ∀ y ky f, jsonString f y = some ky →
        ∃ g, jsonString g (quoteBody rt n s ++ y) = some (s ++ ky) := by
  induction n with
  | zero =>
    intro s _ hn y ky f h
    have : s = [] := List.length_eq_zero.1 (by omega)
    subst this
    rw [quoteBody_zero]; exact ⟨f, h⟩
  | succ n ih =>
    intro s hs hn y ky f h
    cases s with
    | nil => rw [quoteBody_nil]; exact ⟨f, h⟩
    | cons c rest =>
      obtain ⟨w, out, hw1, hq, hsafe, hcase⟩ := quoteBody_safe_step rt n c rest hs
      have hdl : ((c :: rest).drop w).length ≤ n := by
        rw [List.length_drop]
        simp only [List.length_cons] at hn ⊢
        omega
      obtain ⟨g, hg⟩ := ih _ hsafe hdl y ky f h
      have hsplit : (c :: rest).take w ++ ((c :: rest).drop w ++ ky) = c :: rest ++ ky := by
        rw [← List.append_assoc, List.take_append_drop]
      rw [hq, List.append_assoc]
      rcases hcase with ⟨ho, hpl⟩ | ⟨e, d, ho, htk, hstep, he⟩ | ⟨r1, hr, hsur, henc, ho⟩
      · obtain ⟨g2, hg2⟩ := jsonString_plain_run out _ _ hpl g hg
        refine ⟨g2, ?_⟩
        rw [hg2, ho, hsplit]
      · obtain ⟨d2, hd2⟩ := simpleEscape_of_mem he
        have hdd : d2 = d := by
          have h1 := simpleEscape_step hd2 []
          rw [hstep] at h1
          simp only [Prod.mk.injEq, List.cons.injEq, and_true] at h1
          exact h1.symm
        subst hdd
        refine ⟨g + 1, ?_⟩
        rw [ho]
        simp only [List.cons_append, List.nil_append]
        rw [jsonString_cons, if_pos rfl]
        simp only [hd2, hg, Option.map_some', Option.some.injEq]
        have h5 := hsplit
        rw [htk] at h5
        exact h5
      · refine ⟨g + 1, ?_⟩
        rw [ho]
        simp only [List.cons_append, List.nil_append]
        rw [jsonString_cons, if_pos rfl]
        simp only [simpleEscape_none_u rfl, if_true, List.take_succ_cons, List.take_zero,
          List.drop_succ_cons, List.drop_zero, parseHex4_lowerhex r1 hr]
        rw [if_pos (by omega), hg]
        simp only [Option.map_some', Option.some.injEq]
        have h5 := hsplit
        rw [← henc] at h5
        exact h5

/-- What `escapeString` writes between the quotes for a `safeText` is a JSON
string that stands for that text. -/
theorem jsonString_escBody (rt : Runtime) (k : Bytes) (hk : safeText rt k) :
    jsonString (escBody rt k).length (escBody rt k) = some k := by
  have key : ∃ g, jsonString g (escBody rt k) = some k := by
    unfold escBody
    by_cases hsp : hasSpecialChars k = true
    · rw [if_pos hsp]
      rcases hk with h | h
      · rw [h] at hsp; cases hsp
      · obtain ⟨g, hg⟩ := jsonString_quoteBody rt _ k h (le_refl _) [] [] 0 (jsonString_nil 0)
        rw [List.append_nil, List.append_nil] at hg
        exact ⟨g, hg⟩
    · rw [if_neg hsp]
      obtain ⟨g, hg⟩ := jsonString_plain_run k [] []
        (hasSpecialChars_false (by simpa using hsp)) 0 (jsonString_nil 0)
      rw [List.append_nil] at hg
      exact ⟨g, hg⟩
  obtain ⟨g, hg⟩ := key
  exact jsonString_fuel g _ _ hg _ (le_refl _)

/-! ## The entries of the payload and of the returned text -/

theorem readEntries_inv {payload : Bytes} {P : List (Option Bytes × Value)}
    (hP : readEntries payload = some P) :
    ∃ kvs, Parser.Parse payload = .ok (.object kvs false) [] ∧
      P = kvs.map fun kv => (jsonString kv.1.length kv.1, kv.2) := by
  unfold readEntries at hP
  cases hpar : Parser.Parse payload with
  | err => rw [hpar] at hP; cases hP
  | oof => rw [hpar] at hP; cases hP
  | ok v tail =>
    rw [hpar] at hP
    obtain ⟨t1, hv, _, htail⟩ := Parse_ok_inv hpar
    subst htail
    cases v with
    | object kvs ku =>
      simp only [Option.some.injEq] at hP
      have ho : (Value.object kvs ku).Object = some ⟨kvs, ku⟩ := rfl
      obtain ⟨_, _, _, _, _, _, _, hku⟩ := parseValue_object_inv rt0 hv ho
      simp only at hku
      subst hku
      exact ⟨kvs, rfl, hP.symm⟩
    | rawString s => cases hP
    | string s => cases hP
    | number s => cases hP
    | array a => cases hP
    | vtrue => cases hP
    | vfalse => cases hP
    | vnull => cases hP

theorem safeText_enrichmentKeys (rt : Runtime) (k : Bytes) (hk : k ∈ enrichmentKeys) :
    safeText rt k := by
  simp only [enrichmentKeys, List.mem_cons, List.mem_singleton, List.not_mem_nil, or_false] at hk
  rcases hk with rfl | rfl | rfl <;> exact Or.inl (by decide)

theorem jsonText_NewString (rt : Runtime) (s : Bytes) (hs : safeText rt s) :
    jsonText (Arena.NewString rt s) = some s := by
  rw [NewString_escBody]
  exact jsonString_escBody rt s hs

/-- The three `Set` calls on the entries in memory: the keys before them keep
their positions, the first entry under each of the three keys has the new
value, and a key among the three held at most once before is held once
after. -/
theorem enrich_overwrites (rt : Runtime) (tag : Bytes) (sec nsec : Nat) (payload : Bytes)
    (obj : Object) :
    obj.unescapeKeys.kvs.map Prod.fst <+: (enrich rt tag sec nsec payload obj).kvs.map Prod.fst ∧
      lookupKey (str "time") (enrich rt tag sec nsec payload obj).kvs =
        some (Arena.NewString rt (rt.timeString (toInt64 sec) (toInt64 nsec))) ∧
      lookupKey (str "tag") (enrich rt tag sec nsec payload obj).kvs =
        some (Arena.NewString rt tag) ∧
      lookupKey (str "original") (enrich rt tag sec nsec payload obj).kvs =
        some (Arena.NewString rt payload) ∧
      ∀ k ∈ enrichmentKeys, (obj.unescapeKeys.kvs.map Prod.fst).count k ≤ 1 →
        ((enrich rt tag sec nsec payload obj).kvs.map Prod.fst).count k = 1 := by
  rw [enrich_eq]
  simp only
  refine ⟨?_, ?_, ?_, ?_, ?_⟩
  · exact ((setKV_keys_extend _ _ _).trans (setKV_keys_extend _ _ _)).trans
      (setKV_keys_extend _ _ _)
  · rw [lookupKey_setKV_ne _ _ _ _ (by decide), lookupKey_setKV_ne _ _ _ _ (by decide),
      lookupKey_setKV_self]
  · rw [lookupKey_setKV_ne _ _ _ _ (by decide), lookupKey_setKV_self]
  · rw [lookupKey_setKV_self]
  · intro k hk hc
    simp only [enrichmentKeys, List.mem_cons, List.mem_singleton, List.not_mem_nil, or_false] at hk
    rcases hk with rfl | rfl | rfl
    · rw [setKV_count_ne _ _ _ _ (by decide), setKV_count_ne _ _ _ _ (by decide)]
      exact setKV_count_self _ _ _ hc
    · rw [setKV_count_ne _ _ _ _ (by decide)]
      apply setKV_count_self
      rw [setKV_count_ne _ _ _ _ (by decide)]
      exact hc
    · apply setKV_count_self
      rw [setKV_count_ne _ _ _ _ (by decide), setKV_count_ne _ _ _ _ (by decide)]
      exact hc

/-- The three `Set` calls leave the entries under the other keys as they
are. -/
theorem enrich_filter_other (rt : Runtime) (tag : Bytes) (sec nsec : Nat) (payload : Bytes)
    (obj : Object) :
    (enrich rt tag sec nsec payload obj).kvs.filter (fun kv => !enrichmentKeys.contains kv.1) =
      obj.unescapeKeys.kvs.filter (fun kv => !enrichmentKeys.contains kv.1) := by
  rw [enrich_eq]
  simp only
  rw [filter_setKV (fun k => !enrichmentKeys.contains k) _ _ _ (by decide),
    filter_setKV (fun k => !enrichmentKeys.contains k) _ _ _ (by decide),
    filter_setKV (fun k => !enrichmentKeys.contains k) _ _ _ (by decide)]

/-! ## What the code's unescaping and JSON agree on -/

theorem encodeRune_cons (r : Nat) : ∃ b l, encodeRune r = b :: l := by
  unfold encodeRune
  split
  · exact ⟨_, _, rfl⟩
  · split
    · exact ⟨_, _, rfl⟩
    · split
      · exact ⟨_, _, rfl⟩
      · split
        · exact ⟨_, _, rfl⟩
        · exact ⟨_, _, rfl⟩

theorem encodeRune_head_high (r : Nat) (h : 0x80 ≤ r) :
    ∃ b l, encodeRune r = b :: l ∧ 0x80 ≤ b := by
  obtain ⟨b, l, e⟩ := encodeRune_cons r
  exact ⟨b, l, e, encodeRune_high r h b (by rw [e]; exact List.mem_cons_self _ _)⟩

theorem simpleEscape_none_step {e : Nat} (h : simpleEscape e = none) (hu : e ≠ 0x75)
    (t : Bytes) : unescapeStep e t = ([0x5C, e], t) := by
  unfold simpleEscape at h
  unfold unescapeStep
  by_cases h1 : e = 0x22
  · rw [if_pos h1] at h; cases h
  · rw [if_neg h1] at h ⊢
    by_cases h2 : e = 0x5C
    · rw [if_pos h2] at h; cases h
    · rw [if_neg h2] at h ⊢
      by_cases h3 : e = 0x2F
      · rw [if_pos h3] at h; cases h
      · rw [if_neg h3] at h ⊢
        by_cases h4 : e = 0x62
        · rw [if_pos h4] at h; cases h
        · rw [if_neg h4] at h ⊢
          by_cases h5 : e = 0x66
          · rw [if_pos h5] at h; cases h
          · rw [if_neg h5] at h ⊢
            by_cases h6 : e = 0x6E
            · rw [if_pos h6] at h; cases h
            · rw [if_neg h6] at h ⊢
              by_cases h7 : e = 0x72
              · rw [if_pos h7] at h; cases h
              · rw [if_neg h7] at h ⊢
                by_cases h8 : e = 0x74
                · rw [if_pos h8] at h; cases h
                · rw [if_neg h8, if_neg hu]

/-- The step of `unescapeStringBestEffort` on `\u`, when it is not followed by
the four hexadecimal digits of a code point that is no surrogate: what is
appended starts with a backslash or with a byte from `0x80` on. -/
theorem unescapeStep_u_other (t : Bytes)
    (h : ∀ x, parseHex4 (t.take 4) = some x → ¬ (x < 0xD800 ∨ 0xDFFF < x)) :
    ∃ b l, (unescapeStep 0x75 t).1 = b :: l ∧ (b = 0x5C ∨ 0x80 ≤ b) := by
  unfold unescapeStep
  rw [if_neg (by decide), if_neg (by decide), if_neg (by decide), if_neg (by decide),
    if_neg (by decide), if_neg (by decide), if_neg (by decide), if_neg (by decide),
    if_pos rfl]
  by_cases hl : t.length < 4
  · rw [if_pos hl]
    exact ⟨_, _, rfl, Or.inl rfl⟩
  · rw [if_neg hl]
    cases hx : parseHex4 (t.take 4) with
    | none =>
      simp only [hx]
      exact ⟨_, _, rfl, Or.inl rfl⟩
    | some x =>
      simp only [hx]
      have hsur : isSurrogate x = true := by
        have := h x hx
        unfold isSurrogate
        simp only [Bool.and_eq_true, decide_eq_true_eq]
        omega
      rw [hsur]
      simp only [Bool.not_true, Bool.false_eq_true, if_false]
      split
      · exact ⟨_, _, rfl, Or.inl rfl⟩
      · split
        · exact ⟨_, _, rfl, Or.inl rfl⟩
        · rename_i x1 _
          have hge : 0x80 ≤ utf16DecodeRune x x1 := by
            unfold utf16DecodeRune
            split <;> omega
          obtain ⟨b, l, e, hb⟩ := encodeRune_head_high _ hge
          exact ⟨b, l, e, Or.inr hb⟩

theorem parseHex4_take {t : Bytes} {x : Nat} (h : parseHex4 (t.take 4) = some x) :
    ∃ a b c d t2, t = a :: b :: c :: d :: t2 ∧ a ≠ 0x5C ∧ b ≠ 0x5C ∧ c ≠ 0x5C ∧ d ≠ 0x5C := by
  match t, h with
  | a :: b :: c :: d :: t2, h =>
    refine ⟨a, b, c, d, t2, rfl, ?_, ?_, ?_, ?_⟩
    · rintro rfl
      simp [parseHex4, hexVal] at h
    · rintro rfl
      simp [parseHex4, hexVal] at h
    · rintro rfl
      simp [parseHex4, hexVal] at h
    · rintro rfl
      simp [parseHex4, hexVal] at h

theorem escPending_of_scan (n : Nat) :
    ∀ k rest, k.length ≤ n → scanString (k ++ 0x22 :: rest) = .ok k rest →
      escPending k = false := by
  induction n with
  | zero =>
    intro k rest hn _
    have : k = [] := List.length_eq_zero.1 (by omega)
    subst this
    rfl
  | succ n ih =>
    intro k rest hn h
    cases k with
    | nil => rfl
    | cons c t =>
      simp only [List.length_cons] at hn
      rw [List.cons_append] at h
      by_cases hq : c = 0x22
      · subst hq
        rw [scanString_quote] at h
        cases h
      · by_cases hb : c = 0x5C
        · subst hb
          cases t with
          | nil =>
            rw [List.nil_append, scanString_esc] at h
            obtain ⟨k1, _, e⟩ := Res.prepend_eq_ok h
            simp at e
          | cons e t1 =>
            rw [List.cons_append, scanString_esc] at h
            obtain ⟨k1, h1, e1⟩ := Res.prepend_eq_ok h
            simp only [List.cons_append, List.nil_append, List.cons.injEq, true_and] at e1
            subst e1
            simp only [List.length_cons] at hn
            rw [escPending_esc]
            exact ih _ rest (by omega) h1
        · rw [scanString_plain c _ hq hb] at h
          obtain ⟨k1, h1, e1⟩ := Res.prepend_eq_ok h
          simp only [List.cons_append, List.nil_append, List.cons.injEq, true_and] at e1
          subst e1
          rw [escPending_plain c _ hb]
          exact ih _ rest (by omega) h1

/-- When `unescapeStringBestEffort` turns a string body with no pending
backslash into a text of printable ASCII bytes other than the quote and the
backslash, the body is a JSON string that stands for that text. -/
theorem unescapeFrom_ascii (n : Nat) :
    ∀ s, s.length ≤ n → escPending s = false → ∀ f, s.length ≤ f →
      (∀ b ∈ unescapeFrom f s, b ≠ 0x22 ∧ b ≠ 0x5C ∧ 0x20 ≤ b ∧ b < 0x80) →
      ∃ g, jsonString g s = some (unescapeFrom f s) := by
  induction n with
  | zero =>
    intro s hn _ f _ _
    have : s = [] := List.length_eq_zero.1 (by omega)
    subst this
    exact ⟨0, rfl⟩
  | succ n ih =>
    intro s hn hesc f hf hk
    cases s with
    | nil => exact ⟨0, rfl⟩
    | cons c t =>
      simp only [List.length_cons] at hn hf
      by_cases hb : c = 0x5C
      · subst hb
        cases t with
        | nil => cases hesc
        | cons e t1 =>
          simp only [List.length_cons] at hn hf
          rw [escPending_esc] at hesc
          obtain ⟨f, rfl⟩ : ∃ f1, f = f1 + 1 := ⟨f - 1, by omega⟩
          rw [unescapeFrom_esc] at hk ⊢
          cases hse : simpleEscape e with
          | some d =>
            rw [simpleEscape_step hse] at hk ⊢
            simp only at hk ⊢
            obtain ⟨g, hg⟩ := ih t1 (by omega) hesc f (by omega)
              (fun b hm => hk b (List.mem_append_right _ hm))
            refine ⟨g + 1, ?_⟩
            rw [jsonString_cons, if_pos rfl]
            simp only [hse, hg]
            rfl
          | none =>
            by_cases hu : e = 0x75
            · subst hu
              by_cases hx : ∃ x, parseHex4 (t1.take 4) = some x ∧ (x < 0xD800 ∨ 0xDFFF < x)
              · obtain ⟨x, hx1, hx2⟩ := hx
                obtain ⟨a, b, c, d, t2, ht, ha, hb, hc, hd⟩ := parseHex4_take hx1
                have hesc2 : escPending (t1.drop 4) = false := by
                  rw [ht] at hesc ⊢
                  rw [escPending_plain a _ ha, escPending_plain b _ hb, escPending_plain c _ hc,
                    escPending_plain d _ hd] at hesc
                  exact hesc
                rw [unescapeStep_u_plain t1 x hx1 hx2] at hk ⊢
                simp only at hk ⊢
                obtain ⟨g, hg⟩ := ih (t1.drop 4) (by rw [List.length_drop]; omega) hesc2 f
                  (by rw [List.length_drop]; omega)
                  (fun b hm => hk b (List.mem_append_right _ hm))
                refine ⟨g + 1, ?_⟩
                rw [jsonString_cons, if_pos rfl]
                simp only [hse, if_true, hx1]
                rw [if_pos hx2, hg]
                rfl
              · obtain ⟨b, l, e1, hb⟩ := unescapeStep_u_other t1
                  (fun x h1 h2 => hx ⟨x, h1, h2⟩)
                have := hk b (by rw [e1]; exact List.mem_append_left _ (List.mem_cons_self _ _))
                omega
            · rw [simpleEscape_none_step hse hu] at hk
              have := hk 0x5C (List.mem_append_left _ (List.mem_cons_self _ _))
              exact absurd rfl this.2.1
      · rw [escPending_plain c _ hb] at hesc
        rw [unescapeFrom_plain f c t hb] at hk ⊢
        obtain ⟨h1, _, h3, _⟩ := hk c (List.mem_cons_self _ _)
        obtain ⟨g, hg⟩ := ih t (by omega) hesc f (by omega)
          (fun b hm => hk b (List.mem_cons_of_mem _ hm))
        refine ⟨g + 1, ?_⟩
        rw [jsonString_cons, if_neg hb, if_neg (by omega), hg]
        rfl

/-! ## What a JSON reader makes of a quoted text -/

theorem jsonString_bad_escape (g e : Nat) (y : Bytes) (h : simpleEscape e = none)
    (hu : e ≠ 0x75) : jsonString g (0x5C :: e :: y) = none := by
  cases g with
  | zero => rfl
  | succ g =>
    rw [jsonString_cons, if_pos rfl]
    simp only [h, if_neg hu]

theorem jsonString_simple (g e d : Nat) (y : Bytes) (h : simpleEscape e = some d) :
    jsonString (g + 1) (0x5C :: e :: y) = (jsonString g y).map (d :: ·) := by
  rw [jsonString_cons, if_pos rfl]
  simp only [h]

theorem jsonString_u (g r : Nat) (y : Bytes) (hr : r < 0x10000)
    (hs : ¬ (0xD800 ≤ r ∧ r ≤ 0xDFFF)) :
    jsonString (g + 1) (0x5C :: 0x75 :: lowerhex (r / 4096 % 16) :: lowerhex (r / 256 % 16) ::
      lowerhex (r / 16 % 16) :: lowerhex (r % 16) :: y) =
      (jsonString g y).map (encodeRune r ++ ·) := by
  rw [jsonString_cons, if_pos rfl]
  simp only [simpleEscape_none_u rfl, if_true, List.take_succ_cons, List.take_zero,
    List.drop_succ_cons, List.drop_zero, parseHex4_lowerhex r hr]
  rw [if_pos (by omega)]

theorem jsonString_plain_none (l y : Bytes) (hl : ∀ b ∈ l, b ≠ 0x5C)
    (h : ∀ g, jsonString g y = none) : ∀ g, jsonString g (l ++ y) = none := by
  induction l with
  | nil => exact h
  | cons c l ih =>
    intro g
    cases g with
    | zero => rfl
    | succ g =>
      rw [List.cons_append, jsonString_cons, if_neg (hl c (List.mem_cons_self _ _))]
      split
      · rfl
      · rw [ih (fun b hb => hl b (List.mem_cons_of_mem _ hb)) g]
        rfl

/-- A text that no fuel makes a JSON string stays so behind a piece that
`strconv.AppendQuote` writes for a rune. -/
theorem jsonString_step_none (out y : Bytes) (h : ∀ g, jsonString g y = none)
    (hcase : (∀ b ∈ out, b ≠ 0x5C) ∨
      (∃ e, out = [0x5C, e] ∧
        (e = 0x22 ∨ e = 0x5C ∨ e = 0x2F ∨ e = 0x62 ∨ e = 0x66 ∨ e = 0x6E ∨ e = 0x72 ∨
          e = 0x74)) ∨
      (∃ r, r < 0x10000 ∧ ¬ (0xD800 ≤ r ∧ r ≤ 0xDFFF) ∧
        out = [0x5C, 0x75, lowerhex (r / 4096 % 16), lowerhex (r / 256 % 16),
          lowerhex (r / 16 % 16), lowerhex (r % 16)])) :
    ∀ g, jsonString g (out ++ y) = none := by
  rcases hcase with hpl | ⟨e, ho, he⟩ | ⟨r, hr, hsur, ho⟩
  · exact jsonString_plain_none out y hpl h
  · intro g
    obtain ⟨d, hd⟩ := simpleEscape_of_mem he
    rw [ho]
    cases g with
    | zero => rfl
    | succ g =>
      simp only [List.cons_append, List.nil_append]
      rw [jsonString_simple g e d y hd, h g]
      rfl
  · intro g
    rw [ho]
    cases g with
    | zero => rfl
    | succ g =>
      simp only [List.cons_append, List.nil_append]
      rw [jsonString_u g r y hr hsur, h g]
      rfl

theorem decodeRune_width_one (c : Nat) (rest : Bytes) :
    0x80 ≤ c → (decodeRune (c :: rest)).2 = 1 → (decodeRune (c :: rest)).1 = 0xFFFD := by
  unfold decodeRune
  simp only
  repeat' split
  all_goals simp
  all_goals omega

/-- For an ASCII byte that is not `quoteSafe`, `strconv.AppendQuote` writes an
escape that JSON does not have: `\a`, `\v` or `\x`. -/
theorem appendEscapedRune_not_safe (rt : Runtime) (c : Nat) (hlt : c < 0x80)
    (hc : ¬ quoteSafe c = true) :
    ∃ e l, appendEscapedRune rt c = 0x5C :: e :: l ∧ simpleEscape e = none ∧ e ≠ 0x75 := by
  have hc2 : (c < 0x20 ∨ c = 0x7F) ∧ c ≠ 0x08 ∧ c ≠ 0x09 ∧ c ≠ 0x0A ∧ c ≠ 0x0C ∧ c ≠ 0x0D := by
    unfold quoteSafe at hc
    simp only [Bool.or_eq_true, Bool.and_eq_true, decide_eq_true_eq, beq_iff_eq, not_or,
      not_and, not_le] at hc
    omega
  obtain ⟨h1, h8, h9, hA, hC, hD⟩ := hc2
  have hpr : IsPrint rt c = false := by
    unfold IsPrint
    rw [if_pos (by omega), if_neg (by omega), if_neg (by omega)]
  unfold appendEscapedRune
  rw [if_neg (by omega), hpr]
  simp only [Bool.false_eq_true, if_false]
  by_cases h7 : c = 0x07
  · rw [if_pos h7]
    exact ⟨_, _, rfl, rfl, by decide⟩
  · rw [if_neg h7, if_neg h8, if_neg hC, if_neg hA, if_neg hD, if_neg h9]
    by_cases hB : c = 0x0B
    · rw [if_pos hB]
      exact ⟨_, _, rfl, rfl, by decide⟩
    · rw [if_neg hB, if_pos h1]
      exact ⟨_, _, rfl, rfl, by decide⟩

/-- The quoting of a text that is not `quoteSafeText` is no JSON string. -/
theorem jsonString_quoteBody_none (rt : Runtime) (n : Nat) :
    ∀ s, s.length ≤ n → quoteSafeText rt n s = false →
      ∀ g, jsonString g (quoteBody rt n s) = none := by
  induction n with
  | zero =>
    intro s hn hs
    have : s = [] := List.length_eq_zero.1 (by omega)
    subst this
    simp [quoteSafeText] at hs
  | succ n ih =>
    intro s hn hs
    cases s with
    | nil => simp [quoteSafeText] at hs
    | cons c rest =>
      simp only [List.length_cons] at hn
      by_cases hlt : c < 0x80
      · rw [quoteBody_ascii rt n c rest hlt]
        by_cases hc : quoteSafe c = true
        · have hrest : quoteSafeText rt n rest = false := by
            rw [quoteSafeText, if_pos hlt, hc, Bool.true_and] at hs
            exact hs
          have hs1 : quoteSafeText rt (0 + 1) (c :: []) = true := by
            rw [quoteSafeText, if_pos hlt, hc]
            rfl
          obtain ⟨w, out, _, hq, _, hcase⟩ := quoteBody_safe_step rt 0 c [] hs1
          rw [quoteBody_ascii rt 0 c [] hlt] at hq
          simp only [quoteBody_zero, List.append_nil] at hq
          rw [hq]
          apply jsonString_step_none out _ (ih rest (by omega) hrest)
          rcases hcase with ⟨_, hpl⟩ | ⟨e, d, ho, _, _, he⟩ | ⟨r, hr, hsur, _, ho⟩
          · exact Or.inl fun b hb => (hpl b hb).2.1
          · exact Or.inr (Or.inl ⟨e, ho, he⟩)
          · exact Or.inr (Or.inr ⟨r, hr, hsur, ho⟩)
        · obtain ⟨e, l, he, h1, h2⟩ := appendEscapedRune_not_safe rt c hlt hc
          intro g
          rw [he]
          exact jsonString_bad_escape g e _ h1 h2
      · rw [quoteBody_cons]
        simp only [ge_iff_le, if_pos (show 0x80 ≤ c by omega)]
        by_cases hw : (decodeRune (c :: rest)).2 = 1
        · rw [if_pos ⟨hw, decodeRune_width_one c rest (by omega) hw⟩]
          intro g
          exact jsonString_bad_escape g 0x78 _ rfl (by decide)
        · rw [if_neg (fun h => hw h.1)]
          obtain ⟨_, hr80, _, hrsur, hw2⟩ := decodeRune_valid c rest (by omega) hw
          have hdl : ((c :: rest).drop (decodeRune (c :: rest)).2).length ≤ n := by
            rw [List.length_drop]
            simp only [List.length_cons]
            omega
          rw [quoteSafeText, if_neg hlt] at hs
          rw [appendEscapedRune_high rt _ hr80]
          by_cases hpr : IsPrint rt (decodeRune (c :: rest)).1 = true
          · rw [if_pos hpr]
            have hrest : quoteSafeText rt n ((c :: rest).drop (decodeRune (c :: rest)).2) =
                false := by
              simpa [hw, hpr] using hs
            exact jsonString_plain_none _ _
              (fun b hb => by have := encodeRune_high _ hr80 b hb; omega)
              (ih _ hdl hrest)
          · rw [if_neg hpr]
            by_cases h16 : (decodeRune (c :: rest)).1 < 0x10000
            · rw [if_pos h16]
              have hrest : quoteSafeText rt n ((c :: rest).drop (decodeRune (c :: rest)).2) =
                  false := by
                simpa [hw, hpr, h16] using hs
              exact jsonString_step_none _ _ (ih _ hdl hrest)
                (Or.inr (Or.inr ⟨_, h16, hrsur, rfl⟩))
            · rw [if_neg h16]
              intro g
              exact jsonString_bad_escape g 0x55 _ rfl (by decide)

/-- A JSON reader that accepts what `escapeString` wrote for a text reads that
text, and the text is a `safeText`. -/
theorem jsonString_escBody_inv (rt : Runtime) (u t : Bytes) (g : Nat)
    (h : jsonString g (escBody rt u) = some t) : t = u ∧ safeText rt u := by
  have hsafe : safeText rt u := by
    by_cases hsp : hasSpecialChars u = true
    · right
      cases hq : quoteSafeText rt u.length u with
      | true => rfl
      | false =>
        have := jsonString_quoteBody_none rt _ u (le_refl _) hq g
        unfold escBody at h
        rw [if_pos hsp, this] at h
        cases h
    · left
      simpa using hsp
  have h1 := jsonString_escBody rt u hsafe
  have h2 := jsonString_fuel g _ _ h _ (le_refl _)
  rw [h1] at h2
  simp only [Option.some.injEq] at h2
  exact ⟨h2.symm, hsafe⟩

/-! ## The three keys before and after `go_filter`, as JSON reads them -/

theorem parseObjectLoop_keys (f : Nat) (s : Bytes) (d : Nat) (kvs : List (Bytes × Value))
    (tail : Bytes) (h : parseObjectLoop f s d = .ok kvs tail) :
    ∀ kv ∈ kvs, escPending kv.1 = false := by
  induction f generalizing s kvs with
  | zero => rw [parseObjectLoop] at h; cases h
  | succ f ih =>
    obtain ⟨s1, k, s2, s3, v, s4, c, t, _, hs, _, _, _, hcase⟩ := parseObjectLoop_ok_inv h
    have hk : escPending k = false :=
      escPending_of_scan k.length k [] (le_refl _) ((scanString_ok hs).2 [])
    intro kv hkv
    rcases hcase with ⟨_, kvs1, hl, rfl⟩ | ⟨_, rfl, _⟩
    · rcases List.mem_cons.1 hkv with e | e
      · rw [e]; exact hk
      · exact ih t kvs1 hl kv e
    · simp only [List.mem_singleton] at hkv
      rw [hkv]; exact hk

/-- The keys of the object `Parser.Parse` returns end in no pending
backslash. -/
theorem Parse_keys (br : Bytes) (kvs : List (Bytes × Value)) (ku : Bool) (tail : Bytes)
    (hp : Parser.Parse br = .ok (.object kvs ku) tail) :
    ∀ kv ∈ kvs, escPending kv.1 = false := by
  obtain ⟨t1, h1, _, _⟩ := Parse_ok_inv hp
  have ho : (Value.object kvs ku).Object = some ⟨kvs, ku⟩ := rfl
  obtain ⟨f1, t, _, _, _, h2, _, _⟩ := parseValue_object_inv rt0 h1 ho
  cases f1 with
  | zero => rw [parseObject] at h2; cases h2
  | succ f1 =>
    obtain ⟨c, t2, _, hcase⟩ := parseObject_ok_inv h2
    rcases hcase with ⟨_, e, _⟩ | ⟨_, kvs2, hl, e⟩
    · simp only [Value.object.injEq] at e
      rw [e.1]
      intro kv hkv; cases hkv
    · simp only [Value.object.injEq] at e
      rw [e.1]
      exact parseObjectLoop_keys f1 _ _ kvs2 _ hl

theorem enrichmentKeys_ascii :
    ∀ k ∈ enrichmentKeys, ∀ b ∈ k, b ≠ 0x22 ∧ b ≠ 0x5C ∧ 0x20 ≤ b ∧ b < 0x80 := by
  decide

/-- A key of the payload stands for one of the three keys in JSON exactly when
the code's unescaping makes it that key. -/
theorem rawKey_iff (s k : Bytes) (hs : escPending s = false) (hk : k ∈ enrichmentKeys) :
    jsonString s.length s = some k ↔ unescapeStringBestEffort s = k := by
  constructor
  · exact jsonString_unescape
  · intro h
    rw [unescapeStringBestEffort_eq] at h
    obtain ⟨g, hg⟩ := unescapeFrom_ascii s.length s (le_refl _) hs s.length (le_refl _)
      (by rw [h]; exact enrichmentKeys_ascii k hk)
    rw [h] at hg
    exact jsonString_fuel g _ _ hg _ (le_refl _)

/-- A key that `escapeString` wrote stands for one of the three keys in JSON
exactly when it was written for that key. -/
theorem outKey_iff (rt : Runtime) (u k : Bytes) (hk : k ∈ enrichmentKeys) :
    jsonString (escBody rt u).length (escBody rt u) = some k ↔ u = k := by
  constructor
  · intro h
    exact (jsonString_escBody_inv rt u k _ h).1.symm
  · rintro rfl
    exact jsonString_escBody rt u (safeText_enrichmentKeys rt u hk)

/-- The entries of a payload that parses to an object, and of the text
`go_filter` returns for it, as a JSON reader sees them, in terms of the entries
`kvs` the parser made of the payload. -/
theorem readEntries_go_filter_raw (rt : Runtime) (tag : Bytes) (sec nsec : Nat)
    (payload : Bytes) (P : List (Option Bytes × Value)) (hP : readEntries payload = some P) :
    ∃ kvs : List (Bytes × Value),
      go_filter rt tag sec nsec payload =
        .buffer ((enrich rt tag sec nsec payload ⟨kvs, false⟩).String rt ++ [0]) ∧
      P = kvs.map (fun kv => (jsonString kv.1.length kv.1, kv.2)) ∧
      (∀ kv ∈ kvs, escPending kv.1 = false) ∧
      (Object.unescapeKeys ⟨kvs, false⟩).kvs =
        kvs.map (fun kv => (unescapeStringBestEffort kv.1, kv.2)) ∧
      readEntries ((enrich rt tag sec nsec payload ⟨kvs, false⟩).String rt ++ [0]).dropLast =
        some ((enrich rt tag sec nsec payload ⟨kvs, false⟩).kvs.map fun kv =>
          (jsonString (escBody rt kv.1).length (escBody rt kv.1), kv.2)) := by
  obtain ⟨kvs, hpar, hPeq⟩ := readEntries_inv hP
  have ho : (Value.object kvs false).Object = some ⟨kvs, false⟩ := rfl
  refine ⟨kvs, go_filter_ok rt tag sec nsec payload _ [] _ hpar ho, hPeq,
    Parse_keys payload kvs false [] hpar, by simp [Object.unescapeKeys], ?_⟩
  rw [List.dropLast_concat]
  unfold readEntries
  rw [Parse_enrich rt tag sec nsec hpar ho]
  simp only [Option.some.injEq]
  rw [List.map_map]
  rfl

theorem map_beq_congr {α β γ : Type} [BEq β] [LawfulBEq β] [BEq γ] [LawfulBEq γ]
    (l : List α) (f : α → β) (g : α → γ) (a : β) (b : γ)
    (h : ∀ x ∈ l, f x = a ↔ g x = b) :
    l.map (fun x => f x == a) = l.map (fun x => g x == b) := by
  apply List.map_congr_left
  intro x hx
  rw [Bool.eq_iff_iff, beq_iff_eq, beq_iff_eq]
  exact h x hx

theorem count_map_congr {α β γ : Type} [BEq β] [LawfulBEq β] [BEq γ] [LawfulBEq γ]
    (l : List α) (f : α → β) (g : α → γ) (a : β) (b : γ)
    (h : ∀ x ∈ l, f x = a ↔ g x = b) :
    (l.map f).count a = (l.map g).count b := by
  induction l with
  | nil => rfl
  | cons x l ih =>
    have hx := h x (List.mem_cons_self _ _)
    have ih2 := ih (fun y hy => h y (List.mem_cons_of_mem _ hy))
    simp only [List.map_cons, List.count_cons, ih2]
    by_cases e : f x = a
    · have e2 := hx.1 e
      simp [e, e2]
    · have e2 : ¬ g x = b := fun e3 => e (hx.2 e3)
      simp [e, e2]

theorem entryText_map_of (key : Bytes) (g : Bytes → Option Bytes) (l : List (Bytes × Value))
    (h : ∀ kv ∈ l, g kv.1 = some key ↔ kv.1 = key) :
    entryText key (l.map fun kv => (g kv.1, kv.2)) = (lookupKey key l).bind jsonText := by
  induction l with
  | nil => rfl
  | cons kv l ih =>
    have hkv := h kv (List.mem_cons_self _ _)
    have ih2 := ih (fun y hy => h y (List.mem_cons_of_mem _ hy))
    unfold entryText at ih2 ⊢
    simp only [List.map_cons, List.find?_cons, lookupKey]
    by_cases e : kv.1 = key
    · have e2 : (g kv.1 == some key) = true := by
        rw [beq_iff_eq]; exact hkv.2 e
      rw [e2, if_pos e]
      rfl
    · have e2 : (g kv.1 == some key) = false := by
        rw [beq_eq_false_iff_ne]
        exact fun e3 => e (hkv.1 e3)
      rw [e2, if_neg e]
      exact ih2

theorem isOtherEntry_of (o : Option Bytes) (v : Value) (u : Bytes)
    (h : ∀ k ∈ enrichmentKeys, o = some k ↔ u = k) :
    isOtherEntry (o, v) = !enrichmentKeys.contains u := by
  have h1 := h (str "time") (by decide)
  have h2 := h (str "tag") (by decide)
  have h3 := h (str "original") (by decide)
  have e1 : str "time" = [0x74, 0x69, 0x6D, 0x65] := by decide
  have e2 : str "tag" = [0x74, 0x61, 0x67] := by decide
  have e3 : str "original" = [0x6F, 0x72, 0x69, 0x67, 0x69, 0x6E, 0x61, 0x6C] := by decide
  rw [e1] at h1
  rw [e2] at h2
  rw [e3] at h3
  unfold isOtherEntry enrichmentKeys
  rw [e1, e2, e3]
  simp only [List.contains, List.elem]
  by_cases a : u = [0x74, 0x69, 0x6D, 0x65]
  · have a2 := h1.2 a
    simp [a, a2]
  · by_cases b : u = [0x74, 0x61, 0x67]
    · have b2 := h2.2 b
      simp [b, b2]
    · by_cases c : u = [0x6F, 0x72, 0x69, 0x67, 0x69, 0x6E, 0x61, 0x6C]
      · have c2 := h3.2 c
        simp [c, c2]
      · have ha : (u == [0x74, 0x69, 0x6D, 0x65]) = false := by simpa using a
        have hb : (u == [0x74, 0x61, 0x67]) = false := by simpa using b
        have hc : (u == [0x6F, 0x72, 0x69, 0x67, 0x69, 0x6E, 0x61, 0x6C]) = false := by
          simpa using c
        have ha2 : (o == some [0x74, 0x69, 0x6D, 0x65]) = false := by
          rw [beq_eq_false_iff_ne]; exact fun e => a (h1.1 e)
        have hb2 : (o == some [0x74, 0x61, 0x67]) = false := by
          rw [beq_eq_false_iff_ne]; exact fun e => b (h2.1 e)
        have hc2 : (o == some [0x6F, 0x72, 0x69, 0x67, 0x69, 0x6E, 0x61, 0x6C]) = false := by
          rw [beq_eq_false_iff_ne]; exact fun e => c (h3.1 e)
        rw [ha, hb, hc, ha2, hb2, hc2]
        rfl

theorem filter_map_of {α β : Type} (l : List α) (g : α → β) (p : β → Bool) (q : α → Bool)
    (h : ∀ x ∈ l, p (g x) = q x) : (l.map g).filter p = (l.filter q).map g := by
  induction l with
  | nil => rfl
  | cons x l ih =>
    have hx := h x (List.mem_cons_self _ _)
    have ih2 := ih (fun y hy => h y (List.mem_cons_of_mem _ hy))
    simp only [List.map_cons, List.filter_cons, hx, ih2]
    split <;> rfl

theorem forall₂_map_same {α β γ : Type} (R : β → γ → Prop) (l : List α) (f : α → β)
    (g : α → γ) (h : ∀ x ∈ l, R (f x) (g x)) : List.Forall₂ R (l.map f) (l.map g) := by
  induction l with
  | nil => exact List.Forall₂.nil
  | cons x l ih =>
    exact List.Forall₂.cons (h x (List.mem_cons_self _ _))
      (ih (fun y hy => h y (List.mem_cons_of_mem _ hy)))

theorem eq_of_forall₂ {α : Type} (R : α → α → Prop) (l1 l2 : List α)
    (h : List.Forall₂ R l1 l2) (hR : ∀ p ∈ l1, ∀ o, R p o → o = p) : l2 = l1 := by
  induction h with
  | nil => rfl
  | cons hab _ ih =>
    rw [hR _ (List.mem_cons_self _ _) _ hab,
      ih (fun p hp o ho => hR p (List.mem_cons_of_mem _ hp) o ho)]

/-- The string `Arena.NewString` makes of a text stands for that text exactly
when the text is a `safeText`. -/
theorem jsonText_NewString_iff (rt : Runtime) (s : Bytes) :
    jsonText (Arena.NewString rt s) = some s ↔ safeText rt s := by
  constructor
  · intro h
    rw [NewString_escBody] at h
    exact (jsonString_escBody_inv rt s s _ h).2
  · exact jsonText_NewString rt s

/-! ## The claims -/

set_option maxRecDepth 1000000 in
/-- C1, as stated, fails, in each of four ways. For the scenario's payload and
the tag of the one byte `0x01`, the bytes before the sentinel are not a JSON
text (the tag is written with the escape `\x01`) and the string under `tag`
decodes to the four bytes `\x01`, not to the tag. The JSON object
`deepPayload 300`, whose member is 300 arrays one in the other (the innermost
at level 301), gets the nil pointer.
For the JSON object `{"\u0001":1}` the bytes before the sentinel are not a
JSON text and the key read from them is the four bytes `\x01`, not the key
of the payload. For the JSON object `{"a":"<0x7F>"}` the string under
`original` does not decode to the payload. -/
theorem go_filter_json_object_not_enriched :
    (jsonValidObject payloadHello = true ∧
      go_filter rt0 [0x01] 1700000000 0 payloadHello =
        .buffer (str ("\x7b\"msg\":\"hello\",\"time\":\"2023-11-14 22:13:20 +0000 UTC\"," ++
          "\"tag\":\"\\x01\",\"original\":\"\x7b\\\"msg\\\":\\\"hello\\\"\x7d\"\x7d") ++ [0]) ∧
      jsonValid (str ("\x7b\"msg\":\"hello\",\"time\":\"2023-11-14 22:13:20 +0000 UTC\"," ++
          "\"tag\":\"\\x01\",\"original\":\"\x7b\\\"msg\\\":\\\"hello\\\"\x7d\"\x7d")) = false ∧
      tagText (str ("\x7b\"msg\":\"hello\",\"time\":\"2023-11-14 22:13:20 +0000 UTC\"," ++
          "\"tag\":\"\\x01\",\"original\":\"\x7b\\\"msg\\\":\\\"hello\\\"\x7d\"\x7d") ++ [0]) =
        some (str "\\x01") ∧
      str "\\x01" ≠ [0x01]) ∧
    (jsonValidObject (deepPayload 300) = true ∧
      go_filter rt0 (str "app.log") 1700000000 0 (deepPayload 300) = .null) ∧
    (jsonValidObject keyPayload = true ∧
      go_filter rt0 (str "app.log") 1700000000 0 keyPayload =
        .buffer (str ("\x7b\"\\x01\":1,\"time\":\"2023-11-14 22:13:20 +0000 UTC\"," ++
          "\"tag\":\"app.log\",\"original\":\"\x7b\\\"\\\\u0001\\\":1\x7d\"\x7d") ++ [0]) ∧
      jsonValid (str ("\x7b\"\\x01\":1,\"time\":\"2023-11-14 22:13:20 +0000 UTC\"," ++
          "\"tag\":\"app.log\",\"original\":\"\x7b\\\"\\\\u0001\\\":1\x7d\"\x7d")) = false ∧
      (Parser.Parse keyPayload = .ok (.object [(str "\\u0001", .number [0x31])] false) [] ∧
        (Object.unescapeKeys ⟨[(str "\\u0001", .number [0x31])], false⟩).kvs.map Prod.fst =
          [[0x01]]) ∧
      (outputObject (str ("\x7b\"\\x01\":1,\"time\":\"2023-11-14 22:13:20 +0000 UTC\"," ++
          "\"tag\":\"app.log\",\"original\":\"\x7b\\\"\\\\u0001\\\":1\x7d\"\x7d") ++ [0])).map
        (fun o => o.kvs.map Prod.fst) =
        some [str "\\x01", str "time", str "tag", str "original"]) ∧
    (jsonValidObject payloadDel = true ∧
      go_filter rt0 (str "app.log") 1700000000 0 payloadDel =
        .buffer (str "\x7b\"a\":\"" ++ [0x7F] ++
          str ("\",\"time\":\"2023-11-14 22:13:20 +0000 UTC\",\"tag\":\"app.log\"," ++
            "\"original\":\"\x7b\\\"a\\\":\\\"\\x7f\\\"\x7d\"\x7d") ++ [0]) ∧
      originalText (str "\x7b\"a\":\"" ++ [0x7F] ++
          str ("\",\"time\":\"2023-11-14 22:13:20 +0000 UTC\",\"tag\":\"app.log\"," ++
            "\"original\":\"\x7b\\\"a\\\":\\\"\\x7f\\\"\x7d\"\x7d") ++ [0]) =
        some (str "\x7b\"a\":\"\\x7f\"\x7d") ∧
      str "\x7b\"a\":\"\\x7f\"\x7d" ≠ payloadDel) := by
  refine ⟨⟨by decide, by rfl, by decide, by rfl, by decide⟩, ⟨by decide, by decide⟩,
    ⟨by decide, by rfl, by decide, ⟨by rfl, by rfl⟩, by rfl⟩,
    ⟨by decide, by rfl, by rfl, by decide⟩⟩

/-- C1, amended: for every tag, every timestamp and every payload that is a
JSON text with an object root and every value at a nesting level of at most
`MaxDepth` (300, the root being at level 1), `Parser.Parse` reads the payload
to an object and `go_filter` returns a buffer; when the decoded keys of the
payload are
`safeText`, the bytes before the sentinel parse (by `Parser.Parse`) to an
object whose keys are the keys of the payload and `time`, `tag`, `original`;
when moreover the payload is `safeText` the string under `original` decodes to
the payload, byte for byte; when the tag is `safeText` the string under `tag`
decodes to the tag; and when the payload, the tag and the formatted time are
all `safeText`, the bytes before the sentinel are a JSON text whose value is an
object, with every value at a level of at most `MaxDepth`. -/
theorem go_filter_output_parses (rt : Runtime) (tag : Bytes) (sec nsec : Nat)
    (payload : Bytes) (hvalid : jsonValidWithin MaxDepth payload = true)
    (hroot : (skipWS payload).head? = some 0x7B) :
    ∃ v obj rv,
      Parser.Parse payload = .ok v [] ∧ v.Object = some obj ∧
      go_filter rt tag sec nsec payload = .buffer rv ∧
      ((∀ k ∈ obj.unescapeKeys.kvs.map Prod.fst, safeText rt k) →
        ∃ out, outputObject rv = some out ∧
          (∀ k, k ∈ out.kvs.map Prod.fst ↔
            k ∈ obj.unescapeKeys.kvs.map Prod.fst ∨ k ∈ enrichmentKeys) ∧
          (safeText rt payload → originalText rv = some payload) ∧
          (safeText rt tag → tagText rv = some tag) ∧
          (safeText rt payload → safeText rt tag →
            safeText rt (rt.timeString (toInt64 sec) (toInt64 nsec)) →
            jsonValidObject rv.dropLast = true ∧
              jsonValidWithin MaxDepth rv.dropLast = true)) := by
  obtain ⟨v, hp, hobj⟩ := Parse_of_jsonValidWithin rt payload hvalid
  obtain ⟨obj, ho, hwf⟩ := hobj hroot
  refine ⟨v, obj, _, hp, ho, go_filter_ok rt tag sec nsec payload v [] obj hp ho, ?_⟩
  intro hkeys
  obtain ⟨rv, out, hg, h1, h2, h3, h4⟩ :=
    go_filter_output_of_parse rt tag sec nsec payload v [] obj hp ho hkeys
  rw [go_filter_ok rt tag sec nsec payload v [] obj hp ho] at hg
  cases hg
  refine ⟨out, h1, h2, h3, h4, fun hpay htag htime => ?_⟩
  rw [List.dropLast_concat]
  exact ⟨enrich_valid_object rt tag sec nsec payload obj hwf hkeys htime htag hpay,
    enrich_valid rt tag sec nsec payload obj hwf hkeys htime htag hpay⟩

/-- C1, amended, concrete: the scenario (tag `app.log`, timestamp
(1700000000, 0), payload `{"msg":"hello"}`): the returned bytes are a JSON
object with the keys `msg`, `time`, `tag` and `original`, whose `original` is
the payload and whose `tag` is the tag. -/
theorem go_filter_output_parses_witness :
    jsonValidWithin MaxDepth payloadHello = true ∧
    (skipWS payloadHello).head? = some 0x7B ∧
    ∃ rv out,
      go_filter rt0 (str "app.log") 1700000000 0 payloadHello = .buffer rv ∧
      outputObject rv = some out ∧
      (∀ k, k ∈ out.kvs.map Prod.fst ↔ k ∈ [str "msg"] ∨ k ∈ enrichmentKeys) ∧
      originalText rv = some payloadHello ∧
      tagText rv = some (str "app.log") ∧
      jsonValidObject rv.dropLast = true ∧
      jsonValidWithin MaxDepth rv.dropLast = true := by
  refine ⟨by decide, by decide, ?_⟩
  obtain ⟨v, obj, rv, hp, ho, hg, h⟩ :=
    go_filter_output_parses rt0 (str "app.log") 1700000000 0 payloadHello (by decide)
      (by decide)
  have hp2 : Parser.Parse payloadHello =
      .ok (.object [(str "msg", .rawString (str "hello"))] false) [] := by rfl
  rw [hp2] at hp
  cases hp
  simp only [Value.Object, Option.some.injEq] at ho
  subst ho
  have hk : (Object.unescapeKeys ⟨[(str "msg", .rawString (str "hello"))], false⟩).kvs.map
      Prod.fst = [str "msg"] := by rfl
  rw [hk] at h
  obtain ⟨out, h1, h2, h3, h4, h5⟩ := h (fun k hm => Or.inl (by
    rw [List.mem_singleton.1 hm]; decide))
  have hpay : safeText rt0 payloadHello := Or.inr (by decide)
  have htag : safeText rt0 (str "app.log") := Or.inl (by decide)
  have htime : safeText rt0 (rt0.timeString (toInt64 1700000000) (toInt64 0)) := Or.inl (by decide)
  exact ⟨rv, out, hg, h1, h2, h3 hpay, h4 htag, h5 hpay htag htime⟩

/-- C2, as stated, fails: each of `{"a":01}` (a number with a leading zero),
`{"a":"\q"}` (an escape that is not one of JSON), `{"a":"<0x01>"}` (a control
byte in a string) and `{"a":nan}` is not a JSON text, yet the parser accepts
it and `go_filter` returns a buffer. -/
theorem go_filter_accepts_invalid_number :
    (jsonValid (str "\x7b\"a\":01\x7d") = false ∧
      go_filter rt0 (str "app.log") 1700000000 0 (str "\x7b\"a\":01\x7d") =
        .buffer (str ("\x7b\"a\":01,\"time\":\"2023-11-14 22:13:20 +0000 UTC\"," ++
          "\"tag\":\"app.log\",\"original\":\"\x7b\\\"a\\\":01\x7d\"\x7d") ++ [0])) ∧
    (jsonValid (str "\x7b\"a\":\"\\q\"\x7d") = false ∧
      go_filter rt0 (str "app.log") 1700000000 0 (str "\x7b\"a\":\"\\q\"\x7d") =
        .buffer (str ("\x7b\"a\":\"\\q\",\"time\":\"2023-11-14 22:13:20 +0000 UTC\"," ++
          "\"tag\":\"app.log\",\"original\":\"\x7b\\\"a\\\":\\\"\\\\q\\\"\x7d\"\x7d") ++ [0])) ∧
    (jsonValid (str "\x7b\"a\":\"" ++ [0x01] ++ str "\"\x7d") = false ∧
      ∃ rv, go_filter rt0 (str "app.log") 1700000000 0
        (str "\x7b\"a\":\"" ++ [0x01] ++ str "\"\x7d") = .buffer rv) ∧
    (jsonValid (str "\x7b\"a\":nan\x7d") = false ∧
      go_filter rt0 (str "app.log") 1700000000 0 (str "\x7b\"a\":nan\x7d") =
        .buffer (str ("\x7b\"a\":nan,\"time\":\"2023-11-14 22:13:20 +0000 UTC\"," ++
          "\"tag\":\"app.log\",\"original\":\"\x7b\\\"a\\\":nan\x7d\"\x7d") ++ [0])) := by
  refine ⟨⟨by decide, by rfl⟩, ⟨by decide, by rfl⟩, ⟨by decide, ⟨_, rfl⟩⟩, ⟨by decide, by rfl⟩⟩

/-- C2, amended: for every tag and timestamp, a payload that is not a text of
the relaxed grammar `laxValid` makes `go_filter` return the nil pointer, and no
such payload is a JSON text with every value at a nesting level of at most
`MaxDepth` (300).  The relaxed grammar is the JSON grammar with two
relaxations, a number being any run of the bytes `0`-`9`, `.`, `-`, `+`, `e`,
`E` (or `inf`, `nan`) and a string holding any byte, a backslash taking the
next byte with it, and with the nesting limited to `MaxDepth`; it is the
language `Parser.Parse` accepts (`Parse_ok_iff_laxValid`). -/
theorem go_filter_parse_error_null (rt : Runtime) (tag : Bytes) (sec nsec : Nat)
    (payload : Bytes) (h : laxValid payload = false) :
    go_filter rt tag sec nsec payload = .null ∧ Parser.Parse payload = .err ∧
      jsonValidWithin MaxDepth payload = false := by
  refine ⟨go_filter_null_of_not_lax rt tag sec nsec payload h, ?_, ?_⟩
  · cases hp : Parser.Parse payload with
    | ok v tail =>
      obtain ⟨_, _, _, ht⟩ := Parse_ok_inv hp
      subst ht
      rw [(Parse_ok_iff_laxValid rt payload).1 ⟨v, hp⟩] at h
      cases h
    | err => rfl
    | oof =>
      unfold Parser.Parse at hp
      simp only at hp
      split at hp
      · split at hp <;> cases hp
      · cases hp
  · cases hv : jsonValidWithin MaxDepth payload with
    | false => rfl
    | true =>
      obtain ⟨v, hv2, _⟩ := Parse_of_jsonValidWithin rt payload hv
      rw [(Parse_ok_iff_laxValid rt payload).1 ⟨v, hv2⟩] at h
      cases h

set_option maxRecDepth 1000000 in
/-- C2, amended, concrete: the empty payload, `{`, `not json`, `{"a" 1` (no
colon), `{"a":1}x` (a byte after the value), `{"a":1,}`, `{"a":tru}`,
`{"a":-}` and an object nested beyond `MaxDepth` are outside the relaxed
grammar and give the nil pointer. -/
theorem go_filter_parse_error_null_witness :
    (laxValid [] = false ∧ go_filter rt0 (str "app.log") 1700000000 0 [] = .null) ∧
    (laxValid (str "\x7b") = false ∧
      go_filter rt0 (str "app.log") 1700000000 0 (str "\x7b") = .null) ∧
    (laxValid (str "not json") = false ∧
      go_filter rt0 (str "app.log") 1700000000 0 (str "not json") = .null) ∧
    (laxValid (str "\x7b\"a\" 1") = false ∧
      go_filter rt0 (str "app.log") 1700000000 0 (str "\x7b\"a\" 1") = .null) ∧
    (laxValid (str "\x7b\"a\":1\x7dx") = false ∧
      go_filter rt0 (str "app.log") 1700000000 0 (str "\x7b\"a\":1\x7dx") = .null) ∧
    (laxValid (str "\x7b\"a\":1,\x7d") = false ∧
      go_filter rt0 (str "app.log") 1700000000 0 (str "\x7b\"a\":1,\x7d") = .null) ∧
    (laxValid (str "\x7b\"a\":tru\x7d") = false ∧
      go_filter rt0 (str "app.log") 1700000000 0 (str "\x7b\"a\":tru\x7d") = .null) ∧
    (laxValid (str "\x7b\"a\":-\x7d") = false ∧
      go_filter rt0 (str "app.log") 1700000000 0 (str "\x7b\"a\":-\x7d") = .null) ∧
    (laxValid (deepPayload 300) = false ∧
      go_filter rt0 (str "app.log") 1700000000 0 (deepPayload 300) = .null) :=
  ⟨⟨by decide, (go_filter_parse_error_null rt0 _ _ _ _ (by decide)).1⟩,
   ⟨by decide, (go_filter_parse_error_null rt0 _ _ _ _ (by decide)).1⟩,
   ⟨by decide, (go_filter_parse_error_null rt0 _ _ _ _ (by decide)).1⟩,
   ⟨by decide, (go_filter_parse_error_null rt0 _ _ _ _ (by decide)).1⟩,
   ⟨by decide, (go_filter_parse_error_null rt0 _ _ _ _ (by decide)).1⟩,
   ⟨by decide, (go_filter_parse_error_null rt0 _ _ _ _ (by decide)).1⟩,
   ⟨by decide, (go_filter_parse_error_null rt0 _ _ _ _ (by decide)).1⟩,
   ⟨by decide, (go_filter_parse_error_null rt0 _ _ _ _ (by decide)).1⟩,
   ⟨by decide, (go_filter_parse_error_null rt0 _ _ _ _ (by decide)).1⟩⟩

/-- C3: for every tag and timestamp, a payload whose root value is not an
object makes `go_filter` return the nil pointer, as it does for the empty
payload, a syntax error: be it a payload that `Parser.Parse` accepts with a
root that is an array, a string, a number, `true`, `false` or `null`, or any
payload whose first byte after the white space is not an opening brace (every
JSON text whose root is not an object is one). -/
theorem go_filter_non_object_root_null (rt : Runtime) (tag : Bytes) (sec nsec : Nat)
    (payload : Bytes)
    (hroot : (∃ v tail, Parser.Parse payload = .ok v tail ∧ ∀ kvs ku, v ≠ .object kvs ku) ∨
      (skipWS payload).head? ≠ some 0x7B) :
    go_filter rt tag sec nsec payload = .null ∧
    go_filter rt tag sec nsec payload = go_filter rt tag sec nsec [] := by
  have h0 : go_filter rt tag sec nsec [] = .null := rfl
  rw [h0, and_self]
  rcases hroot with ⟨v, tail, hp, hv⟩ | hhead
  · exact go_filter_null_of_not_object rt tag sec nsec payload v tail hp
      (Value.Object_eq_none v hv)
  · exact go_filter_null_of_head rt tag sec nsec payload hhead

/-- C3, concrete: the payloads `["a","b"]`, `[1,2]`, `5` and `null` parse
to values that are not objects, none starts with an opening brace, and
`go_filter` returns the nil pointer. -/
theorem go_filter_non_object_root_null_witness :
    (Parser.Parse (str "[\"a\",\"b\"]") = .ok (.array [.rawString [0x61], .rawString [0x62]]) [] ∧
      go_filter rt0 (str "app.log") 1700000000 0 (str "[\"a\",\"b\"]") = .null) ∧
    (Parser.Parse (str "[1,2]") = .ok (.array [.number [0x31], .number [0x32]]) [] ∧
      go_filter rt0 (str "app.log") 1700000000 0 (str "[1,2]") = .null) ∧
    ((skipWS (str "5")).head? ≠ some 0x7B ∧
      go_filter rt0 (str "app.log") 1700000000 0 (str "5") = .null) ∧
    ((skipWS (str "null")).head? ≠ some 0x7B ∧
      go_filter rt0 (str "app.log") 1700000000 0 (str "null") = .null) :=
  ⟨⟨rfl, (go_filter_non_object_root_null rt0 _ _ _ _
      (Or.inl ⟨_, _, by rfl, fun _ _ h => by cases h⟩)).1⟩,
   ⟨rfl, (go_filter_non_object_root_null rt0 _ _ _ _
      (Or.inl ⟨_, _, by rfl, fun _ _ h => by cases h⟩)).1⟩,
   ⟨by decide, (go_filter_non_object_root_null rt0 _ _ _ _ (Or.inr (by decide))).1⟩,
   ⟨by decide, (go_filter_non_object_root_null rt0 _ _ _ _ (Or.inr (by decide))).1⟩⟩

/-- C4: a returned buffer is the serialized object followed by one byte
`0x00`: its length is the length of the serialization plus one, its last byte
is zero, and when the payload holds no zero byte (nor the tag) no byte before
the last is zero. -/
theorem go_filter_buffer_sentinel (rt : Runtime) (tag : Bytes) (sec nsec : Nat)
    (payload rv : Bytes) (h : go_filter rt tag sec nsec payload = .buffer rv) :
    ∃ obj : Object,
      rv = (enrich rt tag sec nsec payload obj).String rt ++ [0] ∧
      rv.length = ((enrich rt tag sec nsec payload obj).String rt).length + 1 ∧
      rv.getLast? = some 0 ∧
      (0 ∉ tag → 0 ∉ payload → 0 ∉ rv.dropLast) := by
  obtain ⟨v, tail, obj, hp, ho, rfl⟩ := go_filter_buffer_inv h
  refine ⟨obj, rfl, by simp, by simp, fun _ hz => ?_⟩
  rw [List.dropLast_concat]
  obtain ⟨_, hbytes⟩ := Parse_object_bytes rt hp ho
  intro h0
  unfold Object.String Object.MarshalTo at h0
  rw [enrich_keysUnescaped] at h0
  simp only [List.mem_append, List.mem_singleton] at h0
  rcases h0 with (h0 | h0) | h0
  · cases h0
  · refine marshalKVs_true_forall rt (fun b => b ≠ 0) (by decide) (by decide)
      (fun s b hb => by have := escapeString_ge rt s b hb; omega) _ ?_ 0 h0 rfl
    intro kv hkv b hb
    rcases mem_enrich hkv with e | e | e | ⟨kv1, h1, e⟩
    · rw [e] at hb; have := NewString_marshal_ge rt _ b hb; omega
    · rw [e] at hb; have := NewString_marshal_ge rt _ b hb; omega
    · rw [e] at hb; have := NewString_marshal_ge rt _ b hb; omega
    · rw [e] at hb
      intro hb0
      exact hz (hb0 ▸ hbytes kv1 h1 b hb)
  · cases h0

/-- C4, concrete: the buffer of the scenario ends with its only zero byte. -/
theorem go_filter_buffer_sentinel_witness :
    go_filter rt0 (str "app.log") 1700000000 0 payloadHello =
      .buffer (str ("\x7b\"msg\":\"hello\",\"time\":\"2023-11-14 22:13:20 +0000 UTC\"," ++
        "\"tag\":\"app.log\",\"original\":\"\x7b\\\"msg\\\":\\\"hello\\\"\x7d\"\x7d") ++ [0]) ∧
    ∃ obj : Object,
      (str ("\x7b\"msg\":\"hello\",\"time\":\"2023-11-14 22:13:20 +0000 UTC\"," ++
        "\"tag\":\"app.log\",\"original\":\"\x7b\\\"msg\\\":\\\"hello\\\"\x7d\"\x7d") ++ [0]) =
        (enrich rt0 (str "app.log") 1700000000 0 payloadHello obj).String rt0 ++ [0] ∧
      (str ("\x7b\"msg\":\"hello\",\"time\":\"2023-11-14 22:13:20 +0000 UTC\"," ++
        "\"tag\":\"app.log\",\"original\":\"\x7b\\\"msg\\\":\\\"hello\\\"\x7d\"\x7d") ++ [0]).length =
        ((enrich rt0 (str "app.log") 1700000000 0 payloadHello obj).String rt0).length + 1 ∧
      (str ("\x7b\"msg\":\"hello\",\"time\":\"2023-11-14 22:13:20 +0000 UTC\"," ++
        "\"tag\":\"app.log\",\"original\":\"\x7b\\\"msg\\\":\\\"hello\\\"\x7d\"\x7d") ++
          [0]).getLast? = some 0 ∧
      (0 ∉ str "app.log" → 0 ∉ payloadHello →
        0 ∉ (str ("\x7b\"msg\":\"hello\",\"time\":\"2023-11-14 22:13:20 +0000 UTC\"," ++
          "\"tag\":\"app.log\",\"original\":\"\x7b\\\"msg\\\":\\\"hello\\\"\x7d\"\x7d") ++
            [0]).dropLast) :=
  ⟨by rfl, go_filter_buffer_sentinel rt0 (str "app.log") 1700000000 0 payloadHello _ (by rfl)⟩

/-- C5, as stated, fails, in two ways. (1) The payload
`{"tag":"a","tag":"b"}` is a JSON object holding the key `tag`; with the tag `x`
the returned text has the supplied value under the first `tag` and still the
previous value `"b"` under a second `tag`. (2) With the tag of the one byte
`0x01` and the payload `{"tag":"old"}` the returned text holds `"tag":"\x01"`:
it is not JSON, and the string under `tag` stands for no text, so not for the
supplied one. -/
theorem go_filter_duplicate_key_keeps_later_entry :
    (jsonValidObject payloadTwoTags = true ∧
      go_filter rt0 (str "x") 1700000000 0 payloadTwoTags =
        .buffer (str ("\x7b\"tag\":\"x\",\"tag\":\"b\"," ++
          "\"time\":\"2023-11-14 22:13:20 +0000 UTC\"," ++
          "\"original\":\"\x7b\\\"tag\\\":\\\"a\\\",\\\"tag\\\":\\\"b\\\"\x7d\"\x7d") ++ [0]) ∧
      (readEntries (str ("\x7b\"tag\":\"x\",\"tag\":\"b\"," ++
          "\"time\":\"2023-11-14 22:13:20 +0000 UTC\"," ++
          "\"original\":\"\x7b\\\"tag\\\":\\\"a\\\",\\\"tag\\\":\\\"b\\\"\x7d\"\x7d"))).map
        (fun O => (O.filter fun e => e.1 == some (str "tag")).map fun e => jsonText e.2) =
        some [some (str "x"), some (str "b")]) ∧
    (jsonValidObject payloadOldTag = true ∧
      go_filter rt0 [0x01] 1700000000 0 payloadOldTag =
        .buffer (str ("\x7b\"tag\":\"\\x01\"," ++
          "\"time\":\"2023-11-14 22:13:20 +0000 UTC\"," ++
          "\"original\":\"\x7b\\\"tag\\\":\\\"old\\\"\x7d\"\x7d") ++ [0]) ∧
      jsonValid (str ("\x7b\"tag\":\"\\x01\"," ++
          "\"time\":\"2023-11-14 22:13:20 +0000 UTC\"," ++
          "\"original\":\"\x7b\\\"tag\\\":\\\"old\\\"\x7d\"\x7d")) = false ∧
      (readEntries (str ("\x7b\"tag\":\"\\x01\"," ++
          "\"time\":\"2023-11-14 22:13:20 +0000 UTC\"," ++
          "\"original\":\"\x7b\\\"tag\\\":\\\"old\\\"\x7d\"\x7d"))).bind
        (entryText (str "tag")) = none) := by
  refine ⟨⟨by decide, by rfl, by rfl⟩, ⟨by decide, by rfl, by decide, by rfl⟩⟩

/-- C5, amended: for a payload that parses to an object, `go_filter` returns a
buffer, and in the entries read from its bytes, keys and strings decoded as
JSON, for each key `k` of `time`, `tag`, `original`: among the entries of the
payload, those under `k` are at the places where the payload holds `k`, any
other entry under `k` coming after them; when the payload holds `k` at most
once, the returned text holds `k` exactly once; and the first entry under `k`
is a string that stands for the supplied value (the formatted time, the tag,
the payload) exactly when that value is a `safeText`. So a key held once is
overwritten in place, with a `safeText` value, and its previous value is under
it nowhere. -/
theorem go_filter_overwrites_in_place (rt : Runtime) (tag : Bytes) (sec nsec : Nat)
    (payload : Bytes) (P : List (Option Bytes × Value))
    (hP : readEntries payload = some P) :
    ∃ rv O,
      go_filter rt tag sec nsec payload = .buffer rv ∧
      readEntries rv.dropLast = some O ∧
      (∀ k ∈ enrichmentKeys,
        P.map (fun e => e.1 == some k) <+: O.map (fun e => e.1 == some k) ∧
        ((P.map Prod.fst).count (some k) ≤ 1 → (O.map Prod.fst).count (some k) = 1)) ∧
      (entryText (str "time") O = some (rt.timeString (toInt64 sec) (toInt64 nsec)) ↔
        safeText rt (rt.timeString (toInt64 sec) (toInt64 nsec))) ∧
      (entryText (str "tag") O = some tag ↔ safeText rt tag) ∧
      (entryText (str "original") O = some payload ↔ safeText rt payload) := by
  obtain ⟨kvs, hgo, hPeq, hesc, hU, hO⟩ := readEntries_go_filter_raw rt tag sec nsec payload P hP
  obtain ⟨hpre, htime, htag, horig, hcount⟩ :=
    enrich_overwrites rt tag sec nsec payload ⟨kvs, false⟩
  rw [hU] at hpre hcount
  refine ⟨_, _, hgo, hO, ?_, ?_, ?_, ?_⟩
  · intro k hk
    have hPk : ∀ kv ∈ kvs, jsonString kv.1.length kv.1 = some k ↔
        unescapeStringBestEffort kv.1 = k :=
      fun kv hm => rawKey_iff kv.1 k (hesc kv hm) hk
    have hOk : ∀ kv ∈ (enrich rt tag sec nsec payload ⟨kvs, false⟩).kvs,
        jsonString (escBody rt kv.1).length (escBody rt kv.1) = some k ↔ kv.1 = k :=
      fun kv _ => outKey_iff rt kv.1 k hk
    constructor
    · have hPm : P.map (fun e => e.1 == some k) =
          kvs.map (fun kv => jsonString kv.1.length kv.1 == some k) := by
        rw [hPeq, List.map_map]; rfl
      have hOm : ((enrich rt tag sec nsec payload ⟨kvs, false⟩).kvs.map fun kv =>
          (jsonString (escBody rt kv.1).length (escBody rt kv.1), kv.2)).map
            (fun e => e.1 == some k) =
          (enrich rt tag sec nsec payload ⟨kvs, false⟩).kvs.map
            (fun kv => jsonString (escBody rt kv.1).length (escBody rt kv.1) == some k) := by
        rw [List.map_map]; rfl
      rw [hPm, hOm,
        map_beq_congr kvs (fun kv => jsonString kv.1.length kv.1)
          (fun kv => unescapeStringBestEffort kv.1) (some k) k hPk,
        map_beq_congr (enrich rt tag sec nsec payload ⟨kvs, false⟩).kvs
          (fun kv => jsonString (escBody rt kv.1).length (escBody rt kv.1))
          (fun kv => kv.1) (some k) k hOk]
      have h5 := hpre.map (fun x => x == k)
      simp only [List.map_map] at h5
      exact h5
    · intro hc
      have hPm : P.map Prod.fst = kvs.map (fun kv => jsonString kv.1.length kv.1) := by
        rw [hPeq, List.map_map]; rfl
      have hOm : ((enrich rt tag sec nsec payload ⟨kvs, false⟩).kvs.map fun kv =>
          (jsonString (escBody rt kv.1).length (escBody rt kv.1), kv.2)).map Prod.fst =
          (enrich rt tag sec nsec payload ⟨kvs, false⟩).kvs.map
            (fun kv => jsonString (escBody rt kv.1).length (escBody rt kv.1)) := by
        rw [List.map_map]; rfl
      rw [hPm, count_map_congr kvs (fun kv => jsonString kv.1.length kv.1)
          (fun kv => unescapeStringBestEffort kv.1) (some k) k hPk] at hc
      rw [hOm, count_map_congr (enrich rt tag sec nsec payload ⟨kvs, false⟩).kvs
          (fun kv => jsonString (escBody rt kv.1).length (escBody rt kv.1))
          (fun kv => kv.1) (some k) k hOk]
      apply hcount k hk
      rw [List.map_map]
      exact hc
  · rw [entryText_map_of _ (fun u => jsonString (escBody rt u).length (escBody rt u)) _
      (fun kv _ => outKey_iff rt kv.1 _ (by decide)), htime, Option.some_bind]
    exact jsonText_NewString_iff rt _
  · rw [entryText_map_of _ (fun u => jsonString (escBody rt u).length (escBody rt u)) _
      (fun kv _ => outKey_iff rt kv.1 _ (by decide)), htag, Option.some_bind]
    exact jsonText_NewString_iff rt _
  · rw [entryText_map_of _ (fun u => jsonString (escBody rt u).length (escBody rt u)) _
      (fun kv _ => outKey_iff rt kv.1 _ (by decide)), horig, Option.some_bind]
    exact jsonText_NewString_iff rt _

/-- C5, amended, concrete: for the payload `{"tag":"old","msg":"hello"}` and
the tag `new`, the returned bytes hold `tag` once, where the payload holds it,
with a string standing for `new`, and `original` and `time` with the payload
and the formatted time. -/
theorem go_filter_overwrites_in_place_witness :
    readEntries payloadTagMsg =
      some [(some (str "tag"), .rawString (str "old")),
        (some (str "msg"), .rawString (str "hello"))] ∧
    ∃ rv O,
      go_filter rt0 (str "new") 1700000000 0 payloadTagMsg = .buffer rv ∧
      readEntries rv.dropLast = some O ∧
      [true, false] <+: O.map (fun e => e.1 == some (str "tag")) ∧
      (O.map Prod.fst).count (some (str "tag")) = 1 ∧
      entryText (str "tag") O = some (str "new") ∧
      entryText (str "original") O = some payloadTagMsg ∧
      entryText (str "time") O = some (str "2023-11-14 22:13:20 +0000 UTC") := by
  obtain ⟨rv, O, h1, h2, hk, htime, htag, horig⟩ :=
    go_filter_overwrites_in_place rt0 (str "new") 1700000000 0 payloadTagMsg _
      (show readEntries payloadTagMsg =
        some [(some (str "tag"), .rawString (str "old")),
          (some (str "msg"), .rawString (str "hello"))] from rfl)
  exact ⟨rfl, rv, O, h1, h2, (hk (str "tag") (by decide)).1,
    (hk (str "tag") (by decide)).2 (by decide),
    htag.2 (Or.inl (by decide)), horig.2 (Or.inr (by decide)), htime.2 (Or.inl (by decide))⟩

/-- C6, as stated, fails, in two ways. (1) The payload `{"a\u0007b":[1]}` is a
JSON object with one entry, under the key of the three bytes `a`, `0x07`, `b`;
the returned text starts with `{"a\ab":[1]`, which is not JSON, and the entry
it holds in that place has a key that stands for no text. (2) The payload
`{"\ud800":1}` is in the JSON grammar, its key being the escape of a lone
surrogate, which stands for no text; the returned text starts with
`{"\\ud800":1`, where the key stands for the six characters `\ud800`. In both
the entry of the payload is not in the returned object under its key. -/
theorem go_filter_rewrites_escaped_key :
    (jsonValidObject payloadBellKey = true ∧
      readEntries payloadBellKey =
        some [(some [0x61, 0x07, 0x62], .array [.number (str "1")])] ∧
      go_filter rt0 (str "app.log") 1700000000 0 payloadBellKey =
        .buffer (str ("\x7b\"a\\ab\":[1]," ++
          "\"time\":\"2023-11-14 22:13:20 +0000 UTC\",\"tag\":\"app.log\"," ++
          "\"original\":\"\x7b\\\"a\\\\u0007b\\\":[1]\x7d\"\x7d") ++ [0]) ∧
      jsonValid (str ("\x7b\"a\\ab\":[1]," ++
          "\"time\":\"2023-11-14 22:13:20 +0000 UTC\",\"tag\":\"app.log\"," ++
          "\"original\":\"\x7b\\\"a\\\\u0007b\\\":[1]\x7d\"\x7d")) = false ∧
      readEntries (str ("\x7b\"a\\ab\":[1]," ++
          "\"time\":\"2023-11-14 22:13:20 +0000 UTC\",\"tag\":\"app.log\"," ++
          "\"original\":\"\x7b\\\"a\\\\u0007b\\\":[1]\x7d\"\x7d")) =
        some [(none, .array [.number (str "1")]),
          (some (str "time"), .rawString (str "2023-11-14 22:13:20 +0000 UTC")),
          (some (str "tag"), .rawString (str "app.log")),
          (some (str "original"), .rawString (str "\x7b\\\"a\\\\u0007b\\\":[1]\x7d"))]) ∧
    (jsonValidObject payloadSurrogateKey = true ∧
      readEntries payloadSurrogateKey = some [(none, .number (str "1"))] ∧
      go_filter rt0 (str "app.log") 1700000000 0 payloadSurrogateKey =
        .buffer (str ("\x7b\"\\\\ud800\":1," ++
          "\"time\":\"2023-11-14 22:13:20 +0000 UTC\",\"tag\":\"app.log\"," ++
          "\"original\":\"\x7b\\\"\\\\ud800\\\":1\x7d\"\x7d") ++ [0]) ∧
      readEntries (str ("\x7b\"\\\\ud800\":1," ++
          "\"time\":\"2023-11-14 22:13:20 +0000 UTC\",\"tag\":\"app.log\"," ++
          "\"original\":\"\x7b\\\"\\\\ud800\\\":1\x7d\"\x7d")) =
        some [(some (str "\\ud800"), .number (str "1")),
          (some (str "time"), .rawString (str "2023-11-14 22:13:20 +0000 UTC")),
          (some (str "tag"), .rawString (str "app.log")),
          (some (str "original"), .rawString (str "\x7b\\\"\\\\ud800\\\":1\x7d"))]) := by
  refine ⟨⟨by decide, by rfl, by rfl, by decide, by rfl⟩, ⟨by decide, by rfl, by rfl, by rfl⟩⟩

/-- C6, amended: for a payload that parses to an object, `go_filter` returns a
buffer, and the entries read from its bytes under keys other than `time`,
`tag`, `original` (keys decoded as JSON) are, one for one and in the same
order, the entries of the payload under such keys: each has the value it had,
and, when its key in the payload stands for a text, it has that key exactly
when the text is a `safeText`. So when all these keys stand for `safeText`
texts the entries are the same, none removed, altered or added. -/
theorem go_filter_keeps_other_entries (rt : Runtime) (tag : Bytes) (sec nsec : Nat)
    (payload : Bytes) (P : List (Option Bytes × Value))
    (hP : readEntries payload = some P) :
    ∃ rv O,
      go_filter rt tag sec nsec payload = .buffer rv ∧
      readEntries rv.dropLast = some O ∧
      List.Forall₂
        (fun p o => o.2 = p.2 ∧ ∀ k, p.1 = some k → (o.1 = some k ↔ safeText rt k))
        (P.filter isOtherEntry) (O.filter isOtherEntry) ∧
      ((∀ e ∈ P.filter isOtherEntry, ∃ k, e.1 = some k ∧ safeText rt k) →
        O.filter isOtherEntry = P.filter isOtherEntry) := by
  obtain ⟨kvs, hgo, hPeq, hesc, hU, hO⟩ := readEntries_go_filter_raw rt tag sec nsec payload P hP
  have hf := enrich_filter_other rt tag sec nsec payload ⟨kvs, false⟩
  rw [hU] at hf
  have key : List.Forall₂
      (fun p o => o.2 = p.2 ∧ ∀ k, p.1 = some k → (o.1 = some k ↔ safeText rt k))
      (P.filter isOtherEntry)
      (((enrich rt tag sec nsec payload ⟨kvs, false⟩).kvs.map fun kv =>
        (jsonString (escBody rt kv.1).length (escBody rt kv.1), kv.2)).filter isOtherEntry) := by
    rw [hPeq,
      filter_map_of kvs _ isOtherEntry
        (fun kv => !enrichmentKeys.contains (unescapeStringBestEffort kv.1))
        (fun kv hm => isOtherEntry_of _ _ _ (fun k hk => rawKey_iff kv.1 k (hesc kv hm) hk)),
      filter_map_of (enrich rt tag sec nsec payload ⟨kvs, false⟩).kvs _ isOtherEntry
        (fun kv => !enrichmentKeys.contains kv.1)
        (fun kv _ => isOtherEntry_of _ _ _ (fun k hk => outKey_iff rt kv.1 k hk)),
      hf,
      filter_map_of kvs (fun kv => (unescapeStringBestEffort kv.1, kv.2))
        (fun kv => !enrichmentKeys.contains kv.1)
        (fun kv => !enrichmentKeys.contains (unescapeStringBestEffort kv.1))
        (fun _ _ => rfl),
      List.map_map]
    apply forall₂_map_same
    intro kv _
    refine ⟨rfl, fun k h1 => ?_⟩
    simp only [Function.comp]
    simp only at h1
    rw [jsonString_unescape h1]
    constructor
    · intro h2
      exact (jsonString_escBody_inv rt k k _ h2).2
    · exact jsonString_escBody rt k
  refine ⟨_, _, hgo, hO, key, fun hall => ?_⟩
  apply eq_of_forall₂ _ _ _ key
  intro p hp o ho
  obtain ⟨k, hk1, hk2⟩ := hall p hp
  obtain ⟨o1, o2⟩ := o
  obtain ⟨p1, p2⟩ := p
  simp only at ho hk1
  rw [ho.1, (ho.2 k hk1).2 hk2, hk1]

/-- C6, amended, concrete: the payload `{"a":1,"tag":"old","b":[true]}` keeps
`a` and `b` with their values and order in the returned bytes. -/
theorem go_filter_keeps_other_entries_witness :
    readEntries payloadThree =
      some [(some (str "a"), .number (str "1")), (some (str "tag"), .rawString (str "old")),
        (some (str "b"), .array [.vtrue])] ∧
    ∃ rv O,
      go_filter rt0 (str "app.log") 1700000000 0 payloadThree = .buffer rv ∧
      readEntries rv.dropLast = some O ∧
      O.filter isOtherEntry =
        [(some (str "a"), .number (str "1")), (some (str "b"), .array [.vtrue])] := by
  have hkeys : ∀ e ∈ [((some (str "a") : Option Bytes), Value.number (str "1")),
      (some (str "b"), Value.array [.vtrue])],
      ∃ k, e.1 = some k ∧ safeText rt0 k := by
    intro e hm
    simp only [List.mem_cons, List.mem_singleton, List.not_mem_nil, or_false] at hm
    rcases hm with rfl | rfl <;> exact ⟨_, rfl, Or.inl (by decide)⟩
  obtain ⟨rv, O, h1, h2, _, h4⟩ :=
    go_filter_keeps_other_entries rt0 (str "app.log") 1700000000 0 payloadThree _
      (show readEntries payloadThree =
        some [(some (str "a"), .number (str "1")), (some (str "tag"), .rawString (str "old")),
          (some (str "b"), .array [.vtrue])] from rfl)
  exact ⟨rfl, rv, O, h1, h2, h4 hkeys⟩

/-- C7, as stated, fails: for the JSON object `{"a":"<0x7F>"}` the string
under `original` is written with the escape `\x7f`, which decodes to the four
bytes `\x7f`, not to the payload; run on that text, `go_filter` returns an
object whose `a` is `\x7f` and not the byte `0x7F`, with the same timestamp. -/
theorem go_filter_rerun_differs_on_del :
    jsonValidObject payloadDel = true ∧
    go_filter rt0 (str "app.log") 1700000000 0 payloadDel =
      .buffer ([0x7B, 0x22, 0x61, 0x22, 0x3A, 0x22, 0x7F, 0x22] ++
        str (",\"time\":\"2023-11-14 22:13:20 +0000 UTC\",\"tag\":\"app.log\"," ++
          "\"original\":\"\x7b\\\"a\\\":\\\"\\x7f\\\"\x7d\"\x7d") ++ [0]) ∧
    originalText ([0x7B, 0x22, 0x61, 0x22, 0x3A, 0x22, 0x7F, 0x22] ++
        str (",\"time\":\"2023-11-14 22:13:20 +0000 UTC\",\"tag\":\"app.log\"," ++
          "\"original\":\"\x7b\\\"a\\\":\\\"\\x7f\\\"\x7d\"\x7d") ++ [0]) =
      some (str "\x7b\"a\":\"\\x7f\"\x7d") ∧
    str "\x7b\"a\":\"\\x7f\"\x7d" ≠ payloadDel ∧
    go_filter rt0 (str "app.log") 1700000000 0 (str "\x7b\"a\":\"\\x7f\"\x7d") =
      .buffer (str ("\x7b\"a\":\"\\x7f\",\"time\":\"2023-11-14 22:13:20 +0000 UTC\"," ++
        "\"tag\":\"app.log\",\"original\":\"\x7b\\\"a\\\":\\\"\\\\x7f\\\"\x7d\"\x7d") ++ [0]) := by
  refine ⟨by decide, by rfl, by rfl, by decide, by rfl⟩

/-- C7, amended: for a payload that parses to an object and is `safeText` (its
ASCII bytes are printable or among the controls `\b`, `\t`, `\n`, `\f`, `\r`,
its other bytes are valid UTF-8 of runes that are printable or below
`0x10000`), the string under `original` in the returned object decodes to the
payload, and `go_filter` on that text with the same tag and any timestamp
returns an object with the same keys and the same values, except possibly the
value of `time`. -/
theorem go_filter_rerun_on_original (rt : Runtime) (tag : Bytes) (sec nsec sec2 nsec2 : Nat)
    (payload : Bytes) (v : Value) (tail : Bytes) (obj : Object)
    (hp : Parser.Parse payload = .ok v tail) (ho : v.Object = some obj)
    (hsafe : safeText rt payload) :
    ∃ orig text,
      go_filter rt tag sec nsec payload =
        .buffer ((enrich rt tag sec nsec payload obj).String rt ++ [0]) ∧
      lookupKey (str "original") (enrich rt tag sec nsec payload obj).kvs = some orig ∧
      orig.StringBytes = some text ∧ text = payload ∧
      go_filter rt tag sec2 nsec2 text =
        .buffer ((enrich rt tag sec2 nsec2 text obj).String rt ++ [0]) ∧
      sameExcept [str "time"] (enrich rt tag sec nsec payload obj).kvs
        (enrich rt tag sec2 nsec2 text obj).kvs := by
  refine ⟨Arena.NewString rt payload, payload,
    go_filter_ok rt tag sec nsec payload v tail obj hp ho, ?_,
    NewString_StringBytes rt payload hsafe, rfl,
    go_filter_ok rt tag sec2 nsec2 payload v tail obj hp ho, ?_⟩
  · rw [enrich_eq]
    exact lookupKey_setKV_self _ _ _
  · rw [enrich_eq, enrich_eq]
    apply sameExcept_setKV _ _ _ _ _ _ _ (Or.inr rfl)
    apply sameExcept_setKV _ _ _ _ _ _ _ (Or.inr rfl)
    apply sameExcept_setKV _ _ _ _ _ _ _ (Or.inl (by decide))
    exact sameExcept_refl _ _

/-- C7, amended, concrete: the scenario payload, and a payload with a text
that is not ASCII, run again on the decoded `original` with another
timestamp. -/
theorem go_filter_rerun_on_original_witness :
    (Parser.Parse payloadHello = .ok (.object [(str "msg", .rawString (str "hello"))] false) [] ∧
      safeText rt0 payloadHello ∧
      ∃ orig text,
        go_filter rt0 (str "app.log") 1700000000 0 payloadHello =
          .buffer ((enrich rt0 (str "app.log") 1700000000 0 payloadHello
            ⟨[(str "msg", .rawString (str "hello"))], false⟩).String rt0 ++ [0]) ∧
        lookupKey (str "original") (enrich rt0 (str "app.log") 1700000000 0 payloadHello
            ⟨[(str "msg", .rawString (str "hello"))], false⟩).kvs = some orig ∧
        orig.StringBytes = some text ∧ text = payloadHello ∧
        go_filter rt0 (str "app.log") 1800000000 5 text =
          .buffer ((enrich rt0 (str "app.log") 1800000000 5 text
            ⟨[(str "msg", .rawString (str "hello"))], false⟩).String rt0 ++ [0]) ∧
        sameExcept [str "time"]
          (enrich rt0 (str "app.log") 1700000000 0 payloadHello
            ⟨[(str "msg", .rawString (str "hello"))], false⟩).kvs
          (enrich rt0 (str "app.log") 1800000000 5 text
            ⟨[(str "msg", .rawString (str "hello"))], false⟩).kvs) ∧
    (Parser.Parse payloadUtf8 =
        .ok (.object [(str "a", .rawString [0xC3, 0xA9, 0xC2, 0xA0, 0xE2, 0x82, 0xAC])] false) [] ∧
      safeText rt0 payloadUtf8 ∧
      ∃ orig text,
        go_filter rt0 (str "app.log") 1700000000 0 payloadUtf8 =
          .buffer ((enrich rt0 (str "app.log") 1700000000 0 payloadUtf8
            ⟨[(str "a", .rawString [0xC3, 0xA9, 0xC2, 0xA0, 0xE2, 0x82, 0xAC])], false⟩).String
              rt0 ++ [0]) ∧
        lookupKey (str "original") (enrich rt0 (str "app.log") 1700000000 0 payloadUtf8
            ⟨[(str "a", .rawString [0xC3, 0xA9, 0xC2, 0xA0, 0xE2, 0x82, 0xAC])], false⟩).kvs =
          some orig ∧
        orig.StringBytes = some text ∧ text = payloadUtf8 ∧
        go_filter rt0 (str "app.log") 1800000000 5 text =
          .buffer ((enrich rt0 (str "app.log") 1800000000 5 text
            ⟨[(str "a", .rawString [0xC3, 0xA9, 0xC2, 0xA0, 0xE2, 0x82, 0xAC])], false⟩).String
              rt0 ++ [0]) ∧
        sameExcept [str "time"]
          (enrich rt0 (str "app.log") 1700000000 0 payloadUtf8
            ⟨[(str "a", .rawString [0xC3, 0xA9, 0xC2, 0xA0, 0xE2, 0x82, 0xAC])], false⟩).kvs
          (enrich rt0 (str "app.log") 1800000000 5 text
            ⟨[(str "a", .rawString [0xC3, 0xA9, 0xC2, 0xA0, 0xE2, 0x82, 0xAC])], false⟩).kvs) :=
  ⟨⟨rfl, Or.inr (by decide),
    go_filter_rerun_on_original rt0 (str "app.log") 1700000000 0 1800000000 5 payloadHello
      _ _ _ (by rfl) (by rfl) (Or.inr (by decide))⟩,
   ⟨rfl, Or.inr (by decide),
    go_filter_rerun_on_original rt0 (str "app.log") 1700000000 0 1800000000 5 payloadUtf8
      _ _ _ (by rfl) (by rfl) (Or.inr (by decide))⟩⟩

/-- C8: whether `go_filter` returns the nil pointer depends on the payload
only; for any two tags and timestamps either both calls return the nil pointer
or both return a buffer, and then the two returned objects have the same keys
in the same order and the same value under every key other than `time` and
`tag`. -/
theorem go_filter_null_depends_on_payload_only (rt : Runtime) (payload : Bytes)
    (tag1 : Bytes) (sec1 nsec1 : Nat) (tag2 : Bytes) (sec2 nsec2 : Nat) :
    (go_filter rt tag1 sec1 nsec1 payload = .null ↔ go_filter rt tag2 sec2 nsec2 payload = .null) ∧
    ((go_filter rt tag1 sec1 nsec1 payload = .null ∧ go_filter rt tag2 sec2 nsec2 payload = .null) ∨
      ∃ obj : Object,
        go_filter rt tag1 sec1 nsec1 payload =
          .buffer ((enrich rt tag1 sec1 nsec1 payload obj).String rt ++ [0]) ∧
        go_filter rt tag2 sec2 nsec2 payload =
          .buffer ((enrich rt tag2 sec2 nsec2 payload obj).String rt ++ [0]) ∧
        sameExcept [str "time", str "tag"] (enrich rt tag1 sec1 nsec1 payload obj).kvs
          (enrich rt tag2 sec2 nsec2 payload obj).kvs) := by
  cases hp : Parser.Parse payload with
  | ok v tail =>
    cases ho : v.Object with
    | none =>
      have h1 := go_filter_null_of_not_object rt tag1 sec1 nsec1 payload v tail hp ho
      have h2 := go_filter_null_of_not_object rt tag2 sec2 nsec2 payload v tail hp ho
      exact ⟨⟨fun _ => h2, fun _ => h1⟩, Or.inl ⟨h1, h2⟩⟩
    | some obj =>
      have h1 := go_filter_ok rt tag1 sec1 nsec1 payload v tail obj hp ho
      have h2 := go_filter_ok rt tag2 sec2 nsec2 payload v tail obj hp ho
      refine ⟨?_, Or.inr ⟨obj, h1, h2, ?_⟩⟩
      · rw [h1, h2]
        constructor <;> (intro h; cases h)
      · rw [enrich_eq, enrich_eq]
        apply sameExcept_setKV _ _ _ _ _ _ _ (Or.inr rfl)
        apply sameExcept_setKV _ _ _ _ _ _ _ (Or.inl (by decide))
        apply sameExcept_setKV _ _ _ _ _ _ _ (Or.inl (by decide))
        exact sameExcept_refl _ _
  | err =>
    have h1 := go_filter_null_of_err rt tag1 sec1 nsec1 payload (fun v t h => by rw [hp] at h; cases h)
    have h2 := go_filter_null_of_err rt tag2 sec2 nsec2 payload (fun v t h => by rw [hp] at h; cases h)
    exact ⟨⟨fun _ => h2, fun _ => h1⟩, Or.inl ⟨h1, h2⟩⟩
  | oof =>
    have h1 := go_filter_null_of_err rt tag1 sec1 nsec1 payload (fun v t h => by rw [hp] at h; cases h)
    have h2 := go_filter_null_of_err rt tag2 sec2 nsec2 payload (fun v t h => by rw [hp] at h; cases h)
    exact ⟨⟨fun _ => h2, fun _ => h1⟩, Or.inl ⟨h1, h2⟩⟩

/-- C9: for a payload whose parsed object has none of the keys `time`, `tag`,
`original`, the buffer is the serialization of the payload's entries, in their
order, followed by the three new entries in the order `time`, `tag`,
`original`, then the sentinel. -/
theorem go_filter_appends_time_tag_original (rt : Runtime) (tag : Bytes) (sec nsec : Nat)
    (payload : Bytes) (v : Value) (tail : Bytes) (obj : Object)
    (hp : Parser.Parse payload = .ok v tail) (ho : v.Object = some obj)
    (hk : ∀ k ∈ obj.unescapeKeys.kvs.map Prod.fst, k ∉ enrichmentKeys) :
    go_filter rt tag sec nsec payload =
      .buffer ([0x7B] ++ marshalKVs rt true (obj.unescapeKeys.kvs ++
        [(str "time", Arena.NewString rt (rt.timeString (toInt64 sec) (toInt64 nsec))),
         (str "tag", Arena.NewString rt tag),
         (str "original", Arena.NewString rt payload)]) ++ [0x7D] ++ [0]) := by
  rw [go_filter_ok rt tag sec nsec payload v tail obj hp ho, enrich_eq]
  have h1 : str "time" ∉ obj.unescapeKeys.kvs.map Prod.fst :=
    fun h => hk _ h (by decide)
  have h2 : str "tag" ∉ obj.unescapeKeys.kvs.map Prod.fst :=
    fun h => hk _ h (by decide)
  have h3 : str "original" ∉ obj.unescapeKeys.kvs.map Prod.fst :=
    fun h => hk _ h (by decide)
  rw [setKV_of_not_mem _ _ _ h1]
  rw [setKV_of_not_mem (str "tag")]
  · rw [setKV_of_not_mem (str "original")]
    · simp only [Object.String, Object.MarshalTo, List.append_assoc, List.cons_append,
        List.nil_append]
    · simp only [List.map_append, List.mem_append, not_or, List.map_cons, List.map_nil]
      exact ⟨⟨h3, by decide⟩, by decide⟩
  · simp only [List.map_append, List.mem_append, not_or, List.map_cons, List.map_nil]
    exact ⟨h2, by decide⟩

/-- C9, concrete: for the payload with the one entry `msg: "hello"` and the
tag `app.log` the buffer is that entry, then `time`, `tag` and `original`,
then the sentinel. -/
theorem go_filter_appends_time_tag_original_witness :
    go_filter rt0 (str "app.log") 1700000000 0 payloadHello =
      .buffer (str ("\x7b\"msg\":\"hello\",\"time\":\"2023-11-14 22:13:20 +0000 UTC\"," ++
        "\"tag\":\"app.log\",\"original\":\"\x7b\\\"msg\\\":\\\"hello\\\"\x7d\"\x7d") ++ [0]) :=
  (go_filter_appends_time_tag_original rt0 (str "app.log") 1700000000 0 payloadHello
    (.object [(str "msg", .rawString (str "hello"))] false) []
    ⟨[(str "msg", .rawString (str "hello"))], false⟩ (by rfl) (by rfl) (by decide)).trans (by rfl)

/-- C10: on the path that reaches the final return (the payload parsed and its
root is an object) the slice `rv` is not empty, so `&rv[0]` does not panic, and
`go_filter` returns a pointer to `rv`: neither a panic nor the nil pointer. -/
theorem go_filter_success_returns_nonempty_buffer (rt : Runtime) (tag : Bytes) (sec nsec : Nat)
    (payload : Bytes) (v : Value) (tail : Bytes) (obj : Object)
    (hp : Parser.Parse payload = .ok v tail) (ho : v.Object = some obj) :
    ∃ rv, rv = (enrich rt tag sec nsec payload obj).String rt ++ [0] ∧ 0 < rv.length ∧
      addrFirst rv = .buffer rv ∧ go_filter rt tag sec nsec payload = .buffer rv ∧
      go_filter rt tag sec nsec payload ≠ .panic ∧ go_filter rt tag sec nsec payload ≠ .null := by
  refine ⟨_, rfl, by simp, addrFirst_append _ _, go_filter_ok rt tag sec nsec payload v tail obj hp ho,
    ?_, ?_⟩ <;>
  · rw [go_filter_ok rt tag sec nsec payload v tail obj hp ho]
    intro h; cases h

/-- C10, concrete: the scenario payload reaches the final return and the
outcome is a non-empty buffer. -/
theorem go_filter_success_returns_nonempty_buffer_witness :
    Parser.Parse payloadHello = .ok (.object [(str "msg", .rawString (str "hello"))] false) [] ∧
    ∃ rv, rv = (enrich rt0 (str "app.log") 1700000000 0 payloadHello
        ⟨[(str "msg", .rawString (str "hello"))], false⟩).String rt0 ++ [0] ∧ 0 < rv.length ∧
      addrFirst rv = .buffer rv ∧
      go_filter rt0 (str "app.log") 1700000000 0 payloadHello = .buffer rv ∧
      go_filter rt0 (str "app.log") 1700000000 0 payloadHello ≠ .panic ∧
      go_filter rt0 (str "app.log") 1700000000 0 payloadHello ≠ .null :=
  ⟨rfl, go_filter_success_returns_nonempty_buffer rt0 (str "app.log") 1700000000 0 payloadHello
    _ _ _ (by rfl) (by rfl)⟩

end FilterWasmGo
